import Mathlib

/-!
# PCGExtendedToolkit: points batch scheduling, Delaunay edge extraction, cluster cutting,
bin packing, mesh extraction, weighted picks, contour cells

A shallow embedding of

* `Public/PCGExGlobalSettings.h` (`UPCGExGlobalSettings`),
* `Public/PCGExPointsMT.h` (`FPathProcessor`, `TBatch` and their tasks),
* `Private/PCGExPointsProcessor.cpp` (`FPCGExPointsProcessorContext::ProcessPointsBatch`),
* `Public/Geometry/PCGExGeoDelaunay.h` (`TDelaunayTriangulation::GetUniqueEdges`),
* `Private/Graph/PCGExCutClusters.cpp` (`PCGExCutEdges::FProcessor`, the path building of
  `FPCGExCutEdgesElement::ExecuteInternal`),
* `Private/Graph/PCGExBuildDelaunayGraph2D.cpp` and `Private/Graph/PCGExSanitizeClusters.cpp`
  (completion after a failed graph compile),
* `Public/Data/PCGExFilterGroup.h` (`FFilterGroupAND`, `FFilterGroupOR`),
* `Private/Layout/PCGExBinPacking.cpp` (`FBin`, `PCGExBinPacking::FProcessor`),
* `Private/PCGExPointsProcessor.cpp` (`PCGEx::FPointLoop::Advance`),
* `Public/Geometry/PCGExGeoMesh.h` (`FGeoStaticMesh::ExtractMeshSynchronous`),
* `Private/Collections/PCGExMeshCollection.cpp` (`FMacroCache::ProcessMaterialOverrides`,
  `FMacroCache::GetPickRandomWeighted`),
* `Private/Topology/PCGExTopology.cpp` (`FCellConstraints`, `FCell::BuildFromCluster`).

Conventions. `int32` values are `Int`; every `int32` addition or subtraction of the
source whose operands are not bounded by an array length is reduced with `wrapInt32`.
A `while` loop of the source is a function with a fuel argument that returns `none`
when the fuel runs out. Calls of virtual methods and tasks handed to the async manager
are recorded as lists, in program order. Pointers into an array are indices into it, and
a function that indexes out of bounds returns `none`. The floating-point tests of the
cutting code are inputs of the embedding (`FPathProbe`): one record of test results per
path edge the octree visits; the angles and box sizes of the contour walk are inputs as
well (`FContourProbe`). A type or helper declared in a header that is not among
the sources is modelled from the specification, and its comment says so. The `double`
arithmetic of the packing code is IEEE 754 binary64 arithmetic (section `double`), with
rounding, infinities and NaN; mesh positions, which the code stores and compares, and the
angles and box sizes handed in with the contour probe are exact rational numbers.
-/

namespace PCGEx

/-- Two's-complement reduction of an integer to the `int32` range. -/
def wrapInt32 (x : Int) : Int := (x + 2147483648) % 4294967296 - 2147483648

/-- The indices `0, 1, ..., n - 1` of a `for (int i = 0; i < n; i++)` loop, none when
`n <= 0`. -/
def forRange (n : Int) : List Int := (List.range n.toNat).map Int.ofNat

end PCGEx

/-! ## `UPCGExGlobalSettings` -/

/-- The performance fields of `UPCGExGlobalSettings`. -/
structure UPCGExGlobalSettings where
  SmallClusterSize : Int := 256
  ClusterDefaultBatchIterations : Int := 256
  SmallPointsSize : Int := 256
  PointsDefaultBatchIterations : Int := 256
deriving DecidableEq, Repr

namespace UPCGExGlobalSettings

/-- Source function `GetClusterBatchIteration`: the default when the argument is `<= -1`. -/
def GetClusterBatchIteration (S : UPCGExGlobalSettings) (In : Int) : Int :=
  if In ≤ -1 then S.ClusterDefaultBatchIterations else In

/-- Source function `IsSmallPointSize`. -/
def IsSmallPointSize (S : UPCGExGlobalSettings) (InNum : Int) : Bool :=
  decide (InNum ≤ S.SmallPointsSize)

/-- Source function `GetPointsBatchIteration`: the default when the argument is `<= -1`. -/
def GetPointsBatchIteration (S : UPCGExGlobalSettings) (In : Int) : Int :=
  if In ≤ -1 then S.PointsDefaultBatchIterations else In

end UPCGExGlobalSettings

/-! ## `PCGExMT::AsyncState` -/

namespace PCGExMT

/-- Modelled from the spec: `PCGExMT::AsyncState` and the states `State_Setup`,
`State_Processing`, `State_Completing` and `State_Done` are declared in `PCGExMT.h`,
which is not among the sources; the states `State_WaitingOnPointsProcessing`,
`State_WaitingOnPointsCompletedWork` and `State_PointsAsyncWorkComplete` are declared in
`PCGExPointsMT.h`, each with `__COUNTER__`. The states of the life cycle are distinct
constants; `Other` stands for every state not named here. -/
inductive AsyncState where
  | State_Setup
  | State_Processing
  | State_Completing
  | State_Done
  | State_WaitingOnPointsProcessing
  | State_WaitingOnPointsCompletedWork
  | State_PointsAsyncWorkComplete
  | Other (Id : Nat)
deriving DecidableEq, Repr

end PCGExMT

/-! ## `PCGExData` -/

namespace PCGExData

/-- Modelled from the spec: `PCGExData::ESource` is declared in `PCGExPointIO.h`, which is
not among the sources. A point loop runs on the input view or on the output of a point
collection. -/
inductive ESource where
  | In
  | Out
deriving DecidableEq, Repr

end PCGExData

/-! ## `PCGExPointsMT` -/

namespace PCGExPointsMT

open PCGEx PCGExMT PCGExData

/-- A ranged task (`PCGEX_CLUSTER_MT_TASK_RANGE`): the `TaskIndex` it is started with and
its `Iterations`. -/
structure FRangeTask where
  TaskIndex : Int
  Iterations : Int
deriving DecidableEq, Repr

/-- The dispatch loop shared by `StartParallelLoopForPoints`, `StartParallelLoopForRange`
and `StartClosedBatchProcessing`:
`while (CurrentCount < Num) { Start(CurrentCount, Min(Num - CurrentCount, PLI)); CurrentCount += PLI; }`.
The result lists the started tasks in dispatch order. -/
def dispatchLoop (Num PLI : Int) : Nat → Int → Option (List FRangeTask)
  | 0, _ => none
  | fuel + 1, CurrentCount =>
    if CurrentCount < Num then
      (dispatchLoop Num PLI fuel (wrapInt32 (CurrentCount + PLI))).map
        (fun Rest => ⟨CurrentCount, min (wrapInt32 (Num - CurrentCount)) PLI⟩ :: Rest)
    else some []

/-- The ranges a dispatch loop over `Num` iterations with per-loop size `PLI` is meant to
start from `CurrentCount` on, as the specification describes them: fixed-size ranges,
the `k`-th at `CurrentCount + k * PLI`, the last one holding what is left. -/
def chunksFrom (Num PLI CurrentCount : Int) : List FRangeTask :=
  (List.range ((Num - CurrentCount + PLI - 1) / PLI).toNat).map
    (fun (k : Nat) =>
      ⟨CurrentCount + (k : Int) * PLI, min (Num - (CurrentCount + (k : Int) * PLI)) PLI⟩)

/-- What a `StartParallelLoopFor...` call does: the single-iteration calls made inline on
the calling thread, and the ranged tasks started on the async manager. -/
structure FLoopStart where
  Inline : List Int
  Started : List FRangeTask
deriving DecidableEq, Repr

/-- Source function `FPathProcessor::StartParallelLoopForRange`: `Inline` lists the
arguments of the `ProcessSingleRangeIteration` calls of the trivial branch, `Started` the
`FAsyncProcessRange` tasks of the other branch. -/
def StartParallelLoopForRange (S : UPCGExGlobalSettings) (bIsSmallPoints : Bool)
    (NumIterations PerLoopIterations : Int) (fuel : Nat) : Option FLoopStart :=
  if bIsSmallPoints then some ⟨forRange NumIterations, []⟩
  else
    let PLI := S.GetPointsBatchIteration PerLoopIterations
    (dispatchLoop NumIterations PLI fuel 0).map (fun Tasks => ⟨[], Tasks⟩)

/-- Source function `FPathProcessor::StartParallelLoopForPoints` over a point array of
`NumPoints` points: `Inline` lists the indices of the `ProcessSinglePoint` calls of the
trivial branch, `Started` the `FAsyncProcessPointRange` tasks of the other branch. -/
def StartParallelLoopForPoints (S : UPCGExGlobalSettings) (bIsSmallPoints : Bool)
    (NumPoints PerLoopIterations : Int) (fuel : Nat) : Option FLoopStart :=
  if bIsSmallPoints then some ⟨forRange NumPoints, []⟩
  else
    let PLI := S.GetPointsBatchIteration PerLoopIterations
    (dispatchLoop NumPoints PLI fuel 0).map (fun Tasks => ⟨[], Tasks⟩)

/-- Source function `FPathProcessor::ProcessRange`: the arguments of its
`ProcessSingleRangeIteration` calls, in order. -/
def ProcessRange (StartIndex Iterations : Int) : List Int :=
  (forRange Iterations).map (fun i => wrapInt32 (StartIndex + i))

/-- Source function `FPathProcessor::ProcessPoints`. `Points` is the point array of
`PointsIO->GetMutableData(Source)`, of `NumPoints Source` points: the indices of its
`ProcessSinglePoint` calls, in order; `none` when `Points[PtIndex]` is out of bounds. -/
def ProcessPoints (NumPoints : ESource → Int) (Source : ESource) (StartIndex Count : Int) :
    Option (List Int) :=
  (forRange Count).mapM (fun i =>
    let PtIndex := wrapInt32 (StartIndex + i)
    if 0 ≤ PtIndex ∧ PtIndex < NumPoints Source then some PtIndex else none)

/-- Source function `FAsyncProcessRange::ExecuteTask`: `Target->ProcessRange(TaskIndex,
Iterations)`. -/
def FAsyncProcessRange (T : FRangeTask) : List Int := ProcessRange T.TaskIndex T.Iterations

/-- The `Source` member of the `FAsyncProcessPointRange` tasks that
`StartParallelLoopForPoints` starts: `Start` is handed `nullptr, this` and the iteration
count, no `InSource`, so the default `PCGExData::ESource::In` of the task constructor
applies, whatever the `Source` argument of the loop is. -/
def StartedPointRangeSource : ESource := ESource.In

/-- Source function `FAsyncProcessPointRange::ExecuteTask`:
`Target->ProcessPoints(Source, TaskIndex, MakeArrayView(Target->Cluster->Nodes.GetData() + TaskIndex, Iterations))`.
`Source` is the member of the task. The third argument is an array view of `Iterations`
cluster nodes where `ProcessPoints` takes an `int32` count, and `FPathProcessor` has no
`Cluster`: the source does not say which count `ProcessPoints` receives, so that count
is the input `Count`. -/
def FAsyncProcessPointRange (NumPoints : ESource → Int) (Source : ESource) (Count : Int)
    (T : FRangeTask) : Option (List Int) :=
  ProcessPoints NumPoints Source T.TaskIndex Count

/-- The `ProcessSingleRangeIteration` calls made by executing `FAsyncProcessRange` tasks
one after the other, in list order. -/
def runRangeTasks (Tasks : List FRangeTask) : List Int := Tasks.flatMap FAsyncProcessRange

/-- The `ProcessSinglePoint` calls made by calling
`ProcessPoints(Source, TaskIndex, Iterations)` for the ranges of a list one after the
other, in list order: the calls the started ranges stand for. -/
def ProcessPointsOverRanges (NumPoints : ESource → Int) (Source : ESource)
    (Ranges : List FRangeTask) : Option (List Int) :=
  (Ranges.mapM (fun T => ProcessPoints NumPoints Source T.TaskIndex T.Iterations)).map
    List.flatten

/-- Example point counts: one point in the input, two in the output. -/
def examplePointCounts : ESource → Int
  | ESource.In => 1
  | ESource.Out => 2

/-! ### `TBatch` -/

/-- Modelled from the spec: `PCGExData::FPointIO` is declared in `PCGExPointIO.h`, which
is not among the sources. A point collection is an indexed dataset of points, reduced
here to what the batch reads: its `IOIndex` and its point count `GetNum()`. -/
structure FPointIO where
  IOIndex : Int
  Num : Nat
deriving DecidableEq, Repr

/-- The data members of `FPathProcessor` that `TBatch` and `Process` read or write.
`FilterFactories` is a nullable pointer to an array of filter factories (named by
numbers); the `Context`, `GraphBuilder` and async manager pointers are left out. -/
structure FPathProcessor where
  PointsIO : FPointIO
  FilterFactories : Option (List Nat) := none
  DefaultPointFilterValue : Bool := false
  bIsSmallPoints : Bool := false
  PointFilterCache : List Bool := []
  BatchIndex : Int := -1
deriving DecidableEq, Repr

namespace FPathProcessor

/-- Source function `IsTrivial`. -/
def IsTrivial (P : FPathProcessor) : Bool := P.bIsSmallPoints

/-- Source function `SetPointFilterData`. -/
def SetPointFilterData (P : FPathProcessor) (InFactories : Option (List Nat))
    (DefaultValue : Bool) : FPathProcessor :=
  { P with FilterFactories := InFactories, DefaultPointFilterValue := DefaultValue }

end FPathProcessor

/-- A task handed to `FPCGExAsyncManager::Start` by a `TBatch`. A processor pointer is
its index in `Processors`. -/
inductive FTask where
  | FAsyncProcess (Target : Nat)
  | FAsyncCompleteWork (Target : Nat)
  | FAsyncBatchProcessRange (TaskIndex Iterations : Int)
deriving DecidableEq, Repr

/-- A call of a virtual method of a processor, named by the processor's index in
`Processors`. -/
inductive FCall where
  | Process (Target : Nat)
  | CompleteWork (Target : Nat)
deriving DecidableEq, Repr

/-- The data members of `TBatch<T>` (and of its base `FClusterProcessorBatchBase`).
`ClosedBatchProcessors` holds pointers to elements of `Processors`, that is, indices. -/
structure TBatch where
  PointsCollection : List FPointIO
  FilterFactories : Option (List Nat) := none
  DefaultPointFilterValue : Bool := true
  Processors : List FPathProcessor := []
  ClosedBatchProcessors : List Nat := []
  CurrentState : AsyncState := AsyncState.State_Setup
deriving DecidableEq, Repr

namespace TBatch

/-- Source constructor `TBatch(InContext, InPointsCollection)`: the batch as constructed,
with `Processors` and `ClosedBatchProcessors` empty, no filter factories,
`DefaultPointFilterValue` true and `CurrentState` at `State_Setup`. -/
def Construct (InPointsCollection : List FPointIO) : TBatch :=
  { PointsCollection := InPointsCollection }

/-- Source function `SetVtxFilterData`. -/
def SetVtxFilterData (B : TBatch) (InFilterFactories : Option (List Nat))
    (DefaultFilterValue : Bool) : TBatch :=
  { B with FilterFactories := InFilterFactories, DefaultPointFilterValue := DefaultFilterValue }

/-- Source function `StartClosedBatchProcessing`: the `FAsyncBatchProcessRange` tasks it
starts. -/
def StartClosedBatchProcessing (S : UPCGExGlobalSettings) (fuel : Nat) (B : TBatch) :
    Option (List FTask) :=
  let NumTrivial : Int := B.ClosedBatchProcessors.length
  if NumTrivial > 0 then
    (dispatchLoop B.ClosedBatchProcessors.length S.ClusterDefaultBatchIterations fuel 0).map
      (fun Tasks => Tasks.map (fun T => FTask.FAsyncBatchProcessRange T.TaskIndex T.Iterations))
  else some []

/-- The body of the `for` over `PointsCollection` loop of `Process`, run over the
remaining inputs; `Started` accumulates the tasks started so far. `PrepareSingle` is the
virtual hook of the batch. -/
def ProcessLoop (S : UPCGExGlobalSettings) (PrepareSingle : FPathProcessor → Bool) :
    List FPointIO → TBatch → List FTask → TBatch × List FTask
  | [], B, Started => (B, Started)
  | Entry :: Rest, B, Started =>
    let NewProcessor : FPathProcessor := { PointsIO := Entry }
    if !PrepareSingle NewProcessor then ProcessLoop S PrepareSingle Rest B Started
    else
      let P1 := if B.FilterFactories.isSome
        then NewProcessor.SetPointFilterData B.FilterFactories B.DefaultPointFilterValue
        else NewProcessor
      let Index := B.Processors.length
      let P2 := { P1 with BatchIndex := (Index : Int) }
      let P3 := { P2 with bIsSmallPoints := decide ((Entry.Num : Int) < S.SmallPointsSize) }
      let B1 := { B with Processors := B.Processors ++ [P3] }
      if P3.IsTrivial then
        ProcessLoop S PrepareSingle Rest
          { B1 with ClosedBatchProcessors := B1.ClosedBatchProcessors ++ [Index] } Started
      else
        ProcessLoop S PrepareSingle Rest B1 (Started ++ [FTask.FAsyncProcess Index])

/-- The invariant of the `for` loop of `Process`, relating `Processors`,
`ClosedBatchProcessors` and the tasks started so far: every processor sits at its
`BatchIndex`, is trivial exactly when its point count is below `SmallPointsSize`, and is
either listed once in `ClosedBatchProcessors` or started once as a `FAsyncProcess`. -/
def ProcessInvariant (S : UPCGExGlobalSettings) (B : TBatch) (Started : List FTask) : Prop :=
  (∀ (i : Nat) (P : FPathProcessor), B.Processors[i]? = some P →
    P.BatchIndex = (i : Int) ∧
    (P.bIsSmallPoints = true ↔ (P.PointsIO.Num : Int) < S.SmallPointsSize) ∧
    (P.IsTrivial = true →
      B.ClosedBatchProcessors.count i = 1 ∧ FTask.FAsyncProcess i ∉ Started) ∧
    (P.IsTrivial = false →
      i ∉ B.ClosedBatchProcessors ∧ Started.count (FTask.FAsyncProcess i) = 1)) ∧
  (∀ i ∈ B.ClosedBatchProcessors, i < B.Processors.length) ∧
  (∀ T ∈ Started, ∃ i, T = FTask.FAsyncProcess i ∧ i < B.Processors.length)

/-- Source function `TBatch::Process`: the batch afterwards and the tasks started, in start
order. -/
def Process (S : UPCGExGlobalSettings) (PrepareSingle : FPathProcessor → Bool) (fuel : Nat)
    (B : TBatch) : Option (TBatch × List FTask) :=
  if B.PointsCollection.isEmpty then some (B, [])
  else
    let B1 := { B with CurrentState := AsyncState.State_Processing }
    let R := ProcessLoop S PrepareSingle B1.PointsCollection B1 []
    (StartClosedBatchProcessing S fuel R.1).map (fun Closed => (R.1, R.2 ++ Closed))

/-- The `for (Processor : Processors)` loop of `CompleteWork`: one `FAsyncCompleteWork`
per processor that is not trivial. `Index` is the position of the first processor of the
list in `Processors`. -/
def CompleteWorkLoop : List FPathProcessor → Nat → List FTask
  | [], _ => []
  | Processor :: Rest, Index =>
    if Processor.IsTrivial then CompleteWorkLoop Rest (Index + 1)
    else FTask.FAsyncCompleteWork Index :: CompleteWorkLoop Rest (Index + 1)

/-- Source function `TBatch::CompleteWork`: the batch afterwards and the tasks started, in
start order. -/
def CompleteWork (S : UPCGExGlobalSettings) (fuel : Nat) (B : TBatch) :
    Option (TBatch × List FTask) :=
  let B1 := { B with CurrentState := AsyncState.State_Processing }
  (StartClosedBatchProcessing S fuel B1).map
    (fun Closed => (B1, CompleteWorkLoop B1.Processors 0 ++ Closed))

/-- Source function `TBatch::ProcessBatchRange`: the processor methods it calls, in order;
`none` when `ClosedBatchProcessors[StartIndex + i]` is out of bounds. -/
def ProcessBatchRange (B : TBatch) (StartIndex Iterations : Int) : Option (List FCall) :=
  if B.CurrentState = AsyncState.State_Processing then
    (forRange Iterations).mapM (fun i =>
      let Index := wrapInt32 (StartIndex + i)
      if 0 ≤ Index then (B.ClosedBatchProcessors.get? Index.toNat).map FCall.Process else none)
  else if B.CurrentState = AsyncState.State_Completing then
    (forRange Iterations).mapM (fun i =>
      let Index := wrapInt32 (StartIndex + i)
      if 0 ≤ Index then (B.ClosedBatchProcessors.get? Index.toNat).map FCall.CompleteWork
      else none)
  else some []

/-- Source function `ExecuteTask` of the three task classes a batch starts. -/
def ExecuteTask (B : TBatch) : FTask → Option (List FCall)
  | FTask.FAsyncProcess Target => some [FCall.Process Target]
  | FTask.FAsyncCompleteWork Target => some [FCall.CompleteWork Target]
  | FTask.FAsyncBatchProcessRange TaskIndex Iterations => B.ProcessBatchRange TaskIndex Iterations

/-- The processor methods called by executing the given tasks one after the other, in
list order, against the batch `B`. -/
def runTasks (B : TBatch) (Tasks : List FTask) : Option (List FCall) :=
  (Tasks.mapM (ExecuteTask B)).map List.flatten

end TBatch

end PCGExPointsMT

/-! ## `FPCGExPointsProcessorContext` -/

namespace FPCGExPointsProcessorContext

open PCGExMT PCGExPointsMT

/-- What a call of `ProcessPointsBatch` does that is visible outside the context: a query
of `IsAsyncWorkComplete()` with its result, or a call of `CompleteBatch`. -/
inductive FEvent where
  | IsAsyncWorkComplete (Result : Bool)
  | CompleteBatch
deriving DecidableEq, Repr

end FPCGExPointsProcessorContext

/-- Modelled from the spec: `FPCGExPointsProcessorContext` is declared in
`PCGExPointsProcessor.h`, which is not among the sources; these are the data members
that `ProcessPointsBatch` and the functions it calls in `PCGExPointsProcessor.cpp` read or
write. `AsyncManager` tells whether the pointer is non-null;
`State_PointsProcessingDone` is the state the context moves to when the batch is done. -/
structure FPCGExPointsProcessorContext where
  CurrentState : PCGExMT.AsyncState
  State_PointsProcessingDone : PCGExMT.AsyncState
  BatchablePoints : List PCGExPointsMT.FPointIO
  bDoAsyncProcessing : Bool
  AsyncManager : Bool
deriving DecidableEq, Repr

namespace FPCGExPointsProcessorContext

open PCGExMT PCGExPointsMT

/-- Source function `IsState`. -/
def IsState (C : FPCGExPointsProcessorContext) (OperationId : AsyncState) : Bool :=
  decide (C.CurrentState = OperationId)

/-- Source function `SetState`: resetting the async work leaves the modelled members alone.
-/
def SetState (C : FPCGExPointsProcessorContext) (OperationId : AsyncState) :
    FPCGExPointsProcessorContext :=
  if C.CurrentState = OperationId then C else { C with CurrentState := OperationId }

/-- Modelled from the spec: `SetAsyncState` is declared in `PCGExPointsProcessor.h`, which
is not among the sources; it makes the given waiting state the current one, the next
stage starting only once the async work is complete. -/
def SetAsyncState (C : FPCGExPointsProcessorContext) (WaitState : AsyncState) :
    FPCGExPointsProcessorContext :=
  C.SetState WaitState

/-- Source function `GetAsyncManager`: creates the manager when there is none. -/
def GetAsyncManager (C : FPCGExPointsProcessorContext) : FPCGExPointsProcessorContext :=
  if !C.AsyncManager then { C with AsyncManager := true } else C

/-- Source function `IsAsyncWorkComplete`; `ManagerComplete` is what
`AsyncManager->IsAsyncWorkComplete()` answers when it is asked. -/
def IsAsyncWorkComplete (C : FPCGExPointsProcessorContext) (ManagerComplete : Bool) : Bool :=
  if !C.bDoAsyncProcessing || !C.AsyncManager then true
  else if ManagerComplete then true
  else false

/-- The outcome of one `ProcessPointsBatch` call: the returned value, the context
afterwards and the events of the call, in order. -/
structure FProcessPointsBatch where
  Return : Bool
  Context : FPCGExPointsProcessorContext
  Events : List FEvent
deriving DecidableEq, Repr

/-- Source function `ProcessPointsBatch`. `Answers.1` and `Answers.2` are what the async
manager answers to the first and to the second `IsAsyncWorkComplete()` query of the call. -/
def ProcessPointsBatch (C : FPCGExPointsProcessorContext) (Answers : Bool × Bool) :
    FProcessPointsBatch :=
  if C.BatchablePoints.isEmpty then ⟨true, C, []⟩
  else if C.IsState AsyncState.State_WaitingOnPointsProcessing then
    if !C.IsAsyncWorkComplete Answers.1 then ⟨false, C, [FEvent.IsAsyncWorkComplete false]⟩
    else
      let C1 := C.GetAsyncManager.SetAsyncState AsyncState.State_WaitingOnPointsCompletedWork
      let Events := [FEvent.IsAsyncWorkComplete true, FEvent.CompleteBatch]
      if C1.IsState AsyncState.State_WaitingOnPointsCompletedWork then
        if !C1.IsAsyncWorkComplete Answers.2 then
          ⟨false, C1, Events ++ [FEvent.IsAsyncWorkComplete false]⟩
        else
          ⟨true, C1.SetState C1.State_PointsProcessingDone,
            Events ++ [FEvent.IsAsyncWorkComplete true]⟩
      else ⟨true, C1, Events⟩
  else if C.IsState AsyncState.State_WaitingOnPointsCompletedWork then
    if !C.IsAsyncWorkComplete Answers.1 then ⟨false, C, [FEvent.IsAsyncWorkComplete false]⟩
    else ⟨true, C.SetState C.State_PointsProcessingDone, [FEvent.IsAsyncWorkComplete true]⟩
  else ⟨true, C, []⟩

/-- A sequence of `ProcessPointsBatch` calls, one per element of `Answers`, each on the
context the previous one left: the outcomes of the calls, in order. -/
def ProcessPointsBatchCalls :
    FPCGExPointsProcessorContext → List (Bool × Bool) → List FProcessPointsBatch
  | _, [] => []
  | C, A :: Rest =>
    let R := C.ProcessPointsBatch A
    R :: ProcessPointsBatchCalls R.Context Rest

end FPCGExPointsProcessorContext

/-! ## `PCGExGraph` and `PCGExGeo::TDelaunayTriangulation` -/

namespace PCGExGraph

/-- An `int32` converted to `uint32`. -/
def toUInt32 (A : Int) : Nat := (A % 4294967296).toNat

/-- Modelled from the spec: `GetUnsignedHash64` is declared in `PCGExGraph.h`, which is not
among the sources. The edge key is a 64-bit value combining the two 32-bit endpoint
indices, invariant to input order, min index first. -/
def GetUnsignedHash64 (A B : Int) : Nat :=
  min (toUInt32 A) (toUInt32 B) * 4294967296 + max (toUInt32 A) (toUInt32 B)

/-- Modelled from the spec: `FUnsignedEdge` is declared in `PCGExGraph.h`, which is not
among the sources. A raw edge is a pair of point indices, logically unordered but
physically directed: `FUnsignedEdge(A, B)` keeps the endpoints in the order given. -/
structure FUnsignedEdge where
  Start : Int
  End : Int
deriving DecidableEq, Repr

end PCGExGraph

namespace PCGExGeo

open PCGExGraph

/-- The state of the loops of `GetUniqueEdges`: `OutEdges` and the set `UniqueEdges`. -/
structure FUniqueEdgesState where
  OutEdges : List FUnsignedEdge
  UniqueEdges : List Nat
deriving DecidableEq, Repr

/-- The body of the innermost loop of `GetUniqueEdges` for the vertex ids `A` and `B`. -/
def GetUniqueEdgesStep (St : FUniqueEdgesState) (A B : Int) : FUniqueEdgesState :=
  let Hash := GetUnsignedHash64 A B
  if !St.UniqueEdges.contains Hash then
    { OutEdges := St.OutEdges ++ [⟨A, B⟩], UniqueEdges := Hash :: St.UniqueEdges }
  else St

/-- The loops `for i` / `for j = i + 1` of `GetUniqueEdges` over one cell; `Cell i` is
`Cell->Simplex->Vertices[i]->Id`. -/
def GetUniqueEdgesCell {DIMENSIONS : Nat} (St : FUniqueEdgesState) (Cell : Fin DIMENSIONS → Int) :
    FUniqueEdgesState :=
  (List.finRange DIMENSIONS).foldl (fun St i =>
    let A := Cell i
    ((List.finRange DIMENSIONS).filter (fun j => decide (i < j))).foldl (fun St j =>
      let B := Cell j
      GetUniqueEdgesStep St A B) St) St

/-- Source function `TDelaunayTriangulation<DIMENSIONS>::GetUniqueEdges`: `OutEdges`
afterwards. -/
def GetUniqueEdges {DIMENSIONS : Nat} (Cells : List (Fin DIMENSIONS → Int))
    (OutEdges : List FUnsignedEdge) : List FUnsignedEdge :=
  (Cells.foldl GetUniqueEdgesCell { OutEdges := OutEdges, UniqueEdges := [] }).OutEdges

end PCGExGeo

namespace PCGExGeo

open PCGExGraph

/-- The pairs of vertex ids found at simplex positions `i < j < DIMENSIONS` of a cell,
in the order the loops of `GetUniqueEdges` visit them. -/
def cellPairs {DIMENSIONS : Nat} (Cell : Fin DIMENSIONS → Int) : List FUnsignedEdge :=
  (List.finRange DIMENSIONS).flatMap (fun i =>
    ((List.finRange DIMENSIONS).filter (fun j => decide (i < j))).map
      (fun j => ⟨Cell i, Cell j⟩))

/-- The pairs found in a list of cells, in discovery order. -/
def discoveredPairs {DIMENSIONS : Nat} (Cells : List (Fin DIMENSIONS → Int)) :
    List FUnsignedEdge :=
  Cells.flatMap cellPairs

/-- Two edges have the same endpoint pair, whether as `(A, B)` or as `(B, A)`. -/
def SameEndpoints (E F : FUnsignedEdge) : Prop :=
  (E.Start = F.Start ∧ E.End = F.End) ∨ (E.Start = F.End ∧ E.End = F.Start)

instance (E F : FUnsignedEdge) : Decidable (SameEndpoints E F) := by
  unfold SameEndpoints; infer_instance

end PCGExGeo

/-! ## `PCGExCutEdges::FProcessor` -/

namespace PCGEx

/-- Modelled from the spec: `H64A` is declared in `PCGEx.h`, which is not among the
sources. An adjacency entry is a packed neighbor+edge hash; `H64A` unpacks the neighbor
node index, taken here as the high 32 bits. -/
def H64A (Hash : Nat) : Nat := Hash / 4294967296 % 4294967296

/-- Modelled from the spec: `H64B` is declared in `PCGEx.h`, which is not among the
sources. An adjacency entry is a packed neighbor+edge hash; `H64B` unpacks the edge
index, taken here as the low 32 bits. -/
def H64B (Hash : Nat) : Nat := Hash % 4294967296

end PCGEx

namespace PCGExGraph

/-- Modelled from the spec: `FIndexedEdge` is declared in `PCGExGraph.h`, which is not
among the sources. An edge is a pair of point indices plus metadata: a validity flag and
a point-index slot. -/
structure FIndexedEdge where
  Start : Nat
  End : Nat
  PointIndex : Int
  bValid : Bool
deriving DecidableEq, Repr

end PCGExGraph

namespace PCGExCluster

open PCGExGraph

/-- Modelled from the spec: `FNode` is declared in `PCGExCluster.h`, which is not among
the sources. A node has a validity flag, the index of its point and its adjacency, a
set of packed neighbor+edge hashes. -/
structure FNode where
  bValid : Bool
  PointIndex : Int
  Adjacency : List Nat
deriving DecidableEq, Repr

/-- Modelled from the spec: `FCluster` is declared in `PCGExCluster.h`, which is not among
the sources. A cluster has an indexable node array, an indexable edge array and the
point-index to node-index map `NodeIndexLookup`. -/
structure FCluster where
  Nodes : List FNode
  Edges : List FIndexedEdge
  NodeIndexLookup : List (Nat × Nat)
deriving DecidableEq, Repr

namespace FCluster

/-- Modelled from the spec: `GetValidEdges` is defined in `PCGExCluster.cpp`, which is not
among the sources. It is the explicit re-compaction step that materializes the pruned
edge list: the edges whose validity flag is set, in order. -/
def GetValidEdges (C : FCluster) : List FIndexedEdge := C.Edges.filter (fun E => E.bValid)

/-- The write `(Cluster->Edges->GetData() + Index)->bValid = Value`; `none` when `Index`
is out of bounds. -/
def SetEdgeValid (C : FCluster) (Index : Nat) (Value : Bool) : Option FCluster :=
  match C.Edges[Index]? with
  | some E => some { C with Edges := C.Edges.set Index { E with bValid := Value } }
  | none => none

/-- The write `(Cluster->Nodes->GetData() + Index)->bValid = Value`; `none` when `Index`
is out of bounds. -/
def SetNodeValid (C : FCluster) (Index : Nat) (Value : Bool) : Option FCluster :=
  match C.Nodes[Index]? with
  | some N => some { C with Nodes := C.Nodes.set Index { N with bValid := Value } }
  | none => none

/-- The node index `(*Cluster->NodeIndexLookup)[PointIndex]` of a point, as an index of
an existing node: `none` when the map has no such key or the node index is out of
bounds. -/
def LookupNode (C : FCluster) (PointIndex : Nat) : Option Nat :=
  match C.NodeIndexLookup.lookup PointIndex with
  | some NodeIndex => if NodeIndex < C.Nodes.length then some NodeIndex else none
  | none => none

/-- The validity flag of the edge at `Index`, when there is one. -/
def EdgeFlag (C : FCluster) (Index : Nat) : Option Bool := (C.Edges[Index]?).map (fun E => E.bValid)

/-- The validity flag of the node at `Index`, when there is one. -/
def NodeFlag (C : FCluster) (Index : Nat) : Option Bool := (C.Nodes[Index]?).map (fun N => N.bValid)

/-- The part of a cluster that is not a validity flag is the same in `C` and `D`:
`NodeIndexLookup`, the number of edges and of nodes, every edge's `Start`, `End` and
`PointIndex`, every node's `PointIndex` and `Adjacency`. -/
def SameFrame (C D : FCluster) : Prop :=
  D.NodeIndexLookup = C.NodeIndexLookup ∧
  D.Edges.map (fun E => (E.Start, E.End, E.PointIndex))
    = C.Edges.map (fun E => (E.Start, E.End, E.PointIndex)) ∧
  D.Nodes.map (fun N => (N.PointIndex, N.Adjacency))
    = C.Nodes.map (fun N => (N.PointIndex, N.Adjacency))

/-- From `C` to `D` only validity flags changed, and every flag that had the value
`Value` in `C` still has it in `D`. -/
def Keeps (Value : Bool) (C D : FCluster) : Prop :=
  C.SameFrame D ∧
  (∀ Index : Nat, C.EdgeFlag Index = some Value → D.EdgeFlag Index = some Value) ∧
  (∀ Index : Nat, C.NodeFlag Index = some Value → D.NodeFlag Index = some Value)

end FCluster

end PCGExCluster

namespace PCGExCutEdges

open PCGEx PCGExGraph PCGExCluster

/-- Modelled from the spec: `UPCGExCutEdgesSettings` is declared in `PCGExCutClusters.h`,
which is not among the sources; these are the members that the per-edge and per-node
work of `PCGExCutClusters.cpp` reads. -/
structure UPCGExCutEdgesSettings where
  bInvert : Bool
  bAffectedEdgesAffectEndpoints : Bool
  bAffectedNodesAffectConnectedEdges : Bool
  bKeepEdgeThatConnectValidNodes : Bool
deriving DecidableEq, Repr

/-- Modelled from the spec: the type of `Context->IntersectionDetails` is declared
outside the sources; these are the members that the callback of `ProcessSingleEdge`
reads. -/
structure FIntersectionDetails where
  bUseMinAngle : Bool
  bUseMaxAngle : Bool
deriving DecidableEq, Repr

/-- The results of the floating-point tests that the callback of `ProcessSingleEdge` makes
on one path edge: `CheckDot` is `IntersectionDetails.CheckDot(...)`, `bOnEndpoint` is
`A == A1 || A == B1 || B == A2 || B == B2`, `bWithinTolerance` is
`DistSquared(A, B) < ToleranceSquared`. -/
structure FPathEdgeProbe where
  CheckDot : Bool
  bOnEndpoint : Bool
  bWithinTolerance : Bool
deriving DecidableEq, Repr

/-- One cutting path as seen from the edge or node being processed:
`bBoundsIntersect` is `Path->Bounds.Intersect(Box)`, `Elements` are the path edges that
pass the bounds test of the octree, in the order the octree visits them, each with the
results of the tests made on it. -/
structure FPathProbe (α : Type) where
  bBoundsIntersect : Bool
  Elements : List α
deriving DecidableEq, Repr

/-- Engine function `TOctree2::FindFirstElementWithBoundsTest`: calls `Func` on the
elements that pass the bounds test, in turn, until `Func` returns false. -/
def FindFirstElementWithBoundsTest {σ α : Type} (Func : σ → α → Option (Bool × σ)) :
    List α → σ → Option σ
  | [], St => some St
  | Element :: Rest, St =>
    match Func St Element with
    | none => none
    | some (true, St1) => FindFirstElementWithBoundsTest Func Rest St1
    | some (false, St1) => some St1

/-- Modelled from the spec: `PCGExCutEdges::FProcessor` is declared in
`PCGExCutClusters.h`, which is not among the sources; these are the members that the
per-edge and per-node work of `PCGExCutClusters.cpp` reads or writes, the cluster being
the processor's own working copy. -/
structure FProcessor where
  Settings : UPCGExCutEdgesSettings
  IntersectionDetails : FIntersectionDetails
  Cluster : FCluster
  EdgeFilterCache : List Bool
  NodeFilterCache : List Bool
deriving DecidableEq, Repr

namespace FProcessor

/-- The writes of the callback of `ProcessSingleEdge` once a path edge cuts the edge
(`PCGExCutClusters.cpp` lines 257 to 274): `StartNode` and `EndNode` are resolved, then
the validity flags are exchanged. -/
def CutEdge (P : FProcessor) (EdgeIndex : Nat) : Option FProcessor :=
  match P.Cluster.Edges[EdgeIndex]? with
  | none => none
  | some Edge =>
    match P.Cluster.LookupNode Edge.Start, P.Cluster.LookupNode Edge.End with
    | some StartNode, some EndNode =>
      if P.Settings.bInvert then
        (((P.Cluster.SetEdgeValid EdgeIndex true).bind
          (fun C => C.SetNodeValid StartNode true)).bind
          (fun C => C.SetNodeValid EndNode true)).map (fun C => { P with Cluster := C })
      else if P.Settings.bAffectedEdgesAffectEndpoints then
        (((P.Cluster.SetEdgeValid EdgeIndex false).bind
          (fun C => C.SetNodeValid StartNode false)).bind
          (fun C => C.SetNodeValid EndNode false)).map (fun C => { P with Cluster := C })
      else
        (P.Cluster.SetEdgeValid EdgeIndex false).map (fun C => { P with Cluster := C })
    | _, _ => none

/-- The callback `ProcessSingleEdge` passes to `FindFirstElementWithBoundsTest`: the
value it returns and the processor afterwards. -/
def ProcessSingleEdgeCallback (EdgeIndex : Nat) (P : FProcessor) (PathEdge : FPathEdgeProbe) :
    Option (Bool × FProcessor) :=
  match P.Cluster.Edges[EdgeIndex]? with
  | none => none
  | some Edge =>
    if P.Settings.bInvert && Edge.bValid then some (false, P)
    else if !P.Settings.bInvert && !Edge.bValid then some (false, P)
    else if (P.IntersectionDetails.bUseMinAngle || P.IntersectionDetails.bUseMaxAngle)
        && !PathEdge.CheckDot then some (true, P)
    else if PathEdge.bOnEndpoint then some (true, P)
    else if !PathEdge.bWithinTolerance then some (true, P)
    else (P.CutEdge EdgeIndex).map (fun P1 => (false, P1))

/-- The `for (Path : Context->Paths)` loop of `ProcessSingleEdge`. -/
def ProcessSingleEdgePaths (EdgeIndex : Nat) :
    List (FPathProbe FPathEdgeProbe) → FProcessor → Option FProcessor
  | [], P => some P
  | Path :: Rest, P =>
    if !Path.bBoundsIntersect then ProcessSingleEdgePaths EdgeIndex Rest P
    else
      match FindFirstElementWithBoundsTest (ProcessSingleEdgeCallback EdgeIndex)
          Path.Elements P with
      | none => none
      | some P1 =>
        match P1.Cluster.Edges[EdgeIndex]? with
        | none => none
        | some Edge =>
          if !Edge.bValid then some P1 else ProcessSingleEdgePaths EdgeIndex Rest P1

/-- Source function `FProcessor::ProcessSingleEdge` on the edge `Cluster->Edges[EdgeIndex]`;
`Paths` holds, for each cutting path, the results of the geometric tests against this edge.
-/
def ProcessSingleEdge (P : FProcessor) (Paths : List (FPathProbe FPathEdgeProbe))
    (EdgeIndex : Nat) : Option FProcessor :=
  match P.EdgeFilterCache[EdgeIndex]?, P.Cluster.Edges[EdgeIndex]? with
  | some bPreserved, some _ =>
    if bPreserved then
      if P.Settings.bInvert then
        (P.Cluster.SetEdgeValid EdgeIndex true).map (fun C => { P with Cluster := C })
      else some P
    else ProcessSingleEdgePaths EdgeIndex Paths P
  | _, _ => none

/-- The results of the floating-point tests that the callback of `ProcessSingleNode` makes
on one path edge: whether `DistSquared(B1, C1) < ToleranceSquared`. -/
structure FPathNodeProbe where
  bWithinTolerance : Bool
deriving DecidableEq, Repr

/-- The `for (Hash : Node.Adjacency)` loops of the callback of `ProcessSingleNode`: with
`bInvert` the edge `H64B(Hash)` and the node `H64A(Hash)` are made valid, without it
the edge `H64B(Hash)` is made invalid. -/
def CutNodeAdjacency (bInvert : Bool) : List Nat → FCluster → Option FCluster
  | [], C => some C
  | Hash :: Rest, C =>
    if bInvert then
      match C.SetEdgeValid (H64B Hash) true with
      | none => none
      | some C1 =>
        match C1.SetNodeValid (H64A Hash) true with
        | none => none
        | some C2 => CutNodeAdjacency bInvert Rest C2
    else
      match C.SetEdgeValid (H64B Hash) false with
      | none => none
      | some C1 => CutNodeAdjacency bInvert Rest C1

/-- The writes of the callback of `ProcessSingleNode` once a path edge is within
tolerance of the node (`PCGExCutClusters.cpp` lines 323 to 345). -/
def CutNode (P : FProcessor) (Index : Nat) : Option FProcessor :=
  match P.Cluster.Nodes[Index]? with
  | none => none
  | some Node =>
    match P.Cluster.SetNodeValid Index P.Settings.bInvert with
    | none => none
    | some C =>
      if P.Settings.bAffectedNodesAffectConnectedEdges then
        (CutNodeAdjacency P.Settings.bInvert Node.Adjacency C).map
          (fun C1 => { P with Cluster := C1 })
      else some { P with Cluster := C }

/-- The callback `ProcessSingleNode` passes to `FindFirstElementWithBoundsTest`: the
value it returns and the processor afterwards. -/
def ProcessSingleNodeCallback (Index : Nat) (P : FProcessor) (PathEdge : FPathNodeProbe) :
    Option (Bool × FProcessor) :=
  match P.Cluster.Nodes[Index]? with
  | none => none
  | some Node =>
    if P.Settings.bInvert && Node.bValid then some (false, P)
    else if !P.Settings.bInvert && !Node.bValid then some (false, P)
    else if !PathEdge.bWithinTolerance then some (true, P)
    else (P.CutNode Index).map (fun P1 => (false, P1))

/-- The `for (Path : Context->Paths)` loop of `ProcessSingleNode`. -/
def ProcessSingleNodePaths (Index : Nat) :
    List (FPathProbe FPathNodeProbe) → FProcessor → Option FProcessor
  | [], P => some P
  | Path :: Rest, P =>
    if !Path.bBoundsIntersect then ProcessSingleNodePaths Index Rest P
    else
      match FindFirstElementWithBoundsTest (ProcessSingleNodeCallback Index)
          Path.Elements P with
      | none => none
      | some P1 =>
        match P1.Cluster.Nodes[Index]? with
        | none => none
        | some Node =>
          if !Node.bValid then some P1 else ProcessSingleNodePaths Index Rest P1

/-- Source function `FProcessor::ProcessSingleNode` on the node `Cluster->Nodes[Index]`;
`Paths` holds, for each cutting path, the results of the geometric tests against this node.
-/
def ProcessSingleNode (P : FProcessor) (Paths : List (FPathProbe FPathNodeProbe))
    (Index : Nat) : Option FProcessor :=
  match P.NodeFilterCache[Index]?, P.Cluster.Nodes[Index]? with
  | some bPreserved, some _ =>
    if bPreserved then
      if P.Settings.bInvert then
        (P.Cluster.SetNodeValid Index true).map (fun C => { P with Cluster := C })
      else some P
    else ProcessSingleNodePaths Index Paths P
  | _, _ => none

/-- Source function `FProcessor::ProcessSingleRangeIteration`: the consolidation of one
edge. -/
def ProcessSingleRangeIteration (P : FProcessor) (Iteration : Nat) : Option FProcessor :=
  match P.Cluster.Edges[Iteration]? with
  | none => none
  | some Edge =>
    if Edge.bValid then some P
    else
      match P.Cluster.LookupNode Edge.Start, P.Cluster.LookupNode Edge.End with
      | some StartIndex, some EndIndex =>
        match P.Cluster.Nodes[StartIndex]?, P.Cluster.Nodes[EndIndex]? with
        | some StartNode, some EndNode =>
          if StartNode.bValid && EndNode.bValid then
            (P.Cluster.SetEdgeValid Iteration true).map (fun C => { P with Cluster := C })
          else some P
        | _, _ => none
      | _, _ => none

/-- Source function `FProcessor::CompleteWork`: the edges handed to
`GraphBuilder->Graph->InsertEdges`, none when there is no valid edge. The cluster is only
read. -/
def CompleteWork (P : FProcessor) : List FIndexedEdge :=
  let ValidEdges := P.Cluster.GetValidEdges
  if ValidEdges.isEmpty then [] else ValidEdges

/-- The indices the per-edge and per-node work dereferences are in bounds: every edge
endpoint has a node, every adjacency entry unpacks to an existing edge and an existing
node, and the filter caches have one entry per edge and per node. -/
def WellFormed (P : FProcessor) : Prop :=
  (∀ E ∈ P.Cluster.Edges,
    (P.Cluster.LookupNode E.Start).isSome ∧ (P.Cluster.LookupNode E.End).isSome) ∧
  (∀ N ∈ P.Cluster.Nodes, ∀ Hash ∈ N.Adjacency,
    H64B Hash < P.Cluster.Edges.length ∧ H64A Hash < P.Cluster.Nodes.length) ∧
  P.EdgeFilterCache.length = P.Cluster.Edges.length ∧
  P.NodeFilterCache.length = P.Cluster.Nodes.length

instance (P : FProcessor) : Decidable P.WellFormed := by
  unfold WellFormed; infer_instance

/-- The part of a processor that is not a validity flag is the same in `P` and `Q`: the
settings, the filter caches, `NodeIndexLookup`, the number of edges and of nodes, every
edge's `Start`, `End` and `PointIndex`, every node's `PointIndex` and `Adjacency`. -/
def SameFrame (P Q : FProcessor) : Prop :=
  Q.Settings = P.Settings ∧ Q.IntersectionDetails = P.IntersectionDetails ∧
  Q.EdgeFilterCache = P.EdgeFilterCache ∧ Q.NodeFilterCache = P.NodeFilterCache ∧
  P.Cluster.SameFrame Q.Cluster

/-- A concrete processor: the triangle on the points 0, 1, 2 with the edges `(0, 1)`,
`(1, 2)`, `(2, 0)`, every flag valid, no preservation filter passed, not inverted, both
`bAffectedEdgesAffectEndpoints` and `bAffectedNodesAffectConnectedEdges` set. Adjacency
entries are `neighbor * 2^32 + edge`. -/
def exampleTriangle : FProcessor :=
  { Settings := ⟨false, true, true, false⟩,
    IntersectionDetails := ⟨false, false⟩,
    Cluster :=
      { Nodes := [⟨true, 0, [4294967296, 8589934594]⟩, ⟨true, 1, [0, 8589934593]⟩,
          ⟨true, 2, [4294967297, 2]⟩],
        Edges := [⟨0, 1, 0, true⟩, ⟨1, 2, 1, true⟩, ⟨2, 0, 2, true⟩],
        NodeIndexLookup := [(0, 0), (1, 1), (2, 2)] },
    EdgeFilterCache := [false, false, false],
    NodeFilterCache := [false, false, false] }

/-- The triangle of `exampleTriangle` after the edge `(0, 1)` has been cut: the edge and
its two endpoints are invalid. -/
def exampleTriangleCut : FProcessor :=
  { exampleTriangle with
    Cluster :=
      { Nodes := [⟨false, 0, [4294967296, 8589934594]⟩, ⟨false, 1, [0, 8589934593]⟩,
          ⟨true, 2, [4294967297, 2]⟩],
        Edges := [⟨0, 1, 0, false⟩, ⟨1, 2, 1, true⟩, ⟨2, 0, 2, true⟩],
        NodeIndexLookup := [(0, 0), (1, 1), (2, 2)] } }

end FProcessor

end PCGExCutEdges

/-! ## Engine types and functions -/

/-- Engine type `FVector`, with exact rational components. -/
structure FVector where
  X : ℚ
  Y : ℚ
  Z : ℚ
deriving DecidableEq

/-- Insertion of `a` into a sorted list, before the first element that is not before
it. -/
def TArraySortInsert {α : Type} (Predicate : α → α → Bool) (a : α) : List α → List α
  | [] => [a]
  | b :: Rest =>
    if Predicate b a then b :: TArraySortInsert Predicate a Rest else a :: b :: Rest

/-- Engine function `TArray::Sort(Predicate)`: the elements in an order in which no
element is before one that `Predicate` puts before it. The engine's sort is not stable;
this one orders equivalent elements in one of the ways the engine may. -/
def TArraySort {α : Type} (Predicate : α → α → Bool) (Array : List α) : List α :=
  Array.foldr (TArraySortInsert Predicate) []

/-- What the engine promises of `TArray::Sort` on `int32` elements with a predicate that
compares a key: the result is a rearrangement of the array in which the keys never
decrease. -/
def TArraySortContract (SortFn : (Int → Int → Bool) → List Int → List Int) : Prop :=
  ∀ (Key : Int → Int) (Array : List Int),
    (SortFn (fun A B => decide (Key A < Key B)) Array).Perm Array ∧
    (SortFn (fun A B => decide (Key A < Key B)) Array).Pairwise (fun A B => Key A ≤ Key B)

/-! ## `PCGExBuildDelaunay2D::FProcessor` and `PCGExSanitizeClusters::FProcessorBatch` -/

namespace PCGExData

/-- Modelled from the spec: `PCGExData::EInit` is declared in `PCGExPointIO.h`, which is
not among the sources. The output-initialization mode of a point collection is one of
no output, a new empty output, a duplicate of the input, the input forwarded. -/
inductive EInit where
  | NoOutput
  | NewOutput
  | DuplicateInput
  | Forward
deriving DecidableEq, Repr

end PCGExData

namespace PCGExGraph

/-- Modelled from the spec: `FGraphBuilder` is declared in `PCGExGraph.h`, which is not
among the sources; `bCompiledSuccessfully` is the member the completion code reads, false
when the compile produced no valid edge. -/
structure FGraphBuilder where
  bCompiledSuccessfully : Bool
deriving DecidableEq, Repr

end PCGExGraph

namespace PCGExBuildDelaunay2D

open PCGExData PCGExGraph

/-- Modelled from the spec: `PCGEx::TFAttributeWriter<bool>` is declared in
`PCGExAttributeHelpers.h`, which is not among the sources; `Values` is the member
`ProcessSinglePoint` writes. -/
structure TFAttributeWriter where
  Values : List Bool
deriving DecidableEq, Repr

/-- The calls `CompleteWork` and `Write` make on other objects, in program order. -/
inductive FCall where
  | GraphBuilderWrite
  | BindAndSetNumUninitialized
  | StartParallelLoopForPoints
  | AsyncWriteDelete
deriving DecidableEq, Repr

/-- The members of `PCGExBuildDelaunay2D::FProcessor` that `CompleteWork` and `Write` read
or write: `Output` is the mode the output of `PointIO` was last initialised with,
`GraphBuilder` and `HullMarkPointWriter` are owning pointers, `none` when null. -/
structure FProcessor where
  Output : EInit
  GraphBuilder : Option FGraphBuilder
  HullMarkPointWriter : Option TFAttributeWriter
deriving DecidableEq, Repr

namespace FProcessor

/-- Modelled from the spec: the macro `PCGEX_DELETE` is defined in `PCGExMacros.h`, which
is not among the sources. It releases the object a pointer owns and nulls the pointer,
and does nothing on a null pointer: the destructor of `FProcessor` applies it again to
the members `CompleteWork` has already released. -/
def PCGEX_DELETE {α : Type} (_Pointer : Option α) : Option α := none

/-- Source function `PCGExBuildDelaunay2D::FProcessor::CompleteWork`: the processor
afterwards and the calls made. -/
def CompleteWork (P : FProcessor) : FProcessor × List FCall :=
  match P.GraphBuilder with
  | none => (P, [])
  | some Builder =>
    if !Builder.bCompiledSuccessfully then
      ({ P with Output := EInit.NoOutput,
                GraphBuilder := PCGEX_DELETE P.GraphBuilder,
                HullMarkPointWriter := PCGEX_DELETE P.HullMarkPointWriter }, [])
    else
      match P.HullMarkPointWriter with
      | some _ =>
        (P, [FCall.GraphBuilderWrite, FCall.BindAndSetNumUninitialized,
          FCall.StartParallelLoopForPoints])
      | none => (P, [FCall.GraphBuilderWrite])

/-- Source function `PCGExBuildDelaunay2D::FProcessor::Write`; the macro
`PCGEX_ASYNC_WRITE_DELETE` hands the writer to an asynchronous write task and nulls the
pointer. -/
def Write (P : FProcessor) : FProcessor × List FCall :=
  match P.GraphBuilder with
  | none => (P, [])
  | some _ =>
    match P.HullMarkPointWriter with
    | some _ => ({ P with HullMarkPointWriter := none }, [FCall.AsyncWriteDelete])
    | none => (P, [])

end FProcessor

end PCGExBuildDelaunay2D

namespace PCGExSanitizeClusters

open PCGExData PCGExGraph

/-- The calls `FProcessorBatch::Output` makes on the graph builder. -/
inductive FCall where
  | OutputEdgesToContext
deriving DecidableEq, Repr

/-- The members of `PCGExSanitizeClusters::FProcessorBatch` that `Output` reads or writes:
the graph builder and `VtxOutput`, the mode the output of
`GraphBuilder->NodeDataFacade->Source` was last initialised with. -/
structure FProcessorBatch where
  GraphBuilder : FGraphBuilder
  VtxOutput : EInit
deriving DecidableEq, Repr

namespace FProcessorBatch

/-- Source function `PCGExSanitizeClusters::FProcessorBatch::Output`: the batch afterwards
and the calls made. -/
def Output (B : FProcessorBatch) : FProcessorBatch × List FCall :=
  if B.GraphBuilder.bCompiledSuccessfully then (B, [FCall.OutputEdgesToContext])
  else ({ B with VtxOutput := EInit.NoOutput }, [])

end FProcessorBatch

end PCGExSanitizeClusters

/-! ## `PCGExFilterGroup` -/

namespace PCGExGraph

/-- Modelled from the spec: `PCGExGraph::FEdge` is declared in `PCGExGraph.h`, which is not
among the sources. An edge is a pair of point indices plus metadata. -/
structure FEdge where
  Start : Nat
  End : Nat
  Index : Int
  bValid : Bool
deriving DecidableEq, Repr

end PCGExGraph

namespace PCGExPointFilter

/-- Modelled from the spec: `PCGExPointFilter::FFilter` is declared in `PCGExPointFilter.h`,
which is not among the sources. A filter is a predicate; its three virtual `Test`
overloads, on a point index, on a cluster node and on an edge, are the three fields. -/
structure FFilter where
  TestIndex : Int → Bool
  TestNode : PCGExCluster.FNode → Bool
  TestEdge : PCGExGraph.FEdge → Bool

end PCGExPointFilter

namespace PCGExFilterGroup

open PCGExPointFilter

/-- Source type `PCGExFilterGroup::FFilterGroup`: the members the `Test` overloads read. -/
structure FFilterGroup where
  bInvert : Bool
  ManagedFilters : List FFilter

namespace FFilterGroupAND

/-- The loop of the `Test` overloads of `FFilterGroupAND`, `Test` being the overload of the
managed filters that is called:
`for (Filter : ManagedFilters) { if (!Filter->Test(..)) { return bInvert; } } return !bInvert;`
-/
def TestLoop (bInvert : Bool) (Test : FFilter → Bool) : List FFilter → Bool
  | [] => !bInvert
  | Filter :: Rest => if !Test Filter then bInvert else TestLoop bInvert Test Rest

/-- Source function `FFilterGroupAND::Test(const int32 Index)`. -/
def TestIndex (G : FFilterGroup) (Index : Int) : Bool :=
  TestLoop G.bInvert (fun Filter => Filter.TestIndex Index) G.ManagedFilters

/-- Source function `FFilterGroupAND::Test(const PCGExCluster::FNode& Node)`. -/
def TestNode (G : FFilterGroup) (Node : PCGExCluster.FNode) : Bool :=
  TestLoop G.bInvert (fun Filter => Filter.TestNode Node) G.ManagedFilters

/-- Source function `FFilterGroupAND::Test(const PCGExGraph::FEdge& Edge)`. -/
def TestEdge (G : FFilterGroup) (Edge : PCGExGraph.FEdge) : Bool :=
  TestLoop G.bInvert (fun Filter => Filter.TestEdge Edge) G.ManagedFilters

end FFilterGroupAND

namespace FFilterGroupOR

/-- The loop of the `Test` overloads of `FFilterGroupOR`, `Test` being the overload of the
managed filters that is called:
`for (Filter : ManagedFilters) { if (Filter->Test(..)) { return !bInvert; } } return bInvert;`
-/
def TestLoop (bInvert : Bool) (Test : FFilter → Bool) : List FFilter → Bool
  | [] => bInvert
  | Filter :: Rest => if Test Filter then !bInvert else TestLoop bInvert Test Rest

/-- Source function `FFilterGroupOR::Test(const int32 Index)`. -/
def TestIndex (G : FFilterGroup) (Index : Int) : Bool :=
  TestLoop G.bInvert (fun Filter => Filter.TestIndex Index) G.ManagedFilters

/-- Source function `FFilterGroupOR::Test(const PCGExCluster::FNode& Node)`. -/
def TestNode (G : FFilterGroup) (Node : PCGExCluster.FNode) : Bool :=
  TestLoop G.bInvert (fun Filter => Filter.TestNode Node) G.ManagedFilters

/-- Source function `FFilterGroupOR::Test(const PCGExGraph::FEdge& Edge)`. -/
def TestEdge (G : FFilterGroup) (Edge : PCGExGraph.FEdge) : Bool :=
  TestLoop G.bInvert (fun Filter => Filter.TestEdge Edge) G.ManagedFilters

end FFilterGroupOR

/-- Two example filters: the first passes the indices from 0 on and the valid nodes and
edges, the second passes the indices below 10, every node and no edge. -/
def exampleFilters : List FFilter :=
  [⟨fun Index => decide (0 ≤ Index), fun Node => Node.bValid, fun Edge => Edge.bValid⟩,
   ⟨fun Index => decide (Index < 10), fun _ => true, fun _ => false⟩]

end PCGExFilterGroup

namespace PCGExCutEdges

open PCGEx PCGExGraph PCGExCluster

/-- One call made by the per-edge or per-node parallel loop of the processor:
`ProcessSingleEdge` on the edge `EdgeIndex` or `ProcessSingleNode` on the node `Index`,
with the results of the geometric tests of the cutting paths against that edge or node.
-/
inductive FLoopCall where
  | Edge (EdgeIndex : Nat) (Paths : List (FPathProbe FPathEdgeProbe))
  | Node (Index : Nat) (Paths : List (FPathProbe FProcessor.FPathNodeProbe))
deriving DecidableEq, Repr

namespace FLoopCall

/-- Whether the call is a `ProcessSingleEdge` call. -/
def isEdge : FLoopCall → Bool
  | Edge _ _ => true
  | Node _ _ => false

/-- The index of the call is the index of an edge, respectively of a node, of `P`. -/
def InBounds (P : FProcessor) : FLoopCall → Prop
  | Edge EdgeIndex _ => EdgeIndex < P.Cluster.Edges.length
  | Node Index _ => Index < P.Cluster.Nodes.length

instance (P : FProcessor) (Call : FLoopCall) : Decidable (Call.InBounds P) := by
  cases Call <;> unfold InBounds <;> infer_instance

end FLoopCall

namespace FProcessor

/-- One call of the parallel loops on the processor. -/
def ProcessCall (P : FProcessor) : FLoopCall → Option FProcessor
  | FLoopCall.Edge EdgeIndex Paths => P.ProcessSingleEdge Paths EdgeIndex
  | FLoopCall.Node Index Paths => P.ProcessSingleNode Paths Index

/-- The calls of the parallel loops in the order in which they take effect. -/
def ProcessCalls : FProcessor → List FLoopCall → Option FProcessor
  | P, [] => some P
  | P, Call :: Rest =>
    match P.ProcessCall Call with
    | none => none
    | some P1 => ProcessCalls P1 Rest

/-- The triangle of `exampleTriangle` with the edge `(0, 1)` passing the edge
preservation filters. -/
def exampleTrianglePreserved : FProcessor :=
  { exampleTriangle with EdgeFilterCache := [true, false, false] }

end FProcessor

end PCGExCutEdges

/-! ## `double`

The C++ type `double` with the operations the packing code uses, as IEEE 754 binary64
arithmetic: a result is the exact result rounded to the nearest `double`, ties to the
even significand, with gradual underflow, overflow to infinity, signed zeros, infinities
and NaN. The operations return representable values of non-negative magnitude; the
theorems hold for every value of the type. -/

/-- The power `2 ^ k` of an integer exponent. -/
def pow2 (k : Int) : ℚ := if 0 ≤ k then (2 : ℚ) ^ k.toNat else 1 / (2 : ℚ) ^ (-k).toNat

/-- The integer `e` with `2 ^ e <= m < 2 ^ (e + 1)`, for a positive `m`. -/
def floorLog2 (m : ℚ) : Int :=
  let e0 : Int := (Nat.log2 m.num.natAbs : Int) - (Nat.log2 m.den : Int)
  if pow2 e0 ≤ m then e0 else e0 - 1

/-- A value of the C++ type `double`, IEEE 754 binary64: not a number, an infinity, or a
finite number given by its sign and its magnitude, the two zeros included. -/
inductive double where
  | NaN
  | Inf (bNegative : Bool)
  | Finite (bNegative : Bool) (Magnitude : ℚ)
deriving DecidableEq

namespace double

/-- Rounding of the exact magnitude `m` of a result to the nearest `double`, ties to the
even significand: 53 significant bits, gradual underflow below `2 ^ -1022`, overflow to
infinity from `2 ^ 1024 - 2 ^ 970` on. -/
def round (bNegative : Bool) (m : ℚ) : double :=
  if m = 0 then Finite bNegative 0
  else
    let q := max (floorLog2 m - 52) (-1074)
    let Scaled := m / pow2 q
    let f : Nat := Scaled.num.natAbs / Scaled.den
    let Rest := Scaled - (f : ℚ)
    let r : Nat :=
      if Rest < 1 / 2 then f else if 1 / 2 < Rest then f + 1 else if f % 2 = 0 then f else f + 1
    let v := (r : ℚ) * pow2 q
    if pow2 1024 ≤ v then Inf bNegative else Finite bNegative v

/-- The `double` nearest to a rational number. -/
def ofRat (q : ℚ) : double := round (decide (q < 0)) |q|

instance (n : Nat) : OfNat double n := ⟨ofRat n⟩

/-- The signed value of a finite `double`. -/
def Signed (bNegative : Bool) (Magnitude : ℚ) : ℚ := if bNegative then -Magnitude else Magnitude

/-- Unary minus. -/
def neg : double → double
  | NaN => NaN
  | Inf a => Inf (!a)
  | Finite a m => Finite (!a) m

/-- The operator `+` of two `double` values. -/
def add : double → double → double
  | NaN, _ => NaN
  | _, NaN => NaN
  | Inf a, Inf b => if a = b then Inf a else NaN
  | Inf a, Finite _ _ => Inf a
  | Finite _ _, Inf b => Inf b
  | Finite a ma, Finite b mb =>
    let s := Signed a ma + Signed b mb
    if s = 0 then Finite (a && b) 0 else round (decide (s < 0)) |s|

/-- The operator `-` of two `double` values. -/
def sub (x y : double) : double := add x (neg y)

/-- The operator `*` of two `double` values. -/
def mul : double → double → double
  | NaN, _ => NaN
  | _, NaN => NaN
  | Inf a, Inf b => Inf (xor a b)
  | Inf a, Finite b mb => if mb = 0 then NaN else Inf (xor a b)
  | Finite a ma, Inf b => if ma = 0 then NaN else Inf (xor a b)
  | Finite a ma, Finite b mb => round (xor a b) (ma * mb)

/-- The operator `/` of two `double` values. -/
def div : double → double → double
  | NaN, _ => NaN
  | _, NaN => NaN
  | Inf _, Inf _ => NaN
  | Inf a, Finite b _ => Inf (xor a b)
  | Finite a _, Inf b => Finite (xor a b) 0
  | Finite a ma, Finite b mb =>
    if mb = 0 then (if ma = 0 then NaN else Inf (xor a b)) else round (xor a b) (ma / mb)

/-- The operator `<` of two `double` values: false when either is not a number. -/
def lt : double → double → Bool
  | NaN, _ => false
  | _, NaN => false
  | Inf a, Inf b => a && !b
  | Inf a, Finite _ _ => a
  | Finite _ _, Inf b => !b
  | Finite a ma, Finite b mb => decide (Signed a ma < Signed b mb)

/-- The operator `<=` of two `double` values: false when either is not a number. -/
def le : double → double → Bool
  | NaN, _ => false
  | _, NaN => false
  | Inf a, Inf b => a || !b
  | Inf a, Finite _ _ => a
  | Finite _ _, Inf b => !b
  | Finite a ma, Finite b mb => decide (Signed a ma ≤ Signed b mb)

instance : LT double := ⟨fun x y => lt x y = true⟩

instance : LE double := ⟨fun x y => le x y = true⟩

instance (x y : double) : Decidable (x < y) := inferInstanceAs (Decidable (lt x y = true))

instance (x y : double) : Decidable (x ≤ y) := inferInstanceAs (Decidable (le x y = true))

/-- Engine function `FMath::Abs` on a `double`. -/
def Abs : double → double
  | NaN => NaN
  | Inf _ => Inf false
  | Finite _ m => Finite false m

end double

/-! ## `PCGExBinPacking`

The packing code computes in `double`: sizes, volumes and scores are `double` values,
rounded, with infinities and NaN. The geometry of `FBin::AddItem` and
`FBin::UpdatePoint` is an input of the embedding (`FGeometry`). -/

namespace PCGExBinPacking

open PCGExData

/-- Engine type `FVector` as the packing code computes with it: three `double`
components, which may be infinite or not a number. -/
structure FVector where
  X : double
  Y : double
  Z : double
deriving DecidableEq

namespace FVector

/-- Engine function `FVector::DistSquared`:
`Square(V2.X - V1.X) + Square(V2.Y - V1.Y) + Square(V2.Z - V1.Z)`. -/
def DistSquared (V1 V2 : FVector) : double :=
  double.add
    (double.add (double.mul (double.sub V2.X V1.X) (double.sub V2.X V1.X))
      (double.mul (double.sub V2.Y V1.Y) (double.sub V2.Y V1.Y)))
    (double.mul (double.sub V2.Z V1.Z) (double.sub V2.Z V1.Z))

end FVector

/-- Engine type `FBox`. -/
structure FBox where
  Min : FVector
  Max : FVector
deriving DecidableEq

namespace FBox

/-- Engine function `FBox::GetSize`: `Max - Min`. -/
def GetSize (B : FBox) : FVector :=
  ⟨double.sub B.Max.X B.Min.X, double.sub B.Max.Y B.Min.Y, double.sub B.Max.Z B.Min.Z⟩

/-- Engine function `FBox::GetVolume`:
`(Max.X - Min.X) * (Max.Y - Min.Y) * (Max.Z - Min.Z)`. -/
def GetVolume (B : FBox) : double :=
  double.mul (double.mul (double.sub B.Max.X B.Min.X) (double.sub B.Max.Y B.Min.Y))
    (double.sub B.Max.Z B.Min.Z)

end FBox

/-- The constant `MAX_dbl`, the largest finite `double`. -/
def MAX_dbl : double := double.Finite false (2 ^ 1024 - 2 ^ 971)

/-- Modelled from the spec: `PCGExBinPacking::FItem` is declared in `PCGExBinPacking.h`,
which is not among the sources; these are the members `PCGExBinPacking.cpp` reads or
writes. -/
structure FItem where
  Index : Int
  Box : FBox
  Padding : FVector
deriving DecidableEq

/-- Modelled from the spec: `PCGExLayout::FSpace` is declared in `PCGExLayout.h`, which is
not among the sources; these are the members `PCGExBinPacking.cpp` reads, the member
function `CanFit` being a field. -/
structure FSpace where
  Box : FBox
  Volume : double
  DistanceScore : double
  CanFit : FVector → Bool

/-- Modelled from the spec: `PCGExBinPacking::FBin` is declared in `PCGExBinPacking.h`,
which is not among the sources; these are the members the scoring and insertion code
reads or writes. -/
structure FBin where
  Seed : FVector
  MaxVolume : double
  MaxDist : double
  Spaces : List FSpace
  Items : List FItem

/-- Engine type `FTransform`, by its translation. -/
structure FTransform where
  Location : FVector
deriving DecidableEq

/-- Engine type `FPCGPoint`: its transform, the size of its scaled local bounds and its
metadata entry, which tells points apart. -/
structure FPCGPoint where
  Transform : FTransform
  BoundsSize : FVector
  MetadataEntry : Int
deriving DecidableEq

/-- The floating-point geometry of the insertion code, as inputs: `ItemBox` is the box
`FBin::AddItem` gives the item in the chosen space (lines 195 to 208), `Partitions` the
spaces `AddSpace` creates for the partitions of non-zero volume around that box (lines
210 to 223), `PointTransform` the transform `FBin::UpdatePoint` gives the point. -/
structure FGeometry where
  ItemBox : FBin → FSpace → FItem → FBox
  Partitions : FBin → FSpace → FBox → List FSpace
  PointTransform : FBin → FPCGPoint → FItem → FTransform

namespace FBin

/-- The score `GetBestSpaceScore` gives a space for an item:
`1 - ((Space.Volume - BoxVolume) / MaxVolume) + Space.DistanceScore`, computed in
`double`. -/
def Score (B : FBin) (InItem : FItem) (Space : FSpace) : double :=
  double.add
    (double.sub 1 (double.div (double.sub Space.Volume InItem.Box.GetVolume) B.MaxVolume))
    Space.DistanceScore

/-- The `for (int i = 0; i < Spaces.Num(); i++)` loop of `GetBestSpaceScore` from the
index `i` on, with the current `BestIndex` and `OutScore`. -/
def GetBestSpaceScoreLoop (MaxVolume BoxVolume : double) (ItemSize : FVector) :
    List FSpace → Int → Int → double → Int × double
  | [], _, BestIndex, OutScore => (BestIndex, OutScore)
  | Space :: Rest, i, BestIndex, OutScore =>
    if Space.CanFit ItemSize then
      let SpaceScore := double.sub 1 (double.div (double.sub Space.Volume BoxVolume) MaxVolume)
      let DistScore := Space.DistanceScore
      let Score := double.add SpaceScore DistScore
      if Score < OutScore then
        GetBestSpaceScoreLoop MaxVolume BoxVolume ItemSize Rest (i + 1) i Score
      else GetBestSpaceScoreLoop MaxVolume BoxVolume ItemSize Rest (i + 1) BestIndex OutScore
    else GetBestSpaceScoreLoop MaxVolume BoxVolume ItemSize Rest (i + 1) BestIndex OutScore

/-- Source function `FBin::GetBestSpaceScore`: the index returned and `OutScore`
afterwards. -/
def GetBestSpaceScore (B : FBin) (InItem : FItem) (OutScore : double) : Int × double :=
  GetBestSpaceScoreLoop B.MaxVolume InItem.Box.GetVolume InItem.Box.GetSize B.Spaces 0 (-1)
    OutScore

/-- Source function `FBin::AddSpace`, `MakeSpace` being the constructor
`FSpace(InBox, Seed)`, which is declared in `PCGExLayout.h`, not among the sources:
`Spaces.Emplace_GetRef(InBox, Seed)` appends the new space, and
`NewSpace.DistanceScore /= MaxDist` divides its `DistanceScore` by `MaxDist`. -/
def AddSpace (MakeSpace : FBox → FVector → FSpace) (B : FBin) (InBox : FBox) : FBin :=
  let NewSpace := MakeSpace InBox B.Seed
  { B with
    Spaces := B.Spaces ++
      [{ NewSpace with DistanceScore := double.div NewSpace.DistanceScore B.MaxDist }] }

/-- The component of `FurthestLocation` the constructor of `FBin` picks along one axis:
`(DistToMin > DistToMax) ? Bounds.Min[C] : Bounds.Max[C]`. -/
def FurthestComponent (Seed BoundsMin BoundsMax : double) : double :=
  let DistToMin := double.Abs (double.sub Seed BoundsMin)
  let DistToMax := double.Abs (double.sub Seed BoundsMax)
  if DistToMax < DistToMin then BoundsMin else BoundsMax

/-- Source constructor `FBin(InBinPoint, InSeed)`, `Bounds` being the scaled local bounds
`PCGExMath::GetLocalBounds(InBinPoint)` of the bin point: `MaxVolume` is the volume of
the bounds, `MaxDist` the squared distance from the seed to the furthest corner, and
`AddSpace(Bounds)` makes the bounds the first space. -/
def Construct (MakeSpace : FBox → FVector → FSpace) (Bounds : FBox) (InSeed : FVector) :
    FBin :=
  let MaxVolume := Bounds.GetVolume
  let FurthestLocation : FVector :=
    ⟨FurthestComponent InSeed.X Bounds.Min.X Bounds.Max.X,
      FurthestComponent InSeed.Y Bounds.Min.Y Bounds.Max.Y,
      FurthestComponent InSeed.Z Bounds.Min.Z Bounds.Max.Z⟩
  let MaxDist := FVector.DistSquared FurthestLocation InSeed
  AddSpace MakeSpace
    { Seed := InSeed, MaxVolume := MaxVolume, MaxDist := MaxDist, Spaces := [], Items := [] }
    Bounds

/-- Source function `FBin::AddItem`: the bin and the item afterwards; `none` when
`SpaceIndex` is out of bounds. -/
def AddItem (Geo : FGeometry) (B : FBin) (SpaceIndex : Int) (InItem : FItem) :
    Option (FBin × FItem) :=
  if SpaceIndex < 0 then none
  else
    match B.Spaces[SpaceIndex.toNat]? with
    | none => none
    | some Space =>
      let B1 : FBin := { B with Items := B.Items ++ [InItem] }
      let ItemBox := Geo.ItemBox B1 Space InItem
      some ({ B1 with Spaces := B1.Spaces.eraseIdx SpaceIndex.toNat ++
                Geo.Partitions B1 Space ItemBox },
            { InItem with Box := ItemBox })

/-- Source function `FBin::Insert`: the value returned, the bin and the item afterwards;
`none` when `AddItem` reads out of bounds. -/
def Insert (Geo : FGeometry) (B : FBin) (InItem : FItem) : Option (Bool × FBin × FItem) :=
  let BestIndex := (B.GetBestSpaceScore InItem MAX_dbl).1
  if BestIndex = -1 then some (false, B, InItem)
  else (B.AddItem Geo BestIndex InItem).map (fun R => (true, R.1, R.2))

/-- Source function `FBin::UpdatePoint`. -/
def UpdatePoint (Geo : FGeometry) (B : FBin) (InPoint : FPCGPoint) (InItem : FItem) :
    FPCGPoint :=
  { InPoint with Transform := Geo.PointTransform B InPoint InItem }

end FBin

/-- Modelled from the spec: `PCGExBinPacking::FProcessor` is declared in
`PCGExBinPacking.h`, which is not among the sources; these are the members the packing
and completion code reads or writes. `SourcePoints` are the points of
`PointDataFacade->GetIn()`, `FittedPoints` those of `PointDataFacade->GetOut()`, which
`Boot` initialises as a duplicate of the input; `Sorter` is the predicate of the sorter,
`none` when there are no sorting rules or `Sorter->Init()` fails; `Discarded` holds the
points of each entry of `Context->Discarded`. -/
structure FProcessor where
  SourcePoints : List FPCGPoint
  FittedPoints : List FPCGPoint
  Sorter : Option (FPCGPoint → FPCGPoint → Bool)
  OccupationPadding : FVector
  PaddingBuffer : Option (List FVector)
  Fitted : List Bool
  bHasUnfitted : Bool
  Bins : List FBin
  Discarded : List (List FPCGPoint)

namespace FProcessor

/-- The processor as `Boot` and the constructor leave it for the input `InPoints`: the
output duplicates the input, nothing is fitted, discarded or packed yet. -/
def Construct (InPoints : List FPCGPoint) (Sorter : Option (FPCGPoint → FPCGPoint → Bool))
    (OccupationPadding : FVector) : FProcessor :=
  { SourcePoints := InPoints, FittedPoints := InPoints, Sorter := Sorter,
    OccupationPadding := OccupationPadding, PaddingBuffer := none, Fitted := [],
    bHasUnfitted := false, Bins := [], Discarded := [] }

/-- Source function `FProcessor::Process`, the steps that write the members above:
`Fitted.Init(false, PointDataFacade->GetNum())`, the sort of the output points by the
sorter, and the bins, which the bin loop builds from the bin points (`NewBins`). -/
def Process (P : FProcessor) (NewBins : List FBin) : FProcessor :=
  { P with
    Fitted := List.replicate P.SourcePoints.length false,
    FittedPoints :=
      match P.Sorter with
      | some Predicate => TArraySort Predicate P.FittedPoints
      | none => P.FittedPoints,
    Bins := P.Bins ++ NewBins }

/-- The `for (Bin : Bins)` loop of `ProcessSinglePoint`: `bPlaced`, the bins and the
point afterwards. -/
def InsertLoop (Geo : FGeometry) (Item : FItem) (Point : FPCGPoint) :
    List FBin → Option (Bool × List FBin × FPCGPoint)
  | [] => some (false, [], Point)
  | Bin :: Rest =>
    match Bin.Insert Geo Item with
    | none => none
    | some (true, Bin1, Item1) => some (true, Bin1 :: Rest, Bin1.UpdatePoint Geo Point Item1)
    | some (false, _, _) =>
      (InsertLoop Geo Item Point Rest).map (fun R => (R.1, Bin :: R.2.1, R.2.2))

/-- Source function `FProcessor::ProcessSinglePoint` on the index `Index`; `none` when an
index is out of bounds. The point loop that calls it is declared in a header that is not
among the sources: `Point` is the point at `Index` of the data the loop runs on, the
output (`Source = Out`, which is what sorting the output points before packing is for)
or the input (`Source = In`). -/
def ProcessSinglePoint (Geo : FGeometry) (Source : ESource) (P : FProcessor) (Index : Nat) :
    Option FProcessor :=
  match (if Source = ESource.Out then P.FittedPoints else P.SourcePoints)[Index]? with
  | none => none
  | some Point =>
    let Padding : Option FVector :=
      match P.PaddingBuffer with
      | some Buffer => Buffer[Index]?
      | none => some P.OccupationPadding
    match Padding with
    | none => none
    | some Padding =>
      let Item : FItem :=
        { Index := Index, Box := ⟨⟨0, 0, 0⟩, Point.BoundsSize⟩, Padding := Padding }
      match InsertLoop Geo Item Point P.Bins with
      | none => none
      | some (bPlaced, Bins1, Point1) =>
        if Index < P.Fitted.length then
          some { P with
            Bins := Bins1,
            FittedPoints :=
              if Source = ESource.Out then P.FittedPoints.set Index Point1 else P.FittedPoints,
            SourcePoints :=
              if Source = ESource.Out then P.SourcePoints else P.SourcePoints.set Index Point1,
            Fitted := P.Fitted.set Index bPlaced,
            bHasUnfitted := if !bPlaced then true else P.bHasUnfitted }
        else none

/-- The point loop: `ProcessSinglePoint` on each index of `Indices` in turn. -/
def ProcessPoints (Geo : FGeometry) (Source : ESource) :
    FProcessor → List Nat → Option FProcessor
  | P, [] => some P
  | P, Index :: Rest =>
    match ProcessSinglePoint Geo Source P Index with
    | none => none
    | some P1 => ProcessPoints Geo Source P1 Rest

/-- The `for (int32 i = 0; i < NumPoints; i++)` loop of `CompleteWork` from the index `i`
on, for `n` more iterations: the fitted points, `WriteIndex` and the discarded points
afterwards; `none` when an index is out of bounds. -/
def CompleteWorkLoop (SourcePoints : List FPCGPoint) (Fitted : List Bool) :
    Nat → Nat → List FPCGPoint → Nat → List FPCGPoint →
      Option (List FPCGPoint × Nat × List FPCGPoint)
  | 0, _, FittedPoints, WriteIndex, DiscardedPoints =>
    some (FittedPoints, WriteIndex, DiscardedPoints)
  | n + 1, i, FittedPoints, WriteIndex, DiscardedPoints =>
    match Fitted[i]? with
    | none => none
    | some true =>
      match FittedPoints[i]? with
      | none => none
      | some Point =>
        if WriteIndex < FittedPoints.length then
          CompleteWorkLoop SourcePoints Fitted n (i + 1) (FittedPoints.set WriteIndex Point)
            (WriteIndex + 1) DiscardedPoints
        else none
    | some false =>
      match SourcePoints[i]? with
      | none => none
      | some Point =>
        CompleteWorkLoop SourcePoints Fitted n (i + 1) FittedPoints WriteIndex
          (DiscardedPoints ++ [Point])

/-- Source function `FProcessor::CompleteWork`; `NumPoints` is the number of points of the
input. -/
def CompleteWork (P : FProcessor) : Option FProcessor :=
  if P.bHasUnfitted then
    match CompleteWorkLoop P.SourcePoints P.Fitted P.SourcePoints.length 0 P.FittedPoints 0 []
      with
    | none => none
    | some (FittedPoints, WriteIndex, DiscardedPoints) =>
      some { P with FittedPoints := FittedPoints.take WriteIndex,
                    Discarded := P.Discarded ++ [DiscardedPoints] }
  else some P

/-- A run of the processor on the input `InPoints`: `Process`, the point loop on the data
`Source` over all indices in the order `Order`, then `CompleteWork`. -/
def Run (Geo : FGeometry) (Source : ESource) (InPoints : List FPCGPoint)
    (Sorter : Option (FPCGPoint → FPCGPoint → Bool)) (OccupationPadding : FVector)
    (NewBins : List FBin) (Order : List Nat) : Option FProcessor :=
  match ProcessPoints Geo Source
      ((Construct InPoints Sorter OccupationPadding).Process NewBins) Order with
  | none => none
  | some P => P.CompleteWork

end FProcessor

/-- An example geometry: the item keeps its box, no new space is created, the point is
moved to the minimum of the item's box. -/
def exampleGeometry : FGeometry :=
  { ItemBox := fun _ _ Item => Item.Box,
    Partitions := fun _ _ _ => [],
    PointTransform := fun _ _ Item => ⟨Item.Box.Min⟩ }

/-- An example bin of volume 8, seeded at its minimum, with one space, which fits the
sizes of at most 2 along each axis. -/
def exampleBin : FBin :=
  { Seed := ⟨0, 0, 0⟩, MaxVolume := 8, MaxDist := 12,
    Spaces := [{ Box := ⟨⟨0, 0, 0⟩, ⟨2, 2, 2⟩⟩, Volume := 8, DistanceScore := 0,
                 CanFit := fun Size => decide (Size.X ≤ 2 ∧ Size.Y ≤ 2 ∧ Size.Z ≤ 2) }],
    Items := [] }

/-- Two example points: the first of size 1, the second of size 5. -/
def examplePoints : List FPCGPoint :=
  [⟨⟨⟨0, 0, 0⟩⟩, ⟨1, 1, 1⟩, 0⟩, ⟨⟨⟨0, 0, 0⟩⟩, ⟨5, 5, 5⟩, 1⟩]

/-- The predicate of a sorter that puts the larger point first. -/
def exampleSorter : FPCGPoint → FPCGPoint → Bool :=
  fun A B => decide (B.BoundsSize.X < A.BoundsSize.X)

/-- An example item of size 1 and volume 1. -/
def exampleItem : FItem := { Index := 0, Box := ⟨⟨0, 0, 0⟩, ⟨1, 1, 1⟩⟩, Padding := ⟨0, 0, 0⟩ }

/-- An example of the constructor `FSpace(InBox, Seed)`: the volume and the size of the
box, the squared distance from the seed to the minimum of the box; a size fits when no
component exceeds the size of the box. -/
def exampleMakeSpace (InBox : FBox) (InSeed : FVector) : FSpace :=
  { Box := InBox, Volume := InBox.GetVolume,
    DistanceScore := FVector.DistSquared InSeed InBox.Min,
    CanFit := fun Size => decide (Size.X ≤ InBox.GetSize.X ∧ Size.Y ≤ InBox.GetSize.Y ∧
      Size.Z ≤ InBox.GetSize.Z) }

/-- A flat bin: the bin the constructor makes for the bounds from `(0, 0, 0)` to
`(1, 1, 0)` with the seed at the origin. Its volume is 0. -/
def exampleFlatBin : FBin :=
  FBin.Construct exampleMakeSpace ⟨⟨0, 0, 0⟩, ⟨1, 1, 0⟩⟩ ⟨0, 0, 0⟩

/-- A flat item of size `(1, 1, 0)`. -/
def exampleFlatItem : FItem :=
  { Index := 0, Box := ⟨⟨0, 0, 0⟩, ⟨1, 1, 0⟩⟩, Padding := ⟨0, 0, 0⟩ }

/-- The bin the constructor makes for the bounds from `(0, 0, 0)` to `(2, 2, 2)` with the
seed at the origin: volume 8, one space. -/
def exampleCubeBin : FBin :=
  FBin.Construct exampleMakeSpace ⟨⟨0, 0, 0⟩, ⟨2, 2, 2⟩⟩ ⟨0, 0, 0⟩

end PCGExBinPacking

/-! ## `FPCGExCutEdgesElement::ExecuteInternal`: building the cutting paths -/

namespace FPCGExCutEdgesElement

/-- Engine type `TArray`, as the callbacks of `BuildPathsTask` see `Context->Paths`:
`ArrayNum` and the slots of the allocation. A path is represented by the index of the
facade it was made from. -/
structure FPathsArray where
  ArrayNum : Nat
  Data : Nat → Option Nat

/-- One callback of `BuildPathsTask` in flight: `StartIndex` is its argument, `Step`
counts the steps of `Context->Paths.Add(Path)` it has made, `OldNum` is the value of
`ArrayNum` it has read. -/
structure FCallback where
  StartIndex : Nat
  Step : Nat
  OldNum : Nat
deriving DecidableEq, Repr

/-- One step of the callback (`PCGExCutClusters.cpp` lines 110 to 117). The path is made
from `PathFacades[StartIndex]`, then `Context->Paths.Add(Path)` runs with no lock held;
the engine's `TArray::Add` reads `ArrayNum` (`const int32 OldNum = ArrayNum`), writes
`ArrayNum = OldNum + 1`, then constructs the element in the slot `OldNum`. -/
def CallbackStep (Paths : FPathsArray) (Cb : FCallback) : FPathsArray × FCallback :=
  match Cb.Step with
  | 0 => (Paths, { Cb with Step := 1, OldNum := Paths.ArrayNum })
  | 1 => ({ Paths with ArrayNum := Cb.OldNum + 1 }, { Cb with Step := 2 })
  | 2 =>
    ({ Paths with
        Data := fun Slot => if Slot = Cb.OldNum then some Cb.StartIndex else Paths.Data Slot },
      { Cb with Step := 3 })
  | _ => (Paths, Cb)

/-- The callbacks `StartRangePrepareOnly(Context->PathFacades.Num(), 1)` starts: one per
path facade. -/
def BuildPathsTask (NumPathFacades : Nat) : List FCallback :=
  (List.range NumPathFacades).map (fun StartIndex => ⟨StartIndex, 0, 0⟩)

/-- An interleaving of the callbacks: each entry of `Schedule` lets the callback of that
index make its next step. -/
def RunSchedule : FPathsArray → List FCallback → List Nat → FPathsArray × List FCallback
  | Paths, Callbacks, [] => (Paths, Callbacks)
  | Paths, Callbacks, Thread :: Rest =>
    match Callbacks[Thread]? with
    | none => RunSchedule Paths Callbacks Rest
    | some Cb =>
      let R := CallbackStep Paths Cb
      RunSchedule R.1 (Callbacks.set Thread R.2) Rest

/-- The entries of `Context->Paths` once the callbacks have run under `Schedule`, and
whether every callback has finished. -/
def PathsAfter (NumPathFacades : Nat) (Schedule : List Nat) : List (Option Nat) × Bool :=
  let R := RunSchedule ⟨0, fun _ => none⟩ (BuildPathsTask NumPathFacades) Schedule
  ((List.range R.1.ArrayNum).map R.1.Data, R.2.all (fun Cb => decide (Cb.Step = 3)))

end FPCGExCutEdgesElement

/-! ## `PCGEx::FPointLoop` -/

namespace PCGEx

/-- The calls `FPointLoop::Advance` makes on its arguments, in program order. -/
inductive FPointLoopCall where
  | Initialize
  | LoopBody (Index : Int)
deriving DecidableEq, Repr

/-- Source type `PCGEx::FPointLoop`: the members `Advance` reads or writes.
`CurrentChunkSize` is the value of `GetCurrentChunkSize()`, which is declared in
`PCGExPointsProcessor.h`, not among the sources. -/
structure FPointLoop where
  NumIterations : Int
  CurrentChunkSize : Int
  CurrentIndex : Int
deriving DecidableEq, Repr

/-- The chunk size `FPCGExPointsProcessorElementBase::InitializeContext` gives the
context: `FMath::Max((Settings->ChunkSize <= 0 ? Settings->GetPreferredChunkSize() :
Settings->ChunkSize), 1)`. -/
def InitializeContextChunkSize (SettingsChunkSize PreferredChunkSize : Int) : Int :=
  max (if SettingsChunkSize ≤ 0 then PreferredChunkSize else SettingsChunkSize) 1

namespace FPointLoop

/-- Source function `FPointLoop::Advance(LoopBody)`, `GetNum` being `PtIO.GetNum()`: the
value returned, the loop afterwards and the calls made. -/
def Advance (L : FPointLoop) (GetNum : Int) : Bool × FPointLoop × List FPointLoopCall :=
  let L1 : FPointLoop :=
    if L.CurrentIndex = -1 then { L with NumIterations := GetNum, CurrentIndex := 0 } else L
  let ChunkNumIterations := min (L1.NumIterations - L1.CurrentIndex) L1.CurrentChunkSize
  let Calls : List FPointLoopCall :=
    if 0 < ChunkNumIterations then
      (forRange ChunkNumIterations).map (fun i => FPointLoopCall.LoopBody (L1.CurrentIndex + i))
    else []
  let L2 : FPointLoop :=
    if 0 < ChunkNumIterations then
      { L1 with CurrentIndex := L1.CurrentIndex + ChunkNumIterations }
    else L1
  if L2.CurrentIndex ≥ L2.NumIterations then (true, { L2 with CurrentIndex := -1 }, Calls)
  else (false, L2, Calls)

/-- Source function `FPointLoop::Advance(Initialize, LoopBody)`. -/
def AdvanceInitialize (L : FPointLoop) (GetNum : Int) : Bool × FPointLoop × List FPointLoopCall :=
  if L.CurrentIndex = -1 then
    let R := Advance { L with NumIterations := GetNum, CurrentIndex := 0 } GetNum
    (R.1, R.2.1, FPointLoopCall.Initialize :: R.2.2)
  else Advance L GetNum

/-- Repeated calls of `Advance` until one returns true: for each call the value returned
and the calls it made, and the loop after the last one; `none` when the fuel runs out
first. -/
def AdvanceUntilDone (Fn : FPointLoop → Int → Bool × FPointLoop × List FPointLoopCall)
    (GetNum : Int) : Nat → FPointLoop → Option (List (Bool × List FPointLoopCall) × FPointLoop)
  | 0, _ => none
  | fuel + 1, L =>
    let R := Fn L GetNum
    if R.1 then some ([(true, R.2.2)], R.2.1)
    else (AdvanceUntilDone Fn GetNum fuel R.2.1).map (fun T => ((false, R.2.2) :: T.1, T.2))

end FPointLoop

end PCGEx

/-! ## `PCGExGeo::FGeoStaticMesh` -/

namespace PCGEx

/-- Modelled from the spec: `H64` is declared in `PCGEx.h`, which is not among the
sources. It packs two 32-bit values into a 64-bit value, the first in the high half and
the second in the low half, so that `H64A` and `H64B` unpack them; the order of the
arguments matters (`PCGExData.cpp` packs `(IOIndex, PointIndex)` with it and unpacks them
again, `PCGExTopology.cpp` calls its result a signed edge hash). -/
def H64 (A B : Nat) : Nat := A % 4294967296 * 4294967296 + B % 4294967296

end PCGEx

namespace PCGExGeo

open PCGEx

/-- Engine function `TMap::FindOrAdd(Key, Value)`: the value stored for `Key`, which is
`Value` when the key was absent, and the map afterwards. -/
def FindOrAdd (Map : List (FVector × Nat)) (Key : FVector) (Value : Nat) :
    Nat × List (FVector × Nat) :=
  match Map.lookup Key with
  | some Stored => (Stored, Map)
  | none => (Value, Map ++ [(Key, Value)])

/-- Engine function `TSet::Add`: the element is appended unless it is already there. -/
def SetAdd (Set : List Nat) (Element : Nat) : List Nat :=
  if Element ∈ Set then Set else Set ++ [Element]

/-- Source type `FGeoStaticMesh`: the members of `FGeoMesh` and, of the static mesh, the
position vertex buffer and the index buffer of `LODResources[0]`. -/
structure FGeoStaticMesh where
  bIsValid : Bool
  bIsLoaded : Bool
  Vertices : List FVector
  Edges : List Nat
  VertexBuffer : List FVector
  Indices : List Nat
deriving DecidableEq

namespace FGeoStaticMesh

/-- The `for (int32 i = 0; i < Indices.Num(); i += 3)` loop of `ExtractMeshSynchronous` on
the indices still to read: `IndexedUniquePositions` and `UniqueEdges` afterwards; `none`
when an index is read out of bounds. -/
def ExtractLoop (VertexBuffer : List FVector) :
    List Nat → List (FVector × Nat) → List Nat → Option (List (FVector × Nat) × List Nat)
  | [], IndexedUniquePositions, UniqueEdges => some (IndexedUniquePositions, UniqueEdges)
  | A :: B :: C :: Rest, IndexedUniquePositions, UniqueEdges =>
    match VertexBuffer[A]?, VertexBuffer[B]?, VertexBuffer[C]? with
    | some VA, some VB, some VC =>
      let RA := FindOrAdd IndexedUniquePositions VA A
      let RB := FindOrAdd RA.2 VB B
      let RC := FindOrAdd RB.2 VC C
      let A1 := RA.1
      let B1 := RB.1
      let C1 := RC.1
      ExtractLoop VertexBuffer Rest RC.2
        (SetAdd (SetAdd (SetAdd UniqueEdges (H64 A1 B1)) (H64 B1 C1)) (H64 C1 A1))
    | _, _, _ => none
  | _, _, _ => none

/-- The loop `for (FVector Key : Keys) { Vertices[*IndexedUniquePositions.Find(Key)] = Key; }`;
`none` when a write is out of bounds. -/
def WriteVertices : List (FVector × Nat) → List FVector → Option (List FVector)
  | [], Vertices => some Vertices
  | (Key, Index) :: Rest, Vertices =>
    if Index < Vertices.length then WriteVertices Rest (Vertices.set Index Key) else none

/-- Source function `FGeoStaticMesh::ExtractMeshSynchronous`; `none` when an index is out
of bounds. -/
def ExtractMeshSynchronous (M : FGeoStaticMesh) : Option FGeoStaticMesh :=
  if M.bIsLoaded then some M
  else if !M.bIsValid then some M
  else
    match ExtractLoop M.VertexBuffer M.Indices [] [] with
    | none => none
    | some (IndexedUniquePositions, UniqueEdges) =>
      match WriteVertices IndexedUniquePositions
          (List.replicate IndexedUniquePositions.length ⟨0, 0, 0⟩) with
      | none => none
      | some Vertices =>
        some { M with Vertices := Vertices, Edges := UniqueEdges, bIsLoaded := true }

/-- A square made of two triangles with the same winding, `(0, 1, 2)` and `(2, 1, 3)`:
the diagonal is traversed as `(1, 2)` by the first and as `(2, 1)` by the second. -/
def exampleSquare : FGeoStaticMesh :=
  { bIsValid := true, bIsLoaded := false, Vertices := [], Edges := [],
    VertexBuffer := [⟨0, 0, 0⟩, ⟨1, 0, 0⟩, ⟨0, 1, 0⟩, ⟨1, 1, 0⟩],
    Indices := [0, 1, 2, 2, 1, 3] }

end FGeoStaticMesh

end PCGExGeo

/-! ## `PCGExMeshCollection::FMacroCache` -/

/-- Source type `FPCGExMaterialOverrideEntry`: the slot index of the override. -/
structure FPCGExMaterialOverrideEntry where
  SlotIndex : Int
deriving DecidableEq, Repr

/-- Source type `FPCGExMaterialOverrideCollection`: its weight and its overrides. -/
structure FPCGExMaterialOverrideCollection where
  Weight : Int
  Overrides : List FPCGExMaterialOverrideEntry
deriving DecidableEq, Repr

/-- Source type `FPCGExMaterialOverrideSingleEntry`: its weight. -/
structure FPCGExMaterialOverrideSingleEntry where
  Weight : Int
deriving DecidableEq, Repr

/-- Source function `FPCGExMaterialOverrideCollection::GetHighestIndex`. -/
def FPCGExMaterialOverrideCollection.GetHighestIndex (C : FPCGExMaterialOverrideCollection) :
    Int :=
  C.Overrides.foldl (fun HighestIndex Entry => max HighestIndex Entry.SlotIndex) (-1)

namespace PCGEx

/-- Modelled from the spec: `ArrayOfIndices` is declared in `PCGEx.h`, which is not among
the sources. It fills the array with the indices `0, 1, ..., InNum - 1`. -/
def ArrayOfIndices (InNum : Nat) : List Int := (List.range InNum).map Int.ofNat

/-- The value is in the range of `int32`. -/
def InInt32 (x : Int) : Prop := -2147483648 ≤ x ∧ x < 2147483648

instance (x : Int) : Decidable (InInt32 x) := by unfold InInt32; infer_instance

end PCGEx

namespace PCGExMeshCollection

open PCGEx

/-- Source type `PCGExMeshCollection::FMacroCache`: the members `ProcessMaterialOverrides`
writes. -/
structure FMacroCache where
  WeightSum : Int
  Weights : List Int
  Order : List Int
  HighestIndex : Int
deriving DecidableEq, Repr

namespace FMacroCache

/-- The loop `for (i..) { WeightSum += Weights[i]; Weights[i] = WeightSum; }` over the
weights still to visit: the entries written and `WeightSum` afterwards. -/
def AccumulateLoop : List Int → Int → List Int × Int
  | [], WeightSum => ([], WeightSum)
  | Weight :: Rest, WeightSum =>
    let WeightSum1 := wrapInt32 (WeightSum + Weight)
    let R := AccumulateLoop Rest WeightSum1
    (WeightSum1 :: R.1, R.2)

/-- The common end of the two overloads of `ProcessMaterialOverrides`, from
`PCGEx::ArrayOfIndices(Order, NumEntries)` on, `SortFn` being `TArray::Sort`: the order is
sorted by the weights, the weights are sorted, then accumulated. -/
def SortAndAccumulate (SortFn : (Int → Int → Bool) → List Int → List Int) (C : FMacroCache) :
    FMacroCache :=
  let NumEntries := C.Weights.length
  let Order :=
    SortFn (fun A B => decide (C.Weights.getD A.toNat 0 < C.Weights.getD B.toNat 0))
      (ArrayOfIndices NumEntries)
  let Weights := SortFn (fun A B => decide (A < B)) C.Weights
  let R := AccumulateLoop Weights 0
  { C with Order := Order, Weights := R.1, WeightSum := R.2 }

/-- Source function `FMacroCache::ProcessMaterialOverrides` on single entries. -/
def ProcessMaterialOverrides (SortFn : (Int → Int → Bool) → List Int → List Int)
    (C : FMacroCache) (Overrides : List FPCGExMaterialOverrideSingleEntry)
    (InSlotIndex : Int) : FMacroCache :=
  SortAndAccumulate SortFn
    { C with HighestIndex := InSlotIndex,
             Weights := Overrides.map (fun Entry => wrapInt32 (Entry.Weight + 1)) }

/-- Source function `FMacroCache::ProcessMaterialOverrides` on collections. -/
def ProcessMaterialOverrideCollections (SortFn : (Int → Int → Bool) → List Int → List Int)
    (C : FMacroCache) (Overrides : List FPCGExMaterialOverrideCollection) : FMacroCache :=
  SortAndAccumulate SortFn
    { C with
      HighestIndex :=
        Overrides.foldl (fun HighestIndex Entry => max HighestIndex Entry.GetHighestIndex) (-1),
      Weights := Overrides.map (fun Entry => wrapInt32 (Entry.Weight + 1)) }

/-- No `int32` operation of `ProcessMaterialOverrides` on the weights `Weights` overflows:
every `Weight + 1` and every running sum of the sorted values is in range. -/
def ExactArithmetic (SortFn : (Int → Int → Bool) → List Int → List Int) (Weights : List Int) :
    Prop :=
  (∀ Weight ∈ Weights, InInt32 (Weight + 1)) ∧
  ∀ k : Nat, InInt32
    (((SortFn (fun A B => decide (A < B)) (Weights.map (fun Weight => Weight + 1))).take k).sum)

/-- The cache is sorted and accumulated for entries of weights `w`: `Order` is a
rearrangement of `0 .. n-1` along which `w` never decreases, `Weights[i]` is the sum of `w[Order[j]] + 1` over `j <= i`, and `WeightSum` is the sum of
all `w[j] + 1`, which is `Weights[n-1]` when `n >= 1` and 0 when `n = 0`. -/
def OrderedCumulative (Result : FMacroCache) (w : List Int) : Prop :=
  Result.Order.Perm (ArrayOfIndices w.length) ∧
  (Result.Order.map (fun A => w.getD A.toNat 0)).Pairwise (fun a b => a ≤ b) ∧
  Result.Weights
    = (List.range w.length).map (fun i =>
        ((Result.Order.take (i + 1)).map (fun A => w.getD A.toNat 0 + 1)).sum) ∧
  Result.WeightSum = (w.map (fun Weight => Weight + 1)).sum ∧
  (1 ≤ w.length → Result.Weights[w.length - 1]? = some Result.WeightSum) ∧
  (w.length = 0 → Result.WeightSum = 0)

end FMacroCache

end PCGExMeshCollection

/-! ## `FMacroCache::GetPickRandomWeighted` -/

namespace PCGExMeshCollection

open PCGEx

namespace FMacroCache

/-- The loop `while (Pick < Weights.Num() && Weights[Pick] < Threshold) { Pick++; }` of
`GetPickRandomWeighted` over the weights from position `Pick` on: the value of `Pick`
when the loop is left. -/
def PickLoop (Threshold : Int) : List Int → Nat → Nat
  | [], Pick => Pick
  | Weight :: Rest, Pick =>
    if Weight < Threshold then PickLoop Threshold Rest (Pick + 1) else Pick

/-- Source function `FMacroCache::GetPickRandomWeighted`. `RandRange Seed Min Max` is the
value of the engine call `FRandomStream(Seed).RandRange(Min, Max)`; the result is `none`
when `Order[Pick]` is out of bounds. -/
def GetPickRandomWeighted (RandRange : Int → Int → Int → Int) (C : FMacroCache) (Seed : Int) :
    Option Int :=
  if C.Order.isEmpty then some (-1)
  else
    let Threshold := RandRange Seed 0 (wrapInt32 (C.WeightSum - 1))
    let Pick := PickLoop Threshold C.Weights 0
    C.Order[Pick]?

/-- The threshold `GetPickRandomWeighted` draws for `Seed` lies in `[0, WeightSum - 1]`. -/
def ThresholdInRange (RandRange : Int → Int → Int → Int) (C : FMacroCache) (Seed : Int) :
    Prop :=
  0 ≤ RandRange Seed 0 (wrapInt32 (C.WeightSum - 1)) ∧
  RandRange Seed 0 (wrapInt32 (C.WeightSum - 1)) ≤ C.WeightSum - 1

/-- On a cache of `n` entries `GetPickRandomWeighted` returns `Order[p]`, `p < n` being the
first position whose cumulative weight reaches the threshold drawn for `Seed`; `Weights`
and `Order` both hold `n` entries, so both reads are in bounds. -/
def PicksFirstReaching (RandRange : Int → Int → Int → Int) (C : FMacroCache) (Seed : Int)
    (n : Nat) : Prop :=
  C.Weights.length = n ∧ C.Order.length = n ∧
  ∃ p : Nat, p < n ∧
    (∃ Weight, C.Weights[p]? = some Weight ∧
      RandRange Seed 0 (wrapInt32 (C.WeightSum - 1)) ≤ Weight) ∧
    (∀ q : Nat, q < p → ∃ Weight, C.Weights[q]? = some Weight ∧
      Weight < RandRange Seed 0 (wrapInt32 (C.WeightSum - 1))) ∧
    ∃ Picked, C.Order[p]? = some Picked ∧
      GetPickRandomWeighted RandRange C Seed = some Picked

/-- A random stream that always returns the upper bound `Max`. -/
def exampleRandRangeMax (_Seed _Min Max : Int) : Int := Max

end FMacroCache

end PCGExMeshCollection

/-! ## `FPathProcessor::Process` -/

namespace PCGExPointsMT

open PCGEx PCGExMT

/-- Source function `FPathProcessor::Process`, the region that fills `PointFilterCache`.
`FilterManagerResults Factories Points` is the `Results` array of the
`TEarlyExitFilterManager` registered with the factories after `Test(i)` was called for every point; the manager is declared in a header that is not among the sources. Without
factories the cache is sized to the point count and every slot is assigned the
`DefaultPointFilterValue` of the processor. -/
def FPathProcessor.Process (FilterManagerResults : List Nat → FPointIO → List Bool)
    (P : FPathProcessor) : FPathProcessor :=
  match P.FilterFactories with
  | some Factories =>
    { P with PointFilterCache := FilterManagerResults Factories P.PointsIO }
  | none =>
    { P with PointFilterCache := List.replicate P.PointsIO.Num P.DefaultPointFilterValue }

/-- The processors of a batch after every one of them ran `FPathProcessor::Process`, which
the tasks started by `TBatch::Process` do. -/
def TBatch.ProcessorsAfterProcess (FilterManagerResults : List Nat → FPointIO → List Bool)
    (B : TBatch) : List FPathProcessor :=
  B.Processors.map (FPathProcessor.Process FilterManagerResults)

/-- A filter manager whose results are never read: the batch has no factories. -/
def exampleNoResults (_Factories : List Nat) (_Points : FPointIO) : List Bool := []

end PCGExPointsMT

/-! ## Completion callbacks of `PCGExCutEdges::FProcessor` -/

namespace PCGExCutEdges

open PCGEx PCGExGraph PCGExCluster

/-- What the completion callbacks of the processor do that is visible from outside, in
the order in which it happens: the edge loop has completed (`OnEdgesProcessingComplete`
is entered), the node loop has completed (`OnNodesProcessingComplete` is entered), or
`StartParallelLoopForRange(NumIterations)` is called, which starts the consolidation
pass. -/
inductive FCompletionEvent where
  | EdgesComplete
  | NodesComplete
  | StartParallelLoopForRange (NumIterations : Int)
deriving DecidableEq, Repr

/-- Modelled from the spec: `PCGExCutEdges::FProcessor` is declared in
`PCGExCutClusters.h`, which is not among the sources; these are the members that the
completion callbacks of `PCGExCutClusters.cpp` read or write: the two flags
`EdgesProcessed` and `NodesProcessed`, zero until the matching loop has completed, and
the number of edges of the cluster. `Trace` records the events so far. -/
structure FCompletion where
  Settings : UPCGExCutEdgesSettings
  NumEdges : Int
  EdgesProcessed : Int := 0
  NodesProcessed : Int := 0
  Trace : List FCompletionEvent := []
deriving DecidableEq, Repr

namespace FCompletion

/-- Source function `FProcessor::TryConsolidate`. -/
def TryConsolidate (P : FCompletion) : FCompletion :=
  if P.Settings.bInvert && P.EdgesProcessed != 0 && P.Settings.bKeepEdgeThatConnectValidNodes
  then { P with Trace := P.Trace ++ [FCompletionEvent.StartParallelLoopForRange P.NumEdges] }
  else P

/-- Source function `FProcessor::OnEdgesProcessingComplete`. -/
def OnEdgesProcessingComplete (P : FCompletion) : FCompletion :=
  TryConsolidate
    { P with EdgesProcessed := 1, Trace := P.Trace ++ [FCompletionEvent.EdgesComplete] }

/-- Source function `FProcessor::OnNodesProcessingComplete`. -/
def OnNodesProcessingComplete (P : FCompletion) : FCompletion :=
  TryConsolidate
    { P with NodesProcessed := 1, Trace := P.Trace ++ [FCompletionEvent.NodesComplete] }

/-- The two callbacks fired in the given order, `true` standing for
`OnEdgesProcessingComplete` and `false` for `OnNodesProcessingComplete`. -/
def Fire : FCompletion → List Bool → FCompletion
  | P, [] => P
  | P, true :: Rest => Fire P.OnEdgesProcessingComplete Rest
  | P, false :: Rest => Fire P.OnNodesProcessingComplete Rest

/-- A processor of a cluster of three edges, inverted, keeping the edges that connect valid
nodes, neither loop completed yet. -/
def exampleInvertKeep : FCompletion :=
  { Settings := { bInvert := true, bAffectedEdgesAffectEndpoints := false,
                  bAffectedNodesAffectConnectedEdges := false,
                  bKeepEdgeThatConnectValidNodes := true },
    NumEdges := 3 }

end FCompletion

end PCGExCutEdges

namespace PCGExGeo

open PCGEx

namespace FGeoStaticMesh

/-- The square of `exampleSquare` with its second triangle reading the corner `(1, 0, 0)`
from a second raw vertex: the raw vertices 1 and 3 share a position, as the vertices of a
seam do, and the triangles are `(0, 1, 2)` and `(2, 3, 4)`. -/
def exampleSeam : FGeoStaticMesh :=
  { bIsValid := true, bIsLoaded := false, Vertices := [], Edges := [],
    VertexBuffer := [⟨0, 0, 0⟩, ⟨1, 0, 0⟩, ⟨0, 1, 0⟩, ⟨1, 0, 0⟩, ⟨1, 1, 0⟩],
    Indices := [0, 1, 2, 2, 3, 4] }

end FGeoStaticMesh

end PCGExGeo

/-! ## `PCGExTopology::FCell::BuildFromCluster`

The contour walk is embedded with its floating-point geometry as an input
(`FContourProbe`): angles and box sizes are exact rational numbers handed in per node,
and the projected positions they are computed from are taken to exist for every node. A
pointer to a node is the index of the node. -/

namespace PCGExCluster

/-- Modelled from the spec: `FExpandedNeighbor` is declared in `PCGExCluster.h`, which is
not among the sources. Of a neighbor the walk reads `Node->NodeIndex`. -/
structure FExpandedNeighbor where
  Node : Int
deriving DecidableEq, Repr

/-- Modelled from the spec: `FExpandedNode` is declared in `PCGExCluster.h`, which is not
among the sources. An expanded node is the read-optimized view of a node: the node itself
and its neighbors; where an `int32` is expected it stands for `Node->NodeIndex`. -/
structure FExpandedNode where
  Node : Int
  Neighbors : List FExpandedNeighbor
deriving DecidableEq, Repr

/-- The read `InCluster->GetNode(Index)`; `none` when `Index` is out of bounds. -/
def FCluster.GetNode (C : FCluster) (Index : Int) : Option FNode :=
  if 0 ≤ Index then C.Nodes[Index.toNat]? else none

end PCGExCluster

namespace PCGExTopology

open PCGEx PCGExGraph PCGExCluster

/-- Modelled from the spec: `ECellResult` is declared in `PCGExTopology.h`, which is not
among the sources; these are the results `PCGExTopology.cpp` returns. -/
inductive ECellResult where
  | Unknown
  | Success
  | Duplicate
  | DeadEnd
  | WrongAspect
  | ExceedPointsLimit
  | BelowPointsLimit
  | ExceedBoundsLimit
  | BelowBoundsLimit
  | OpenCell
deriving DecidableEq, Repr

/-- Modelled from the spec: `FCellConstraints` is declared in `PCGExTopology.h`, which is
not among the sources; these are the members `PCGExTopology.cpp` reads or writes. The two
hash sets list their elements in insertion order. -/
structure FCellConstraints where
  bDedupe : Bool
  bConcaveOnly : Bool
  bConvexOnly : Bool
  bKeepContoursWithDeadEnds : Bool
  bDuplicateDeadEndPoints : Bool
  bClosedLoopOnly : Bool
  MaxPointCount : Int
  MinPointCount : Int
  MaxBoundsSize : ℚ
  MinBoundsSize : ℚ
  UniquePathsStartHash : List Nat
  UniquePathsBoxHash : List Int
deriving DecidableEq

/-- Modelled from the spec: `FCell` is declared in `PCGExTopology.h`, which is not among
the sources; these are the members `BuildFromCluster` reads or writes. `BoundsNodes`
stands for `Bounds`: the nodes whose positions were added to the box since it was
reset. -/
structure FCell where
  Nodes : List Int
  BoundsNodes : List Int
  bIsConvex : Bool
  Sign : Int
  bIsClosedLoop : Bool
  bCompiledSuccessfully : Bool
deriving DecidableEq, Repr

/-- The functions `BuildFromCluster` calls that are not among the sources, and the
floating-point values it computes, as functions of the node indices they are computed
from. `GetEdgeOtherNode EdgeIndex NodeIndex` is
`InCluster->GetEdgeOtherNode(EdgeIndex, NodeIndex)->NodeIndex`, `none` when there is no
such node; `SanityAngle PrevIndex NextIndex` is the angle between the seed edge and the
guide; `BoundsSize` is `Bounds.GetSize().Length()` for the box of the given nodes;
`Angle PrevIndex Current Neighbor` is the angle between the direction to the neighbor and
the guide direction at `Current`; `CheckConvex` is `PCGExMath::CheckConvex` on the
positions of three nodes, from and to `bIsConvex` and `Sign`; `HashCombineFast` is the
engine function of that name. -/
structure FContourProbe where
  GetEdgeOtherNode : Int → Int → Option Int
  SanityAngle : Int → Int → ℚ
  BoundsSize : List Int → ℚ
  Angle : Int → Int → Int → ℚ
  CheckConvex : Int → Int → Int → Bool → Int → Bool × Int
  HashCombineFast : Int → Int → Int

namespace FCellConstraints

/-- Source function `FCellConstraints::ContainsSignedEdgeHash`. -/
def ContainsSignedEdgeHash (K : FCellConstraints) (Hash : Nat) : Bool :=
  if !K.bDedupe then false else decide (Hash ∈ K.UniquePathsStartHash)

/-- Source function `FCellConstraints::IsUniqueStartHash`: the value returned and the
constraints afterwards. -/
def IsUniqueStartHash (K : FCellConstraints) (Hash : Nat) : Bool × FCellConstraints :=
  if !K.bDedupe then (true, K)
  else if Hash ∈ K.UniquePathsStartHash then (false, K)
  else (true, { K with UniquePathsStartHash := K.UniquePathsStartHash ++ [Hash] })

/-- Source function `FCellConstraints::IsUniqueCellHash`: the value returned and the
constraints afterwards. -/
def IsUniqueCellHash (HashCombineFast : Int → Int → Int) (K : FCellConstraints)
    (InCell : FCell) : Bool × FCellConstraints :=
  if !K.bDedupe then (true, K)
  else
    let Nodes := TArraySort (fun (A B : Int) => decide (A < B)) InCell.Nodes
    let Hash := Nodes.foldl HashCombineFast 0
    if Hash ∈ K.UniquePathsBoxHash then (false, K)
    else (true, { K with UniquePathsBoxHash := K.UniquePathsBoxHash ++ [Hash] })

end FCellConstraints

/-- How a call of `BuildFromCluster` ends: it returns a result, leaving the cell and the
constraints as given, or it reads an array outside its bounds. -/
inductive FBuildOutcome where
  | Returned (Result : ECellResult) (Cell : FCell) (Constraints : FCellConstraints)
  | OutOfBounds
deriving DecidableEq

namespace FCell

/-- The signed edge hash `PCGEx::H64(PrevIndex, NextIndex)` of two `int32` indices. -/
def SignedEdgeHash (PrevIndex NextIndex : Int) : Nat :=
  H64 (toUInt32 PrevIndex) (toUInt32 NextIndex)

/-- The locals of `BuildFromCluster` that live across the iterations of the walk loop,
with the cell. -/
structure FWalk where
  StartNodeIndex : Int
  UniqueStartEdgeHash : Nat
  PrevIndex : Int
  NextIndex : Int
  NumNodes : Int
  Exclusions : List Int
  SignedEdges : List Nat
  bHasAdjacencyToStart : Bool
  Cell : FCell
deriving DecidableEq, Repr

/-- How one iteration of the walk loop ends: at the end of the body, by `break`, by
`return`, or by a read outside the bounds of an array. -/
inductive FIteration where
  | Continue (W : FWalk)
  | Break (W : FWalk)
  | Return (Result : ECellResult) (Cell : FCell)
  | OutOfBounds
deriving DecidableEq, Repr

/-- The loop `for (const FExpandedNeighbor& N : Current.Neighbors)` over the neighbors
still to visit: `bHasAdjacencyToStart`, `BestAngle` and `NextBest` afterwards. -/
def NeighborLoop (G : FContourProbe) (StartNodeIndex : Int) (Exclusions : List Int)
    (PrevIndex Current : Int) : List FExpandedNeighbor → Bool × ℚ × Int → Bool × ℚ × Int
  | [], St => St
  | N :: Rest, (bHasAdjacencyToStart, BestAngle, NextBest) =>
    let NeighborIndex := N.Node
    let bHasAdjacencyToStart1 :=
      if NeighborIndex = StartNodeIndex then true else bHasAdjacencyToStart
    if NeighborIndex ∈ Exclusions then
      NeighborLoop G StartNodeIndex Exclusions PrevIndex Current Rest
        (bHasAdjacencyToStart1, BestAngle, NextBest)
    else if G.Angle PrevIndex Current NeighborIndex > BestAngle then
      NeighborLoop G StartNodeIndex Exclusions PrevIndex Current Rest
        (bHasAdjacencyToStart1, G.Angle PrevIndex Current NeighborIndex, NeighborIndex)
    else
      NeighborLoop G StartNodeIndex Exclusions PrevIndex Current Rest
        (bHasAdjacencyToStart1, BestAngle, NextBest)

/-- Engine function `TArray::Last(IndexFromTheEnd)`; `none` when out of bounds. -/
def Last (Nodes : List Int) (IndexFromTheEnd : Nat) : Option Int :=
  if IndexFromTheEnd < Nodes.length then Nodes[Nodes.length - 1 - IndexFromTheEnd]? else none

/-- The end of the body of the walk loop, from `if (NextBest != -1)` on. -/
def WalkNext (K : FCellConstraints) (G : FContourProbe) (InCluster : FCluster) (W : FWalk)
    (NextBest : Int) : FIteration :=
  if NextBest ≠ -1 then
    match InCluster.GetNode NextBest with
    | none => FIteration.OutOfBounds
    | some Node =>
      if Node.Adjacency.length = 1 ∧ K.bKeepContoursWithDeadEnds = false then
        FIteration.Return ECellResult.DeadEnd W.Cell
      else if W.NumNodes > K.MaxPointCount then
        FIteration.Return ECellResult.ExceedBoundsLimit W.Cell
      else if W.NumNodes > 2 then
        match Last W.Cell.Nodes 2, Last W.Cell.Nodes 1, Last W.Cell.Nodes 0 with
        | some A, some B, some C =>
          let R := G.CheckConvex A B C W.Cell.bIsConvex W.Cell.Sign
          let Cell1 := { W.Cell with bIsConvex := R.1, Sign := R.2 }
          if K.bConvexOnly = true ∧ R.1 = false then
            FIteration.Return ECellResult.WrongAspect Cell1
          else FIteration.Continue { W with Cell := Cell1, NextIndex := NextBest }
        | _, _, _ => FIteration.OutOfBounds
      else FIteration.Continue { W with NextIndex := NextBest }
  else FIteration.Continue { W with NextIndex := -1 }

/-- The body of the walk loop `while (NextIndex != -1)`. -/
def WalkBody (K : FCellConstraints) (G : FContourProbe) (InCluster : FCluster)
    (ExpandedNodes : List FExpandedNode) (W : FWalk) : FIteration :=
  let Hash := SignedEdgeHash W.PrevIndex W.NextIndex
  if Hash ≠ W.UniqueStartEdgeHash ∧ K.ContainsSignedEdgeHash Hash = true then
    FIteration.Return ECellResult.Duplicate W.Cell
  else if Hash ∈ W.SignedEdges then FIteration.Break W
  else
    let SignedEdges := W.SignedEdges ++ [Hash]
    match (if 0 ≤ W.NextIndex then ExpandedNodes[W.NextIndex.toNat]? else none) with
    | none => FIteration.OutOfBounds
    | some Current =>
      let Cell1 := { W.Cell with Nodes := W.Cell.Nodes ++ [Current.Node] }
      let NumNodes : Int := Cell1.Nodes.length
      if NumNodes > K.MaxPointCount then
        FIteration.Return ECellResult.ExceedPointsLimit Cell1
      else
        let Cell2 := { Cell1 with BoundsNodes := Cell1.BoundsNodes ++ [Current.Node] }
        if G.BoundsSize Cell2.BoundsNodes > K.MaxBoundsSize then
          FIteration.Return ECellResult.ExceedBoundsLimit Cell2
        else
          match InCluster.GetNode W.PrevIndex with
          | none => FIteration.OutOfBounds
          | some _ =>
            let Cell3 :=
              if Current.Neighbors.length = 1 ∧ K.bDuplicateDeadEndPoints = true
              then { Cell2 with Nodes := Cell2.Nodes ++ [Current.Node] } else Cell2
            let Exclusions :=
              if Current.Neighbors.length > 1 ∧ W.PrevIndex ∉ W.Exclusions
              then W.Exclusions ++ [W.PrevIndex] else W.Exclusions
            let R := NeighborLoop G W.StartNodeIndex Exclusions W.PrevIndex Current.Node
              Current.Neighbors (false, -1, -1)
            let bHasAdjacencyToStart := if R.2.2 = W.StartNodeIndex then true else R.1
            let NextBest := if R.2.2 = W.StartNodeIndex then -1 else R.2.2
            WalkNext K G InCluster
              { W with SignedEdges := SignedEdges, Cell := Cell3, NumNodes := NumNodes,
                       PrevIndex := W.NextIndex, Exclusions := [],
                       bHasAdjacencyToStart := bHasAdjacencyToStart }
              NextBest

/-- The end of `BuildFromCluster`, after the walk loop. -/
def Finish (K : FCellConstraints) (G : FContourProbe) (W : FWalk) : FBuildOutcome :=
  let Cell1 := { W.Cell with bIsClosedLoop := W.bHasAdjacencyToStart }
  if K.bClosedLoopOnly = true ∧ Cell1.bIsClosedLoop = false then
    FBuildOutcome.Returned ECellResult.OpenCell Cell1 K
  else if K.bConcaveOnly = true ∧ Cell1.bIsConvex = true then
    FBuildOutcome.Returned ECellResult.WrongAspect Cell1 K
  else if W.NumNodes < K.MinPointCount then
    FBuildOutcome.Returned ECellResult.BelowPointsLimit Cell1 K
  else if G.BoundsSize Cell1.BoundsNodes < K.MinBoundsSize then
    FBuildOutcome.Returned ECellResult.BelowBoundsLimit Cell1 K
  else
    let R := K.IsUniqueCellHash G.HashCombineFast Cell1
    if R.1 = false then FBuildOutcome.Returned ECellResult.Duplicate Cell1 R.2
    else FBuildOutcome.Returned ECellResult.Success
      { Cell1 with bCompiledSuccessfully := true } R.2

/-- The walk loop `while (NextIndex != -1) { ... }` and the code after it; `none` when the
fuel runs out before the loop is left. -/
def WalkLoop (K : FCellConstraints) (G : FContourProbe) (InCluster : FCluster)
    (ExpandedNodes : List FExpandedNode) : Nat → FWalk → Option FBuildOutcome
  | 0, _ => none
  | fuel + 1, W =>
    if W.NextIndex = -1 then some (Finish K G W)
    else
      match WalkBody K G InCluster ExpandedNodes W with
      | FIteration.Continue W1 => WalkLoop K G InCluster ExpandedNodes fuel W1
      | FIteration.Break W1 => some (Finish K G W1)
      | FIteration.Return Result Cell => some (FBuildOutcome.Returned Result Cell K)
      | FIteration.OutOfBounds => some FBuildOutcome.OutOfBounds

/-- The locals of `BuildFromCluster` when the walk loop is entered, with the constraints
after `IsUniqueStartHash`; or the outcome, when the function ends before the loop. -/
def WalkStart (K : FCellConstraints) (G : FContourProbe) (InCluster : FCluster)
    (Cell : FCell) (SeedNodeIndex SeedEdgeIndex : Int) :
    FBuildOutcome ⊕ (FCellConstraints × FWalk) :=
  let Cell0 := { Cell with bCompiledSuccessfully := false, BoundsNodes := [] }
  match G.GetEdgeOtherNode SeedEdgeIndex SeedNodeIndex with
  | none => Sum.inl FBuildOutcome.OutOfBounds
  | some OtherNode =>
    match InCluster.GetNode SeedNodeIndex, InCluster.GetNode OtherNode with
    | some StartNode, some _ =>
      let bStartIsDeadEnd := decide (StartNode.Adjacency.length = 1)
      if bStartIsDeadEnd = true ∧ K.bKeepContoursWithDeadEnds = false then
        Sum.inl (FBuildOutcome.Returned ECellResult.DeadEnd Cell0 K)
      else
        let bSwap := decide (G.SanityAngle SeedNodeIndex OtherNode > 180 ∧ bStartIsDeadEnd = false)
        let PrevIndex := if bSwap then OtherNode else SeedNodeIndex
        let NextIndex := if bSwap then SeedNodeIndex else OtherNode
        let StartNodeIndex := PrevIndex
        let UniqueStartEdgeHash := SignedEdgeHash PrevIndex NextIndex
        let R := K.IsUniqueStartHash UniqueStartEdgeHash
        if R.1 = false then Sum.inl (FBuildOutcome.Returned ECellResult.Duplicate Cell0 R.2)
        else
          let Cell1 := { Cell0 with BoundsNodes := [PrevIndex], Nodes := Cell0.Nodes ++ [PrevIndex] }
          Sum.inr (R.2,
            { StartNodeIndex := StartNodeIndex, UniqueStartEdgeHash := UniqueStartEdgeHash,
              PrevIndex := PrevIndex, NextIndex := NextIndex,
              NumNodes := (Cell1.Nodes.length : Int),
              Exclusions := if PrevIndex = NextIndex then [PrevIndex] else [PrevIndex, NextIndex],
              SignedEdges := [], bHasAdjacencyToStart := false, Cell := Cell1 })
    | _, _ => Sum.inl FBuildOutcome.OutOfBounds

/-- Source function `FCell::BuildFromCluster` on the cell `Cell`; `none` when the fuel
runs out before the walk loop is left. -/
def BuildFromCluster (K : FCellConstraints) (G : FContourProbe) (InCluster : FCluster)
    (ExpandedNodes : List FExpandedNode) (fuel : Nat) (Cell : FCell)
    (SeedNodeIndex SeedEdgeIndex : Int) : Option FBuildOutcome :=
  match WalkStart K G InCluster Cell SeedNodeIndex SeedEdgeIndex with
  | Sum.inl Outcome => some Outcome
  | Sum.inr (K1, W) => WalkLoop K1 G InCluster ExpandedNodes fuel W

/-- A cell as constructed: no nodes, convex, not compiled. -/
def exampleCell : FCell :=
  { Nodes := [], BoundsNodes := [], bIsConvex := true, Sign := 0, bIsClosedLoop := false,
    bCompiledSuccessfully := false }

/-- A cluster of two nodes joined by the edge 0. -/
def exampleSegment : FCluster :=
  { Nodes := [⟨true, 0, [H64 1 0]⟩, ⟨true, 1, [H64 0 0]⟩],
    Edges := [⟨0, 1, 0, true⟩], NodeIndexLookup := [(0, 0), (1, 1)] }

/-- The expanded nodes of `exampleSegment`. -/
def exampleSegmentExpanded : List FExpandedNode := [⟨0, [⟨1⟩]⟩, ⟨1, [⟨0⟩]⟩]

/-- The probe of `exampleSegment`: the node 0 at the origin, the node 1 at distance 1;
no angle is above 180 degrees. -/
def exampleSegmentProbe : FContourProbe :=
  { GetEdgeOtherNode := fun EdgeIndex NodeIndex =>
      if EdgeIndex = 0 ∧ NodeIndex = 0 then some 1
      else if EdgeIndex = 0 ∧ NodeIndex = 1 then some 0 else none,
    SanityAngle := fun _ _ => 90,
    BoundsSize := fun Nodes => if 0 ∈ Nodes ∧ 1 ∈ Nodes then 1 else 0,
    Angle := fun _ _ _ => 0,
    CheckConvex := fun _ _ _ bIsConvex Sign => (bIsConvex, Sign),
    HashCombineFast := fun A B => A * 31 + B }

/-- Constraints that keep contours with dead ends, duplicate dead-end points and allow
at most two points in a cell. -/
def exampleTwoPointConstraints : FCellConstraints :=
  { bDedupe := false, bConcaveOnly := false, bConvexOnly := false,
    bKeepContoursWithDeadEnds := true, bDuplicateDeadEndPoints := true,
    bClosedLoopOnly := false, MaxPointCount := 2, MinPointCount := 0,
    MaxBoundsSize := 100, MinBoundsSize := 0,
    UniquePathsStartHash := [], UniquePathsBoxHash := [] }

end FCell

end PCGExTopology

namespace PCGExTopology

namespace FCell

open PCGEx PCGExGraph PCGExCluster

/-- The signed edge hashes of the pairs of indices below `Bound`. -/
def PairHashes (Bound : Nat) : List Nat :=
  (List.range Bound).flatMap (fun (A : Nat) =>
    (List.range Bound).map (fun (B : Nat) => SignedEdgeHash (A : Int) (B : Int)))

/-- What the termination of the walk loop rests on: the signed edges recorded so far are
pairwise distinct hashes of pairs of indices below `Bound`, and `PrevIndex` is such an
index. -/
def WalkInvariant (Bound : Nat) (W : FWalk) : Prop :=
  W.SignedEdges.Nodup ∧ (∀ Hash ∈ W.SignedEdges, Hash ∈ PairHashes Bound) ∧
  0 ≤ W.PrevIndex ∧ W.PrevIndex < Bound

/-- The inputs of `BuildFromCluster` are well formed: there is one expanded node per node
of the cluster, every neighbor of an expanded node is a node of the cluster, and the seed
node and the other end of the seed edge are nodes of the cluster. -/
def WellFormed (G : FContourProbe) (InCluster : FCluster)
    (ExpandedNodes : List FExpandedNode) (SeedNodeIndex SeedEdgeIndex : Int) : Prop :=
  ExpandedNodes.length = InCluster.Nodes.length ∧
  (∀ Current ∈ ExpandedNodes, ∀ N ∈ Current.Neighbors,
    0 ≤ N.Node ∧ N.Node < InCluster.Nodes.length) ∧
  (0 ≤ SeedNodeIndex ∧ SeedNodeIndex < InCluster.Nodes.length) ∧
  ∃ OtherNode, G.GetEdgeOtherNode SeedEdgeIndex SeedNodeIndex = some OtherNode ∧
    0 ≤ OtherNode ∧ OtherNode < InCluster.Nodes.length

/-- The indices the next iteration of the walk reads with are in bounds: `PrevIndex` is a
node of the cluster, and so is `NextIndex` unless it is -1. -/
def WalkInBounds (InCluster : FCluster) (W : FWalk) : Prop :=
  (0 ≤ W.PrevIndex ∧ W.PrevIndex < InCluster.Nodes.length) ∧
  (W.NextIndex = -1 ∨ (0 ≤ W.NextIndex ∧ W.NextIndex < InCluster.Nodes.length))

end FCell

end PCGExTopology

namespace PCGExTopology

namespace FCell

open PCGEx PCGExGraph PCGExCluster

/-- The counter `NumNodes` against the entries of `Nodes`: it never exceeds their number
and lags by at most one, and it is within `MaxPointCount` unless no iteration of the walk
has run yet. -/
def CountInvariant (K : FCellConstraints) (W : FWalk) : Prop :=
  W.NumNodes ≤ W.Cell.Nodes.length ∧ (W.Cell.Nodes.length : Int) ≤ W.NumNodes + 1 ∧
  (W.NumNodes ≤ K.MaxPointCount ∨ (W.SignedEdges = [] ∧ W.NextIndex ≠ -1))

end FCell

end PCGExTopology

/-! # Theorems -/

/-! ## Dispatch loops of `FPathProcessor` -/

namespace PCGExPointsMT

open PCGEx PCGExMT PCGExData

theorem wrapInt32_of_range {x : Int} (h1 : -2147483648 ≤ x) (h2 : x < 2147483648) :
    wrapInt32 x = x := by
  unfold wrapInt32; omega

theorem mapM_option_eq_some_map {α β : Type} (f : α → Option β) (g : α → β) (l : List α)
    (h : ∀ x ∈ l, f x = some (g x)) : l.mapM f = some (l.map g) := by
  induction l with
  | nil => rfl
  | cons a l ih =>
    have ha := h a (List.mem_cons_self a l)
    have hl := ih (fun x hx => h x (List.mem_cons_of_mem a hx))
    rw [List.mapM_cons, ha, hl]; rfl

theorem chunksFrom_of_le {Num PLI CurrentCount : Int} (hP : 1 ≤ PLI) (h : Num ≤ CurrentCount) :
    chunksFrom Num PLI CurrentCount = [] := by
  unfold chunksFrom
  have : (Num - CurrentCount + PLI - 1) / PLI ≤ 0 := by
    have h1 : Num - CurrentCount + PLI - 1 < 1 * PLI := by omega
    have := Int.ediv_lt_of_lt_mul (by omega : 0 < PLI) h1
    omega
  rw [Int.toNat_of_nonpos this]; rfl

theorem chunksFrom_of_lt {Num PLI CurrentCount : Int} (hP : 1 ≤ PLI) (h : CurrentCount < Num) :
    chunksFrom Num PLI CurrentCount =
      ⟨CurrentCount, min (Num - CurrentCount) PLI⟩ :: chunksFrom Num PLI (CurrentCount + PLI) := by
  unfold chunksFrom
  have hq : (Num - CurrentCount + PLI - 1) / PLI
      = (Num - (CurrentCount + PLI) + PLI - 1) / PLI + 1 := by
    have : Num - CurrentCount + PLI - 1 = (Num - (CurrentCount + PLI) + PLI - 1) + 1 * PLI := by
      ring
    rw [this, Int.add_mul_ediv_right _ _ (by omega : PLI ≠ 0)]
  have hnn : 0 ≤ (Num - (CurrentCount + PLI) + PLI - 1) / PLI :=
    Int.ediv_nonneg (by omega) (by omega)
  rw [hq, Int.toNat_add hnn (by omega), show (1 : Int).toNat = 1 from rfl,
    List.range_succ_eq_map]
  simp only [List.map_cons, List.map_map]
  congr 1
  · simp
  · apply List.map_congr_left
    intro k _
    simp only [Function.comp, Nat.succ_eq_add_one, Nat.cast_add, Nat.cast_one]
    congr 1 <;> ring_nf

/-- The chunk count from `CurrentCount` on, one more than from `CurrentCount + PLI` on. -/
theorem chunk_quotient_step (Num PLI CurrentCount : Int) (hP : 1 ≤ PLI)
    (h : CurrentCount < Num) :
    (Num - CurrentCount + PLI - 1) / PLI = (Num - (CurrentCount + PLI) + PLI - 1) / PLI + 1 ∧
    0 ≤ (Num - (CurrentCount + PLI) + PLI - 1) / PLI := by
  constructor
  · have : Num - CurrentCount + PLI - 1
        = (Num - (CurrentCount + PLI) + PLI - 1) + 1 * PLI := by ring
    rw [this, Int.add_mul_ediv_right _ _ (by omega : PLI ≠ 0)]
  · exact Int.ediv_nonneg (by omega) (by omega)

/-- With a per-loop size of at least one and a counter that stays within `int32` up to
its last value, the dispatch loop returns once the fuel exceeds the number of iterations
left, and starts the ranges of `chunksFrom`. -/
theorem dispatchLoop_eq (Num PLI : Int) (hP : 1 ≤ PLI) :
    ∀ (n : Nat) (CurrentCount : Int), 0 ≤ CurrentCount → Num - CurrentCount ≤ n →
      CurrentCount + (Num - CurrentCount + PLI - 1) / PLI * PLI < 2147483648 →
      dispatchLoop Num PLI (n + 1) CurrentCount = some (chunksFrom Num PLI CurrentCount) := by
  intro n
  induction n with
  | zero =>
    intro cc h0 h _
    unfold dispatchLoop
    rw [if_neg (by push_cast at h; omega), chunksFrom_of_le hP (by push_cast at h; omega)]
  | succ n ih =>
    intro cc h0 hf hB
    unfold dispatchLoop
    by_cases hlt : cc < Num
    · obtain ⟨hq, hq0⟩ := chunk_quotient_step Num PLI cc hP hlt
      have hmul : (Num - cc + PLI - 1) / PLI * PLI
          = (Num - (cc + PLI) + PLI - 1) / PLI * PLI + PLI := by rw [hq]; ring
      have hnn : 0 ≤ (Num - (cc + PLI) + PLI - 1) / PLI * PLI :=
        Int.mul_nonneg hq0 (by omega)
      have hceil : Num - (cc + PLI) + PLI - 1
          < ((Num - (cc + PLI) + PLI - 1) / PLI + 1) * PLI :=
        Int.lt_ediv_add_one_mul_self _ (by omega)
      have hexp : ((Num - (cc + PLI) + PLI - 1) / PLI + 1) * PLI
          = (Num - (cc + PLI) + PLI - 1) / PLI * PLI + PLI := by ring
      have hw : wrapInt32 (cc + PLI) = cc + PLI := wrapInt32_of_range (by omega) (by omega)
      have hw2 : wrapInt32 (Num - cc) = Num - cc := wrapInt32_of_range (by omega) (by omega)
      rw [if_pos hlt, hw, hw2,
        ih (cc + PLI) (by omega) (by push_cast at hf ⊢; omega) (by omega),
        chunksFrom_of_lt hP hlt]
      rfl
    · rw [if_neg hlt, chunksFrom_of_le hP (by omega)]

theorem dispatchLoop_of_fuel (Num PLI : Int) (hN : 0 ≤ Num) (hP : 1 ≤ PLI)
    (hB : (Num + PLI - 1) / PLI * PLI < 2147483648) (fuel : Nat) (hf : Num < fuel) :
    dispatchLoop Num PLI fuel 0 = some (chunksFrom Num PLI 0) := by
  obtain ⟨n, rfl⟩ : ∃ n, fuel = n + 1 := ⟨fuel - 1, by omega⟩
  exact dispatchLoop_eq Num PLI hP n 0 (le_refl 0) (by push_cast at hf; omega)
    (by simpa using hB)

/-- The quotient that counts the chunks: `m = ceil(Num / PLI)`. -/
theorem ceil_bounds (Num PLI : Int) (hP : 1 ≤ PLI) :
    ((Num + PLI - 1) / PLI) * PLI ≤ Num + PLI - 1 ∧ Num ≤ ((Num + PLI - 1) / PLI) * PLI := by
  have h1 := Int.ediv_mul_le (Num + PLI - 1) (by omega : PLI ≠ 0)
  have h2 := Int.lt_ediv_add_one_mul_self (Num + PLI - 1) (by omega : 0 < PLI)
  constructor
  · exact h1
  · have : ((Num + PLI - 1) / PLI + 1) * PLI = ((Num + PLI - 1) / PLI) * PLI + PLI := by ring
    omega

theorem chunksFrom_length (Num PLI : Int) (hN : 0 ≤ Num) (hP : 1 ≤ PLI) :
    ((chunksFrom Num PLI 0).length : Int) = (Num + PLI - 1) / PLI := by
  unfold chunksFrom
  simp only [List.length_map, List.length_range, sub_zero]
  exact Int.toNat_of_nonneg (Int.ediv_nonneg (by omega) (by omega))

theorem chunksFrom_getElem? (Num PLI : Int) (k : Nat)
    (hk : k < (chunksFrom Num PLI 0).length) :
    (chunksFrom Num PLI 0)[k]? = some ⟨(k : Int) * PLI, min (Num - (k : Int) * PLI) PLI⟩ := by
  unfold chunksFrom at hk ⊢
  simp only [List.length_map, List.length_range, sub_zero] at hk
  simp only [sub_zero, zero_add]
  rw [List.getElem?_map, List.getElem?_range hk]; rfl

/-- Below the chunk count, the `k`-th chunk starts before `Num`; when it is not the last
one it is followed by at least one more iteration. -/
theorem chunk_start_lt (Num PLI : Int) (hP : 1 ≤ PLI) (k : Int)
    (hk : k + 1 ≤ (Num + PLI - 1) / PLI) : k * PLI + 1 ≤ Num := by
  have h := (ceil_bounds Num PLI hP).1
  have h2 : (k + 1) * PLI ≤ ((Num + PLI - 1) / PLI) * PLI :=
    Int.mul_le_mul_of_nonneg_right hk (by omega)
  have h3 : (k + 1) * PLI = k * PLI + PLI := by ring
  omega

end PCGExPointsMT

namespace PCGExPointsMT

open PCGEx PCGExMT PCGExData

theorem chunksFrom_mem (Num PLI : Int) (T : FRangeTask) (hT : T ∈ chunksFrom Num PLI 0) :
    ∃ k : Nat, k < (chunksFrom Num PLI 0).length ∧
      T = ⟨(k : Int) * PLI, min (Num - (k : Int) * PLI) PLI⟩ := by
  obtain ⟨k, hk, hget⟩ := List.getElem_of_mem hT
  refine ⟨k, hk, ?_⟩
  have h1 := chunksFrom_getElem? Num PLI k hk
  rw [List.getElem?_eq_getElem hk, hget] at h1
  exact Option.some.inj h1

theorem chunksFrom_start_lt (Num PLI : Int) (hN : 0 ≤ Num) (hP : 1 ≤ PLI) (k : Nat)
    (hk : k < (chunksFrom Num PLI 0).length) : (k : Int) * PLI + 1 ≤ Num := by
  apply chunk_start_lt Num PLI hP k
  rw [← chunksFrom_length Num PLI hN hP]; exact_mod_cast hk

/-- Every chunk lies within `[0, Num)`. -/
theorem chunksFrom_within (Num PLI : Int) (hP : 1 ≤ PLI) :
    ∀ T ∈ chunksFrom Num PLI 0, 0 ≤ T.TaskIndex ∧ T.TaskIndex + T.Iterations ≤ Num := by
  intro T hT
  by_cases hN : 0 ≤ Num
  · obtain ⟨k, hk, rfl⟩ := chunksFrom_mem Num PLI T hT
    have := chunksFrom_start_lt Num PLI hN hP k hk
    have h0 : 0 ≤ (k : Int) * PLI := Int.mul_nonneg (by omega) (by omega)
    simp only
    omega
  · rw [chunksFrom_of_le hP (by omega)] at hT
    exact absurd hT (List.not_mem_nil T)

/-- C5 (amended): for `N >= 0` and a per-loop size `PLI >= 1` with
`ceil(N / PLI) * PLI < 2^31` (the loop counter stays within `int32`), the non-trivial
branch of
`StartParallelLoopForRange` and of `StartParallelLoopForPoints` returns and starts exactly
`ceil(N / PLI)` ranges, the `k`-th being `(k * PLI, min (N - k * PLI) PLI)`; every count
lies in `[1, PLI]`, every range but the last has `PLI` iterations, every range lies within
`[0, N)`, and every index of `[0, N)` lies in exactly one range. -/
theorem StartParallelLoop_dispatches_disjoint_chunks (S : UPCGExGlobalSettings)
    (N PerLoopIterations : Int) (fuel : Nat) (hN : 0 ≤ N)
    (hP : 1 ≤ S.GetPointsBatchIteration PerLoopIterations)
    (hB : (N + S.GetPointsBatchIteration PerLoopIterations - 1)
      / S.GetPointsBatchIteration PerLoopIterations
      * S.GetPointsBatchIteration PerLoopIterations < 2147483648) (hf : N < fuel) :
    ∃ Chunks : List FRangeTask,
      StartParallelLoopForRange S false N PerLoopIterations fuel = some ⟨[], Chunks⟩ ∧
      StartParallelLoopForPoints S false N PerLoopIterations fuel = some ⟨[], Chunks⟩ ∧
      (N ≤ Chunks.length * S.GetPointsBatchIteration PerLoopIterations ∧
        Chunks.length * S.GetPointsBatchIteration PerLoopIterations
          < N + S.GetPointsBatchIteration PerLoopIterations) ∧
      (∀ k : Nat, k < Chunks.length →
        Chunks[k]? = some ⟨k * S.GetPointsBatchIteration PerLoopIterations,
          min (N - k * S.GetPointsBatchIteration PerLoopIterations)
            (S.GetPointsBatchIteration PerLoopIterations)⟩) ∧
      (∀ T ∈ Chunks, 1 ≤ T.Iterations ∧
        T.Iterations ≤ S.GetPointsBatchIteration PerLoopIterations) ∧
      (∀ k : Nat, k + 1 < Chunks.length →
        ∃ T, Chunks[k]? = some T ∧ T.Iterations = S.GetPointsBatchIteration PerLoopIterations) ∧
      (∀ T ∈ Chunks, 0 ≤ T.TaskIndex ∧ T.TaskIndex + T.Iterations ≤ N) ∧
      (∀ i : Int, 0 ≤ i → i < N →
        ∃! k : Nat, ∃ T, Chunks[k]? = some T ∧ T.TaskIndex ≤ i ∧
          i < T.TaskIndex + T.Iterations) := by
  generalize hPLI : S.GetPointsBatchIteration PerLoopIterations = PLI at hP hB ⊢
  have hloop := dispatchLoop_of_fuel N PLI hN hP hB fuel hf
  have hlen := chunksFrom_length N PLI hN hP
  have hceil := ceil_bounds N PLI hP
  have hstart := chunksFrom_start_lt N PLI hN hP
  refine ⟨chunksFrom N PLI 0, ?_, ?_, ?_, ?_, ?_, ?_, ?_, ?_⟩
  · simp [StartParallelLoopForRange, hPLI, hloop]
  · simp [StartParallelLoopForPoints, hPLI, hloop]
  · rw [hlen]; omega
  · intro k hk; exact chunksFrom_getElem? N PLI k hk
  · intro T hT
    obtain ⟨k, hk, rfl⟩ := chunksFrom_mem N PLI T hT
    have := hstart k hk
    simp only
    omega
  · intro k hk
    refine ⟨_, chunksFrom_getElem? N PLI k (by omega), ?_⟩
    have := hstart (k + 1) hk
    have h3 : ((k + 1 : Nat) : Int) * PLI = (k : Int) * PLI + PLI := by push_cast; ring
    simp only
    omega
  · exact chunksFrom_within N PLI hP
  · intro i hi0 hiN
    have hPpos : 0 < PLI := by omega
    have hq0 : 0 ≤ i / PLI := Int.ediv_nonneg hi0 (by omega)
    have hq1 : (i / PLI) * PLI ≤ i := Int.ediv_mul_le i (by omega)
    have hq2 : i < (i / PLI + 1) * PLI := Int.lt_ediv_add_one_mul_self i hPpos
    have hq3 : (i / PLI + 1) * PLI = (i / PLI) * PLI + PLI := by ring
    have hqm : i / PLI < (N + PLI - 1) / PLI :=
      Int.ediv_lt_of_lt_mul hPpos (by omega)
    have hklen : (i / PLI).toNat < (chunksFrom N PLI 0).length := by
      have : ((i / PLI).toNat : Int) < ((chunksFrom N PLI 0).length : Int) := by
        rw [hlen, Int.toNat_of_nonneg hq0]; exact hqm
      exact_mod_cast this
    refine ⟨(i / PLI).toNat, ⟨_, chunksFrom_getElem? N PLI _ hklen, ?_, ?_⟩, ?_⟩
    · simp only [Int.toNat_of_nonneg hq0]; omega
    · simp only [Int.toNat_of_nonneg hq0]; omega
    · rintro k ⟨T, hT, h1, h2⟩
      have hk : k < (chunksFrom N PLI 0).length := by
        by_contra hcon
        rw [List.getElem?_eq_none (by omega)] at hT
        exact Option.noConfusion hT
      rw [chunksFrom_getElem? N PLI k hk] at hT
      obtain rfl := Option.some.inj hT
      simp only at h1 h2
      have h4 : (k : Int) ≤ i / PLI := Int.le_ediv_of_mul_le hPpos h1
      have h5 : i / PLI < (k : Int) + 1 := by
        apply Int.ediv_lt_of_lt_mul hPpos
        have : ((k : Int) + 1) * PLI = (k : Int) * PLI + PLI := by ring
        omega
      omega

/-- At `int32` boundary values the loop counter of the dispatch loop wraps around and the
loop never exits. -/
theorem dispatchLoop_overflow_cycle (fuel : Nat) :
    dispatchLoop 2147483647 1073741824 fuel 0 = none ∧
    dispatchLoop 2147483647 1073741824 fuel 1073741824 = none ∧
    dispatchLoop 2147483647 1073741824 fuel (-2147483648) = none ∧
    dispatchLoop 2147483647 1073741824 fuel (-1073741824) = none := by
  induction fuel with
  | zero => exact ⟨rfl, rfl, rfl, rfl⟩
  | succ n ih =>
    obtain ⟨h0, h1, h2, h3⟩ := ih
    have w0 : wrapInt32 (0 + 1073741824) = 1073741824 := by decide
    have w1 : wrapInt32 (1073741824 + 1073741824) = -2147483648 := by decide
    have w2 : wrapInt32 (-2147483648 + 1073741824) = -1073741824 := by decide
    have w3 : wrapInt32 (-1073741824 + 1073741824) = 0 := by decide
    refine ⟨?_, ?_, ?_, ?_⟩
    · unfold dispatchLoop; rw [if_pos (by decide), w0, h1]; rfl
    · unfold dispatchLoop; rw [if_pos (by decide), w1, h2]; rfl
    · unfold dispatchLoop; rw [if_pos (by decide), w2, h3]; rfl
    · unfold dispatchLoop; rw [if_pos (by decide), w3, h0]; rfl

/-- C5 (counterexample): with `N = 2^31 - 1` and `PLI = 2^30` the non-trivial branch of
`StartParallelLoopForRange` never finishes dispatching, whatever the fuel: it does not
start the two ranges `(0, 2^30)` and `(2^30, 2^30 - 1)` and stop. -/
theorem StartParallelLoopForRange_overflow_no_chunks :
    ¬ ∃ fuel : Nat, StartParallelLoopForRange {} false 2147483647 1073741824 fuel
      = some ⟨[], chunksFrom 2147483647 1073741824 0⟩ := by
  rintro ⟨fuel, h⟩
  have hg : UPCGExGlobalSettings.GetPointsBatchIteration {} 1073741824 = 1073741824 := by decide
  simp [StartParallelLoopForRange, hg, (dispatchLoop_overflow_cycle fuel).1] at h

end PCGExPointsMT

namespace PCGExPointsMT

open PCGEx PCGExMT PCGExData

theorem ProcessRange_eq (Num s c : Int) (hs : 0 ≤ s) (hc : s + c ≤ Num)
    (hNum : Num < 2147483648) :
    ProcessRange s c = (List.range c.toNat).map (fun (i : Nat) => s + (i : Int)) := by
  unfold ProcessRange forRange
  rw [List.map_map]
  apply List.map_congr_left
  intro i hi
  have hi := List.mem_range.mp hi
  simp only [Function.comp, Int.ofNat_eq_coe]
  exact wrapInt32_of_range (by omega) (by omega)

theorem ProcessPoints_eq (NumPoints : ESource → Int) (Source : ESource) (s c : Int)
    (hs : 0 ≤ s) (hc : s + c ≤ NumPoints Source) (hNum : NumPoints Source < 2147483648) :
    ProcessPoints NumPoints Source s c = some (ProcessRange s c) := by
  unfold ProcessPoints ProcessRange
  apply mapM_option_eq_some_map
  intro i hi
  unfold forRange at hi
  obtain ⟨j, hj, rfl⟩ := List.mem_map.mp hi
  have hj := List.mem_range.mp hj
  have hw : wrapInt32 (s + Int.ofNat j) = s + Int.ofNat j :=
    wrapInt32_of_range (by simp only [Int.ofNat_eq_coe]; omega)
      (by simp only [Int.ofNat_eq_coe]; omega)
  simp only [hw]
  rw [if_pos]
  simp only [Int.ofNat_eq_coe]
  omega

/-- Every index `ProcessPoints` hands to `ProcessSinglePoint` is an index of the point
array of its `Source`. -/
theorem ProcessPoints_in_bounds (NumPoints : ESource → Int) (Source : ESource) (s c : Int)
    (Calls : List Int) (h : ProcessPoints NumPoints Source s c = some Calls) :
    ∀ i ∈ Calls, 0 ≤ i ∧ i < NumPoints Source := by
  unfold ProcessPoints at h
  generalize forRange c = l at h
  induction l generalizing Calls with
  | nil =>
    simp only [List.mapM_nil, Option.pure_def, Option.some.injEq] at h
    subst h
    intro i hi
    exact absurd hi (List.not_mem_nil _)
  | cons a l ih =>
    simp only [List.mapM_cons, Option.pure_def, Option.bind_eq_bind] at h
    by_cases hb : 0 ≤ wrapInt32 (s + a) ∧ wrapInt32 (s + a) < NumPoints Source
    · rw [if_pos hb] at h
      simp only [Option.some_bind] at h
      cases hR : List.mapM (fun i =>
          if 0 ≤ wrapInt32 (s + i) ∧ wrapInt32 (s + i) < NumPoints Source then
            some (wrapInt32 (s + i)) else none) l with
      | none => rw [hR] at h; simp at h
      | some R =>
        rw [hR] at h
        simp only [Option.some_bind, Option.some.injEq] at h
        subst h
        intro i hi
        rcases List.mem_cons.mp hi with rfl | hi
        · exact hb
        · exact ih R hR i hi
    · rw [if_neg hb] at h
      simp at h

/-- Executed in dispatch order, the chunks from `CurrentCount` on visit
`CurrentCount, CurrentCount + 1, ..., Num - 1`. -/
theorem runRangeTasks_chunksFrom (Num PLI : Int) (hP : 1 ≤ PLI) (hNum : Num < 2147483648) :
    ∀ (n : Nat) (cc : Int), 0 ≤ cc → Num - cc ≤ n →
      runRangeTasks (chunksFrom Num PLI cc)
        = (List.range (Num - cc).toNat).map (fun (i : Nat) => cc + (i : Int)) := by
  intro n
  induction n with
  | zero =>
    intro cc h0 h
    rw [chunksFrom_of_le hP (by push_cast at h; omega),
      Int.toNat_of_nonpos (by push_cast at h; omega)]
    rfl
  | succ n ih =>
    intro cc h0 h
    by_cases hlt : cc < Num
    · rw [chunksFrom_of_lt hP hlt]
      unfold runRangeTasks
      rw [List.flatMap_cons]
      have ih1 := ih (cc + PLI) (by omega) (by push_cast at h ⊢; omega)
      unfold runRangeTasks at ih1
      rw [ih1]
      unfold FAsyncProcessRange
      simp only
      rw [ProcessRange_eq Num cc (min (Num - cc) PLI) h0 (by omega) hNum]
      have hsplit : (Num - cc).toNat
          = (min (Num - cc) PLI).toNat + (Num - (cc + PLI)).toNat := by omega
      rw [hsplit, List.range_add, List.map_append, List.map_map]
      congr 1
      apply List.map_congr_left
      intro i hi
      have hi := List.mem_range.mp hi
      simp only [Function.comp, Nat.cast_add]
      have : ((min (Num - cc) PLI).toNat : Int) = PLI := by omega
      rw [this]; ring
    · rw [chunksFrom_of_le hP (by omega), Int.toNat_of_nonpos (by omega)]
      rfl

theorem runRangeTasks_chunks (Num PLI : Int) (hN : 0 ≤ Num) (hP : 1 ≤ PLI)
    (hNum : Num < 2147483648) : runRangeTasks (chunksFrom Num PLI 0) = forRange Num := by
  rw [runRangeTasks_chunksFrom Num PLI hP hNum Num.toNat 0 (le_refl 0) (by omega)]
  unfold forRange
  simp

theorem ProcessPointsOverRanges_eq (NumPoints : ESource → Int) (Source : ESource)
    (hNum : NumPoints Source < 2147483648) (Ranges : List FRangeTask)
    (h : ∀ T ∈ Ranges, 0 ≤ T.TaskIndex ∧ T.TaskIndex + T.Iterations ≤ NumPoints Source) :
    ProcessPointsOverRanges NumPoints Source Ranges = some (runRangeTasks Ranges) := by
  unfold ProcessPointsOverRanges runRangeTasks
  rw [mapM_option_eq_some_map
    (fun T => ProcessPoints NumPoints Source T.TaskIndex T.Iterations) FAsyncProcessRange
    Ranges]
  · simp [List.flatMap]
  · intro T hT
    exact ProcessPoints_eq NumPoints Source T.TaskIndex T.Iterations (h T hT).1 (h T hT).2
      hNum

end PCGExPointsMT

namespace PCGExPointsMT

open PCGEx PCGExMT PCGExData

/-- C4 (amended): for `NumIterations >= 0` and a per-loop size `PLI >= 1` with
`ceil(NumIterations / PLI) * PLI < 2^31` (the loop counter stays within `int32`), the
tasks started by the non-trivial branch of `StartParallelLoopForRange`, executed in
dispatch order, call `ProcessSingleRangeIteration` on exactly the index sequence
`0, ..., NumIterations - 1` of the trivial inline branch, and executed in any order on a
permutation of it. `StartParallelLoopForPoints` over the `NumIterations` points of its
`Source` calls `ProcessSinglePoint` on the same sequence in its trivial branch and starts
the same ranges in the other; `ProcessPoints(Source, TaskIndex, Iterations)` called for
these ranges in dispatch order calls `ProcessSinglePoint` on that sequence, no point
index being out of bounds, and in any order on a permutation of it. What the started
`FAsyncProcessPointRange` task passes to `ProcessPoints` is not part of the statement. -/
theorem trivial_and_parallel_loops_visit_same_indices (S : UPCGExGlobalSettings)
    (N PerLoopIterations : Int) (fuel : Nat) (hN : 0 ≤ N)
    (hP : 1 ≤ S.GetPointsBatchIteration PerLoopIterations)
    (hB : (N + S.GetPointsBatchIteration PerLoopIterations - 1)
      / S.GetPointsBatchIteration PerLoopIterations
      * S.GetPointsBatchIteration PerLoopIterations < 2147483648) (hf : N < fuel) :
    ∃ (Tasks : List FRangeTask) (Inline : List Int),
      Inline = (List.range N.toNat).map Int.ofNat ∧
      StartParallelLoopForRange S true N PerLoopIterations fuel = some ⟨Inline, []⟩ ∧
      StartParallelLoopForRange S false N PerLoopIterations fuel = some ⟨[], Tasks⟩ ∧
      runRangeTasks Tasks = Inline ∧
      (∀ Order : List FRangeTask, Order.Perm Tasks → (runRangeTasks Order).Perm Inline) ∧
      StartParallelLoopForPoints S true N PerLoopIterations fuel = some ⟨Inline, []⟩ ∧
      StartParallelLoopForPoints S false N PerLoopIterations fuel = some ⟨[], Tasks⟩ ∧
      (∀ (NumPoints : ESource → Int) (Source : ESource), NumPoints Source = N →
        ProcessPointsOverRanges NumPoints Source Tasks = some Inline ∧
        (∀ Order : List FRangeTask, Order.Perm Tasks →
          ∃ Calls, ProcessPointsOverRanges NumPoints Source Order = some Calls ∧
            Calls.Perm Inline)) := by
  have hloop := dispatchLoop_of_fuel N _ hN hP hB fuel hf
  have hNum : N < 2147483648 := by
    have := (ceil_bounds N _ hP).2
    omega
  have hrun := runRangeTasks_chunks N _ hN hP hNum
  have hin := chunksFrom_within N _ hP
  refine ⟨chunksFrom N (S.GetPointsBatchIteration PerLoopIterations) 0, forRange N, rfl,
    ?_, ?_, hrun, ?_, ?_, ?_, ?_⟩
  · simp [StartParallelLoopForRange]
  · simp [StartParallelLoopForRange, hloop]
  · intro Order hO
    rw [← hrun]
    exact List.Perm.flatMap_right _ hO
  · simp [StartParallelLoopForPoints]
  · simp [StartParallelLoopForPoints, hloop]
  · intro NumPoints Source hS
    subst hS
    refine ⟨?_, ?_⟩
    · rw [ProcessPointsOverRanges_eq NumPoints Source hNum _ hin, hrun]
    · intro Order hO
      refine ⟨runRangeTasks Order, ?_, ?_⟩
      · exact ProcessPointsOverRanges_eq NumPoints Source hNum Order
          (fun T hT => hin T (hO.mem_iff.mp hT))
      · rw [← hrun]
        exact List.Perm.flatMap_right _ hO

/-- C4 (witness): five iterations with a per-loop size of two. -/
theorem trivial_and_parallel_loops_witness :
    ∃ (Tasks : List FRangeTask) (Inline : List Int),
      Inline = (List.range (5 : Int).toNat).map Int.ofNat ∧
      StartParallelLoopForRange {} true 5 2 6 = some ⟨Inline, []⟩ ∧
      StartParallelLoopForRange {} false 5 2 6 = some ⟨[], Tasks⟩ ∧
      runRangeTasks Tasks = Inline ∧
      StartParallelLoopForPoints {} false 5 2 6 = some ⟨[], Tasks⟩ ∧
      ProcessPointsOverRanges (fun _ => 5) ESource.Out Tasks = some Inline :=
  let ⟨Tasks, Inline, h0, h1, h2, h3, _, _, h6, h7⟩ :=
    trivial_and_parallel_loops_visit_same_indices {} 5 2 6 (by decide) (by decide) (by decide)
      (by decide)
  ⟨Tasks, Inline, h0, h1, h2, h3, h6, (h7 (fun _ => 5) ESource.Out rfl).1⟩

/-- C4 (counterexample): two inputs on which the started tasks do not do what the trivial
branch does. With `NumIterations = 2^31 - 1` and `PLI = 2^30` the non-trivial branch of
`StartParallelLoopForRange` never hands back a list of started tasks, whatever the fuel,
while the trivial branch visits `0, ..., NumIterations - 1`. With one point in the input
and two in the output, `StartParallelLoopForPoints(ESource::Out)` calls
`ProcessSinglePoint` on `0, 1` in its trivial branch and starts one task for the range
`(0, 2)` in the other; the task runs on the input, so whatever count it passes to
`ProcessPoints` it does not call `ProcessSinglePoint` on `0, 1`, although
`ProcessPoints(ESource::Out, 0, 2)` would. -/
theorem parallel_loops_differ_from_trivial :
    ((∀ fuel : Nat, ∃ Inline, StartParallelLoopForRange {} true 2147483647 1073741824 fuel
        = some ⟨Inline, []⟩) ∧
      ¬ ∃ (fuel : Nat) (Tasks : List FRangeTask),
        StartParallelLoopForRange {} false 2147483647 1073741824 fuel = some ⟨[], Tasks⟩) ∧
    (StartParallelLoopForPoints {} true (examplePointCounts ESource.Out) (-1) 3
        = some ⟨[0, 1], []⟩ ∧
      StartParallelLoopForPoints {} false (examplePointCounts ESource.Out) (-1) 3
        = some ⟨[], [⟨0, 2⟩]⟩ ∧
      (∀ Count : Int,
        FAsyncProcessPointRange examplePointCounts StartedPointRangeSource Count ⟨0, 2⟩
          ≠ some [0, 1]) ∧
      ProcessPoints examplePointCounts ESource.Out 0 2 = some [0, 1]) := by
  refine ⟨⟨?_, ?_⟩, by decide, by decide, ?_, by decide⟩
  · intro fuel; exact ⟨forRange 2147483647, by simp [StartParallelLoopForRange]⟩
  · rintro ⟨fuel, Tasks, h⟩
    have hg : UPCGExGlobalSettings.GetPointsBatchIteration {} 1073741824 = 1073741824 := by
      decide
    simp [StartParallelLoopForRange, hg, (dispatchLoop_overflow_cycle fuel).1] at h
  · intro Count h
    have h1 := ProcessPoints_in_bounds examplePointCounts StartedPointRangeSource 0 Count
      [0, 1] h 1 (by simp)
    simp [StartedPointRangeSource, examplePointCounts] at h1

/-- C5 (witness): five iterations with a per-loop size of two. -/
theorem StartParallelLoop_dispatches_witness :
    ∃ Chunks : List FRangeTask,
      StartParallelLoopForRange {} false 5 2 6 = some ⟨[], Chunks⟩ ∧
      StartParallelLoopForPoints {} false 5 2 6 = some ⟨[], Chunks⟩ ∧
      (∀ T ∈ Chunks, 0 ≤ T.TaskIndex ∧ T.TaskIndex + T.Iterations ≤ 5) :=
  let ⟨Chunks, h1, h2, _, _, _, _, h7, _⟩ :=
    StartParallelLoop_dispatches_disjoint_chunks {} 5 2 6 (by decide) (by decide) (by decide)
      (by decide)
  ⟨Chunks, h1, h2, h7⟩

end PCGExPointsMT

/-! ## `FPCGExPointsProcessorContext::ProcessPointsBatch` -/

namespace FPCGExPointsProcessorContext

open PCGExMT PCGExPointsMT

theorem isEmpty_eq_false_of_ne_nil {α : Type} {l : List α} (h : l ≠ []) :
    l.isEmpty = false := by
  cases l with
  | nil => exact absurd rfl h
  | cons _ _ => rfl

theorem ProcessPointsBatch_empty (C : FPCGExPointsProcessorContext) (A : Bool × Bool)
    (hB : C.BatchablePoints = []) : C.ProcessPointsBatch A = ⟨true, C, []⟩ := by
  unfold ProcessPointsBatch
  rw [hB]; rfl

theorem ProcessPointsBatch_processing_incomplete (C : FPCGExPointsProcessorContext)
    (A : Bool × Bool) (hB : C.BatchablePoints ≠ [])
    (hS : C.CurrentState = AsyncState.State_WaitingOnPointsProcessing)
    (hq : C.IsAsyncWorkComplete A.1 = false) :
    C.ProcessPointsBatch A = ⟨false, C, [FEvent.IsAsyncWorkComplete false]⟩ := by
  unfold ProcessPointsBatch
  simp [isEmpty_eq_false_of_ne_nil hB, IsState, hS, hq]

theorem ProcessPointsBatch_processing_complete (C : FPCGExPointsProcessorContext)
    (A : Bool × Bool) (hB : C.BatchablePoints ≠ [])
    (hS : C.CurrentState = AsyncState.State_WaitingOnPointsProcessing)
    (hq : C.IsAsyncWorkComplete A.1 = true) :
    C.ProcessPointsBatch A =
      (if (C.GetAsyncManager.SetAsyncState
            AsyncState.State_WaitingOnPointsCompletedWork).IsAsyncWorkComplete A.2 = true then
        ⟨true, (C.GetAsyncManager.SetAsyncState
            AsyncState.State_WaitingOnPointsCompletedWork).SetState C.State_PointsProcessingDone,
          [FEvent.IsAsyncWorkComplete true, FEvent.CompleteBatch,
            FEvent.IsAsyncWorkComplete true]⟩
      else
        ⟨false, C.GetAsyncManager.SetAsyncState AsyncState.State_WaitingOnPointsCompletedWork,
          [FEvent.IsAsyncWorkComplete true, FEvent.CompleteBatch,
            FEvent.IsAsyncWorkComplete false]⟩) := by
  have h1 : (C.GetAsyncManager.SetAsyncState
      AsyncState.State_WaitingOnPointsCompletedWork).CurrentState
      = AsyncState.State_WaitingOnPointsCompletedWork := by
    simp only [SetAsyncState, SetState, GetAsyncManager]
    split_ifs <;> simp_all
  have h2 : (C.GetAsyncManager.SetAsyncState
      AsyncState.State_WaitingOnPointsCompletedWork).State_PointsProcessingDone
      = C.State_PointsProcessingDone := by
    simp only [SetAsyncState, SetState, GetAsyncManager]
    split_ifs <;> simp_all
  unfold ProcessPointsBatch
  simp only [isEmpty_eq_false_of_ne_nil hB, IsState, hS, hq, h1, h2]
  by_cases hq2 : (C.GetAsyncManager.SetAsyncState
      AsyncState.State_WaitingOnPointsCompletedWork).IsAsyncWorkComplete A.2 = true
  · simp [hq2]
  · simp [hq2]

theorem ProcessPointsBatch_completing (C : FPCGExPointsProcessorContext)
    (A : Bool × Bool) (hB : C.BatchablePoints ≠ [])
    (hS : C.CurrentState = AsyncState.State_WaitingOnPointsCompletedWork) :
    C.ProcessPointsBatch A =
      (if C.IsAsyncWorkComplete A.1 = true then
        ⟨true, C.SetState C.State_PointsProcessingDone, [FEvent.IsAsyncWorkComplete true]⟩
      else ⟨false, C, [FEvent.IsAsyncWorkComplete false]⟩) := by
  unfold ProcessPointsBatch
  simp only [isEmpty_eq_false_of_ne_nil hB, IsState, hS]
  by_cases hq : C.IsAsyncWorkComplete A.1 = true
  · simp [hq]
  · simp [hq]

theorem ProcessPointsBatch_other (C : FPCGExPointsProcessorContext)
    (A : Bool × Bool)
    (hS1 : C.CurrentState ≠ AsyncState.State_WaitingOnPointsProcessing)
    (hS2 : C.CurrentState ≠ AsyncState.State_WaitingOnPointsCompletedWork) :
    C.ProcessPointsBatch A = ⟨true, C, []⟩ := by
  unfold ProcessPointsBatch
  simp [IsState, hS1, hS2]

theorem SetState_CurrentState (C : FPCGExPointsProcessorContext) (T : AsyncState) :
    (C.SetState T).CurrentState = T ∧
    (C.SetState T).State_PointsProcessingDone = C.State_PointsProcessingDone ∧
    (C.SetState T).BatchablePoints = C.BatchablePoints := by
  unfold SetState
  split_ifs with h
  · exact ⟨h, rfl, rfl⟩
  · exact ⟨rfl, rfl, rfl⟩

theorem SetAsyncState_GetAsyncManager (C : FPCGExPointsProcessorContext) (T : AsyncState) :
    (C.GetAsyncManager.SetAsyncState T).CurrentState = T ∧
    (C.GetAsyncManager.SetAsyncState T).State_PointsProcessingDone
      = C.State_PointsProcessingDone ∧
    (C.GetAsyncManager.SetAsyncState T).BatchablePoints = C.BatchablePoints := by
  obtain ⟨h1, h2, h3⟩ := SetState_CurrentState C.GetAsyncManager T
  unfold SetAsyncState
  refine ⟨h1, ?_, ?_⟩
  · rw [h2]; unfold GetAsyncManager; split_ifs <;> rfl
  · rw [h3]; unfold GetAsyncManager; split_ifs <;> rfl

/-- The five ways a call can go, by the state it is entered in. -/
theorem ProcessPointsBatch_cases (C : FPCGExPointsProcessorContext) (A : Bool × Bool) :
    (FEvent.CompleteBatch ∉ (C.ProcessPointsBatch A).Events ∧
      ((C.ProcessPointsBatch A).Context = C ∨
        (C.CurrentState = AsyncState.State_WaitingOnPointsCompletedWork ∧
          (C.ProcessPointsBatch A).Context = C.SetState C.State_PointsProcessingDone))) ∨
    (C.BatchablePoints ≠ [] ∧
      C.CurrentState = AsyncState.State_WaitingOnPointsProcessing ∧
      C.IsAsyncWorkComplete A.1 = true ∧
      (C.ProcessPointsBatch A).Events.take 2
        = [FEvent.IsAsyncWorkComplete true, FEvent.CompleteBatch] ∧
      (C.ProcessPointsBatch A).Events.count FEvent.CompleteBatch = 1 ∧
      ((C.ProcessPointsBatch A).Context
          = C.GetAsyncManager.SetAsyncState AsyncState.State_WaitingOnPointsCompletedWork ∨
        (C.ProcessPointsBatch A).Context
          = (C.GetAsyncManager.SetAsyncState
              AsyncState.State_WaitingOnPointsCompletedWork).SetState
                C.State_PointsProcessingDone)) := by
  by_cases hB : C.BatchablePoints = []
  · left; rw [ProcessPointsBatch_empty C A hB]; simp
  by_cases hS1 : C.CurrentState = AsyncState.State_WaitingOnPointsProcessing
  · cases hq : C.IsAsyncWorkComplete A.1 with
    | false =>
      left; rw [ProcessPointsBatch_processing_incomplete C A hB hS1 hq]; simp
    | true =>
      right
      rw [ProcessPointsBatch_processing_complete C A hB hS1 hq]
      refine ⟨hB, hS1, rfl, ?_⟩
      split_ifs
      · exact ⟨rfl, by simp, Or.inr rfl⟩
      · exact ⟨rfl, by simp, Or.inl rfl⟩
  by_cases hS2 : C.CurrentState = AsyncState.State_WaitingOnPointsCompletedWork
  · left
    rw [ProcessPointsBatch_completing C A hB hS2]
    split_ifs
    · exact ⟨by simp, Or.inr ⟨hS2, rfl⟩⟩
    · exact ⟨by simp, Or.inl rfl⟩
  · left; rw [ProcessPointsBatch_other C A hS1 hS2]; simp

theorem ProcessPointsBatch_target (C : FPCGExPointsProcessorContext) (A : Bool × Bool) :
    (C.ProcessPointsBatch A).Context.State_PointsProcessingDone
      = C.State_PointsProcessingDone := by
  rcases ProcessPointsBatch_cases C A with ⟨_, h | ⟨_, h⟩⟩ | ⟨_, _, _, _, _, h | h⟩
  · rw [h]
  · rw [h]; exact (SetState_CurrentState C _).2.1
  · rw [h]; exact (SetAsyncState_GetAsyncManager C _).2.1
  · rw [h, (SetState_CurrentState _ _).2.1]; exact (SetAsyncState_GetAsyncManager C _).2.1

/-- A call entered in a state other than `State_WaitingOnPointsProcessing` does not call
`CompleteBatch` and leaves the context in its state or in `State_PointsProcessingDone`. -/
theorem ProcessPointsBatch_not_waiting (C : FPCGExPointsProcessorContext) (A : Bool × Bool)
    (h : C.CurrentState ≠ AsyncState.State_WaitingOnPointsProcessing) :
    FEvent.CompleteBatch ∉ (C.ProcessPointsBatch A).Events ∧
    ((C.ProcessPointsBatch A).Context.CurrentState = C.CurrentState ∨
      (C.ProcessPointsBatch A).Context.CurrentState = C.State_PointsProcessingDone) := by
  rcases ProcessPointsBatch_cases C A with ⟨hno, h1 | ⟨_, h1⟩⟩ | ⟨_, hS, _⟩
  · exact ⟨hno, Or.inl (by rw [h1])⟩
  · exact ⟨hno, Or.inr (by rw [h1]; exact (SetState_CurrentState C _).1)⟩
  · exact absurd hS h

/-- A call entered in `State_WaitingOnPointsProcessing` either leaves the state alone
without calling `CompleteBatch`, or calls it once and leaves the waiting state. -/
theorem ProcessPointsBatch_waiting (C : FPCGExPointsProcessorContext) (A : Bool × Bool)
    (h : C.CurrentState = AsyncState.State_WaitingOnPointsProcessing) :
    (FEvent.CompleteBatch ∉ (C.ProcessPointsBatch A).Events ∧
      (C.ProcessPointsBatch A).Context.CurrentState = C.CurrentState) ∨
    ((C.ProcessPointsBatch A).Events.count FEvent.CompleteBatch = 1 ∧
      ((C.ProcessPointsBatch A).Context.CurrentState
          = AsyncState.State_WaitingOnPointsCompletedWork ∨
        (C.ProcessPointsBatch A).Context.CurrentState = C.State_PointsProcessingDone)) := by
  rcases ProcessPointsBatch_cases C A with ⟨hno, h1 | ⟨h2, _⟩⟩ | ⟨_, _, _, _, hc, h1 | h1⟩
  · exact Or.inl ⟨hno, by rw [h1]⟩
  · rw [h] at h2; exact absurd h2 (by decide)
  · exact Or.inr ⟨hc, Or.inl (by rw [h1]; exact (SetAsyncState_GetAsyncManager C _).1)⟩
  · exact Or.inr ⟨hc, Or.inr (by rw [h1]; exact (SetState_CurrentState _ _).1)⟩

theorem ProcessPointsBatchCalls_no_CompleteBatch (Answers : List (Bool × Bool)) :
    ∀ C : FPCGExPointsProcessorContext,
      C.State_PointsProcessingDone ≠ AsyncState.State_WaitingOnPointsProcessing →
      C.CurrentState ≠ AsyncState.State_WaitingOnPointsProcessing →
      ((C.ProcessPointsBatchCalls Answers).flatMap (fun R => R.Events)).count
        FEvent.CompleteBatch = 0 := by
  induction Answers with
  | nil => intro C _ _; rfl
  | cons A Rest ih =>
    intro C hT hS
    obtain ⟨hno, hst⟩ := ProcessPointsBatch_not_waiting C A hS
    have hk := ProcessPointsBatch_target C A
    unfold ProcessPointsBatchCalls
    simp only [List.flatMap_cons, List.count_append]
    rw [List.count_eq_zero_of_not_mem hno, ih _ (by rw [hk]; exact hT)]
    rcases hst with h | h
    · rw [h]; exact hS
    · rw [h]; exact hT

theorem ProcessPointsBatchCalls_CompleteBatch_le_one (Answers : List (Bool × Bool)) :
    ∀ C : FPCGExPointsProcessorContext,
      C.State_PointsProcessingDone ≠ AsyncState.State_WaitingOnPointsProcessing →
      ((C.ProcessPointsBatchCalls Answers).flatMap (fun R => R.Events)).count
        FEvent.CompleteBatch ≤ 1 := by
  induction Answers with
  | nil => intro C _; simp [ProcessPointsBatchCalls]
  | cons A Rest ih =>
    intro C hT
    have hk := ProcessPointsBatch_target C A
    by_cases hS : C.CurrentState = AsyncState.State_WaitingOnPointsProcessing
    · unfold ProcessPointsBatchCalls
      simp only [List.flatMap_cons, List.count_append]
      rcases ProcessPointsBatch_waiting C A hS with ⟨hno, _⟩ | ⟨hone, hst⟩
      · rw [List.count_eq_zero_of_not_mem hno, Nat.zero_add]
        exact ih _ (by rw [hk]; exact hT)
      · rw [hone, ProcessPointsBatchCalls_no_CompleteBatch Rest _ (by rw [hk]; exact hT)]
        rcases hst with h | h
        · rw [h]; decide
        · rw [h]; exact hT
    · have := ProcessPointsBatchCalls_no_CompleteBatch (A :: Rest) C hT hS
      omega

/-- C2 (amended): for every context, with `BatchablePoints` empty or not, a
`ProcessPointsBatch` call calls `CompleteBatch` only when it is entered in `State_WaitingOnPointsProcessing` and its
`IsAsyncWorkComplete()` query has returned true just before, and it leaves the state at
`State_WaitingOnPointsCompletedWork` or at the done state; over a sequence of calls
`CompleteBatch` is called at most once, the done state `State_PointsProcessingDone` of
the context being a state other than `State_WaitingOnPointsProcessing`. -/
theorem CompleteBatch_after_processing_at_most_once (C : FPCGExPointsProcessorContext)
    (Answers : List (Bool × Bool))
    (hT : C.State_PointsProcessingDone ≠ AsyncState.State_WaitingOnPointsProcessing) :
    (∀ A : Bool × Bool, FEvent.CompleteBatch ∈ (C.ProcessPointsBatch A).Events →
      C.CurrentState = AsyncState.State_WaitingOnPointsProcessing ∧
      C.IsAsyncWorkComplete A.1 = true ∧
      (C.ProcessPointsBatch A).Events.take 2
        = [FEvent.IsAsyncWorkComplete true, FEvent.CompleteBatch] ∧
      ((C.ProcessPointsBatch A).Context.CurrentState
          = AsyncState.State_WaitingOnPointsCompletedWork ∨
        (C.ProcessPointsBatch A).Context.CurrentState = C.State_PointsProcessingDone)) ∧
    ((C.ProcessPointsBatchCalls Answers).flatMap (fun R => R.Events)).count
      FEvent.CompleteBatch ≤ 1 := by
  refine ⟨?_, ProcessPointsBatchCalls_CompleteBatch_le_one Answers C hT⟩
  intro A hmem
  rcases ProcessPointsBatch_cases C A with ⟨hno, _⟩ | ⟨_, hS, hq, htake, _, h1 | h1⟩
  · exact absurd hmem hno
  · exact ⟨hS, hq, htake, Or.inl (by rw [h1]; exact (SetAsyncState_GetAsyncManager C _).1)⟩
  · exact ⟨hS, hq, htake, Or.inr (by rw [h1]; exact (SetState_CurrentState _ _).1)⟩

end FPCGExPointsProcessorContext

namespace FPCGExPointsProcessorContext

open PCGExMT PCGExPointsMT

/-- C2 (counterexample): a context whose done state `State_PointsProcessingDone` is
`State_WaitingOnPointsProcessing` itself; two calls, the async work complete at every
query, call `CompleteBatch` twice. -/
theorem CompleteBatch_twice_when_done_state_is_waiting :
    ((ProcessPointsBatchCalls
        ⟨AsyncState.State_WaitingOnPointsProcessing, AsyncState.State_WaitingOnPointsProcessing,
          [⟨0, 3⟩], true, true⟩
        [(true, true), (true, true)]).flatMap (fun R => R.Events)).count FEvent.CompleteBatch
      = 2 := by
  decide

/-- C2 (witness): a context waiting on points processing whose done state is `State_Done`,
called three times. -/
theorem CompleteBatch_after_processing_witness :
    ((ProcessPointsBatchCalls
        ⟨AsyncState.State_WaitingOnPointsProcessing, AsyncState.State_Done, [⟨0, 3⟩], true, true⟩
        [(false, false), (true, false), (true, true)]).flatMap
          (fun R => R.Events)).count FEvent.CompleteBatch ≤ 1 :=
  (CompleteBatch_after_processing_at_most_once
    ⟨AsyncState.State_WaitingOnPointsProcessing, AsyncState.State_Done, [⟨0, 3⟩], true, true⟩
    [(false, false), (true, false), (true, true)] (by decide)).2

/-- C3 (amended): when `BatchablePoints` is not empty, a `ProcessPointsBatch` call entered
in `State_WaitingOnPointsProcessing` or `State_WaitingOnPointsCompletedWork` while the
async work is not complete returns false and leaves the context, its state included,
unchanged; and when a call entered in one of these two states returns true, the state
afterwards is `State_PointsProcessingDone`. -/
theorem ProcessPointsBatch_gates_completion (C : FPCGExPointsProcessorContext)
    (A : Bool × Bool) (hB : C.BatchablePoints ≠ [])
    (hS : C.CurrentState = AsyncState.State_WaitingOnPointsProcessing ∨
      C.CurrentState = AsyncState.State_WaitingOnPointsCompletedWork) :
    (C.IsAsyncWorkComplete A.1 = false →
      (C.ProcessPointsBatch A).Return = false ∧ (C.ProcessPointsBatch A).Context = C) ∧
    ((C.ProcessPointsBatch A).Return = true →
      (C.ProcessPointsBatch A).Context.CurrentState = C.State_PointsProcessingDone) := by
  rcases hS with hS | hS
  · cases hq : C.IsAsyncWorkComplete A.1 with
    | false =>
      rw [ProcessPointsBatch_processing_incomplete C A hB hS hq]
      exact ⟨fun _ => ⟨rfl, rfl⟩, fun h => absurd h (by simp)⟩
    | true =>
      rw [ProcessPointsBatch_processing_complete C A hB hS hq]
      refine ⟨fun h => absurd h (by simp), ?_⟩
      split_ifs
      · intro _; exact (SetState_CurrentState _ _).1
      · intro h; exact absurd h (by simp)
  · rw [ProcessPointsBatch_completing C A hB hS]
    cases hq : C.IsAsyncWorkComplete A.1 with
    | false => exact ⟨fun _ => ⟨rfl, rfl⟩, fun h => absurd h (by simp)⟩
    | true =>
      refine ⟨fun h => absurd h (by simp), ?_⟩
      intro _
      exact (SetState_CurrentState _ _).1

/-- C3 (witness): a context waiting on points processing whose async work is not
complete. -/
theorem ProcessPointsBatch_gates_completion_witness :
    (ProcessPointsBatch
      ⟨AsyncState.State_WaitingOnPointsProcessing, AsyncState.State_Done, [⟨0, 3⟩], true, true⟩
      (false, false)).Return = false ∧
    (ProcessPointsBatch
      ⟨AsyncState.State_WaitingOnPointsProcessing, AsyncState.State_Done, [⟨0, 3⟩], true, true⟩
      (false, false)).Context
      = ⟨AsyncState.State_WaitingOnPointsProcessing, AsyncState.State_Done, [⟨0, 3⟩], true,
          true⟩ :=
  (ProcessPointsBatch_gates_completion
    ⟨AsyncState.State_WaitingOnPointsProcessing, AsyncState.State_Done, [⟨0, 3⟩], true, true⟩
    (false, false) (by decide) (Or.inl rfl)).1 (by decide)

/-- C3 (counterexample): with `BatchablePoints` empty, a call entered in
`State_WaitingOnPointsProcessing` while the async work is not complete returns true,
and the state afterwards is not `State_PointsProcessingDone`. -/
theorem ProcessPointsBatch_empty_batch_not_gated :
    IsAsyncWorkComplete
        ⟨AsyncState.State_WaitingOnPointsProcessing, AsyncState.State_Done, [], true, true⟩
        false = false ∧
    (ProcessPointsBatch
      ⟨AsyncState.State_WaitingOnPointsProcessing, AsyncState.State_Done, [], true, true⟩
      (false, false)).Return = true ∧
    (ProcessPointsBatch
      ⟨AsyncState.State_WaitingOnPointsProcessing, AsyncState.State_Done, [], true, true⟩
      (false, false)).Context.CurrentState ≠ AsyncState.State_Done := by
  decide

end FPCGExPointsProcessorContext

/-! ## `TBatch` -/

namespace PCGExPointsMT

namespace TBatch

open PCGEx PCGExMT

/-- One pass of the loop body of `Process` for a prepared processor keeps the invariant. -/
theorem ProcessInvariant_step (S : UPCGExGlobalSettings) (B : TBatch) (Started : List FTask)
    (P : FPathProcessor) (hI : ProcessInvariant S B Started)
    (hidx : P.BatchIndex = (B.Processors.length : Int))
    (hsmall : P.bIsSmallPoints = true ↔ (P.PointsIO.Num : Int) < S.SmallPointsSize) :
    (P.IsTrivial = true →
      ProcessInvariant S
        { B with Processors := B.Processors ++ [P],
                 ClosedBatchProcessors := B.ClosedBatchProcessors ++ [B.Processors.length] }
        Started) ∧
    (P.IsTrivial = false →
      ProcessInvariant S { B with Processors := B.Processors ++ [P] }
        (Started ++ [FTask.FAsyncProcess B.Processors.length])) := by
  obtain ⟨h1, h2, h3⟩ := hI
  have hnotin : B.Processors.length ∉ B.ClosedBatchProcessors :=
    fun h => Nat.lt_irrefl _ (h2 _ h)
  have hnotst : FTask.FAsyncProcess B.Processors.length ∉ Started := by
    intro h
    obtain ⟨i, hi, hlt⟩ := h3 _ h
    injection hi with hi
    omega
  constructor
  · intro hT
    refine ⟨?_, ?_, ?_⟩
    · intro i Q hQ
      simp only at hQ ⊢
      by_cases hi : i < B.Processors.length
      · rw [List.getElem?_append_left hi] at hQ
        obtain ⟨a, b, c, d⟩ := h1 i Q hQ
        refine ⟨a, b, ?_, ?_⟩
        · intro hq
          refine ⟨?_, (c hq).2⟩
          rw [List.count_append, (c hq).1, List.count_singleton]
          simp; omega
        · intro hq
          refine ⟨?_, (d hq).2⟩
          simp only [List.mem_append, List.mem_singleton, not_or]
          exact ⟨(d hq).1, by omega⟩
      · rw [List.getElem?_append_right (by omega)] at hQ
        have hi0 : i = B.Processors.length := by
          by_contra hne
          have : i - B.Processors.length ≥ 1 := by omega
          rw [List.getElem?_eq_none (by simp; omega)] at hQ
          exact Option.noConfusion hQ
        subst hi0
        simp only [Nat.sub_self, List.getElem?_cons_zero, Option.some.injEq] at hQ
        subst hQ
        refine ⟨hidx, hsmall, ?_, ?_⟩
        · intro _
          refine ⟨?_, hnotst⟩
          rw [List.count_append, List.count_eq_zero_of_not_mem hnotin, List.count_singleton]
          simp
        · intro hq; rw [hT] at hq; exact absurd hq (by decide)
    · intro i hi
      simp only [List.mem_append, List.mem_singleton, List.length_append,
        List.length_singleton] at hi ⊢
      rcases hi with hi | hi
      · have := h2 i hi; omega
      · omega
    · intro T hT'
      obtain ⟨i, hi, hlt⟩ := h3 T hT'
      exact ⟨i, hi, by simp only [List.length_append, List.length_singleton]; omega⟩
  · intro hT
    refine ⟨?_, ?_, ?_⟩
    · intro i Q hQ
      simp only at hQ ⊢
      by_cases hi : i < B.Processors.length
      · rw [List.getElem?_append_left hi] at hQ
        obtain ⟨a, b, c, d⟩ := h1 i Q hQ
        refine ⟨a, b, ?_, ?_⟩
        · intro hq
          refine ⟨(c hq).1, ?_⟩
          simp only [List.mem_append, List.mem_singleton, not_or, FTask.FAsyncProcess.injEq]
          exact ⟨(c hq).2, by omega⟩
        · intro hq
          refine ⟨(d hq).1, ?_⟩
          rw [List.count_append, (d hq).2, List.count_singleton]
          simp; omega
      · rw [List.getElem?_append_right (by omega)] at hQ
        have hi0 : i = B.Processors.length := by
          by_contra hne
          have : i - B.Processors.length ≥ 1 := by omega
          rw [List.getElem?_eq_none (by simp; omega)] at hQ
          exact Option.noConfusion hQ
        subst hi0
        simp only [Nat.sub_self, List.getElem?_cons_zero, Option.some.injEq] at hQ
        subst hQ
        refine ⟨hidx, hsmall, ?_, ?_⟩
        · intro hq; rw [hT] at hq; exact absurd hq (by decide)
        · intro _
          refine ⟨hnotin, ?_⟩
          rw [List.count_append, List.count_eq_zero_of_not_mem hnotst, List.count_singleton]
          simp
    · intro i hi
      have := h2 i hi
      simp only [List.length_append, List.length_singleton]; omega
    · intro T hT'
      simp only [List.mem_append, List.mem_singleton] at hT'
      rcases hT' with hT' | hT'
      · obtain ⟨i, hi, hlt⟩ := h3 T hT'
        exact ⟨i, hi, by simp only [List.length_append, List.length_singleton]; omega⟩
      · exact ⟨_, hT', by simp⟩

end TBatch

end PCGExPointsMT

namespace PCGExPointsMT

namespace TBatch

open PCGEx PCGExMT

/-- The loop of `Process` keeps the invariant, appends to `Processors` one processor per
prepared input, in input order, and leaves the other members of the batch alone. -/
theorem ProcessLoop_spec (S : UPCGExGlobalSettings) (PrepareSingle : FPathProcessor → Bool) :
    ∀ (Entries : List FPointIO) (B : TBatch) (Started : List FTask),
      ProcessInvariant S B Started →
      ProcessInvariant S (ProcessLoop S PrepareSingle Entries B Started).1
        (ProcessLoop S PrepareSingle Entries B Started).2 ∧
      (ProcessLoop S PrepareSingle Entries B Started).1.Processors.map (fun P => P.PointsIO)
        = B.Processors.map (fun P => P.PointsIO)
          ++ Entries.filter (fun Entry => PrepareSingle { PointsIO := Entry }) ∧
      (ProcessLoop S PrepareSingle Entries B Started).1.ClosedBatchProcessors.length
        ≤ B.ClosedBatchProcessors.length + Entries.length := by
  intro Entries
  induction Entries with
  | nil =>
    intro B Started hI
    simp [ProcessLoop, hI]
  | cons Entry Rest ih =>
    intro B Started hI
    unfold ProcessLoop
    cases hprep : PrepareSingle { PointsIO := Entry } with
    | false =>
      simp only [Bool.not_false, if_true, List.filter_cons, hprep]
      obtain ⟨a, b, c⟩ := ih B Started hI
      exact ⟨a, by simpa using b, by simp only [List.length_cons]; omega⟩
    | true =>
      simp only [Bool.not_true, Bool.false_eq_true, if_false, List.filter_cons, hprep, if_true]
      generalize hP1 : (if B.FilterFactories.isSome = true
        then ({ PointsIO := Entry } : FPathProcessor).SetPointFilterData B.FilterFactories
          B.DefaultPointFilterValue
        else { PointsIO := Entry }) = P1
      have hio : P1.PointsIO = Entry := by
        rw [← hP1]; split_ifs <;> rfl
      generalize hb : decide ((Entry.Num : Int) < S.SmallPointsSize) = b
      have hsmall : b = true ↔ (Entry.Num : Int) < S.SmallPointsSize := by
        rw [← hb]; exact decide_eq_true_iff
      have hstep := ProcessInvariant_step S B Started
        { P1 with BatchIndex := (B.Processors.length : Int), bIsSmallPoints := b }
        hI rfl (by simpa [hio] using hsmall)
      cases b with
      | true =>
        simp only [FPathProcessor.IsTrivial, if_true]
        obtain ⟨a, b, c⟩ := ih _ Started (hstep.1 rfl)
        refine ⟨a, ?_, ?_⟩
        · rw [b]; simp [hio]
        · simp only [List.length_append, List.length_singleton, List.length_cons,
            List.length_nil] at c ⊢
          omega
      | false =>
        simp only [FPathProcessor.IsTrivial, Bool.false_eq_true, if_false]
        obtain ⟨a, b, c⟩ := ih _ _ (hstep.2 rfl)
        refine ⟨a, ?_, ?_⟩
        · rw [b]; simp [hio]
        · simp only [List.length_cons] at c ⊢; omega

theorem ProcessInvariant_init (S : UPCGExGlobalSettings) (B : TBatch)
    (hP : B.Processors = []) (hC : B.ClosedBatchProcessors = []) : ProcessInvariant S B [] := by
  refine ⟨?_, ?_, ?_⟩
  · intro i P h; rw [hP] at h; simp at h
  · intro i h; rw [hC] at h; simp at h
  · intro T h; simp at h

/-- The tasks started by `StartClosedBatchProcessing` are all ranged batch tasks. -/
theorem StartClosedBatchProcessing_tasks (S : UPCGExGlobalSettings) (fuel : Nat) (B : TBatch)
    (Closed : List FTask) (h : B.StartClosedBatchProcessing S fuel = some Closed) :
    ∀ T ∈ Closed, ∃ TaskIndex Iterations, T = FTask.FAsyncBatchProcessRange TaskIndex Iterations := by
  unfold StartClosedBatchProcessing at h
  simp only at h
  split_ifs at h
  · cases hd : dispatchLoop (B.ClosedBatchProcessors.length) S.ClusterDefaultBatchIterations fuel 0 with
    | none => rw [hd] at h; simp at h
    | some Tasks =>
      rw [hd] at h
      simp only [Option.map_some', Option.some.injEq] at h
      subst h
      intro T hT
      obtain ⟨R, _, rfl⟩ := List.mem_map.mp hT
      exact ⟨_, _, rfl⟩
  · simp only [Option.some.injEq] at h
    subst h
    intro T hT; simp at hT

/-- Source function `StartClosedBatchProcessing` returns when the batch iteration count is at least one
and the counter stays within `int32`. -/
theorem StartClosedBatchProcessing_returns (S : UPCGExGlobalSettings) (fuel : Nat) (B : TBatch)
    (hS : 1 ≤ S.ClusterDefaultBatchIterations)
    (hB : (B.ClosedBatchProcessors.length : Int) + S.ClusterDefaultBatchIterations ≤ 2147483648)
    (hf : B.ClosedBatchProcessors.length < fuel) :
    ∃ Closed, B.StartClosedBatchProcessing S fuel = some Closed := by
  unfold StartClosedBatchProcessing
  simp only
  split_ifs
  · rw [dispatchLoop_of_fuel _ _ (by omega) hS
      (by have := (ceil_bounds (B.ClosedBatchProcessors.length : Int)
            S.ClusterDefaultBatchIterations hS).1
          omega) fuel (by exact_mod_cast hf)]
    exact ⟨_, rfl⟩
  · exact ⟨_, rfl⟩

/-- What `Process` leaves behind when it returns, and that it returns under sane settings. -/
theorem Process_spec (S : UPCGExGlobalSettings) (PrepareSingle : FPathProcessor → Bool)
    (B : TBatch) (hP : B.Processors = []) (hC : B.ClosedBatchProcessors = []) :
    (∀ (fuel : Nat) (B' : TBatch) (Started : List FTask),
      B.Process S PrepareSingle fuel = some (B', Started) →
      B'.Processors.map (fun P => P.PointsIO)
        = B.PointsCollection.filter (fun Entry => PrepareSingle { PointsIO := Entry }) ∧
      ∃ Loop Closed, Started = Loop ++ Closed ∧ ProcessInvariant S B' Loop ∧
        ∀ T ∈ Closed, ∃ TaskIndex Iterations,
          T = FTask.FAsyncBatchProcessRange TaskIndex Iterations) ∧
    (∀ fuel : Nat, 1 ≤ S.ClusterDefaultBatchIterations →
      (B.PointsCollection.length : Int) + S.ClusterDefaultBatchIterations ≤ 2147483648 →
      B.PointsCollection.length < fuel →
      ∃ B' Started, B.Process S PrepareSingle fuel = some (B', Started)) := by
  have hloop := ProcessLoop_spec S PrepareSingle B.PointsCollection
    { B with CurrentState := AsyncState.State_Processing } []
    (ProcessInvariant_init S _ hP hC)
  obtain ⟨hinv, hmap, hlen⟩ := hloop
  have h0 : B.ClosedBatchProcessors.length = 0 := by rw [hC]; rfl
  have hlen : (ProcessLoop S PrepareSingle B.PointsCollection
      { B with CurrentState := AsyncState.State_Processing } []).1.ClosedBatchProcessors.length
      ≤ B.PointsCollection.length := by
    have h1 : _ ≤ B.ClosedBatchProcessors.length + B.PointsCollection.length := hlen
    omega
  constructor
  · intro fuel B' Started h
    unfold Process at h
    split_ifs at h with hE
    · simp only [Option.some.injEq, Prod.mk.injEq] at h
      obtain ⟨rfl, rfl⟩ := h
      have : B.PointsCollection = [] := List.isEmpty_iff.mp hE
      refine ⟨by rw [hP, this]; rfl, [], [], rfl, ProcessInvariant_init S _ hP hC, ?_⟩
      intro T hT; simp at hT
    · simp only at h
      cases hc : StartClosedBatchProcessing S fuel
          (ProcessLoop S PrepareSingle B.PointsCollection
            { B with CurrentState := AsyncState.State_Processing } []).1 with
      | none => rw [hc] at h; simp at h
      | some Closed =>
        rw [hc] at h
        simp only [Option.map_some', Option.some.injEq, Prod.mk.injEq] at h
        obtain ⟨rfl, rfl⟩ := h
        refine ⟨?_, _, Closed, rfl, hinv, StartClosedBatchProcessing_tasks S fuel _ Closed hc⟩
        rw [hmap, hP]; rfl
  · intro fuel hS hB hf
    unfold Process
    split_ifs with hE
    · exact ⟨_, _, rfl⟩
    · obtain ⟨Closed, hc⟩ := StartClosedBatchProcessing_returns S fuel
        (ProcessLoop S PrepareSingle B.PointsCollection
            { B with CurrentState := AsyncState.State_Processing } []).1 hS
        (by have : ((ProcessLoop S PrepareSingle B.PointsCollection
              { B with CurrentState := AsyncState.State_Processing } []).1.ClosedBatchProcessors.length : Int)
              ≤ (B.PointsCollection.length : Int) := by exact_mod_cast hlen
            omega)
        (by omega)
      simp only
      rw [hc]
      exact ⟨_, _, rfl⟩

end TBatch

end PCGExPointsMT

namespace PCGExPointsMT

namespace TBatch

open PCGEx PCGExMT

/-- C1 (failing input): a batch over a 10-point input (trivial) and a 300-point input,
with the default settings. `Process` returns, then `CompleteWork` returns; executing the
tasks `CompleteWork` started calls `CompleteWork()` on the non-trivial processor 1 only,
and calls `Process()` a second time on the trivial processor 0, whose `CompleteWork()` is
never called: `CompleteWork` leaves `CurrentState` at `State_Processing`, so
`ProcessBatchRange` takes its `Process` branch. -/
theorem TBatch_CompleteWork_reprocesses_trivial_processor :
    ∃ (B1 : TBatch) (T1 : List FTask) (B2 : TBatch) (T2 : List FTask),
      (Construct [⟨0, 10⟩, ⟨1, 300⟩]).Process {} (fun _ => true) 3 = some (B1, T1) ∧
      B1.Processors.map FPathProcessor.IsTrivial = [true, false] ∧
      CompleteWork {} 3 B1 = some (B2, T2) ∧
      B2.CurrentState = AsyncState.State_Processing ∧
      T2 = [FTask.FAsyncCompleteWork 1, FTask.FAsyncBatchProcessRange 0 1] ∧
      runTasks B2 T2 = some [FCall.CompleteWork 1, FCall.Process 0] := by
  refine ⟨_, _, _, _, rfl, ?_, rfl, ?_, ?_, ?_⟩ <;> decide

/-- C6: for every points collection, on the batch as constructed over it, with or without
a `SetVtxFilterData` call, whenever `Process` returns, `Processors` holds exactly one
processor for each input for which `PrepareSingle` returned true, in input order, none
for the others, and each processor's `BatchIndex` is its position in `Processors`; and
`Process` does return, given enough fuel, when `ClusterDefaultBatchIterations >= 1` and
the closed-batch counter stays within `int32`. -/
theorem TBatch_Process_keeps_prepared_processors (S : UPCGExGlobalSettings)
    (PrepareSingle : FPathProcessor → Bool) (Collection : List FPointIO)
    (InFilterFactories : Option (List Nat)) (DefaultFilterValue : Bool) :
    (∀ (fuel : Nat) (B' : TBatch) (Started : List FTask),
      ((Construct Collection).SetVtxFilterData InFilterFactories DefaultFilterValue).Process
        S PrepareSingle fuel = some (B', Started) →
      B'.Processors.map (fun P => P.PointsIO)
        = Collection.filter (fun Entry => PrepareSingle { PointsIO := Entry }) ∧
      ∀ (i : Nat) (P : FPathProcessor), B'.Processors[i]? = some P → P.BatchIndex = (i : Int)) ∧
    (∀ fuel : Nat, 1 ≤ S.ClusterDefaultBatchIterations →
      (Collection.length : Int) + S.ClusterDefaultBatchIterations ≤ 2147483648 →
      Collection.length < fuel →
      ∃ B' Started,
        ((Construct Collection).SetVtxFilterData InFilterFactories DefaultFilterValue).Process
          S PrepareSingle fuel = some (B', Started)) := by
  obtain ⟨h1, h2⟩ := Process_spec S PrepareSingle
    ((Construct Collection).SetVtxFilterData InFilterFactories DefaultFilterValue) rfl rfl
  refine ⟨?_, h2⟩
  intro fuel B' Started h
  obtain ⟨hmap, Loop, Closed, _, hinv, _⟩ := h1 fuel B' Started h
  exact ⟨hmap, fun i P hi => (hinv.1 i P hi).1⟩

/-- C6 (witness): three inputs of 10, 2 and 300 points, `PrepareSingle` refusing inputs of
less than 3 points. -/
theorem TBatch_Process_keeps_prepared_witness :
    ∃ (B' : TBatch) (Started : List FTask),
      ((Construct [⟨0, 10⟩, ⟨1, 2⟩, ⟨2, 300⟩]).SetVtxFilterData none true).Process {}
        (fun P => decide (3 ≤ P.PointsIO.Num)) 4 = some (B', Started) ∧
      B'.Processors.map (fun P => P.PointsIO) = [⟨0, 10⟩, ⟨2, 300⟩] :=
  let H := TBatch_Process_keeps_prepared_processors {} (fun P => decide (3 ≤ P.PointsIO.Num))
    [⟨0, 10⟩, ⟨1, 2⟩, ⟨2, 300⟩] none true
  let ⟨B', Started, h⟩ := H.2 4 (by decide) (by decide) (by decide)
  ⟨B', Started, h, (H.1 4 B' Started h).1⟩

/-- The `for` loop of `Process` keeps the two lists in step with `Processors`: when
`ClosedBatchProcessors` lists the trivial processors and the started tasks the others,
each by its `BatchIndex` and in the order of `Processors`, they do so afterwards. -/
theorem ProcessLoop_lists (S : UPCGExGlobalSettings) (PrepareSingle : FPathProcessor → Bool) :
    ∀ (Entries : List FPointIO) (B : TBatch) (Started : List FTask),
      B.ClosedBatchProcessors
        = (B.Processors.filter (fun P => P.IsTrivial)).map (fun P => P.BatchIndex.toNat) →
      Started = (B.Processors.filter (fun P => !P.IsTrivial)).map
        (fun P => FTask.FAsyncProcess P.BatchIndex.toNat) →
      (ProcessLoop S PrepareSingle Entries B Started).1.ClosedBatchProcessors
        = ((ProcessLoop S PrepareSingle Entries B Started).1.Processors.filter
            (fun P => P.IsTrivial)).map (fun P => P.BatchIndex.toNat) ∧
      (ProcessLoop S PrepareSingle Entries B Started).2
        = ((ProcessLoop S PrepareSingle Entries B Started).1.Processors.filter
            (fun P => !P.IsTrivial)).map (fun P => FTask.FAsyncProcess P.BatchIndex.toNat) := by
  intro Entries
  induction Entries with
  | nil => intro B Started hC hS; exact ⟨hC, hS⟩
  | cons Entry Rest ih =>
    intro B Started hC hS
    unfold ProcessLoop
    cases hprep : PrepareSingle { PointsIO := Entry } with
    | false =>
      simp only [hprep, Bool.not_false, if_true]
      exact ih B Started hC hS
    | true =>
      simp only [hprep, Bool.not_true, Bool.false_eq_true, if_false]
      generalize (if B.FilterFactories.isSome = true
        then ({ PointsIO := Entry } : FPathProcessor).SetPointFilterData B.FilterFactories
          B.DefaultPointFilterValue
        else { PointsIO := Entry }) = P1
      generalize decide ((Entry.Num : Int) < S.SmallPointsSize) = b
      cases b with
      | true =>
        simp only [FPathProcessor.IsTrivial, if_true]
        apply ih
        · simp only [List.filter_append, List.map_append, hC, List.filter_cons, List.filter_nil,
            FPathProcessor.IsTrivial, if_true, List.map_cons, List.map_nil, Int.toNat_ofNat]
        · simp only [List.filter_append, List.map_append, hS, List.filter_cons, List.filter_nil,
            FPathProcessor.IsTrivial, Bool.not_true, Bool.false_eq_true, if_false,
            List.map_nil, List.append_nil]
      | false =>
        simp only [FPathProcessor.IsTrivial, Bool.false_eq_true, if_false]
        apply ih
        · simp only [List.filter_append, List.map_append, hC, List.filter_cons, List.filter_nil,
            FPathProcessor.IsTrivial, Bool.false_eq_true, if_false, List.map_nil,
            List.append_nil]
        · simp only [List.filter_append, List.map_append, hS, List.filter_cons, List.filter_nil,
            FPathProcessor.IsTrivial, Bool.not_false, if_true, List.map_cons, List.map_nil,
            Int.toNat_ofNat]

/-- What `Process` hands back, list by list: `ClosedBatchProcessors` lists the trivial
processors, the started tasks are one `FAsyncProcess` for each of the others, each by its
`BatchIndex` and in the order of `Processors`, followed by the tasks of
`StartClosedBatchProcessing`. -/
theorem Process_lists (S : UPCGExGlobalSettings) (PrepareSingle : FPathProcessor → Bool)
    (B : TBatch) (hP : B.Processors = []) (hC : B.ClosedBatchProcessors = [])
    (fuel : Nat) (B' : TBatch) (Started : List FTask)
    (h : B.Process S PrepareSingle fuel = some (B', Started)) :
    B'.ClosedBatchProcessors
      = (B'.Processors.filter (fun P => P.IsTrivial)).map (fun P => P.BatchIndex.toNat) ∧
    ∃ Closed, StartClosedBatchProcessing S fuel B' = some Closed ∧
      Started = (B'.Processors.filter (fun P => !P.IsTrivial)).map
        (fun P => FTask.FAsyncProcess P.BatchIndex.toNat) ++ Closed := by
  unfold Process at h
  split_ifs at h with hE
  · simp only [Option.some.injEq, Prod.mk.injEq] at h
    obtain ⟨rfl, rfl⟩ := h
    refine ⟨by rw [hP, hC]; rfl, [], ?_, by rw [hP]; rfl⟩
    unfold StartClosedBatchProcessing
    simp [hC]
  · simp only at h
    have hl := ProcessLoop_lists S PrepareSingle B.PointsCollection
      { B with CurrentState := AsyncState.State_Processing } []
      (by simp only [hP, hC]; rfl) (by simp only [hP]; rfl)
    cases hc : StartClosedBatchProcessing S fuel
        (ProcessLoop S PrepareSingle B.PointsCollection
          { B with CurrentState := AsyncState.State_Processing } []).1 with
    | none => rw [hc] at h; simp at h
    | some Closed =>
      rw [hc] at h
      simp only [Option.map_some', Option.some.injEq, Prod.mk.injEq] at h
      obtain ⟨rfl, rfl⟩ := h
      exact ⟨hl.1, Closed, hc, by rw [← hl.2]⟩

/-- C7: for every points collection, on the batch as constructed over it, with or without
a `SetVtxFilterData` call, whenever `Process` returns, `Processors` holds one processor
for each input for which `PrepareSingle` returned true, in input order, each at its
`BatchIndex`; a processor of `Processors` is trivial (`bIsSmallPoints`) if and only if
its input's point count is below `SmallPointsSize`; a trivial processor is listed exactly
once in `ClosedBatchProcessors` and not started as a `FAsyncProcess` task, a non-trivial
one is started exactly once and not listed; `ClosedBatchProcessors` is the list of the
trivial processors and the started tasks are one `FAsyncProcess` for each of the others,
both in the order of `Processors`, followed by the `FAsyncBatchProcessRange` tasks of
`StartClosedBatchProcessing`; and `Process` does return, given enough fuel, when
`ClusterDefaultBatchIterations >= 1` and the closed-batch counter stays within `int32`. -/
theorem TBatch_Process_partitions_by_size (S : UPCGExGlobalSettings)
    (PrepareSingle : FPathProcessor → Bool) (Collection : List FPointIO)
    (InFilterFactories : Option (List Nat)) (DefaultFilterValue : Bool) :
    (∀ (fuel : Nat) (B' : TBatch) (Started : List FTask),
      ((Construct Collection).SetVtxFilterData InFilterFactories DefaultFilterValue).Process
        S PrepareSingle fuel = some (B', Started) →
      B'.Processors.map (fun P => P.PointsIO)
        = Collection.filter (fun Entry => PrepareSingle { PointsIO := Entry }) ∧
      (∀ (i : Nat) (P : FPathProcessor), B'.Processors[i]? = some P →
        P.BatchIndex = (i : Int) ∧
        (P.bIsSmallPoints = true ↔ (P.PointsIO.Num : Int) < S.SmallPointsSize) ∧
        (P.IsTrivial = true →
          B'.ClosedBatchProcessors.count i = 1 ∧ FTask.FAsyncProcess i ∉ Started) ∧
        (P.IsTrivial = false →
          i ∉ B'.ClosedBatchProcessors ∧ Started.count (FTask.FAsyncProcess i) = 1)) ∧
      B'.ClosedBatchProcessors
        = (B'.Processors.filter (fun P => P.IsTrivial)).map (fun P => P.BatchIndex.toNat) ∧
      (∃ Closed, StartClosedBatchProcessing S fuel B' = some Closed ∧
        (∀ T ∈ Closed, ∃ TaskIndex Iterations,
          T = FTask.FAsyncBatchProcessRange TaskIndex Iterations) ∧
        Started = (B'.Processors.filter (fun P => !P.IsTrivial)).map
          (fun P => FTask.FAsyncProcess P.BatchIndex.toNat) ++ Closed)) ∧
    (∀ fuel : Nat, 1 ≤ S.ClusterDefaultBatchIterations →
      (Collection.length : Int) + S.ClusterDefaultBatchIterations ≤ 2147483648 →
      Collection.length < fuel →
      ∃ B' Started,
        ((Construct Collection).SetVtxFilterData InFilterFactories DefaultFilterValue).Process
          S PrepareSingle fuel = some (B', Started)) := by
  obtain ⟨h1, h2⟩ := Process_spec S PrepareSingle
    ((Construct Collection).SetVtxFilterData InFilterFactories DefaultFilterValue) rfl rfl
  refine ⟨?_, h2⟩
  intro fuel B' Started h
  obtain ⟨hL1, Closed1, hC1, hS1⟩ := Process_lists S PrepareSingle
    ((Construct Collection).SetVtxFilterData InFilterFactories DefaultFilterValue) rfl rfl
    fuel B' Started h
  obtain ⟨hmap, Loop, Closed, rfl, hinv, hcl⟩ := h1 fuel B' Started h
  have hnot : ∀ i : Nat, FTask.FAsyncProcess i ∉ Closed := by
    intro i hm
    obtain ⟨a, b, hab⟩ := hcl _ hm
    exact FTask.noConfusion hab
  refine ⟨hmap, ?_, hL1, Closed1, hC1, StartClosedBatchProcessing_tasks S fuel _ Closed1 hC1,
    hS1⟩
  intro i P hi
  obtain ⟨hb, hs, ht, hn⟩ := hinv.1 i P hi
  refine ⟨hb, hs, ?_, ?_⟩
  · intro hq
    refine ⟨(ht hq).1, ?_⟩
    simp only [List.mem_append, not_or]
    exact ⟨(ht hq).2, hnot i⟩
  · intro hq
    refine ⟨(hn hq).1, ?_⟩
    rw [List.count_append, (hn hq).2, List.count_eq_zero_of_not_mem (hnot i)]

/-- C7 (witness): three inputs of 10, 300 and 5 points with the default settings. The
first and the third processor are trivial and listed in `ClosedBatchProcessors`, the
second is started as a `FAsyncProcess` task; the closed batch is started as one
`FAsyncBatchProcessRange` task. -/
theorem TBatch_Process_partitions_witness :
    ∃ (B' : TBatch) (Started : List FTask),
      ((Construct [⟨0, 10⟩, ⟨1, 300⟩, ⟨2, 5⟩]).SetVtxFilterData none true).Process {}
        (fun _ => true) 4 = some (B', Started) ∧
      B'.Processors.map (fun P => P.PointsIO) = [⟨0, 10⟩, ⟨1, 300⟩, ⟨2, 5⟩] ∧
      B'.Processors.map (fun P => P.bIsSmallPoints) = [true, false, true] ∧
      B'.ClosedBatchProcessors = [0, 2] ∧
      Started = [FTask.FAsyncProcess 1, FTask.FAsyncBatchProcessRange 0 2] :=
  let H := TBatch_Process_partitions_by_size {} (fun _ => true)
    [⟨0, 10⟩, ⟨1, 300⟩, ⟨2, 5⟩] none true
  let ⟨B', Started, h⟩ := H.2 4 (by decide) (by decide) (by decide)
  have hV : ((Construct [⟨0, 10⟩, ⟨1, 300⟩, ⟨2, 5⟩]).SetVtxFilterData none true).Process {}
      (fun _ => true) 4
      = some ({ PointsCollection := [⟨0, 10⟩, ⟨1, 300⟩, ⟨2, 5⟩],
                Processors := [{ PointsIO := ⟨0, 10⟩, bIsSmallPoints := true, BatchIndex := 0 },
                  { PointsIO := ⟨1, 300⟩, bIsSmallPoints := false, BatchIndex := 1 },
                  { PointsIO := ⟨2, 5⟩, bIsSmallPoints := true, BatchIndex := 2 }],
                ClosedBatchProcessors := [0, 2],
                CurrentState := AsyncState.State_Processing },
        [FTask.FAsyncProcess 1, FTask.FAsyncBatchProcessRange 0 2]) := by decide
  have hE := hV.symm.trans h
  ⟨B', Started, h, (H.1 4 B' Started h).1, by
    simp only [Option.some.injEq, Prod.mk.injEq] at hE
    obtain ⟨rfl, rfl⟩ := hE
    exact ⟨rfl, rfl, rfl⟩⟩

end TBatch

end PCGExPointsMT

/-! ## `TDelaunayTriangulation::GetUniqueEdges` -/

namespace PCGExGeo

open PCGExGraph

theorem foldl_flatMap_eq {α β γ : Type} (f : α → List β) (g : γ → β → γ) (l : List α) :
    ∀ b : γ, (l.flatMap f).foldl g b = l.foldl (fun b a => (f a).foldl g b) b := by
  induction l with
  | nil => intro b; rfl
  | cons a l ih => intro b; simp [List.flatMap_cons, List.foldl_append, ih]

theorem GetUniqueEdgesCell_eq {D : Nat} (St : FUniqueEdgesState) (Cell : Fin D → Int) :
    GetUniqueEdgesCell St Cell
      = (cellPairs Cell).foldl (fun St E => GetUniqueEdgesStep St E.Start E.End) St := by
  unfold GetUniqueEdgesCell cellPairs
  rw [foldl_flatMap_eq]
  congr 1
  funext St i
  rw [List.foldl_map]

theorem GetUniqueEdges_eq {D : Nat} (Cells : List (Fin D → Int)) (OutEdges : List FUnsignedEdge) :
    GetUniqueEdges Cells OutEdges
      = ((discoveredPairs Cells).foldl (fun St E => GetUniqueEdgesStep St E.Start E.End)
          { OutEdges := OutEdges, UniqueEdges := [] }).OutEdges := by
  unfold GetUniqueEdges discoveredPairs
  rw [foldl_flatMap_eq]
  congr 2
  funext St Cell
  exact GetUniqueEdgesCell_eq St Cell

theorem mem_discoveredPairs {D : Nat} (Cells : List (Fin D → Int)) (E : FUnsignedEdge) :
    E ∈ discoveredPairs Cells ↔
      ∃ Cell ∈ Cells, ∃ i j : Fin D, i < j ∧ E = ⟨Cell i, Cell j⟩ := by
  unfold discoveredPairs cellPairs
  simp only [List.mem_flatMap, List.mem_map, List.mem_filter, List.mem_finRange, true_and,
    decide_eq_true_eq]
  constructor
  · rintro ⟨Cell, hC, i, j, hij, rfl⟩; exact ⟨Cell, hC, i, j, hij, rfl⟩
  · rintro ⟨Cell, hC, i, j, hij, rfl⟩; exact ⟨Cell, hC, i, j, hij, rfl⟩

/-- The edge key of the specification does not depend on the order of the endpoints. -/
theorem GetUnsignedHash64_comm (A B : Int) : GetUnsignedHash64 A B = GetUnsignedHash64 B A := by
  unfold GetUnsignedHash64
  rw [Nat.min_comm, Nat.max_comm]

/-- On `int32` endpoints the edge key determines the unordered endpoint pair. -/
theorem GetUnsignedHash64_inj (A B A' B' : Int)
    (hA : -2147483648 ≤ A ∧ A < 2147483648) (hB : -2147483648 ≤ B ∧ B < 2147483648)
    (hA' : -2147483648 ≤ A' ∧ A' < 2147483648) (hB' : -2147483648 ≤ B' ∧ B' < 2147483648)
    (h : GetUnsignedHash64 A B = GetUnsignedHash64 A' B') :
    (A = A' ∧ B = B') ∨ (A = B' ∧ B = A') := by
  unfold GetUnsignedHash64 toUInt32 at h
  omega

end PCGExGeo

namespace PCGExGeo

open PCGExGraph

/-- The key `GetUniqueEdges` stores for an edge. -/
theorem GetUniqueEdgesStep_eq (St : FUniqueEdgesState) (E : FUnsignedEdge) :
    GetUniqueEdgesStep St E.Start E.End =
      if GetUnsignedHash64 E.Start E.End ∈ St.UniqueEdges then St
      else { OutEdges := St.OutEdges ++ [E],
             UniqueEdges := GetUnsignedHash64 E.Start E.End :: St.UniqueEdges } := by
  unfold GetUniqueEdgesStep
  by_cases h : GetUnsignedHash64 E.Start E.End ∈ St.UniqueEdges
  · simp [h]
  · simp [h]

/-- The invariant of the loops of `GetUniqueEdges` over a list of discovered pairs:
`UniqueEdges` holds the keys of `OutEdges`, which are pairwise distinct; the edges
appended are a sublist of the pairs, each with a key not seen before and each the first
pair of the list with its key; and every pair of the list has its key in `UniqueEdges`. -/
theorem GetUniqueEdges_fold (L : List FUnsignedEdge) :
    ∀ St : FUniqueEdgesState,
      (∀ h : Nat, h ∈ St.UniqueEdges ↔
        ∃ E ∈ St.OutEdges, GetUnsignedHash64 E.Start E.End = h) →
      (St.OutEdges.map (fun E => GetUnsignedHash64 E.Start E.End)).Nodup →
      (∀ h : Nat, h ∈ (L.foldl (fun St E => GetUniqueEdgesStep St E.Start E.End) St).UniqueEdges ↔
        ∃ E ∈ (L.foldl (fun St E => GetUniqueEdgesStep St E.Start E.End) St).OutEdges,
          GetUnsignedHash64 E.Start E.End = h) ∧
      ((L.foldl (fun St E => GetUniqueEdgesStep St E.Start E.End) St).OutEdges.map
        (fun E => GetUnsignedHash64 E.Start E.End)).Nodup ∧
      (∃ New : List FUnsignedEdge,
        (L.foldl (fun St E => GetUniqueEdgesStep St E.Start E.End) St).OutEdges
          = St.OutEdges ++ New ∧
        New.Sublist L ∧
        ∀ E ∈ New, GetUnsignedHash64 E.Start E.End ∉ St.UniqueEdges ∧
          L.find? (fun F => decide (GetUnsignedHash64 F.Start F.End
            = GetUnsignedHash64 E.Start E.End)) = some E) ∧
      (∀ E ∈ L, GetUnsignedHash64 E.Start E.End
        ∈ (L.foldl (fun St E => GetUniqueEdgesStep St E.Start E.End) St).UniqueEdges) := by
  induction L with
  | nil =>
    intro St hU hN
    exact ⟨hU, hN, ⟨[], by simp, List.Sublist.refl _, by simp⟩, by simp⟩
  | cons P L ih =>
    intro St hU hN
    rw [List.foldl_cons, GetUniqueEdgesStep_eq]
    by_cases hP : GetUnsignedHash64 P.Start P.End ∈ St.UniqueEdges
    · rw [if_pos hP]
      obtain ⟨hU', hN', ⟨New, hOut, hSub, hNew⟩, hAll⟩ := ih St hU hN
      refine ⟨hU', hN', ⟨New, hOut, hSub.cons P, ?_⟩, ?_⟩
      · intro E hE
        obtain ⟨h1, h2⟩ := hNew E hE
        refine ⟨h1, ?_⟩
        rw [List.find?_cons_of_neg]
        · exact h2
        · simp only [decide_eq_true_eq]
          intro heq; rw [heq] at hP; exact h1 hP
      · intro E hE
        rcases List.mem_cons.mp hE with rfl | hE
        · obtain ⟨F, hF, hk⟩ := (hU _).mp hP
          exact (hU' _).mpr ⟨F, by rw [hOut]; exact List.mem_append_left _ hF, hk⟩
        · exact hAll E hE
    · rw [if_neg hP]
      have hU1 : ∀ h : Nat, h ∈ GetUnsignedHash64 P.Start P.End :: St.UniqueEdges ↔
          ∃ E ∈ St.OutEdges ++ [P], GetUnsignedHash64 E.Start E.End = h := by
        intro h
        simp only [List.mem_cons, List.mem_append, List.not_mem_nil, or_false]
        constructor
        · rintro (rfl | hm)
          · exact ⟨P, Or.inr rfl, rfl⟩
          · obtain ⟨E, hE, hk⟩ := (hU h).mp hm
            exact ⟨E, Or.inl hE, hk⟩
        · rintro ⟨E, hE | rfl, hk⟩
          · exact Or.inr ((hU h).mpr ⟨E, hE, hk⟩)
          · exact Or.inl hk.symm
      have hN1 : ((St.OutEdges ++ [P]).map
          (fun E => GetUnsignedHash64 E.Start E.End)).Nodup := by
        rw [List.map_append, List.nodup_append]
        refine ⟨hN, by simp, ?_⟩
        intro a ha hb
        simp only [List.map_cons, List.map_nil, List.mem_singleton] at hb
        subst hb
        obtain ⟨E, hE, hk⟩ := List.mem_map.mp ha
        exact hP ((hU _).mpr ⟨E, hE, hk⟩)
      obtain ⟨hU', hN', ⟨New, hOut, hSub, hNew⟩, hAll⟩ :=
        ih { OutEdges := St.OutEdges ++ [P],
             UniqueEdges := GetUnsignedHash64 P.Start P.End :: St.UniqueEdges } hU1 hN1
      refine ⟨hU', hN', ⟨P :: New, ?_, hSub.cons₂ P, ?_⟩, ?_⟩
      · rw [hOut]; simp
      · intro E hE
        rcases List.mem_cons.mp hE with rfl | hE
        · exact ⟨hP, by rw [List.find?_cons_of_pos]; simp⟩
        · obtain ⟨h1, h2⟩ := hNew E hE
          simp only [List.mem_cons, not_or] at h1
          refine ⟨h1.2, ?_⟩
          rw [List.find?_cons_of_neg]
          · exact h2
          · simp only [decide_eq_true_eq]
            exact fun heq => h1.1 heq.symm
      · intro E hE
        rcases List.mem_cons.mp hE with rfl | hE
        · refine (hU' _).mpr ⟨E, ?_, rfl⟩
          rw [hOut]; simp
        · exact hAll E hE

end PCGExGeo

namespace PCGExGeo

open PCGExGraph

theorem find?_congr_mem {α : Type} (p q : α → Bool) (l : List α)
    (h : ∀ x ∈ l, p x = q x) : l.find? p = l.find? q := by
  induction l with
  | nil => rfl
  | cons a l ih =>
    have ha := h a (List.mem_cons_self a l)
    have hl := ih (fun x hx => h x (List.mem_cons_of_mem a hx))
    simp only [List.find?_cons, ha, hl]

theorem SameEndpoints_hash (E F : FUnsignedEdge) (h : SameEndpoints E F) :
    GetUnsignedHash64 E.Start E.End = GetUnsignedHash64 F.Start F.End := by
  rcases h with ⟨h1, h2⟩ | ⟨h1, h2⟩
  · rw [h1, h2]
  · rw [h1, h2, GetUnsignedHash64_comm]

/-- C8: for every list of cells whose vertex ids are `int32` values, `GetUniqueEdges`
called on an empty `OutEdges` emits, in discovery order, pairs found at simplex positions
`i < j < DIMENSIONS` of some cell and nothing else; no two emitted edges have the same
endpoint pair, whether as `(A, B)` or as `(B, A)`; every pair found is emitted, in one
orientation or the other; and each emitted edge is the first pair of the discovery
sequence with its endpoints, so it has the orientation of the first discovery. -/
theorem GetUniqueEdges_one_edge_per_endpoint_pair {D : Nat} (Cells : List (Fin D → Int))
    (hId : ∀ Cell ∈ Cells, ∀ i : Fin D, -2147483648 ≤ Cell i ∧ Cell i < 2147483648) :
    (∀ E : FUnsignedEdge, E ∈ discoveredPairs Cells ↔
      ∃ Cell ∈ Cells, ∃ i j : Fin D, i < j ∧ E = ⟨Cell i, Cell j⟩) ∧
    (GetUniqueEdges Cells []).Sublist (discoveredPairs Cells) ∧
    (GetUniqueEdges Cells []).Pairwise (fun E F => ¬ SameEndpoints E F) ∧
    (∀ Cell ∈ Cells, ∀ i j : Fin D, i < j →
      (⟨Cell i, Cell j⟩ : FUnsignedEdge) ∈ GetUniqueEdges Cells [] ∨
      (⟨Cell j, Cell i⟩ : FUnsignedEdge) ∈ GetUniqueEdges Cells []) ∧
    (∀ E ∈ GetUniqueEdges Cells [],
      (discoveredPairs Cells).find? (fun F => decide (SameEndpoints F E)) = some E) := by
  have hfold := GetUniqueEdges_fold (discoveredPairs Cells)
    { OutEdges := [], UniqueEdges := [] } (by simp) (by simp)
  rw [← GetUniqueEdges_eq] at hfold
  obtain ⟨hU, hN, ⟨New, hOut, hSub, hNew⟩, hAll⟩ := hfold
  simp only [List.nil_append] at hOut
  subst hOut
  have hrange : ∀ E ∈ discoveredPairs Cells,
      (-2147483648 ≤ E.Start ∧ E.Start < 2147483648) ∧
      (-2147483648 ≤ E.End ∧ E.End < 2147483648) := by
    intro E hE
    obtain ⟨Cell, hC, i, j, _, rfl⟩ := (mem_discoveredPairs Cells E).mp hE
    exact ⟨hId Cell hC i, hId Cell hC j⟩
  have hinj : ∀ E ∈ discoveredPairs Cells, ∀ F ∈ discoveredPairs Cells,
      GetUnsignedHash64 E.Start E.End = GetUnsignedHash64 F.Start F.End →
      SameEndpoints E F := by
    intro E hE F hF hk
    exact GetUnsignedHash64_inj _ _ _ _ (hrange E hE).1 (hrange E hE).2 (hrange F hF).1
      (hrange F hF).2 hk
  refine ⟨mem_discoveredPairs Cells, hSub, ?_, ?_, ?_⟩
  · have hp := List.pairwise_map.mp hN
    exact hp.imp (fun hne hs => hne (SameEndpoints_hash _ _ hs))
  · intro Cell hC i j hij
    have hmem : (⟨Cell i, Cell j⟩ : FUnsignedEdge) ∈ discoveredPairs Cells :=
      (mem_discoveredPairs Cells _).mpr ⟨Cell, hC, i, j, hij, rfl⟩
    obtain ⟨F, hF, hk⟩ := (hU _).mp (hAll _ hmem)
    rcases hinj F (hSub.subset hF) _ hmem hk with ⟨h1, h2⟩ | ⟨h1, h2⟩
    · left
      have : F = ⟨Cell i, Cell j⟩ := by cases F; simp_all
      rw [← this]; exact hF
    · right
      have : F = ⟨Cell j, Cell i⟩ := by cases F; simp_all
      rw [← this]; exact hF
  · intro E hE
    rw [← (hNew E hE).2]
    apply find?_congr_mem
    intro F hF
    have hEm := hSub.subset hE
    by_cases hs : SameEndpoints F E
    · simp [hs, SameEndpoints_hash F E hs]
    · have : GetUnsignedHash64 F.Start F.End ≠ GetUnsignedHash64 E.Start E.End :=
        fun hk => hs (hinj F hF E hEm hk)
      simp [hs, this]

/-- C8 (witness): the 2D cells `(0, 1, 2)` and `(1, 0, 3)` yield five edges, the shared
edge once, as `(0, 1)`. -/
theorem GetUniqueEdges_two_triangles_witness :
    (@GetUniqueEdges 3 [![0, 1, 2], ![1, 0, 3]] []).Pairwise
      (fun E F => ¬ SameEndpoints E F) ∧
    @GetUniqueEdges 3 [![0, 1, 2], ![1, 0, 3]] []
      = [⟨0, 1⟩, ⟨0, 2⟩, ⟨1, 2⟩, ⟨1, 3⟩, ⟨0, 3⟩] :=
  ⟨(GetUniqueEdges_one_edge_per_endpoint_pair (D := 3) [![0, 1, 2], ![1, 0, 3]]
      (by decide)).2.2.1, by decide⟩

end PCGExGeo

/-! ## `PCGExCutEdges::FProcessor` -/

namespace PCGExCluster

namespace FCluster

open PCGExGraph

theorem set_getElem?_self {α : Type} (l : List α) (i : Nat) (x : α) (h : l[i]? = some x) :
    l.set i x = l := by
  induction l generalizing i with
  | nil => rfl
  | cons a l ih =>
    cases i with
    | zero => simp at h; simp [h]
    | succ i => simp at h; simp [ih i h]

theorem map_set_of_eq {α β : Type} (f : α → β) (l : List α) (i : Nat) (x a : α)
    (h : l[i]? = some x) (hf : f a = f x) : (l.set i a).map f = l.map f := by
  induction l generalizing i with
  | nil => rfl
  | cons b l ih =>
    cases i with
    | zero => simp at h; simp [h, hf]
    | succ i => simp at h; simp [ih i h]

theorem SameFrame.frame_refl (C : FCluster) : C.SameFrame C := ⟨rfl, rfl, rfl⟩

theorem SameFrame.frame_trans {C D E : FCluster} (h1 : C.SameFrame D) (h2 : D.SameFrame E) :
    C.SameFrame E :=
  ⟨h2.1.trans h1.1, h2.2.1.trans h1.2.1, h2.2.2.trans h1.2.2⟩

theorem SameFrame.frame_edges_length {C D : FCluster} (h : C.SameFrame D) :
    D.Edges.length = C.Edges.length := by
  have := congrArg List.length h.2.1
  simpa using this

theorem SameFrame.frame_nodes_length {C D : FCluster} (h : C.SameFrame D) :
    D.Nodes.length = C.Nodes.length := by
  have := congrArg List.length h.2.2
  simpa using this

theorem SameFrame.frame_edge {C D : FCluster} (h : C.SameFrame D) (i : Nat) (E : FIndexedEdge)
    (hE : C.Edges[i]? = some E) :
    ∃ F, D.Edges[i]? = some F ∧ F.Start = E.Start ∧ F.End = E.End ∧
      F.PointIndex = E.PointIndex := by
  have h1 := congrArg (fun l => l[i]?) h.2.1
  simp only [List.getElem?_map, hE, Option.map_some'] at h1
  cases hD : D.Edges[i]? with
  | none => rw [hD] at h1; simp at h1
  | some F =>
    rw [hD] at h1
    simp only [Option.map_some', Option.some.injEq, Prod.mk.injEq] at h1
    exact ⟨F, rfl, h1.1, h1.2.1, h1.2.2⟩

theorem SameFrame.frame_node {C D : FCluster} (h : C.SameFrame D) (i : Nat) (N : FNode)
    (hN : C.Nodes[i]? = some N) :
    ∃ M, D.Nodes[i]? = some M ∧ M.PointIndex = N.PointIndex ∧ M.Adjacency = N.Adjacency := by
  have h1 := congrArg (fun l => l[i]?) h.2.2
  simp only [List.getElem?_map, hN, Option.map_some'] at h1
  cases hD : D.Nodes[i]? with
  | none => rw [hD] at h1; simp at h1
  | some M =>
    rw [hD] at h1
    simp only [Option.map_some', Option.some.injEq, Prod.mk.injEq] at h1
    exact ⟨M, rfl, h1.1, h1.2⟩

theorem SameFrame.frame_LookupNode {C D : FCluster} (h : C.SameFrame D) (PointIndex : Nat) :
    D.LookupNode PointIndex = C.LookupNode PointIndex := by
  unfold FCluster.LookupNode
  rw [h.1, h.frame_nodes_length]

theorem Keeps.keeps_refl (Value : Bool) (C : FCluster) : Keeps Value C C :=
  ⟨SameFrame.frame_refl C, fun _ h => h, fun _ h => h⟩

theorem Keeps.keeps_trans {Value : Bool} {C D E : FCluster} (h1 : Keeps Value C D)
    (h2 : Keeps Value D E) : Keeps Value C E :=
  ⟨h1.1.frame_trans h2.1, fun i h => h2.2.1 i (h1.2.1 i h), fun i h => h2.2.2 i (h1.2.2 i h)⟩

/-- Writing an edge flag changes that flag only. -/
theorem SetEdgeValid_spec (C D : FCluster) (Index : Nat) (Value : Bool)
    (h : C.SetEdgeValid Index Value = some D) :
    Keeps Value C D ∧ D.EdgeFlag Index = some Value ∧ D.Nodes = C.Nodes := by
  unfold SetEdgeValid at h
  cases hE : C.Edges[Index]? with
  | none => rw [hE] at h; simp at h
  | some E =>
    rw [hE] at h
    simp only [Option.some.injEq] at h
    subst h
    have hlt : Index < C.Edges.length := by
      by_contra hcon
      rw [List.getElem?_eq_none (by omega)] at hE
      exact Option.noConfusion hE
    refine ⟨⟨⟨rfl, ?_, rfl⟩, ?_, fun _ h => h⟩, ?_, rfl⟩
    · exact map_set_of_eq _ _ _ E _ hE rfl
    · intro j hj
      unfold EdgeFlag at hj ⊢
      simp only
      by_cases hij : Index = j
      · subst hij
        simp [List.getElem?_set_self hlt]
      · rw [List.getElem?_set_ne hij]; exact hj
    · unfold EdgeFlag
      simp [List.getElem?_set_self hlt]

/-- Writing a node flag changes that flag only. -/
theorem SetNodeValid_spec (C D : FCluster) (Index : Nat) (Value : Bool)
    (h : C.SetNodeValid Index Value = some D) :
    Keeps Value C D ∧ D.NodeFlag Index = some Value ∧ D.Edges = C.Edges := by
  unfold SetNodeValid at h
  cases hN : C.Nodes[Index]? with
  | none => rw [hN] at h; simp at h
  | some N =>
    rw [hN] at h
    simp only [Option.some.injEq] at h
    subst h
    have hlt : Index < C.Nodes.length := by
      by_contra hcon
      rw [List.getElem?_eq_none (by omega)] at hN
      exact Option.noConfusion hN
    refine ⟨⟨⟨rfl, rfl, ?_⟩, fun _ h => h, ?_⟩, ?_, rfl⟩
    · exact map_set_of_eq _ _ _ N _ hN rfl
    · intro j hj
      unfold NodeFlag at hj ⊢
      simp only
      by_cases hij : Index = j
      · subst hij
        simp [List.getElem?_set_self hlt]
      · rw [List.getElem?_set_ne hij]; exact hj
    · unfold NodeFlag
      simp [List.getElem?_set_self hlt]

/-- Writing to an edge flag the value it has changes nothing. -/
theorem SetEdgeValid_noop (C : FCluster) (Index : Nat) (Value : Bool)
    (h : C.EdgeFlag Index = some Value) : C.SetEdgeValid Index Value = some C := by
  unfold EdgeFlag at h
  unfold SetEdgeValid
  cases hE : C.Edges[Index]? with
  | none => rw [hE] at h; simp at h
  | some E =>
    rw [hE] at h
    simp only [Option.map_some', Option.some.injEq] at h
    have : ({ E with bValid := Value } : FIndexedEdge) = E := by cases E; simp_all
    simp only [this, set_getElem?_self _ _ _ hE]

/-- Writing to a node flag the value it has changes nothing. -/
theorem SetNodeValid_noop (C : FCluster) (Index : Nat) (Value : Bool)
    (h : C.NodeFlag Index = some Value) : C.SetNodeValid Index Value = some C := by
  unfold NodeFlag at h
  unfold SetNodeValid
  cases hN : C.Nodes[Index]? with
  | none => rw [hN] at h; simp at h
  | some N =>
    rw [hN] at h
    simp only [Option.map_some', Option.some.injEq] at h
    have : ({ N with bValid := Value } : FNode) = N := by cases N; simp_all
    simp only [this, set_getElem?_self _ _ _ hN]

theorem SetEdgeValid_isSome (C : FCluster) (Index : Nat) (Value : Bool)
    (h : Index < C.Edges.length) : ∃ D, C.SetEdgeValid Index Value = some D := by
  unfold SetEdgeValid
  rw [List.getElem?_eq_getElem h]
  exact ⟨_, rfl⟩

theorem SetNodeValid_isSome (C : FCluster) (Index : Nat) (Value : Bool)
    (h : Index < C.Nodes.length) : ∃ D, C.SetNodeValid Index Value = some D := by
  unfold SetNodeValid
  rw [List.getElem?_eq_getElem h]
  exact ⟨_, rfl⟩

theorem LookupNode_lt (C : FCluster) (PointIndex NodeIndex : Nat)
    (h : C.LookupNode PointIndex = some NodeIndex) : NodeIndex < C.Nodes.length := by
  unfold LookupNode at h
  cases hl : C.NodeIndexLookup.lookup PointIndex with
  | none => rw [hl] at h; simp at h
  | some n =>
    rw [hl] at h
    simp only at h
    split_ifs at h with hlt
    simp only [Option.some.injEq] at h
    omega

end FCluster

end PCGExCluster

namespace PCGExCutEdges

namespace FProcessor

open PCGEx PCGExGraph PCGExCluster PCGExCluster.FCluster

/-- The chain of writes of `CutEdge`: edge flag, start node flag, end node flag. -/
theorem cutEdgeChain_spec (C D : FCluster) (EdgeIndex StartNode EndNode : Nat) (Value : Bool)
    (h : ((C.SetEdgeValid EdgeIndex Value).bind (fun C => C.SetNodeValid StartNode Value)).bind
      (fun C => C.SetNodeValid EndNode Value) = some D) :
    Keeps Value C D ∧ D.EdgeFlag EdgeIndex = some Value ∧
      D.NodeFlag StartNode = some Value ∧ D.NodeFlag EndNode = some Value := by
  cases h1 : C.SetEdgeValid EdgeIndex Value with
  | none => rw [h1] at h; simp at h
  | some C1 =>
    rw [h1] at h
    simp only [Option.some_bind] at h
    cases h2 : C1.SetNodeValid StartNode Value with
    | none => rw [h2] at h; simp at h
    | some C2 =>
      rw [h2] at h
      simp only [Option.some_bind] at h
      obtain ⟨k1, f1, _⟩ := SetEdgeValid_spec C C1 _ _ h1
      obtain ⟨k2, f2, _⟩ := SetNodeValid_spec C1 C2 _ _ h2
      obtain ⟨k3, f3, _⟩ := SetNodeValid_spec C2 D _ _ h
      exact ⟨(k1.keeps_trans k2).keeps_trans k3, k3.2.1 _ (k2.2.1 _ f1), k3.2.2 _ f2, f3⟩

theorem cutEdgeChain_noop (C : FCluster) (EdgeIndex StartNode EndNode : Nat) (Value : Bool)
    (h1 : C.EdgeFlag EdgeIndex = some Value) (h2 : C.NodeFlag StartNode = some Value)
    (h3 : C.NodeFlag EndNode = some Value) :
    ((C.SetEdgeValid EdgeIndex Value).bind (fun C => C.SetNodeValid StartNode Value)).bind
      (fun C => C.SetNodeValid EndNode Value) = some C := by
  rw [SetEdgeValid_noop C _ _ h1, Option.some_bind, SetNodeValid_noop C _ _ h2,
    Option.some_bind, SetNodeValid_noop C _ _ h3]

/-- What `CutEdge` leaves behind: only flags changed, flags that had the written value
keep it, and applying `CutEdge` again to the result changes nothing. -/
theorem CutEdge_spec (P Q : FProcessor) (EdgeIndex : Nat) (h : P.CutEdge EdgeIndex = some Q) :
    P.SameFrame Q ∧ Keeps P.Settings.bInvert P.Cluster Q.Cluster ∧
      Q.Cluster.EdgeFlag EdgeIndex = some P.Settings.bInvert ∧
      Q.CutEdge EdgeIndex = some Q := by
  unfold CutEdge at h
  cases hE : P.Cluster.Edges[EdgeIndex]? with
  | none => rw [hE] at h; simp at h
  | some Edge =>
    rw [hE] at h
    simp only at h
    cases hS : P.Cluster.LookupNode Edge.Start with
    | none => rw [hS] at h; simp at h
    | some StartNode =>
      cases hN : P.Cluster.LookupNode Edge.End with
      | none => rw [hS, hN] at h; simp at h
      | some EndNode =>
        rw [hS, hN] at h
        simp only at h
        -- the three branches share their conclusion
        have key : ∀ (D : FCluster), Keeps P.Settings.bInvert P.Cluster D →
            D.EdgeFlag EdgeIndex = some P.Settings.bInvert →
            ({ P with Cluster := D } : FProcessor).CutEdge EdgeIndex
              = some { P with Cluster := D } →
            Q = { P with Cluster := D } →
            P.SameFrame Q ∧ Keeps P.Settings.bInvert P.Cluster Q.Cluster ∧
              Q.Cluster.EdgeFlag EdgeIndex = some P.Settings.bInvert ∧
              Q.CutEdge EdgeIndex = some Q := by
          intro D hK hF hI hQ
          subst hQ
          exact ⟨⟨rfl, rfl, rfl, rfl, hK.1⟩, hK, hF, hI⟩
        have again : ∀ (D : FCluster), P.Cluster.SameFrame D →
            ∃ F, D.Edges[EdgeIndex]? = some F ∧ D.LookupNode F.Start = some StartNode ∧
              D.LookupNode F.End = some EndNode := by
          intro D hD
          obtain ⟨F, hF, hs, he, _⟩ := hD.frame_edge EdgeIndex Edge hE
          exact ⟨F, hF, by rw [hD.frame_LookupNode, hs, hS], by rw [hD.frame_LookupNode, he, hN]⟩
        by_cases hInv : P.Settings.bInvert = true
        · rw [if_pos hInv] at h
          cases hD : ((P.Cluster.SetEdgeValid EdgeIndex true).bind
              (fun C => C.SetNodeValid StartNode true)).bind
              (fun C => C.SetNodeValid EndNode true) with
          | none => rw [hD] at h; simp at h
          | some D =>
            rw [hD] at h
            simp only [Option.map_some', Option.some.injEq] at h
            obtain ⟨hK, f1, f2, f3⟩ := cutEdgeChain_spec _ _ _ _ _ _ hD
            obtain ⟨F, hF, hs, he⟩ := again D hK.1
            refine key D (by rw [hInv]; exact hK) (by rw [hInv]; exact f1) ?_ h.symm
            unfold CutEdge
            simp only [hF, hs, he, hInv, if_true, cutEdgeChain_noop D _ _ _ _ f1 f2 f3,
              Option.map_some']
        · rw [if_neg hInv] at h
          have hInv' : P.Settings.bInvert = false := by
            cases hb : P.Settings.bInvert with
            | true => exact absurd hb hInv
            | false => rfl
          by_cases hAff : P.Settings.bAffectedEdgesAffectEndpoints = true
          · rw [if_pos hAff] at h
            cases hD : ((P.Cluster.SetEdgeValid EdgeIndex false).bind
                (fun C => C.SetNodeValid StartNode false)).bind
                (fun C => C.SetNodeValid EndNode false) with
            | none => rw [hD] at h; simp at h
            | some D =>
              rw [hD] at h
              simp only [Option.map_some', Option.some.injEq] at h
              obtain ⟨hK, f1, f2, f3⟩ := cutEdgeChain_spec _ _ _ _ _ _ hD
              obtain ⟨F, hF, hs, he⟩ := again D hK.1
              refine key D (by rw [hInv']; exact hK) (by rw [hInv']; exact f1) ?_ h.symm
              unfold CutEdge
              simp only [hF, hs, he, hInv', hAff, if_true, Bool.false_eq_true, if_false,
                cutEdgeChain_noop D _ _ _ _ f1 f2 f3, Option.map_some']
          · rw [if_neg hAff] at h
            cases hD : P.Cluster.SetEdgeValid EdgeIndex false with
            | none => rw [hD] at h; simp at h
            | some D =>
              rw [hD] at h
              simp only [Option.map_some', Option.some.injEq] at h
              obtain ⟨hK, f1, _⟩ := SetEdgeValid_spec _ _ _ _ hD
              obtain ⟨F, hF, hs, he⟩ := again D hK.1
              refine key D (by rw [hInv']; exact hK) (by rw [hInv']; exact f1) ?_ h.symm
              unfold CutEdge
              simp only [hF, hs, he, hInv', hAff, Bool.false_eq_true, if_false,
                SetEdgeValid_noop D _ _ f1, Option.map_some']

end FProcessor

end PCGExCutEdges

namespace PCGExCutEdges

namespace FProcessor

open PCGEx PCGExGraph PCGExCluster PCGExCluster.FCluster

/-- What the adjacency loop of `CutNode` leaves behind. -/
theorem CutNodeAdjacency_spec (bInvert : Bool) (Adjacency : List Nat) :
    ∀ C D : FCluster, CutNodeAdjacency bInvert Adjacency C = some D →
      Keeps bInvert C D ∧
      ∀ Hash ∈ Adjacency, D.EdgeFlag (H64B Hash) = some bInvert ∧
        (bInvert = true → D.NodeFlag (H64A Hash) = some true) := by
  induction Adjacency with
  | nil =>
    intro C D h
    simp only [CutNodeAdjacency, Option.some.injEq] at h
    subst h
    exact ⟨Keeps.keeps_refl _ _, by simp⟩
  | cons Hash Rest ih =>
    intro C D h
    unfold CutNodeAdjacency at h
    cases bInvert with
    | true =>
      simp only [if_true] at h
      cases h1 : C.SetEdgeValid (H64B Hash) true with
      | none => rw [h1] at h; simp at h
      | some C1 =>
        rw [h1] at h
        simp only at h
        cases h2 : C1.SetNodeValid (H64A Hash) true with
        | none => rw [h2] at h; simp at h
        | some C2 =>
          rw [h2] at h
          simp only at h
          obtain ⟨k1, f1, _⟩ := SetEdgeValid_spec _ _ _ _ h1
          obtain ⟨k2, f2, _⟩ := SetNodeValid_spec _ _ _ _ h2
          obtain ⟨k3, hrest⟩ := ih C2 D h
          refine ⟨(k1.keeps_trans k2).keeps_trans k3, ?_⟩
          intro H hH
          rcases List.mem_cons.mp hH with rfl | hH
          · exact ⟨k3.2.1 _ (k2.2.1 _ f1), fun _ => k3.2.2 _ f2⟩
          · exact hrest H hH
    | false =>
      simp only [Bool.false_eq_true, if_false] at h
      cases h1 : C.SetEdgeValid (H64B Hash) false with
      | none => rw [h1] at h; simp at h
      | some C1 =>
        rw [h1] at h
        simp only at h
        obtain ⟨k1, f1, _⟩ := SetEdgeValid_spec _ _ _ _ h1
        obtain ⟨k3, hrest⟩ := ih C1 D h
        refine ⟨k1.keeps_trans k3, ?_⟩
        intro H hH
        rcases List.mem_cons.mp hH with rfl | hH
        · exact ⟨k3.2.1 _ f1, fun hc => absurd hc (by decide)⟩
        · exact hrest H hH

/-- The adjacency loop changes nothing when every flag it writes has the written value. -/
theorem CutNodeAdjacency_noop (bInvert : Bool) (Adjacency : List Nat) (C : FCluster)
    (h : ∀ Hash ∈ Adjacency, C.EdgeFlag (H64B Hash) = some bInvert ∧
      (bInvert = true → C.NodeFlag (H64A Hash) = some true)) :
    CutNodeAdjacency bInvert Adjacency C = some C := by
  induction Adjacency with
  | nil => rfl
  | cons Hash Rest ih =>
    have hH := h Hash (List.mem_cons_self _ _)
    have hR := ih (fun H hm => h H (List.mem_cons_of_mem _ hm))
    unfold CutNodeAdjacency
    cases bInvert with
    | true =>
      simp only [if_true, SetEdgeValid_noop C _ _ hH.1, SetNodeValid_noop C _ _ (hH.2 rfl)]
      exact hR
    | false =>
      simp only [Bool.false_eq_true, if_false, SetEdgeValid_noop C _ _ hH.1]
      exact hR

/-- What `CutNode` leaves behind: only flags changed, flags that had the written value
keep it, and applying `CutNode` again to the result changes nothing. -/
theorem CutNode_spec (P Q : FProcessor) (Index : Nat) (h : P.CutNode Index = some Q) :
    P.SameFrame Q ∧ Keeps P.Settings.bInvert P.Cluster Q.Cluster ∧
      Q.Cluster.NodeFlag Index = some P.Settings.bInvert ∧
      Q.CutNode Index = some Q := by
  unfold CutNode at h
  cases hN : P.Cluster.Nodes[Index]? with
  | none => rw [hN] at h; simp at h
  | some Node =>
    rw [hN] at h
    simp only at h
    cases h1 : P.Cluster.SetNodeValid Index P.Settings.bInvert with
    | none => rw [h1] at h; simp at h
    | some C =>
      rw [h1] at h
      simp only at h
      obtain ⟨k1, f1, _⟩ := SetNodeValid_spec _ _ _ _ h1
      by_cases hAff : P.Settings.bAffectedNodesAffectConnectedEdges = true
      · rw [if_pos hAff] at h
        cases h2 : CutNodeAdjacency P.Settings.bInvert Node.Adjacency C with
        | none => rw [h2] at h; simp at h
        | some D =>
          rw [h2] at h
          simp only [Option.map_some', Option.some.injEq] at h
          subst h
          obtain ⟨k2, hadj⟩ := CutNodeAdjacency_spec _ _ _ _ h2
          have hK := k1.keeps_trans k2
          obtain ⟨M, hM, _, hMA⟩ := hK.1.frame_node Index Node hN
          refine ⟨⟨rfl, rfl, rfl, rfl, hK.1⟩, hK, k2.2.2 _ f1, ?_⟩
          unfold CutNode
          simp only [hM, SetNodeValid_noop D _ _ (k2.2.2 _ f1), hAff, if_true, hMA,
            CutNodeAdjacency_noop _ _ D hadj, Option.map_some']
      · rw [if_neg hAff] at h
        simp only [Option.some.injEq] at h
        subst h
        obtain ⟨M, hM, _, _⟩ := k1.1.frame_node Index Node hN
        refine ⟨⟨rfl, rfl, rfl, rfl, k1.1⟩, k1, f1, ?_⟩
        unfold CutNode
        simp only [hM, SetNodeValid_noop C _ _ f1, hAff, Bool.false_eq_true, if_false]

theorem iterate_bind_fixed {α : Type} (f : α → Option α) (x : α) (h : f x = some x) :
    ∀ n : Nat, (fun o : Option α => o.bind f)^[n] (some x) = some x := by
  intro n
  induction n with
  | zero => rfl
  | succ n ih => rw [Function.iterate_succ_apply', ih, Option.some_bind, h]

end FProcessor

end PCGExCutEdges

namespace PCGExCutEdges

open PCGEx PCGExGraph PCGExCluster PCGExCluster.FCluster

/-- A callback that relates each state to the next by a reflexive and transitive
relation makes `FindFirstElementWithBoundsTest` relate its input to its output. -/
theorem FindFirstElementWithBoundsTest_rel {σ α : Type} (R : σ → σ → Prop)
    (hrefl : ∀ St, R St St) (htrans : ∀ A B C, R A B → R B C → R A C)
    (Func : σ → α → Option (Bool × σ))
    (hF : ∀ St Element b St1, Func St Element = some (b, St1) → R St St1) :
    ∀ (Elements : List α) (St St1 : σ),
      FindFirstElementWithBoundsTest Func Elements St = some St1 → R St St1 := by
  intro Elements
  induction Elements with
  | nil =>
    intro St St1 h
    simp only [FindFirstElementWithBoundsTest, Option.some.injEq] at h
    subst h; exact hrefl St
  | cons E Rest ih =>
    intro St St1 h
    unfold FindFirstElementWithBoundsTest at h
    cases hE : Func St E with
    | none => rw [hE] at h; simp at h
    | some r =>
      obtain ⟨b, St2⟩ := r
      rw [hE] at h
      cases b with
      | true => exact htrans _ _ _ (hF _ _ _ _ hE) (ih St2 St1 h)
      | false =>
        simp only [Option.some.injEq] at h
        subst h; exact hF _ _ _ _ hE

/-- A callback that returns on every state satisfying an invariant it keeps makes
`FindFirstElementWithBoundsTest` return. -/
theorem FindFirstElementWithBoundsTest_isSome {σ α : Type} (I : σ → Prop)
    (Func : σ → α → Option (Bool × σ))
    (hF : ∀ St Element, I St → ∃ b St1, Func St Element = some (b, St1) ∧ I St1) :
    ∀ (Elements : List α) (St : σ), I St →
      ∃ St1, FindFirstElementWithBoundsTest Func Elements St = some St1 ∧ I St1 := by
  intro Elements
  induction Elements with
  | nil => intro St h; exact ⟨St, rfl, h⟩
  | cons E Rest ih =>
    intro St h
    obtain ⟨b, St1, hE, hI⟩ := hF St E h
    unfold FindFirstElementWithBoundsTest
    rw [hE]
    cases b with
    | true => exact ih St1 hI
    | false => exact ⟨St1, rfl, hI⟩

namespace FProcessor

theorem SameFrame.proc_refl (P : FProcessor) : P.SameFrame P :=
  ⟨rfl, rfl, rfl, rfl, FCluster.SameFrame.frame_refl _⟩

theorem SameFrame.proc_trans {P Q R : FProcessor} (h1 : P.SameFrame Q) (h2 : Q.SameFrame R) :
    P.SameFrame R :=
  ⟨h2.1.trans h1.1, h2.2.1.trans h1.2.1, h2.2.2.1.trans h1.2.2.1,
    h2.2.2.2.1.trans h1.2.2.2.1, h1.2.2.2.2.frame_trans h2.2.2.2.2⟩

theorem SameFrame.of_cluster (P : FProcessor) (C : FCluster) (h : P.Cluster.SameFrame C) :
    P.SameFrame { P with Cluster := C } := ⟨rfl, rfl, rfl, rfl, h⟩

theorem ProcessSingleEdgeCallback_frame (EdgeIndex : Nat) (P : FProcessor)
    (PathEdge : FPathEdgeProbe) (b : Bool) (Q : FProcessor)
    (h : ProcessSingleEdgeCallback EdgeIndex P PathEdge = some (b, Q)) : P.SameFrame Q := by
  unfold ProcessSingleEdgeCallback at h
  cases hE : P.Cluster.Edges[EdgeIndex]? with
  | none => rw [hE] at h; simp at h
  | some Edge =>
    rw [hE] at h
    simp only at h
    split_ifs at h
    all_goals first
      | (simp only [Option.some.injEq, Prod.mk.injEq] at h
         obtain ⟨_, rfl⟩ := h
         exact SameFrame.proc_refl P)
      | (cases hC : P.CutEdge EdgeIndex with
         | none => rw [hC] at h; simp at h
         | some P1 =>
           rw [hC] at h
           simp only [Option.map_some', Option.some.injEq, Prod.mk.injEq] at h
           obtain ⟨_, rfl⟩ := h
           exact (CutEdge_spec P P1 EdgeIndex hC).1)

theorem ProcessSingleEdgePaths_frame (EdgeIndex : Nat)
    (Paths : List (FPathProbe FPathEdgeProbe)) :
    ∀ P Q : FProcessor, ProcessSingleEdgePaths EdgeIndex Paths P = some Q → P.SameFrame Q := by
  induction Paths with
  | nil =>
    intro P Q h
    simp only [ProcessSingleEdgePaths, Option.some.injEq] at h
    subst h; exact SameFrame.proc_refl P
  | cons Path Rest ih =>
    intro P Q h
    unfold ProcessSingleEdgePaths at h
    split_ifs at h with hB
    · exact ih P Q h
    · cases hF : FindFirstElementWithBoundsTest (ProcessSingleEdgeCallback EdgeIndex)
          Path.Elements P with
      | none => rw [hF] at h; simp at h
      | some P1 =>
        rw [hF] at h
        simp only at h
        have h1 : P.SameFrame P1 :=
          FindFirstElementWithBoundsTest_rel SameFrame SameFrame.proc_refl
            (fun _ _ _ a b => SameFrame.proc_trans a b) _
            (ProcessSingleEdgeCallback_frame EdgeIndex) _ _ _ hF
        cases hE : P1.Cluster.Edges[EdgeIndex]? with
        | none => rw [hE] at h; simp at h
        | some Edge =>
          rw [hE] at h
          simp only at h
          split_ifs at h
          · simp only [Option.some.injEq] at h
            subst h; exact h1
          · exact h1.proc_trans (ih P1 Q h)

theorem ProcessSingleEdge_frame (P Q : FProcessor) (Paths : List (FPathProbe FPathEdgeProbe))
    (EdgeIndex : Nat) (h : P.ProcessSingleEdge Paths EdgeIndex = some Q) : P.SameFrame Q := by
  unfold ProcessSingleEdge at h
  cases hc : P.EdgeFilterCache[EdgeIndex]? with
  | none => rw [hc] at h; simp at h
  | some bPreserved =>
    cases hE : P.Cluster.Edges[EdgeIndex]? with
    | none => rw [hc, hE] at h; simp at h
    | some Edge =>
      rw [hc, hE] at h
      simp only at h
      split_ifs at h
      · cases hS : P.Cluster.SetEdgeValid EdgeIndex true with
        | none => rw [hS] at h; simp at h
        | some C =>
          rw [hS] at h
          simp only [Option.map_some', Option.some.injEq] at h
          subst h
          exact SameFrame.of_cluster P C (SetEdgeValid_spec _ _ _ _ hS).1.1
      · simp only [Option.some.injEq] at h
        subst h; exact SameFrame.proc_refl P
      · exact ProcessSingleEdgePaths_frame EdgeIndex Paths P Q h

theorem ProcessSingleNodeCallback_frame (Index : Nat) (P : FProcessor)
    (PathEdge : FPathNodeProbe) (b : Bool) (Q : FProcessor)
    (h : ProcessSingleNodeCallback Index P PathEdge = some (b, Q)) : P.SameFrame Q := by
  unfold ProcessSingleNodeCallback at h
  cases hN : P.Cluster.Nodes[Index]? with
  | none => rw [hN] at h; simp at h
  | some Node =>
    rw [hN] at h
    simp only at h
    split_ifs at h
    all_goals first
      | (simp only [Option.some.injEq, Prod.mk.injEq] at h
         obtain ⟨_, rfl⟩ := h
         exact SameFrame.proc_refl P)
      | (cases hC : P.CutNode Index with
         | none => rw [hC] at h; simp at h
         | some P1 =>
           rw [hC] at h
           simp only [Option.map_some', Option.some.injEq, Prod.mk.injEq] at h
           obtain ⟨_, rfl⟩ := h
           exact (CutNode_spec P P1 Index hC).1)

theorem ProcessSingleNodePaths_frame (Index : Nat)
    (Paths : List (FPathProbe FPathNodeProbe)) :
    ∀ P Q : FProcessor, ProcessSingleNodePaths Index Paths P = some Q → P.SameFrame Q := by
  induction Paths with
  | nil =>
    intro P Q h
    simp only [ProcessSingleNodePaths, Option.some.injEq] at h
    subst h; exact SameFrame.proc_refl P
  | cons Path Rest ih =>
    intro P Q h
    unfold ProcessSingleNodePaths at h
    split_ifs at h with hB
    · exact ih P Q h
    · cases hF : FindFirstElementWithBoundsTest (ProcessSingleNodeCallback Index)
          Path.Elements P with
      | none => rw [hF] at h; simp at h
      | some P1 =>
        rw [hF] at h
        simp only at h
        have h1 : P.SameFrame P1 :=
          FindFirstElementWithBoundsTest_rel SameFrame SameFrame.proc_refl
            (fun _ _ _ a b => SameFrame.proc_trans a b) _
            (ProcessSingleNodeCallback_frame Index) _ _ _ hF
        cases hE : P1.Cluster.Nodes[Index]? with
        | none => rw [hE] at h; simp at h
        | some Node =>
          rw [hE] at h
          simp only at h
          split_ifs at h
          · simp only [Option.some.injEq] at h
            subst h; exact h1
          · exact h1.proc_trans (ih P1 Q h)

theorem ProcessSingleNode_frame (P Q : FProcessor) (Paths : List (FPathProbe FPathNodeProbe))
    (Index : Nat) (h : P.ProcessSingleNode Paths Index = some Q) : P.SameFrame Q := by
  unfold ProcessSingleNode at h
  cases hc : P.NodeFilterCache[Index]? with
  | none => rw [hc] at h; simp at h
  | some bPreserved =>
    cases hE : P.Cluster.Nodes[Index]? with
    | none => rw [hc, hE] at h; simp at h
    | some Node =>
      rw [hc, hE] at h
      simp only at h
      split_ifs at h
      · cases hS : P.Cluster.SetNodeValid Index true with
        | none => rw [hS] at h; simp at h
        | some C =>
          rw [hS] at h
          simp only [Option.map_some', Option.some.injEq] at h
          subst h
          exact SameFrame.of_cluster P C (SetNodeValid_spec _ _ _ _ hS).1.1
      · simp only [Option.some.injEq] at h
        subst h; exact SameFrame.proc_refl P
      · exact ProcessSingleNodePaths_frame Index Paths P Q h

theorem ProcessSingleRangeIteration_frame (P Q : FProcessor) (Iteration : Nat)
    (h : P.ProcessSingleRangeIteration Iteration = some Q) : P.SameFrame Q := by
  unfold ProcessSingleRangeIteration at h
  cases hE : P.Cluster.Edges[Iteration]? with
  | none => rw [hE] at h; simp at h
  | some Edge =>
    rw [hE] at h
    simp only at h
    split_ifs at h
    · simp only [Option.some.injEq] at h
      subst h; exact SameFrame.proc_refl P
    · cases hS : P.Cluster.LookupNode Edge.Start with
      | none => rw [hS] at h; simp at h
      | some s =>
        cases hT : P.Cluster.LookupNode Edge.End with
        | none => rw [hS, hT] at h; simp at h
        | some e =>
          rw [hS, hT] at h
          simp only at h
          cases hs : P.Cluster.Nodes[s]? with
          | none => rw [hs] at h; simp at h
          | some StartNode =>
            cases he : P.Cluster.Nodes[e]? with
            | none => rw [hs, he] at h; simp at h
            | some EndNode =>
              rw [hs, he] at h
              simp only at h
              split_ifs at h
              · cases hV : P.Cluster.SetEdgeValid Iteration true with
                | none => rw [hV] at h; simp at h
                | some C =>
                  rw [hV] at h
                  simp only [Option.map_some', Option.some.injEq] at h
                  subst h
                  exact SameFrame.of_cluster P C (SetEdgeValid_spec _ _ _ _ hV).1.1
              · simp only [Option.some.injEq] at h
                subst h; exact SameFrame.proc_refl P

end FProcessor

end PCGExCutEdges

namespace PCGExCutEdges

namespace FProcessor

open PCGEx PCGExGraph PCGExCluster PCGExCluster.FCluster

theorem clusterSameFrame_symm {C D : FCluster} (h : C.SameFrame D) : D.SameFrame C :=
  ⟨h.1.symm, h.2.1.symm, h.2.2.symm⟩

/-- Well-formedness reads nothing but the frame. -/
theorem WellFormed_of_SameFrame {P Q : FProcessor} (hW : P.WellFormed) (h : P.SameFrame Q) :
    Q.WellFormed := by
  obtain ⟨hS, hI, hEc, hNc, hC⟩ := h
  obtain ⟨w1, w2, w3, w4⟩ := hW
  have hC' := clusterSameFrame_symm hC
  refine ⟨?_, ?_, ?_, ?_⟩
  · intro F hF
    obtain ⟨i, hi, hget⟩ := List.getElem_of_mem hF
    have hF' : Q.Cluster.Edges[i]? = some F := by rw [List.getElem?_eq_getElem hi, hget]
    obtain ⟨E, hE, hs, he, _⟩ := hC'.frame_edge i F hF'
    have hEm : E ∈ P.Cluster.Edges := List.getElem?_mem hE
    rw [hC.frame_LookupNode, hC.frame_LookupNode, ← hs, ← he]
    exact w1 E hEm
  · intro M hM Hash hH
    obtain ⟨i, hi, hget⟩ := List.getElem_of_mem hM
    have hM' : Q.Cluster.Nodes[i]? = some M := by rw [List.getElem?_eq_getElem hi, hget]
    obtain ⟨N, hN, _, ha⟩ := hC'.frame_node i M hM'
    have hNm : N ∈ P.Cluster.Nodes := List.getElem?_mem hN
    rw [hC.frame_edges_length, hC.frame_nodes_length]
    exact w2 N hNm Hash (by rw [ha]; exact hH)
  · rw [hEc, hC.frame_edges_length]; exact w3
  · rw [hNc, hC.frame_nodes_length]; exact w4

theorem cutEdgeChain_isSome (C : FCluster) (EdgeIndex StartNode EndNode : Nat) (Value : Bool)
    (h1 : EdgeIndex < C.Edges.length) (h2 : StartNode < C.Nodes.length)
    (h3 : EndNode < C.Nodes.length) :
    ∃ D, ((C.SetEdgeValid EdgeIndex Value).bind (fun C => C.SetNodeValid StartNode Value)).bind
      (fun C => C.SetNodeValid EndNode Value) = some D := by
  obtain ⟨C1, e1⟩ := SetEdgeValid_isSome C EdgeIndex Value h1
  have k1 := (SetEdgeValid_spec _ _ _ _ e1).1.1
  obtain ⟨C2, e2⟩ := SetNodeValid_isSome C1 StartNode Value (by rw [k1.frame_nodes_length]; exact h2)
  have k2 := (SetNodeValid_spec _ _ _ _ e2).1.1
  obtain ⟨C3, e3⟩ := SetNodeValid_isSome C2 EndNode Value
    (by rw [k2.frame_nodes_length, k1.frame_nodes_length]; exact h3)
  exact ⟨C3, by rw [e1, Option.some_bind, e2, Option.some_bind, e3]⟩

/-- On a well-formed processor `CutEdge` returns for every edge index in bounds. -/
theorem CutEdge_isSome (P : FProcessor) (EdgeIndex : Nat) (hW : P.WellFormed)
    (hI : EdgeIndex < P.Cluster.Edges.length) : ∃ Q, P.CutEdge EdgeIndex = some Q := by
  have hE : P.Cluster.Edges[EdgeIndex]? = some (P.Cluster.Edges[EdgeIndex]) :=
    List.getElem?_eq_getElem hI
  have hm : P.Cluster.Edges[EdgeIndex] ∈ P.Cluster.Edges := List.getElem_mem hI
  obtain ⟨hs, he⟩ := hW.1 _ hm
  obtain ⟨s, hs⟩ := Option.isSome_iff_exists.mp hs
  obtain ⟨e, he⟩ := Option.isSome_iff_exists.mp he
  have hsl := LookupNode_lt _ _ _ hs
  have hel := LookupNode_lt _ _ _ he
  unfold CutEdge
  simp only [hE, hs, he]
  split_ifs
  · obtain ⟨D, hD⟩ := cutEdgeChain_isSome P.Cluster EdgeIndex s e true hI hsl hel
    exact ⟨_, by rw [hD]; rfl⟩
  · obtain ⟨D, hD⟩ := cutEdgeChain_isSome P.Cluster EdgeIndex s e false hI hsl hel
    exact ⟨_, by rw [hD]; rfl⟩
  · obtain ⟨D, hD⟩ := SetEdgeValid_isSome P.Cluster EdgeIndex false hI
    exact ⟨_, by rw [hD]; rfl⟩

theorem CutNodeAdjacency_isSome (bInvert : Bool) (Adjacency : List Nat) :
    ∀ C : FCluster,
      (∀ Hash ∈ Adjacency, H64B Hash < C.Edges.length ∧ H64A Hash < C.Nodes.length) →
      ∃ D, CutNodeAdjacency bInvert Adjacency C = some D := by
  induction Adjacency with
  | nil => intro C _; exact ⟨C, rfl⟩
  | cons Hash Rest ih =>
    intro C h
    obtain ⟨hb, ha⟩ := h Hash (List.mem_cons_self _ _)
    have hR := fun H hm => h H (List.mem_cons_of_mem Hash hm)
    unfold CutNodeAdjacency
    cases bInvert with
    | true =>
      obtain ⟨C1, e1⟩ := SetEdgeValid_isSome C (H64B Hash) true hb
      have k1 := (SetEdgeValid_spec _ _ _ _ e1).1.1
      obtain ⟨C2, e2⟩ := SetNodeValid_isSome C1 (H64A Hash) true
        (by rw [k1.frame_nodes_length]; exact ha)
      have k2 := (SetNodeValid_spec _ _ _ _ e2).1.1
      simp only [if_true, e1, e2]
      apply ih C2
      intro H hm
      rw [k2.frame_edges_length, k1.frame_edges_length, k2.frame_nodes_length, k1.frame_nodes_length]
      exact hR H hm
    | false =>
      obtain ⟨C1, e1⟩ := SetEdgeValid_isSome C (H64B Hash) false hb
      have k1 := (SetEdgeValid_spec _ _ _ _ e1).1.1
      simp only [Bool.false_eq_true, if_false, e1]
      apply ih C1
      intro H hm
      rw [k1.frame_edges_length, k1.frame_nodes_length]
      exact hR H hm

/-- On a well-formed processor `CutNode` returns for every node index in bounds. -/
theorem CutNode_isSome (P : FProcessor) (Index : Nat) (hW : P.WellFormed)
    (hI : Index < P.Cluster.Nodes.length) : ∃ Q, P.CutNode Index = some Q := by
  have hN : P.Cluster.Nodes[Index]? = some (P.Cluster.Nodes[Index]) :=
    List.getElem?_eq_getElem hI
  have hm : P.Cluster.Nodes[Index] ∈ P.Cluster.Nodes := List.getElem_mem hI
  obtain ⟨C, hC⟩ := SetNodeValid_isSome P.Cluster Index P.Settings.bInvert hI
  have k := (SetNodeValid_spec _ _ _ _ hC).1.1
  unfold CutNode
  simp only [hN, hC]
  split_ifs
  · obtain ⟨D, hD⟩ := CutNodeAdjacency_isSome P.Settings.bInvert
      (P.Cluster.Nodes[Index]).Adjacency C (by
        intro H hH
        rw [k.frame_edges_length, k.frame_nodes_length]
        exact hW.2.1 _ hm H hH)
    exact ⟨_, by rw [hD]; rfl⟩
  · exact ⟨_, rfl⟩

end FProcessor

end PCGExCutEdges

namespace PCGExCutEdges

namespace FProcessor

open PCGEx PCGExGraph PCGExCluster PCGExCluster.FCluster

theorem SameFrame.proc_edges_length {P Q : FProcessor} (h : P.SameFrame Q) :
    Q.Cluster.Edges.length = P.Cluster.Edges.length := h.2.2.2.2.frame_edges_length

theorem SameFrame.proc_nodes_length {P Q : FProcessor} (h : P.SameFrame Q) :
    Q.Cluster.Nodes.length = P.Cluster.Nodes.length := h.2.2.2.2.frame_nodes_length

theorem ProcessSingleEdgeCallback_isSome (EdgeIndex : Nat) (P : FProcessor)
    (PathEdge : FPathEdgeProbe)
    (hI : P.WellFormed ∧ EdgeIndex < P.Cluster.Edges.length) :
    ∃ b Q, ProcessSingleEdgeCallback EdgeIndex P PathEdge = some (b, Q) ∧
      (Q.WellFormed ∧ EdgeIndex < Q.Cluster.Edges.length) := by
  obtain ⟨hW, hlt⟩ := hI
  obtain ⟨Q, hQ⟩ := CutEdge_isSome P EdgeIndex hW hlt
  have hfr := (CutEdge_spec P Q EdgeIndex hQ).1
  have hE : P.Cluster.Edges[EdgeIndex]? = some (P.Cluster.Edges[EdgeIndex]) :=
    List.getElem?_eq_getElem hlt
  unfold ProcessSingleEdgeCallback
  simp only [hE, hQ, Option.map_some']
  split_ifs
  all_goals first
    | exact ⟨_, _, rfl, hW, hlt⟩
    | exact ⟨_, _, rfl, WellFormed_of_SameFrame hW hfr, by rw [hfr.proc_edges_length]; exact hlt⟩

theorem ProcessSingleEdgePaths_isSome (EdgeIndex : Nat)
    (Paths : List (FPathProbe FPathEdgeProbe)) :
    ∀ P : FProcessor, P.WellFormed → EdgeIndex < P.Cluster.Edges.length →
      ∃ Q, ProcessSingleEdgePaths EdgeIndex Paths P = some Q := by
  induction Paths with
  | nil => intro P _ _; exact ⟨P, rfl⟩
  | cons Path Rest ih =>
    intro P hW hlt
    unfold ProcessSingleEdgePaths
    split_ifs
    · exact ih P hW hlt
    · obtain ⟨P1, hP1, hW1, hlt1⟩ :=
        FindFirstElementWithBoundsTest_isSome
          (fun Q : FProcessor => Q.WellFormed ∧ EdgeIndex < Q.Cluster.Edges.length)
          (ProcessSingleEdgeCallback EdgeIndex)
          (fun St E h => ProcessSingleEdgeCallback_isSome EdgeIndex St E h)
          Path.Elements P ⟨hW, hlt⟩
      have hE : P1.Cluster.Edges[EdgeIndex]? = some (P1.Cluster.Edges[EdgeIndex]) :=
        List.getElem?_eq_getElem hlt1
      simp only [hP1, hE]
      split_ifs
      · exact ⟨_, rfl⟩
      · exact ih P1 hW1 hlt1

theorem ProcessSingleEdge_isSome (P : FProcessor) (Paths : List (FPathProbe FPathEdgeProbe))
    (EdgeIndex : Nat) (hW : P.WellFormed) (hlt : EdgeIndex < P.Cluster.Edges.length) :
    ∃ Q, P.ProcessSingleEdge Paths EdgeIndex = some Q := by
  have hE : P.Cluster.Edges[EdgeIndex]? = some (P.Cluster.Edges[EdgeIndex]) :=
    List.getElem?_eq_getElem hlt
  have hlc : EdgeIndex < P.EdgeFilterCache.length := by rw [hW.2.2.1]; exact hlt
  have hc : P.EdgeFilterCache[EdgeIndex]? = some (P.EdgeFilterCache[EdgeIndex]) :=
    List.getElem?_eq_getElem hlc
  unfold ProcessSingleEdge
  simp only [hE, hc]
  split_ifs
  · obtain ⟨C, hC⟩ := SetEdgeValid_isSome P.Cluster EdgeIndex true hlt
    exact ⟨_, by rw [hC]; rfl⟩
  · exact ⟨_, rfl⟩
  · exact ProcessSingleEdgePaths_isSome EdgeIndex Paths P hW hlt

theorem ProcessSingleNodeCallback_isSome (Index : Nat) (P : FProcessor)
    (PathEdge : FPathNodeProbe)
    (hI : P.WellFormed ∧ Index < P.Cluster.Nodes.length) :
    ∃ b Q, ProcessSingleNodeCallback Index P PathEdge = some (b, Q) ∧
      (Q.WellFormed ∧ Index < Q.Cluster.Nodes.length) := by
  obtain ⟨hW, hlt⟩ := hI
  obtain ⟨Q, hQ⟩ := CutNode_isSome P Index hW hlt
  have hfr := (CutNode_spec P Q Index hQ).1
  have hN : P.Cluster.Nodes[Index]? = some (P.Cluster.Nodes[Index]) :=
    List.getElem?_eq_getElem hlt
  unfold ProcessSingleNodeCallback
  simp only [hN, hQ, Option.map_some']
  split_ifs
  all_goals first
    | exact ⟨_, _, rfl, hW, hlt⟩
    | exact ⟨_, _, rfl, WellFormed_of_SameFrame hW hfr, by rw [hfr.proc_nodes_length]; exact hlt⟩

theorem ProcessSingleNodePaths_isSome (Index : Nat)
    (Paths : List (FPathProbe FPathNodeProbe)) :
    ∀ P : FProcessor, P.WellFormed → Index < P.Cluster.Nodes.length →
      ∃ Q, ProcessSingleNodePaths Index Paths P = some Q := by
  induction Paths with
  | nil => intro P _ _; exact ⟨P, rfl⟩
  | cons Path Rest ih =>
    intro P hW hlt
    unfold ProcessSingleNodePaths
    split_ifs
    · exact ih P hW hlt
    · obtain ⟨P1, hP1, hW1, hlt1⟩ :=
        FindFirstElementWithBoundsTest_isSome
          (fun Q : FProcessor => Q.WellFormed ∧ Index < Q.Cluster.Nodes.length)
          (ProcessSingleNodeCallback Index)
          (fun St E h => ProcessSingleNodeCallback_isSome Index St E h)
          Path.Elements P ⟨hW, hlt⟩
      have hN : P1.Cluster.Nodes[Index]? = some (P1.Cluster.Nodes[Index]) :=
        List.getElem?_eq_getElem hlt1
      simp only [hP1, hN]
      split_ifs
      · exact ⟨_, rfl⟩
      · exact ih P1 hW1 hlt1

theorem ProcessSingleNode_isSome (P : FProcessor) (Paths : List (FPathProbe FPathNodeProbe))
    (Index : Nat) (hW : P.WellFormed) (hlt : Index < P.Cluster.Nodes.length) :
    ∃ Q, P.ProcessSingleNode Paths Index = some Q := by
  have hN : P.Cluster.Nodes[Index]? = some (P.Cluster.Nodes[Index]) :=
    List.getElem?_eq_getElem hlt
  have hlc : Index < P.NodeFilterCache.length := by rw [hW.2.2.2]; exact hlt
  have hc : P.NodeFilterCache[Index]? = some (P.NodeFilterCache[Index]) :=
    List.getElem?_eq_getElem hlc
  unfold ProcessSingleNode
  simp only [hN, hc]
  split_ifs
  · obtain ⟨C, hC⟩ := SetNodeValid_isSome P.Cluster Index true hlt
    exact ⟨_, by rw [hC]; rfl⟩
  · exact ⟨_, rfl⟩
  · exact ProcessSingleNodePaths_isSome Index Paths P hW hlt

theorem ProcessSingleRangeIteration_isSome (P : FProcessor) (Iteration : Nat)
    (hW : P.WellFormed) (hlt : Iteration < P.Cluster.Edges.length) :
    ∃ Q, P.ProcessSingleRangeIteration Iteration = some Q := by
  have hE : P.Cluster.Edges[Iteration]? = some (P.Cluster.Edges[Iteration]) :=
    List.getElem?_eq_getElem hlt
  have hm : P.Cluster.Edges[Iteration] ∈ P.Cluster.Edges := List.getElem_mem hlt
  obtain ⟨hs, he⟩ := hW.1 _ hm
  obtain ⟨s, hs⟩ := Option.isSome_iff_exists.mp hs
  obtain ⟨e, he⟩ := Option.isSome_iff_exists.mp he
  have hsl := LookupNode_lt _ _ _ hs
  have hel := LookupNode_lt _ _ _ he
  unfold ProcessSingleRangeIteration
  simp only [hE, hs, he, List.getElem?_eq_getElem hsl, List.getElem?_eq_getElem hel]
  split_ifs
  · exact ⟨_, rfl⟩
  · obtain ⟨C, hC⟩ := SetEdgeValid_isSome P.Cluster Iteration true hlt
    exact ⟨_, by rw [hC]; rfl⟩
  · exact ⟨_, rfl⟩

end FProcessor

end PCGExCutEdges

namespace PCGExCutEdges

open PCGEx PCGExGraph PCGExCluster PCGExCluster.FCluster

/-- A callback that answers false on a state without changing it makes
`FindFirstElementWithBoundsTest` return that state. -/
theorem FindFirstElementWithBoundsTest_noop {σ α : Type} (Func : σ → α → Option (Bool × σ))
    (St : σ) (h : ∀ Element, Func St Element = some (false, St)) (Elements : List α) :
    FindFirstElementWithBoundsTest Func Elements St = some St := by
  cases Elements with
  | nil => rfl
  | cons E Rest => unfold FindFirstElementWithBoundsTest; rw [h E]

namespace FProcessor

theorem ProcessSingleEdgeCallback_settled (EdgeIndex : Nat) (P : FProcessor)
    (h : P.Cluster.EdgeFlag EdgeIndex = some P.Settings.bInvert) (PathEdge : FPathEdgeProbe) :
    ProcessSingleEdgeCallback EdgeIndex P PathEdge = some (false, P) := by
  unfold EdgeFlag at h
  unfold ProcessSingleEdgeCallback
  cases hE : P.Cluster.Edges[EdgeIndex]? with
  | none => rw [hE] at h; simp at h
  | some Edge =>
    rw [hE] at h
    simp only [Option.map_some', Option.some.injEq] at h
    simp only [h]
    cases P.Settings.bInvert <;> simp

/-- Once the flag of the edge has the value the cut writes, the paths loop of
`ProcessSingleEdge` changes nothing. -/
theorem ProcessSingleEdgePaths_settled (EdgeIndex : Nat)
    (Paths : List (FPathProbe FPathEdgeProbe)) (P : FProcessor)
    (h : P.Cluster.EdgeFlag EdgeIndex = some P.Settings.bInvert) :
    ProcessSingleEdgePaths EdgeIndex Paths P = some P := by
  induction Paths with
  | nil => rfl
  | cons Path Rest ih =>
    unfold ProcessSingleEdgePaths
    split_ifs
    · exact ih
    · rw [FindFirstElementWithBoundsTest_noop _ P
        (ProcessSingleEdgeCallback_settled EdgeIndex P h)]
      simp only
      unfold EdgeFlag at h
      cases hE : P.Cluster.Edges[EdgeIndex]? with
      | none => rw [hE] at h; simp at h
      | some Edge =>
        simp only
        split_ifs
        · rfl
        · exact ih

theorem ProcessSingleEdgeCallback_result (EdgeIndex : Nat) (P : FProcessor)
    (PathEdge : FPathEdgeProbe) (b : Bool) (Q : FProcessor)
    (h : ProcessSingleEdgeCallback EdgeIndex P PathEdge = some (b, Q)) :
    Q = P ∨ (b = false ∧ P.CutEdge EdgeIndex = some Q) := by
  unfold ProcessSingleEdgeCallback at h
  cases hE : P.Cluster.Edges[EdgeIndex]? with
  | none => rw [hE] at h; simp at h
  | some Edge =>
    rw [hE] at h
    simp only at h
    split_ifs at h
    all_goals first
      | (simp only [Option.some.injEq, Prod.mk.injEq] at h
         exact Or.inl h.2.symm)
      | (cases hC : P.CutEdge EdgeIndex with
         | none => rw [hC] at h; simp at h
         | some P1 =>
           rw [hC] at h
           simp only [Option.map_some', Option.some.injEq, Prod.mk.injEq] at h
           exact Or.inr ⟨h.1.symm, by rw [h.2]⟩)

theorem FindFirst_edge_result (EdgeIndex : Nat) (Elements : List FPathEdgeProbe) :
    ∀ P Q : FProcessor,
      FindFirstElementWithBoundsTest (ProcessSingleEdgeCallback EdgeIndex) Elements P = some Q →
      Q = P ∨ (Q.Cluster.EdgeFlag EdgeIndex = some P.Settings.bInvert ∧ P.SameFrame Q) := by
  induction Elements with
  | nil =>
    intro P Q h
    simp only [FindFirstElementWithBoundsTest, Option.some.injEq] at h
    exact Or.inl h.symm
  | cons E Rest ih =>
    intro P Q h
    unfold FindFirstElementWithBoundsTest at h
    cases hE : ProcessSingleEdgeCallback EdgeIndex P E with
    | none => rw [hE] at h; simp at h
    | some r =>
      obtain ⟨b, P1⟩ := r
      rw [hE] at h
      rcases ProcessSingleEdgeCallback_result EdgeIndex P E b P1 hE with rfl | ⟨rfl, hC⟩
      · cases b with
        | true => exact ih _ Q h
        | false =>
          simp only [Option.some.injEq] at h
          exact Or.inl h.symm
      · simp only [Option.some.injEq] at h
        subst h
        obtain ⟨hfr, _, hflag, _⟩ := CutEdge_spec P P1 EdgeIndex hC
        exact Or.inr ⟨hflag, hfr⟩

theorem ProcessSingleEdgePaths_result (EdgeIndex : Nat)
    (Paths : List (FPathProbe FPathEdgeProbe)) :
    ∀ P Q : FProcessor, ProcessSingleEdgePaths EdgeIndex Paths P = some Q →
      Q = P ∨ (Q.Cluster.EdgeFlag EdgeIndex = some P.Settings.bInvert ∧ P.SameFrame Q) := by
  induction Paths with
  | nil =>
    intro P Q h
    simp only [ProcessSingleEdgePaths, Option.some.injEq] at h
    exact Or.inl h.symm
  | cons Path Rest ih =>
    intro P Q h
    unfold ProcessSingleEdgePaths at h
    split_ifs at h
    · exact ih P Q h
    · cases hF : FindFirstElementWithBoundsTest (ProcessSingleEdgeCallback EdgeIndex)
          Path.Elements P with
      | none => rw [hF] at h; simp at h
      | some P1 =>
        rw [hF] at h
        simp only at h
        cases hE : P1.Cluster.Edges[EdgeIndex]? with
        | none => rw [hE] at h; simp at h
        | some Edge =>
          rw [hE] at h
          simp only at h
          rcases FindFirst_edge_result EdgeIndex Path.Elements P P1 hF with rfl | ⟨hflag, hfr⟩
          · split_ifs at h
            · simp only [Option.some.injEq] at h
              exact Or.inl h.symm
            · exact ih _ Q h
          · split_ifs at h
            · simp only [Option.some.injEq] at h
              subst h
              exact Or.inr ⟨hflag, hfr⟩
            · rw [ProcessSingleEdgePaths_settled EdgeIndex Rest P1
                (by rw [hfr.1]; exact hflag)] at h
              simp only [Option.some.injEq] at h
              subst h
              exact Or.inr ⟨hflag, hfr⟩

/-- Running `ProcessSingleEdge` a second time on the same edge, against the same paths,
changes nothing. -/
theorem ProcessSingleEdge_idempotent (P Q : FProcessor)
    (Paths : List (FPathProbe FPathEdgeProbe)) (EdgeIndex : Nat)
    (h : P.ProcessSingleEdge Paths EdgeIndex = some Q) :
    Q.ProcessSingleEdge Paths EdgeIndex = some Q := by
  have hfr := ProcessSingleEdge_frame P Q Paths EdgeIndex h
  have h0 := h
  unfold ProcessSingleEdge at h
  cases hc : P.EdgeFilterCache[EdgeIndex]? with
  | none => rw [hc] at h; simp at h
  | some bPreserved =>
    cases hE : P.Cluster.Edges[EdgeIndex]? with
    | none => rw [hc, hE] at h; simp at h
    | some Edge =>
      rw [hc, hE] at h
      simp only at h
      obtain ⟨F, hF, _⟩ := hfr.2.2.2.2.frame_edge EdgeIndex Edge hE
      have hcQ : Q.EdgeFilterCache[EdgeIndex]? = some bPreserved := by rw [hfr.2.2.1, hc]
      split_ifs at h with hp hi
      · cases hS : P.Cluster.SetEdgeValid EdgeIndex true with
        | none => rw [hS] at h; simp at h
        | some C =>
          rw [hS] at h
          simp only [Option.map_some', Option.some.injEq] at h
          subst h
          have hflag := (SetEdgeValid_spec _ _ _ _ hS).2.1
          unfold ProcessSingleEdge
          simp only [hc, hp, hi, if_true]
          simp only at hF
          simp only [hF, SetEdgeValid_noop C _ _ hflag, Option.map_some', if_true]
      · simp only [Option.some.injEq] at h
        subst h; exact h0
      · rcases ProcessSingleEdgePaths_result EdgeIndex Paths P Q h with rfl | ⟨hflag, _⟩
        · exact h0
        · unfold ProcessSingleEdge
          simp only [hcQ, hF, hp, Bool.false_eq_true, if_false]
          exact ProcessSingleEdgePaths_settled EdgeIndex Paths Q (by rw [hfr.1]; exact hflag)

end FProcessor

end PCGExCutEdges

namespace PCGExCutEdges

open PCGEx PCGExGraph PCGExCluster PCGExCluster.FCluster

namespace FProcessor

theorem ProcessSingleNodeCallback_settled (Index : Nat) (P : FProcessor)
    (h : P.Cluster.NodeFlag Index = some P.Settings.bInvert) (PathEdge : FPathNodeProbe) :
    ProcessSingleNodeCallback Index P PathEdge = some (false, P) := by
  unfold NodeFlag at h
  unfold ProcessSingleNodeCallback
  cases hE : P.Cluster.Nodes[Index]? with
  | none => rw [hE] at h; simp at h
  | some Node =>
    rw [hE] at h
    simp only [Option.map_some', Option.some.injEq] at h
    simp only [h]
    cases P.Settings.bInvert <;> simp

/-- Once the flag of the node has the value the cut writes, the paths loop of
`ProcessSingleNode` changes nothing. -/
theorem ProcessSingleNodePaths_settled (Index : Nat)
    (Paths : List (FPathProbe FPathNodeProbe)) (P : FProcessor)
    (h : P.Cluster.NodeFlag Index = some P.Settings.bInvert) :
    ProcessSingleNodePaths Index Paths P = some P := by
  induction Paths with
  | nil => rfl
  | cons Path Rest ih =>
    unfold ProcessSingleNodePaths
    split_ifs
    · exact ih
    · rw [FindFirstElementWithBoundsTest_noop _ P
        (ProcessSingleNodeCallback_settled Index P h)]
      simp only
      unfold NodeFlag at h
      cases hE : P.Cluster.Nodes[Index]? with
      | none => rw [hE] at h; simp at h
      | some Node =>
        simp only
        split_ifs
        · rfl
        · exact ih

theorem ProcessSingleNodeCallback_result (Index : Nat) (P : FProcessor)
    (PathEdge : FPathNodeProbe) (b : Bool) (Q : FProcessor)
    (h : ProcessSingleNodeCallback Index P PathEdge = some (b, Q)) :
    Q = P ∨ (b = false ∧ P.CutNode Index = some Q) := by
  unfold ProcessSingleNodeCallback at h
  cases hE : P.Cluster.Nodes[Index]? with
  | none => rw [hE] at h; simp at h
  | some Node =>
    rw [hE] at h
    simp only at h
    split_ifs at h
    all_goals first
      | (simp only [Option.some.injEq, Prod.mk.injEq] at h
         exact Or.inl h.2.symm)
      | (cases hC : P.CutNode Index with
         | none => rw [hC] at h; simp at h
         | some P1 =>
           rw [hC] at h
           simp only [Option.map_some', Option.some.injEq, Prod.mk.injEq] at h
           exact Or.inr ⟨h.1.symm, by rw [h.2]⟩)

theorem FindFirst_node_result (Index : Nat) (Elements : List FPathNodeProbe) :
    ∀ P Q : FProcessor,
      FindFirstElementWithBoundsTest (ProcessSingleNodeCallback Index) Elements P = some Q →
      Q = P ∨ (Q.Cluster.NodeFlag Index = some P.Settings.bInvert ∧ P.SameFrame Q) := by
  induction Elements with
  | nil =>
    intro P Q h
    simp only [FindFirstElementWithBoundsTest, Option.some.injEq] at h
    exact Or.inl h.symm
  | cons E Rest ih =>
    intro P Q h
    unfold FindFirstElementWithBoundsTest at h
    cases hE : ProcessSingleNodeCallback Index P E with
    | none => rw [hE] at h; simp at h
    | some r =>
      obtain ⟨b, P1⟩ := r
      rw [hE] at h
      rcases ProcessSingleNodeCallback_result Index P E b P1 hE with rfl | ⟨rfl, hC⟩
      · cases b with
        | true => exact ih _ Q h
        | false =>
          simp only [Option.some.injEq] at h
          exact Or.inl h.symm
      · simp only [Option.some.injEq] at h
        subst h
        obtain ⟨hfr, _, hflag, _⟩ := CutNode_spec P P1 Index hC
        exact Or.inr ⟨hflag, hfr⟩

theorem ProcessSingleNodePaths_result (Index : Nat)
    (Paths : List (FPathProbe FPathNodeProbe)) :
    ∀ P Q : FProcessor, ProcessSingleNodePaths Index Paths P = some Q →
      Q = P ∨ (Q.Cluster.NodeFlag Index = some P.Settings.bInvert ∧ P.SameFrame Q) := by
  induction Paths with
  | nil =>
    intro P Q h
    simp only [ProcessSingleNodePaths, Option.some.injEq] at h
    exact Or.inl h.symm
  | cons Path Rest ih =>
    intro P Q h
    unfold ProcessSingleNodePaths at h
    split_ifs at h
    · exact ih P Q h
    · cases hF : FindFirstElementWithBoundsTest (ProcessSingleNodeCallback Index)
          Path.Elements P with
      | none => rw [hF] at h; simp at h
      | some P1 =>
        rw [hF] at h
        simp only at h
        cases hE : P1.Cluster.Nodes[Index]? with
        | none => rw [hE] at h; simp at h
        | some Node =>
          rw [hE] at h
          simp only at h
          rcases FindFirst_node_result Index Path.Elements P P1 hF with rfl | ⟨hflag, hfr⟩
          · split_ifs at h
            · simp only [Option.some.injEq] at h
              exact Or.inl h.symm
            · exact ih _ Q h
          · split_ifs at h
            · simp only [Option.some.injEq] at h
              subst h
              exact Or.inr ⟨hflag, hfr⟩
            · rw [ProcessSingleNodePaths_settled Index Rest P1
                (by rw [hfr.1]; exact hflag)] at h
              simp only [Option.some.injEq] at h
              subst h
              exact Or.inr ⟨hflag, hfr⟩

/-- Running `ProcessSingleNode` a second time on the same node, against the same paths,
changes nothing. -/
theorem ProcessSingleNode_idempotent (P Q : FProcessor)
    (Paths : List (FPathProbe FPathNodeProbe)) (Index : Nat)
    (h : P.ProcessSingleNode Paths Index = some Q) :
    Q.ProcessSingleNode Paths Index = some Q := by
  have hfr := ProcessSingleNode_frame P Q Paths Index h
  have h0 := h
  unfold ProcessSingleNode at h
  cases hc : P.NodeFilterCache[Index]? with
  | none => rw [hc] at h; simp at h
  | some bPreserved =>
    cases hE : P.Cluster.Nodes[Index]? with
    | none => rw [hc, hE] at h; simp at h
    | some Node =>
      rw [hc, hE] at h
      simp only at h
      obtain ⟨F, hF, _⟩ := hfr.2.2.2.2.frame_node Index Node hE
      have hcQ : Q.NodeFilterCache[Index]? = some bPreserved := by rw [hfr.2.2.2.1, hc]
      split_ifs at h with hp hi
      · cases hS : P.Cluster.SetNodeValid Index true with
        | none => rw [hS] at h; simp at h
        | some C =>
          rw [hS] at h
          simp only [Option.map_some', Option.some.injEq] at h
          subst h
          have hflag := (SetNodeValid_spec _ _ _ _ hS).2.1
          unfold ProcessSingleNode
          simp only [hc, hp, hi, if_true]
          simp only at hF
          simp only [hF, SetNodeValid_noop C _ _ hflag, Option.map_some', if_true]
      · simp only [Option.some.injEq] at h
        subst h; exact h0
      · rcases ProcessSingleNodePaths_result Index Paths P Q h with rfl | ⟨hflag, _⟩
        · exact h0
        · unfold ProcessSingleNode
          simp only [hcQ, hF, hp, Bool.false_eq_true, if_false]
          exact ProcessSingleNodePaths_settled Index Paths Q (by rw [hfr.1]; exact hflag)

end FProcessor

end PCGExCutEdges

namespace PCGExCutEdges

namespace FProcessor

open PCGEx PCGExGraph PCGExCluster PCGExCluster.FCluster

theorem iterate_bind_of_fixed {α : Type} (f : α → Option α) (x y : α) (h : f x = some y)
    (hfix : f y = some y) (N : Nat) (hN : 1 ≤ N) :
    (fun o : Option α => o.bind f)^[N] (some x) = some y := by
  obtain ⟨n, rfl⟩ : ∃ n, N = n + 1 := ⟨N - 1, by omega⟩
  rw [Function.iterate_succ_apply, Option.some_bind, h]
  exact iterate_bind_fixed f y hfix n

/-- C9: applying the cut effect of `ProcessSingleEdge` (`CutEdge`: the edge flag and, with
`bAffectedEdgesAffectEndpoints`, both endpoint flags) or of `ProcessSingleNode`
(`CutNode`: the node flag and, with `bAffectedNodesAffectConnectedEdges`, the flag of
every adjacent edge) a second time to the same edge or node gives back the processor the
first application gave, flag for flag, so that `N >= 1` applications give what one gives
and `GetValidEdges` returns the same edges after `N` as after one; the same holds for
whole `ProcessSingleEdge` and `ProcessSingleNode` runs against the same paths; and on a
well-formed processor the cut effects do return for every index in bounds. -/
theorem cut_invalidation_idempotent (P Q : FProcessor) (Target : Nat)
    (EdgePaths : List (FPathProbe FPathEdgeProbe))
    (NodePaths : List (FPathProbe FPathNodeProbe)) :
    (P.CutEdge Target = some Q →
      Q.CutEdge Target = some Q ∧
      ∀ N : Nat, 1 ≤ N →
        (fun R : Option FProcessor => R.bind (fun R => R.CutEdge Target))^[N] (some P) = some Q ∧
        ((fun R : Option FProcessor => R.bind (fun R => R.CutEdge Target))^[N] (some P)).map
          (fun R => R.Cluster.GetValidEdges) = some Q.Cluster.GetValidEdges) ∧
    (P.CutNode Target = some Q →
      Q.CutNode Target = some Q ∧
      ∀ N : Nat, 1 ≤ N →
        (fun R : Option FProcessor => R.bind (fun R => R.CutNode Target))^[N] (some P) = some Q ∧
        ((fun R : Option FProcessor => R.bind (fun R => R.CutNode Target))^[N] (some P)).map
          (fun R => R.Cluster.GetValidEdges) = some Q.Cluster.GetValidEdges) ∧
    (P.ProcessSingleEdge EdgePaths Target = some Q →
      Q.ProcessSingleEdge EdgePaths Target = some Q) ∧
    (P.ProcessSingleNode NodePaths Target = some Q →
      Q.ProcessSingleNode NodePaths Target = some Q) ∧
    (P.WellFormed →
      (Target < P.Cluster.Edges.length → ∃ R, P.CutEdge Target = some R) ∧
      (Target < P.Cluster.Nodes.length → ∃ R, P.CutNode Target = some R)) := by
  refine ⟨?_, ?_, ?_, ?_, ?_⟩
  · intro h
    have hfix := (CutEdge_spec P Q Target h).2.2.2
    refine ⟨hfix, fun N hN => ?_⟩
    rw [iterate_bind_of_fixed _ P Q h hfix N hN]
    exact ⟨rfl, rfl⟩
  · intro h
    have hfix := (CutNode_spec P Q Target h).2.2.2
    refine ⟨hfix, fun N hN => ?_⟩
    rw [iterate_bind_of_fixed _ P Q h hfix N hN]
    exact ⟨rfl, rfl⟩
  · exact ProcessSingleEdge_idempotent P Q EdgePaths Target
  · exact ProcessSingleNode_idempotent P Q NodePaths Target
  · intro hW
    exact ⟨CutEdge_isSome P Target hW, CutNode_isSome P Target hW⟩

/-- C9 (witness): cutting the edge `(0, 1)` of the example triangle twice. -/
theorem cut_invalidation_idempotent_witness :
    exampleTriangle.CutEdge 0 = some exampleTriangleCut ∧
    exampleTriangleCut.CutEdge 0 = some exampleTriangleCut ∧
    exampleTriangleCut.Cluster.GetValidEdges = [⟨1, 2, 1, true⟩, ⟨2, 0, 2, true⟩] :=
  ⟨by decide,
    ((cut_invalidation_idempotent exampleTriangle exampleTriangleCut 0 [] []).1 (by decide)).1,
    by decide⟩

/-- C10: whenever `ProcessSingleEdge`, `ProcessSingleNode` or
`ProcessSingleRangeIteration` returns, the processor differs from the one it was called
on in validity flags only: the settings, the filter caches, `NodeIndexLookup`, the
number of edges and of nodes, every edge's `Start`, `End` and `PointIndex` and every
node's `PointIndex` and `Adjacency` are the same; on a well-formed processor the three
do return for every index in bounds; and `CompleteWork`, which only reads the cluster,
hands on exactly the list `GetValidEdges` computes. -/
theorem cut_processing_changes_flags_only (P : FProcessor)
    (EdgePaths : List (FPathProbe FPathEdgeProbe))
    (NodePaths : List (FPathProbe FPathNodeProbe)) (Index : Nat) :
    (∀ Q, P.ProcessSingleEdge EdgePaths Index = some Q →
      P.SameFrame Q ∧ Q.Cluster.Edges.length = P.Cluster.Edges.length ∧
        Q.Cluster.Nodes.length = P.Cluster.Nodes.length) ∧
    (∀ Q, P.ProcessSingleNode NodePaths Index = some Q →
      P.SameFrame Q ∧ Q.Cluster.Edges.length = P.Cluster.Edges.length ∧
        Q.Cluster.Nodes.length = P.Cluster.Nodes.length) ∧
    (∀ Q, P.ProcessSingleRangeIteration Index = some Q →
      P.SameFrame Q ∧ Q.Cluster.Edges.length = P.Cluster.Edges.length ∧
        Q.Cluster.Nodes.length = P.Cluster.Nodes.length) ∧
    (P.WellFormed →
      (Index < P.Cluster.Edges.length →
        (∃ Q, P.ProcessSingleEdge EdgePaths Index = some Q) ∧
        (∃ Q, P.ProcessSingleRangeIteration Index = some Q)) ∧
      (Index < P.Cluster.Nodes.length → ∃ Q, P.ProcessSingleNode NodePaths Index = some Q)) ∧
    P.CompleteWork = P.Cluster.GetValidEdges := by
  refine ⟨?_, ?_, ?_, ?_, ?_⟩
  · intro Q h
    have hf := ProcessSingleEdge_frame P Q EdgePaths Index h
    exact ⟨hf, hf.proc_edges_length, hf.proc_nodes_length⟩
  · intro Q h
    have hf := ProcessSingleNode_frame P Q NodePaths Index h
    exact ⟨hf, hf.proc_edges_length, hf.proc_nodes_length⟩
  · intro Q h
    have hf := ProcessSingleRangeIteration_frame P Q Index h
    exact ⟨hf, hf.proc_edges_length, hf.proc_nodes_length⟩
  · intro hW
    exact ⟨fun hlt => ⟨ProcessSingleEdge_isSome P EdgePaths Index hW hlt,
        ProcessSingleRangeIteration_isSome P Index hW hlt⟩,
      fun hlt => ProcessSingleNode_isSome P NodePaths Index hW hlt⟩
  · unfold CompleteWork
    simp only
    split_ifs with hE
    · exact (List.isEmpty_iff.mp hE).symm
    · rfl

/-- C10 (witness): the example triangle, a path whose first edge cuts the edge `(0, 1)`. -/
theorem cut_processing_changes_flags_only_witness :
    ∃ Q, exampleTriangle.ProcessSingleEdge [⟨true, [⟨true, false, true⟩]⟩] 0 = some Q ∧
      exampleTriangle.SameFrame Q ∧
      Q.Cluster.Edges.length = exampleTriangle.Cluster.Edges.length ∧
      Q.Cluster.Nodes.length = exampleTriangle.Cluster.Nodes.length :=
  let H := cut_processing_changes_flags_only exampleTriangle
    [⟨true, [⟨true, false, true⟩]⟩] [] 0
  let ⟨Q, hQ⟩ := (H.2.2.2.1 (by decide)).1 (by decide) |>.1
  ⟨Q, hQ, H.1 Q hQ⟩

end FProcessor

end PCGExCutEdges

/-! ## Failed graph compiles -/

namespace PCGExBuildDelaunay2D

open PCGExData PCGExGraph

/-- C11: whenever `GraphBuilder->bCompiledSuccessfully` is false,
`PCGExBuildDelaunay2D::FProcessor::CompleteWork` returns with the output of the point
collection initialised as `NoOutput` and `GraphBuilder` and `HullMarkPointWriter` null,
having called neither `GraphBuilder->Write` nor the hull-marking point loop (it makes no
call at all), and `Write` afterwards changes nothing and makes no call; and
`PCGExSanitizeClusters::FProcessorBatch::Output` calls `OutputEdgesToContext` exactly
when `bCompiledSuccessfully` is true, and otherwise makes no call and initialises the
vtx output as `NoOutput`. -/
theorem failed_compile_suppresses_output :
    (∀ (P : FProcessor) (Builder : FGraphBuilder),
      P.GraphBuilder = some Builder → Builder.bCompiledSuccessfully = false →
      (P.CompleteWork).1.Output = EInit.NoOutput ∧
      (P.CompleteWork).1.GraphBuilder = none ∧
      (P.CompleteWork).1.HullMarkPointWriter = none ∧
      (P.CompleteWork).2 = [] ∧
      (P.CompleteWork).1.Write = ((P.CompleteWork).1, [])) ∧
    (∀ B : PCGExSanitizeClusters.FProcessorBatch,
      (PCGExSanitizeClusters.FCall.OutputEdgesToContext ∈ B.Output.2 ↔
        B.GraphBuilder.bCompiledSuccessfully = true) ∧
      (B.GraphBuilder.bCompiledSuccessfully = true →
        B.Output = (B, [PCGExSanitizeClusters.FCall.OutputEdgesToContext])) ∧
      (B.GraphBuilder.bCompiledSuccessfully = false →
        B.Output.1.VtxOutput = EInit.NoOutput ∧ B.Output.2 = [])) := by
  refine ⟨?_, ?_⟩
  · intro P Builder hG hC
    simp [FProcessor.CompleteWork, FProcessor.Write, FProcessor.PCGEX_DELETE, hG, hC]
  · intro B
    cases hC : B.GraphBuilder.bCompiledSuccessfully <;>
      simp [PCGExSanitizeClusters.FProcessorBatch.Output, hC]

/-- C11 (witness): a processor whose output was duplicated from the input, with a hull
writer, whose graph failed to compile. -/
theorem failed_compile_suppresses_output_witness :
    (FProcessor.CompleteWork ⟨EInit.DuplicateInput, some ⟨false⟩, some ⟨[]⟩⟩).1.Output
        = EInit.NoOutput ∧
      (FProcessor.CompleteWork ⟨EInit.DuplicateInput, some ⟨false⟩, some ⟨[]⟩⟩).2
        = [] :=
  let H := failed_compile_suppresses_output.1
    ⟨EInit.DuplicateInput, some ⟨false⟩, some ⟨[]⟩⟩ ⟨false⟩ rfl rfl
  ⟨H.1, H.2.2.2.1⟩

end PCGExBuildDelaunay2D

/-! ## `PCGExFilterGroup` -/

namespace PCGExFilterGroup

open PCGExPointFilter

theorem AND_TestLoop_eq (bInvert : Bool) (Test : FFilter → Bool) (Filters : List FFilter) :
    FFilterGroupAND.TestLoop bInvert Test Filters = xor (Filters.all Test) bInvert := by
  induction Filters with
  | nil => simp [FFilterGroupAND.TestLoop]
  | cons Filter Rest ih =>
    cases hT : Test Filter <;> simp [FFilterGroupAND.TestLoop, hT, ih]

theorem OR_TestLoop_eq (bInvert : Bool) (Test : FFilter → Bool) (Filters : List FFilter) :
    FFilterGroupOR.TestLoop bInvert Test Filters = xor (Filters.any Test) bInvert := by
  induction Filters with
  | nil => simp [FFilterGroupOR.TestLoop]
  | cons Filter Rest ih =>
    cases hT : Test Filter <;> simp [FFilterGroupOR.TestLoop, hT, ih]

/-- C12: for every list of managed filters and every tested index, node and edge, each
`Test` overload of `FFilterGroupAND` returns (every managed filter's `Test` returns true)
XOR `bInvert`; without inversion it returns true exactly when all managed filters pass;
with no managed filters it returns `!bInvert`. -/
theorem FFilterGroupAND_Test_all_xor_invert (G : FFilterGroup) (Index : Int)
    (Node : PCGExCluster.FNode) (Edge : PCGExGraph.FEdge) :
    FFilterGroupAND.TestIndex G Index
      = xor (G.ManagedFilters.all (fun Filter => Filter.TestIndex Index)) G.bInvert ∧
    FFilterGroupAND.TestNode G Node
      = xor (G.ManagedFilters.all (fun Filter => Filter.TestNode Node)) G.bInvert ∧
    FFilterGroupAND.TestEdge G Edge
      = xor (G.ManagedFilters.all (fun Filter => Filter.TestEdge Edge)) G.bInvert ∧
    ((FFilterGroupAND.TestIndex ⟨false, G.ManagedFilters⟩ Index = true ↔
        ∀ Filter ∈ G.ManagedFilters, Filter.TestIndex Index = true) ∧
      (FFilterGroupAND.TestNode ⟨false, G.ManagedFilters⟩ Node = true ↔
        ∀ Filter ∈ G.ManagedFilters, Filter.TestNode Node = true) ∧
      (FFilterGroupAND.TestEdge ⟨false, G.ManagedFilters⟩ Edge = true ↔
        ∀ Filter ∈ G.ManagedFilters, Filter.TestEdge Edge = true)) ∧
    FFilterGroupAND.TestIndex ⟨G.bInvert, []⟩ Index = !G.bInvert ∧
    FFilterGroupAND.TestNode ⟨G.bInvert, []⟩ Node = !G.bInvert ∧
    FFilterGroupAND.TestEdge ⟨G.bInvert, []⟩ Edge = !G.bInvert := by
  simp [FFilterGroupAND.TestIndex, FFilterGroupAND.TestNode, FFilterGroupAND.TestEdge,
    AND_TestLoop_eq]

/-- C13: for every list of managed filters and every tested index, node and edge, each
`Test` overload of `FFilterGroupOR` returns (at least one managed filter's `Test` returns
true) XOR `bInvert`; without inversion it returns true exactly when some managed filter
passes; with no managed filters it returns `bInvert`. -/
theorem FFilterGroupOR_Test_any_xor_invert (G : FFilterGroup) (Index : Int)
    (Node : PCGExCluster.FNode) (Edge : PCGExGraph.FEdge) :
    FFilterGroupOR.TestIndex G Index
      = xor (G.ManagedFilters.any (fun Filter => Filter.TestIndex Index)) G.bInvert ∧
    FFilterGroupOR.TestNode G Node
      = xor (G.ManagedFilters.any (fun Filter => Filter.TestNode Node)) G.bInvert ∧
    FFilterGroupOR.TestEdge G Edge
      = xor (G.ManagedFilters.any (fun Filter => Filter.TestEdge Edge)) G.bInvert ∧
    ((FFilterGroupOR.TestIndex ⟨false, G.ManagedFilters⟩ Index = true ↔
        ∃ Filter ∈ G.ManagedFilters, Filter.TestIndex Index = true) ∧
      (FFilterGroupOR.TestNode ⟨false, G.ManagedFilters⟩ Node = true ↔
        ∃ Filter ∈ G.ManagedFilters, Filter.TestNode Node = true) ∧
      (FFilterGroupOR.TestEdge ⟨false, G.ManagedFilters⟩ Edge = true ↔
        ∃ Filter ∈ G.ManagedFilters, Filter.TestEdge Edge = true)) ∧
    FFilterGroupOR.TestIndex ⟨G.bInvert, []⟩ Index = G.bInvert ∧
    FFilterGroupOR.TestNode ⟨G.bInvert, []⟩ Node = G.bInvert ∧
    FFilterGroupOR.TestEdge ⟨G.bInvert, []⟩ Edge = G.bInvert := by
  simp [FFilterGroupOR.TestIndex, FFilterGroupOR.TestNode, FFilterGroupOR.TestEdge,
    OR_TestLoop_eq]

/-- C12 (witness): the two example filters, inverted, on the index 12, which the second
filter rejects. -/
theorem FFilterGroupAND_Test_witness :
    FFilterGroupAND.TestIndex ⟨true, exampleFilters⟩ 12 = true ∧
    FFilterGroupAND.TestIndex ⟨true, exampleFilters⟩ 12
      = xor (exampleFilters.all (fun Filter => Filter.TestIndex 12)) true :=
  ⟨by decide,
    (FFilterGroupAND_Test_all_xor_invert ⟨true, exampleFilters⟩ 12 ⟨true, 0, []⟩
      ⟨0, 1, 0, true⟩).1⟩

/-- C13 (witness): the two example filters, not inverted, on a valid edge, which the
first filter passes. -/
theorem FFilterGroupOR_Test_witness :
    FFilterGroupOR.TestEdge ⟨false, exampleFilters⟩ ⟨0, 1, 0, true⟩ = true ∧
    FFilterGroupOR.TestEdge ⟨false, exampleFilters⟩ ⟨0, 1, 0, true⟩
      = xor (exampleFilters.any (fun Filter => Filter.TestEdge ⟨0, 1, 0, true⟩)) false :=
  ⟨by decide,
    (FFilterGroupOR_Test_any_xor_invert ⟨false, exampleFilters⟩ 12 ⟨true, 0, []⟩
      ⟨0, 1, 0, true⟩).2.2.1⟩

end PCGExFilterGroup

/-! ## Preservation filters of `PCGExCutEdges::FProcessor` -/

namespace PCGExCluster

namespace FCluster

/-- Writing an edge flag leaves the other edge flags as they are. -/
theorem SetEdgeValid_other (C D : FCluster) (Index : Nat) (Value : Bool)
    (h : C.SetEdgeValid Index Value = some D) (j : Nat) (hj : j ≠ Index) :
    D.EdgeFlag j = C.EdgeFlag j := by
  unfold SetEdgeValid at h
  cases hE : C.Edges[Index]? with
  | none => rw [hE] at h; simp at h
  | some E =>
    rw [hE] at h
    simp only [Option.some.injEq] at h
    subst h
    unfold EdgeFlag
    simp only
    rw [List.getElem?_set_ne (Ne.symm hj)]

/-- Writing a node flag leaves the other node flags as they are. -/
theorem SetNodeValid_other (C D : FCluster) (Index : Nat) (Value : Bool)
    (h : C.SetNodeValid Index Value = some D) (j : Nat) (hj : j ≠ Index) :
    D.NodeFlag j = C.NodeFlag j := by
  unfold SetNodeValid at h
  cases hN : C.Nodes[Index]? with
  | none => rw [hN] at h; simp at h
  | some N =>
    rw [hN] at h
    simp only [Option.some.injEq] at h
    subst h
    unfold NodeFlag
    simp only
    rw [List.getElem?_set_ne (Ne.symm hj)]

end FCluster

end PCGExCluster

namespace PCGExCutEdges

open PCGEx PCGExGraph PCGExCluster PCGExCluster.FCluster

namespace FProcessor

/-- Without inversion, cutting an edge writes no other edge flag, and no node flag unless
`bAffectedEdgesAffectEndpoints` is set. -/
theorem CutEdge_effect (P Q : FProcessor) (EdgeIndex : Nat)
    (hInv : P.Settings.bInvert = false) (h : P.CutEdge EdgeIndex = some Q) :
    (∀ j, j ≠ EdgeIndex → Q.Cluster.EdgeFlag j = P.Cluster.EdgeFlag j) ∧
    (P.Settings.bAffectedEdgesAffectEndpoints = false → Q.Cluster.Nodes = P.Cluster.Nodes) := by
  unfold CutEdge at h
  cases hE : P.Cluster.Edges[EdgeIndex]? with
  | none => rw [hE] at h; simp at h
  | some Edge =>
    rw [hE] at h
    simp only at h
    cases hS : P.Cluster.LookupNode Edge.Start with
    | none => rw [hS] at h; simp at h
    | some StartNode =>
      cases hT : P.Cluster.LookupNode Edge.End with
      | none => rw [hS, hT] at h; simp at h
      | some EndNode =>
        rw [hS, hT] at h
        simp only [hInv, Bool.false_eq_true, if_false] at h
        cases hA : P.Settings.bAffectedEdgesAffectEndpoints with
        | true =>
          rw [hA] at h
          simp only [if_true] at h
          cases h1 : P.Cluster.SetEdgeValid EdgeIndex false with
          | none => rw [h1] at h; simp at h
          | some C1 =>
            rw [h1] at h
            simp only [Option.some_bind] at h
            cases h2 : C1.SetNodeValid StartNode false with
            | none => rw [h2] at h; simp at h
            | some C2 =>
              rw [h2] at h
              simp only [Option.some_bind] at h
              cases h3 : C2.SetNodeValid EndNode false with
              | none => rw [h3] at h; simp at h
              | some C3 =>
                rw [h3] at h
                simp only [Option.map_some', Option.some.injEq] at h
                subst h
                refine ⟨?_, fun hcon => by simp at hcon⟩
                intro j hj
                simp only
                unfold EdgeFlag
                rw [(SetNodeValid_spec _ _ _ _ h3).2.2, (SetNodeValid_spec _ _ _ _ h2).2.2]
                exact SetEdgeValid_other _ _ _ _ h1 j hj
        | false =>
          rw [hA] at h
          simp only [Bool.false_eq_true, if_false] at h
          cases h1 : P.Cluster.SetEdgeValid EdgeIndex false with
          | none => rw [h1] at h; simp at h
          | some C1 =>
            rw [h1] at h
            simp only [Option.map_some', Option.some.injEq] at h
            subst h
            exact ⟨fun j hj => SetEdgeValid_other _ _ _ _ h1 j hj,
              fun _ => (SetEdgeValid_spec _ _ _ _ h1).2.2⟩

/-- Without inversion, the adjacency loop of a node cut writes no node flag. -/
theorem CutNodeAdjacency_nodes (Adjacency : List Nat) :
    ∀ C D : FCluster, CutNodeAdjacency false Adjacency C = some D → D.Nodes = C.Nodes := by
  induction Adjacency with
  | nil =>
    intro C D h
    simp only [CutNodeAdjacency, Option.some.injEq] at h
    subst h; rfl
  | cons Hash Rest ih =>
    intro C D h
    unfold CutNodeAdjacency at h
    simp only [Bool.false_eq_true, if_false] at h
    cases h1 : C.SetEdgeValid (H64B Hash) false with
    | none => rw [h1] at h; simp at h
    | some C1 =>
      rw [h1] at h
      simp only at h
      rw [ih C1 D h, (SetEdgeValid_spec _ _ _ _ h1).2.2]

/-- Without inversion, cutting a node writes no other node flag, and no edge flag unless
`bAffectedNodesAffectConnectedEdges` is set. -/
theorem CutNode_effect (P Q : FProcessor) (Index : Nat)
    (hInv : P.Settings.bInvert = false) (h : P.CutNode Index = some Q) :
    (∀ j, j ≠ Index → Q.Cluster.NodeFlag j = P.Cluster.NodeFlag j) ∧
    (P.Settings.bAffectedNodesAffectConnectedEdges = false →
      Q.Cluster.Edges = P.Cluster.Edges) := by
  unfold CutNode at h
  cases hN : P.Cluster.Nodes[Index]? with
  | none => rw [hN] at h; simp at h
  | some Node =>
    rw [hN] at h
    simp only [hInv] at h
    cases h1 : P.Cluster.SetNodeValid Index false with
    | none => rw [h1] at h; simp at h
    | some C1 =>
      rw [h1] at h
      simp only at h
      cases hA : P.Settings.bAffectedNodesAffectConnectedEdges with
      | true =>
        rw [hA] at h
        simp only [if_true] at h
        cases h2 : CutNodeAdjacency false Node.Adjacency C1 with
        | none => rw [h2] at h; simp at h
        | some C2 =>
          rw [h2] at h
          simp only [Option.map_some', Option.some.injEq] at h
          subst h
          refine ⟨?_, fun hcon => by simp at hcon⟩
          intro j hj
          simp only
          unfold NodeFlag
          rw [CutNodeAdjacency_nodes _ _ _ h2]
          exact SetNodeValid_other _ _ _ _ h1 j hj
      | false =>
        rw [hA] at h
        simp only [Bool.false_eq_true, if_false, Option.some.injEq] at h
        subst h
        exact ⟨fun j hj => SetNodeValid_other _ _ _ _ h1 j hj,
          fun _ => (SetNodeValid_spec _ _ _ _ h1).2.2⟩

/-- The octree query of `ProcessSingleEdge` leaves the processor as it is or cuts the
edge once. -/
theorem FindFirst_edge_cut (EdgeIndex : Nat) (Elements : List FPathEdgeProbe) :
    ∀ P Q : FProcessor,
      FindFirstElementWithBoundsTest (ProcessSingleEdgeCallback EdgeIndex) Elements P = some Q →
      Q = P ∨ P.CutEdge EdgeIndex = some Q := by
  induction Elements with
  | nil =>
    intro P Q h
    simp only [FindFirstElementWithBoundsTest, Option.some.injEq] at h
    exact Or.inl h.symm
  | cons Element Rest ih =>
    intro P Q h
    unfold FindFirstElementWithBoundsTest at h
    cases hF : ProcessSingleEdgeCallback EdgeIndex P Element with
    | none => rw [hF] at h; simp at h
    | some R =>
      obtain ⟨b, P1⟩ := R
      rw [hF] at h
      rcases ProcessSingleEdgeCallback_result EdgeIndex P Element b P1 hF with hP | ⟨hb, hC⟩
      · subst hP
        cases b with
        | true => exact ih _ Q h
        | false =>
          simp only [Option.some.injEq] at h
          exact Or.inl h.symm
      · subst hb
        simp only [Option.some.injEq] at h
        subst h
        exact Or.inr hC

/-- The path loop of `ProcessSingleEdge` leaves the processor as it is or cuts the edge
once. -/
theorem ProcessSingleEdgePaths_cut (EdgeIndex : Nat)
    (Paths : List (FPathProbe FPathEdgeProbe)) :
    ∀ P Q : FProcessor, ProcessSingleEdgePaths EdgeIndex Paths P = some Q →
      Q = P ∨ P.CutEdge EdgeIndex = some Q := by
  induction Paths with
  | nil =>
    intro P Q h
    simp only [ProcessSingleEdgePaths, Option.some.injEq] at h
    exact Or.inl h.symm
  | cons Path Rest ih =>
    intro P Q h
    unfold ProcessSingleEdgePaths at h
    split_ifs at h with hB
    · exact ih P Q h
    · cases hF : FindFirstElementWithBoundsTest (ProcessSingleEdgeCallback EdgeIndex)
          Path.Elements P with
      | none => rw [hF] at h; simp at h
      | some P1 =>
        rw [hF] at h
        simp only at h
        cases hE : P1.Cluster.Edges[EdgeIndex]? with
        | none => rw [hE] at h; simp at h
        | some Edge =>
          rw [hE] at h
          simp only at h
          rcases FindFirst_edge_cut EdgeIndex Path.Elements P P1 hF with hP | hC
          · subst hP
            split_ifs at h
            · simp only [Option.some.injEq] at h
              exact Or.inl h.symm
            · exact ih _ Q h
          · split_ifs at h
            · simp only [Option.some.injEq] at h
              subst h; exact Or.inr hC
            · rcases ih P1 Q h with hQ | hQ
              · subst hQ; exact Or.inr hC
              · have hfix := (CutEdge_spec P P1 EdgeIndex hC).2.2.2
                rw [hfix] at hQ
                simp only [Option.some.injEq] at hQ
                subst hQ; exact Or.inr hC

/-- Without inversion `ProcessSingleEdge` leaves the processor as it is when the edge
passes the preservation filters, and otherwise leaves it as it is or cuts the edge. -/
theorem ProcessSingleEdge_cut (P Q : FProcessor) (Paths : List (FPathProbe FPathEdgeProbe))
    (EdgeIndex : Nat) (hInv : P.Settings.bInvert = false)
    (h : P.ProcessSingleEdge Paths EdgeIndex = some Q) :
    (P.EdgeFilterCache[EdgeIndex]? = some true → Q = P) ∧
    (Q = P ∨ P.CutEdge EdgeIndex = some Q) := by
  unfold ProcessSingleEdge at h
  cases hc : P.EdgeFilterCache[EdgeIndex]? with
  | none => rw [hc] at h; simp at h
  | some bPreserved =>
    cases hE : P.Cluster.Edges[EdgeIndex]? with
    | none => rw [hc, hE] at h; simp at h
    | some Edge =>
      rw [hc, hE] at h
      simp only [hInv, Bool.false_eq_true, if_false] at h
      cases bPreserved with
      | true =>
        simp only [if_true, Option.some.injEq] at h
        exact ⟨fun _ => h.symm, Or.inl h.symm⟩
      | false =>
        simp only [Bool.false_eq_true, if_false] at h
        exact ⟨fun hcon => by simp at hcon, ProcessSingleEdgePaths_cut EdgeIndex Paths P Q h⟩

/-- The octree query of `ProcessSingleNode` leaves the processor as it is or cuts the
node once. -/
theorem FindFirst_node_cut (Index : Nat) (Elements : List FPathNodeProbe) :
    ∀ P Q : FProcessor,
      FindFirstElementWithBoundsTest (ProcessSingleNodeCallback Index) Elements P = some Q →
      Q = P ∨ P.CutNode Index = some Q := by
  induction Elements with
  | nil =>
    intro P Q h
    simp only [FindFirstElementWithBoundsTest, Option.some.injEq] at h
    exact Or.inl h.symm
  | cons Element Rest ih =>
    intro P Q h
    unfold FindFirstElementWithBoundsTest at h
    cases hF : ProcessSingleNodeCallback Index P Element with
    | none => rw [hF] at h; simp at h
    | some R =>
      obtain ⟨b, P1⟩ := R
      rw [hF] at h
      rcases ProcessSingleNodeCallback_result Index P Element b P1 hF with hP | ⟨hb, hC⟩
      · subst hP
        cases b with
        | true => exact ih _ Q h
        | false =>
          simp only [Option.some.injEq] at h
          exact Or.inl h.symm
      · subst hb
        simp only [Option.some.injEq] at h
        subst h
        exact Or.inr hC

/-- The path loop of `ProcessSingleNode` leaves the processor as it is or cuts the node
once. -/
theorem ProcessSingleNodePaths_cut (Index : Nat)
    (Paths : List (FPathProbe FPathNodeProbe)) :
    ∀ P Q : FProcessor, ProcessSingleNodePaths Index Paths P = some Q →
      Q = P ∨ P.CutNode Index = some Q := by
  induction Paths with
  | nil =>
    intro P Q h
    simp only [ProcessSingleNodePaths, Option.some.injEq] at h
    exact Or.inl h.symm
  | cons Path Rest ih =>
    intro P Q h
    unfold ProcessSingleNodePaths at h
    split_ifs at h with hB
    · exact ih P Q h
    · cases hF : FindFirstElementWithBoundsTest (ProcessSingleNodeCallback Index)
          Path.Elements P with
      | none => rw [hF] at h; simp at h
      | some P1 =>
        rw [hF] at h
        simp only at h
        cases hE : P1.Cluster.Nodes[Index]? with
        | none => rw [hE] at h; simp at h
        | some Node =>
          rw [hE] at h
          simp only at h
          rcases FindFirst_node_cut Index Path.Elements P P1 hF with hP | hC
          · subst hP
            split_ifs at h
            · simp only [Option.some.injEq] at h
              exact Or.inl h.symm
            · exact ih _ Q h
          · split_ifs at h
            · simp only [Option.some.injEq] at h
              subst h; exact Or.inr hC
            · rcases ih P1 Q h with hQ | hQ
              · subst hQ; exact Or.inr hC
              · have hfix := (CutNode_spec P P1 Index hC).2.2.2
                rw [hfix] at hQ
                simp only [Option.some.injEq] at hQ
                subst hQ; exact Or.inr hC

/-- Without inversion `ProcessSingleNode` leaves the processor as it is when the node
passes the preservation filters, and otherwise leaves it as it is or cuts the node. -/
theorem ProcessSingleNode_cut (P Q : FProcessor) (Paths : List (FPathProbe FPathNodeProbe))
    (Index : Nat) (hInv : P.Settings.bInvert = false)
    (h : P.ProcessSingleNode Paths Index = some Q) :
    (P.NodeFilterCache[Index]? = some true → Q = P) ∧
    (Q = P ∨ P.CutNode Index = some Q) := by
  unfold ProcessSingleNode at h
  cases hc : P.NodeFilterCache[Index]? with
  | none => rw [hc] at h; simp at h
  | some bPreserved =>
    cases hE : P.Cluster.Nodes[Index]? with
    | none => rw [hc, hE] at h; simp at h
    | some Node =>
      rw [hc, hE] at h
      simp only [hInv, Bool.false_eq_true, if_false] at h
      cases bPreserved with
      | true =>
        simp only [if_true, Option.some.injEq] at h
        exact ⟨fun _ => h.symm, Or.inl h.symm⟩
      | false =>
        simp only [Bool.false_eq_true, if_false] at h
        exact ⟨fun hcon => by simp at hcon, ProcessSingleNodePaths_cut Index Paths P Q h⟩

/-- One call of the loops, without inversion: only flags change; the flag of a preserved
edge stays set when the call is a `ProcessSingleEdge` call or
`bAffectedNodesAffectConnectedEdges` is off, the flag of a preserved node stays set when
the call is a `ProcessSingleNode` call or `bAffectedEdgesAffectEndpoints` is off. -/
theorem ProcessCall_preserves (P Q : FProcessor) (Call : FLoopCall)
    (hInv : P.Settings.bInvert = false) (h : P.ProcessCall Call = some Q) :
    P.SameFrame Q ∧
    ((P.Settings.bAffectedNodesAffectConnectedEdges = false ∨ Call.isEdge = true) →
      ∀ j, P.EdgeFilterCache[j]? = some true → P.Cluster.EdgeFlag j = some true →
        Q.Cluster.EdgeFlag j = some true) ∧
    ((P.Settings.bAffectedEdgesAffectEndpoints = false ∨ Call.isEdge = false) →
      ∀ j, P.NodeFilterCache[j]? = some true → P.Cluster.NodeFlag j = some true →
        Q.Cluster.NodeFlag j = some true) := by
  cases Call with
  | Edge EdgeIndex Paths =>
    simp only [ProcessCall] at h
    obtain ⟨hKeep, hCut⟩ := ProcessSingleEdge_cut P Q Paths EdgeIndex hInv h
    refine ⟨ProcessSingleEdge_frame P Q Paths EdgeIndex h, ?_, ?_⟩
    · intro _ j hc hf
      rcases hCut with hQ | hC
      · subst hQ; exact hf
      · by_cases hj : j = EdgeIndex
        · subst hj
          rw [hKeep hc]; exact hf
        · rw [(CutEdge_effect P Q EdgeIndex hInv hC).1 j hj]; exact hf
    · intro hA j _ hf
      rcases hCut with hQ | hC
      · subst hQ; exact hf
      · rcases hA with hA | hA
        · unfold FCluster.NodeFlag at hf ⊢
          rw [(CutEdge_effect P Q EdgeIndex hInv hC).2 hA]; exact hf
        · simp [FLoopCall.isEdge] at hA
  | Node Index Paths =>
    simp only [ProcessCall] at h
    obtain ⟨hKeep, hCut⟩ := ProcessSingleNode_cut P Q Paths Index hInv h
    refine ⟨ProcessSingleNode_frame P Q Paths Index h, ?_, ?_⟩
    · intro hA j _ hf
      rcases hCut with hQ | hC
      · subst hQ; exact hf
      · rcases hA with hA | hA
        · unfold FCluster.EdgeFlag at hf ⊢
          rw [(CutNode_effect P Q Index hInv hC).2 hA]; exact hf
        · simp [FLoopCall.isEdge] at hA
    · intro _ j hc hf
      rcases hCut with hQ | hC
      · subst hQ; exact hf
      · by_cases hj : j = Index
        · subst hj
          rw [hKeep hc]; exact hf
        · rw [(CutNode_effect P Q Index hInv hC).1 j hj]; exact hf

/-- Any sequence of calls of the loops, without inversion. -/
theorem ProcessCalls_preserves (Calls : List FLoopCall) :
    ∀ P Q : FProcessor, P.Settings.bInvert = false → P.ProcessCalls Calls = some Q →
      P.SameFrame Q ∧
      ((P.Settings.bAffectedNodesAffectConnectedEdges = false ∨
          ∀ Call ∈ Calls, Call.isEdge = true) →
        ∀ j, P.EdgeFilterCache[j]? = some true → P.Cluster.EdgeFlag j = some true →
          Q.Cluster.EdgeFlag j = some true) ∧
      ((P.Settings.bAffectedEdgesAffectEndpoints = false ∨
          ∀ Call ∈ Calls, Call.isEdge = false) →
        ∀ j, P.NodeFilterCache[j]? = some true → P.Cluster.NodeFlag j = some true →
          Q.Cluster.NodeFlag j = some true) := by
  induction Calls with
  | nil =>
    intro P Q _ h
    simp only [ProcessCalls, Option.some.injEq] at h
    subst h
    exact ⟨SameFrame.proc_refl P, fun _ _ _ hf => hf, fun _ _ _ hf => hf⟩
  | cons Call Rest ih =>
    intro P Q hInv h
    unfold ProcessCalls at h
    cases h1 : P.ProcessCall Call with
    | none => rw [h1] at h; simp at h
    | some P1 =>
      rw [h1] at h
      simp only at h
      obtain ⟨hF1, hE1, hN1⟩ := ProcessCall_preserves P P1 Call hInv h1
      have hS := hF1.1
      have hEC := hF1.2.2.1
      have hNC := hF1.2.2.2.1
      obtain ⟨hF2, hE2, hN2⟩ := ih P1 Q (by rw [hS]; exact hInv) h
      refine ⟨hF1.proc_trans hF2, ?_, ?_⟩
      · intro hA j hc hf
        refine hE2 ?_ j (by rw [hEC]; exact hc) (hE1 ?_ j hc hf)
        · rcases hA with hA | hA
          · exact Or.inl (by rw [hS]; exact hA)
          · exact Or.inr (fun c hcm => hA c (List.mem_cons_of_mem _ hcm))
        · rcases hA with hA | hA
          · exact Or.inl hA
          · exact Or.inr (hA Call (List.mem_cons_self _ _))
      · intro hA j hc hf
        refine hN2 ?_ j (by rw [hNC]; exact hc) (hN1 ?_ j hc hf)
        · rcases hA with hA | hA
          · exact Or.inl (by rw [hS]; exact hA)
          · exact Or.inr (fun c hcm => hA c (List.mem_cons_of_mem _ hcm))
        · rcases hA with hA | hA
          · exact Or.inl hA
          · exact Or.inr (hA Call (List.mem_cons_self _ _))

/-- On a well-formed processor every sequence of calls with indices in bounds returns. -/
theorem ProcessCalls_isSome (Calls : List FLoopCall) :
    ∀ P : FProcessor, P.WellFormed → (∀ Call ∈ Calls, Call.InBounds P) →
      ∃ Q, P.ProcessCalls Calls = some Q := by
  induction Calls with
  | nil => intro P _ _; exact ⟨P, rfl⟩
  | cons Call Rest ih =>
    intro P hW hB
    have h1 : ∃ P1, P.ProcessCall Call = some P1 ∧ P.SameFrame P1 := by
      have hC := hB Call (List.mem_cons_self _ _)
      cases Call with
      | Edge EdgeIndex Paths =>
        obtain ⟨P1, hP1⟩ := ProcessSingleEdge_isSome P Paths EdgeIndex hW hC
        exact ⟨P1, hP1, ProcessSingleEdge_frame P P1 Paths EdgeIndex hP1⟩
      | Node Index Paths =>
        obtain ⟨P1, hP1⟩ := ProcessSingleNode_isSome P Paths Index hW hC
        exact ⟨P1, hP1, ProcessSingleNode_frame P P1 Paths Index hP1⟩
    obtain ⟨P1, hP1, hF⟩ := h1
    have hB1 : ∀ c ∈ Rest, c.InBounds P1 := by
      intro c hc
      have := hB c (List.mem_cons_of_mem _ hc)
      cases c with
      | Edge EdgeIndex Paths =>
        simp only [FLoopCall.InBounds] at this ⊢
        rw [hF.proc_edges_length]; exact this
      | Node Index Paths =>
        simp only [FLoopCall.InBounds] at this ⊢
        rw [hF.proc_nodes_length]; exact this
    obtain ⟨Q, hQ⟩ := ih P1 (WellFormed_of_SameFrame hW hF) hB1
    exact ⟨Q, by unfold ProcessCalls; rw [hP1]; exact hQ⟩

/-- C14 (amended): without inversion, for every cluster, every set of cutting paths and
every order of the `ProcessSingleEdge` and `ProcessSingleNode` calls, whenever the calls
return, an edge whose `EdgeFilterCache` entry is true and that was valid is still valid
provided `bAffectedNodesAffectConnectedEdges` is off or no `ProcessSingleNode` call runs,
and a node whose `NodeFilterCache` entry is true and that was valid is still valid
provided `bAffectedEdgesAffectEndpoints` is off or no `ProcessSingleEdge` call runs; and
on a well-formed processor the calls do return when their indices are in bounds. -/
theorem preservation_filters_preserve_without_propagation (P : FProcessor)
    (Calls : List FLoopCall) (hInv : P.Settings.bInvert = false) :
    (∀ Q, P.ProcessCalls Calls = some Q →
      ((P.Settings.bAffectedNodesAffectConnectedEdges = false ∨
          ∀ Call ∈ Calls, Call.isEdge = true) →
        ∀ j, P.EdgeFilterCache[j]? = some true → P.Cluster.EdgeFlag j = some true →
          Q.Cluster.EdgeFlag j = some true) ∧
      ((P.Settings.bAffectedEdgesAffectEndpoints = false ∨
          ∀ Call ∈ Calls, Call.isEdge = false) →
        ∀ j, P.NodeFilterCache[j]? = some true → P.Cluster.NodeFlag j = some true →
          Q.Cluster.NodeFlag j = some true)) ∧
    (P.WellFormed → (∀ Call ∈ Calls, Call.InBounds P) →
      ∃ Q, P.ProcessCalls Calls = some Q) :=
  ⟨fun Q h => (ProcessCalls_preserves Calls P Q hInv h).2,
    fun hW hB => ProcessCalls_isSome Calls P hW hB⟩

/-- C14 (counterexample): the triangle with the edge `(0, 1)` passing the edge
preservation filters, not inverted, `bAffectedNodesAffectConnectedEdges` set; one
`ProcessSingleNode` call on node 0, which a cutting path touches, leaves the preserved
edge invalid. -/
theorem preserved_edge_cut_by_connected_node :
    exampleTrianglePreserved.Settings.bInvert = false ∧
    exampleTrianglePreserved.EdgeFilterCache[0]? = some true ∧
    exampleTrianglePreserved.Cluster.EdgeFlag 0 = some true ∧
    (exampleTrianglePreserved.ProcessCalls [FLoopCall.Node 0 [⟨true, [⟨true⟩]⟩]]).map
      (fun Q => Q.Cluster.EdgeFlag 0) = some (some false) := by
  decide

/-- C14 (witness): the same triangle with `bAffectedNodesAffectConnectedEdges` off; the
call on node 0 and a call on the preserved edge leave the preserved edge valid. -/
theorem preservation_filters_preserve_witness :
    ∃ Q, FProcessor.ProcessCalls
        { exampleTrianglePreserved with Settings := ⟨false, true, false, false⟩ }
        [FLoopCall.Node 0 [⟨true, [⟨true⟩]⟩],
          FLoopCall.Edge 0 [⟨true, [⟨true, false, true⟩]⟩]] = some Q ∧
      Q.Cluster.EdgeFlag 0 = some true :=
  let H := preservation_filters_preserve_without_propagation
    { exampleTrianglePreserved with Settings := ⟨false, true, false, false⟩ }
    [FLoopCall.Node 0 [⟨true, [⟨true⟩]⟩], FLoopCall.Edge 0 [⟨true, [⟨true, false, true⟩]⟩]]
    rfl
  let ⟨Q, hQ⟩ := H.2 (by decide) (by decide)
  ⟨Q, hQ, (H.1 Q hQ).1 (Or.inl rfl) 0 (by decide) (by decide)⟩

end FProcessor

end PCGExCutEdges

/-! ## `double` -/

namespace double

theorem dlt_def (x y : double) : x < y ↔ lt x y = true := Iff.rfl

theorem dle_def (x y : double) : x ≤ y ↔ le x y = true := Iff.rfl

/-- A comparison `x < y` that holds has no operand that is not a number. -/
theorem ne_NaN_of_lt {x y : double} (h : x < y) : x ≠ NaN ∧ y ≠ NaN := by
  rw [dlt_def] at h
  cases x <;> cases y <;> simp [lt] at h ⊢

theorem dlt_irrefl (x : double) : ¬ x < x := by
  rw [dlt_def]
  cases x <;> simp [lt]

theorem dlt_trans {x y z : double} (h1 : x < y) (h2 : y < z) : x < z := by
  rw [dlt_def] at *
  cases x <;> cases y <;> cases z <;> simp [lt] at * <;>
    first
      | exact lt_trans h1 h2
      | simp_all

theorem dle_of_lt {x y : double} (h : x < y) : x ≤ y := by
  rw [dlt_def] at h
  rw [dle_def]
  cases x <;> cases y <;> simp [lt, le] at * <;>
    first
      | exact le_of_lt h
      | simp_all

/-- Of two numbers, the second is at most the first when the first is not below it. -/
theorem dle_of_not_lt {x y : double} (hx : x ≠ NaN) (hy : y ≠ NaN) (h : ¬ x < y) : y ≤ x := by
  rw [dlt_def] at h
  rw [dle_def]
  cases x <;> cases y <;> simp [lt, le] at * <;>
    first
      | exact h
      | (simp_all; done)
      | (rename_i a b; cases a <;> cases b <;> simp_all)

theorem not_dlt_of_dle {x y : double} (h : x ≤ y) : ¬ y < x := by
  rw [dle_def] at h
  rw [dlt_def]
  cases x <;> cases y <;> simp [lt, le] at * <;>
    first
      | exact h
      | (rename_i a b; cases a <;> cases b <;> simp_all)

theorem dle_refl_of_ne_NaN {x : double} (hx : x ≠ NaN) : x ≤ x := by
  rw [dle_def]
  cases x <;> simp [le] at *

theorem dlt_of_dlt_of_not_dlt {x y z : double} (h1 : x < z) (h2 : ¬ y < z) (hy : y ≠ NaN) :
    x < y := by
  rw [dlt_def] at *
  cases x <;> cases y <;> cases z <;> simp [lt] at * <;>
    first
      | exact lt_of_lt_of_le h1 h2
      | simp_all

/-- A sum whose first term is not a number is not a number. -/
theorem add_NaN_left (x : double) : add NaN x = NaN := by
  cases x <;> rfl

end double

/-! ## `PCGExBinPacking` -/

namespace PCGExBinPacking

open PCGExData FProcessor

/-- C15: two input points, the first of size 1 and the second of size 5, one bin whose
only space fits sizes up to 2, a sorter that puts the larger point first. The output is
sorted to (second, first); the item of index 0, made from the second point, fits nowhere
and the item of index 1, made from the first point, is placed. `CompleteWork` keeps the
first point in the main output and also discards the first point, `SourcePoints[0]`; the
second point, the one that did not fit, is in neither list. Without the sorter the same
input keeps the first point and discards the second. (Were the point loop run on the
input, the sorted run would keep and discard the second point and lose the first, which
was placed.) -/
theorem CompleteWork_discards_source_point_at_sorted_index :
    (Run exampleGeometry ESource.Out examplePoints (some exampleSorter) ⟨0, 0, 0⟩ [exampleBin]
        [0, 1]).map
        (fun P => (P.FittedPoints.map (fun Point => Point.MetadataEntry),
          P.Discarded.map (fun Points => Points.map (fun Point => Point.MetadataEntry)),
          P.Fitted))
      = some ([0], [[0]], [false, true]) ∧
    (Run exampleGeometry ESource.Out examplePoints none ⟨0, 0, 0⟩ [exampleBin] [0, 1]).map
        (fun P => (P.FittedPoints.map (fun Point => Point.MetadataEntry),
          P.Discarded.map (fun Points => Points.map (fun Point => Point.MetadataEntry)),
          P.Fitted))
      = some ([0], [[1]], [true, false]) ∧
    (Run exampleGeometry ESource.In examplePoints (some exampleSorter) ⟨0, 0, 0⟩ [exampleBin]
        [0, 1]).map
        (fun P => (P.FittedPoints.map (fun Point => Point.MetadataEntry),
          P.Discarded.map (fun Points => Points.map (fun Point => Point.MetadataEntry)),
          P.Fitted))
      = some ([1], [[1]], [true, false]) := by
  decide!

namespace FBin

/-- What the loop of `GetBestSpaceScore` returns when no score of a fitting space is NaN:
either nothing changed and no fitting space scores below `OutScore`, or the index of a
fitting space with its score, which is below `OutScore`, below the score of every fitting
space before it and at most the score of every fitting space. -/
theorem GetBestSpaceScoreLoop_spec (B : FBin) (InItem : FItem) (Spaces : List FSpace)
    (hN : ∀ Space ∈ Spaces, Space.CanFit InItem.Box.GetSize = true →
      B.Score InItem Space ≠ double.NaN) :
    ∀ (i BestIndex : Int) (OutScore : double) (r : Int) (s : double),
      OutScore ≠ double.NaN →
      GetBestSpaceScoreLoop B.MaxVolume InItem.Box.GetVolume InItem.Box.GetSize Spaces i
          BestIndex OutScore = (r, s) →
      (r = BestIndex ∧ s = OutScore ∧
        ∀ Space ∈ Spaces, Space.CanFit InItem.Box.GetSize = true →
          OutScore ≤ B.Score InItem Space) ∨
      (∃ (k : Nat) (Best : FSpace), Spaces[k]? = some Best ∧ r = i + k ∧
        Best.CanFit InItem.Box.GetSize = true ∧ s = B.Score InItem Best ∧ s < OutScore ∧
        (∀ (j : Nat) (Space : FSpace), j < k → Spaces[j]? = some Space →
          Space.CanFit InItem.Box.GetSize = true → s < B.Score InItem Space) ∧
        (∀ Space ∈ Spaces, Space.CanFit InItem.Box.GetSize = true →
          s ≤ B.Score InItem Space)) := by
  induction Spaces with
  | nil =>
    intro i b o r s _ h
    simp only [GetBestSpaceScoreLoop, Prod.mk.injEq] at h
    exact Or.inl ⟨h.1.symm, h.2.symm, fun _ hm => absurd hm (List.not_mem_nil _)⟩
  | cons Space Rest ih =>
    intro i b o r s ho h
    have ihR := ih (fun Sp hSp hF => hN Sp (List.mem_cons_of_mem _ hSp) hF)
    unfold GetBestSpaceScoreLoop at h
    by_cases hFit : Space.CanFit InItem.Box.GetSize = true
    · simp only [hFit, if_true] at h
      have hNaN := hN Space (List.mem_cons_self _ _) hFit
      have hScore : double.add
          (double.sub 1 (double.div (double.sub Space.Volume InItem.Box.GetVolume) B.MaxVolume))
          Space.DistanceScore = B.Score InItem Space := rfl
      rw [hScore] at h
      by_cases hLt : B.Score InItem Space < o
      · simp only [hLt, if_true] at h
        rcases ihR (i + 1) i (B.Score InItem Space) r s hNaN h with ⟨hr, hs, hall⟩ | hex
        · refine Or.inr ⟨0, Space, by simp, by simp [hr], hFit, hs, by rw [hs]; exact hLt, ?_, ?_⟩
          · intro j _ hj; exact absurd hj (Nat.not_lt_zero j)
          · intro Sp hSp hF
            rcases List.mem_cons.mp hSp with rfl | hSp
            · rw [hs]; exact double.dle_refl_of_ne_NaN hNaN
            · rw [hs]; exact hall Sp hSp hF
        · obtain ⟨k, Best, hk, hr, hBF, hs, hlt, hbefore, hall⟩ := hex
          refine Or.inr ⟨k + 1, Best, by simpa using hk, by rw [hr]; push_cast; ring, hBF, hs,
            double.dlt_trans hlt hLt, ?_, ?_⟩
          · intro j Sp hj hSp hF
            cases j with
            | zero =>
              simp only [List.getElem?_cons_zero, Option.some.injEq] at hSp
              subst hSp; exact hlt
            | succ j =>
              simp only [List.getElem?_cons_succ] at hSp
              exact hbefore j Sp (by omega) hSp hF
          · intro Sp hSp hF
            rcases List.mem_cons.mp hSp with rfl | hSp
            · exact double.dle_of_lt hlt
            · exact hall Sp hSp hF
      · simp only [hLt, if_false] at h
        rcases ihR (i + 1) b o r s ho h with ⟨hr, hs, hall⟩ | hex
        · refine Or.inl ⟨hr, hs, ?_⟩
          intro Sp hSp hF
          rcases List.mem_cons.mp hSp with rfl | hSp
          · exact double.dle_of_not_lt hNaN ho hLt
          · exact hall Sp hSp hF
        · obtain ⟨k, Best, hk, hr, hBF, hs, hlt, hbefore, hall⟩ := hex
          have hHead : s < B.Score InItem Space := double.dlt_of_dlt_of_not_dlt hlt hLt hNaN
          refine Or.inr ⟨k + 1, Best, by simpa using hk, by rw [hr]; push_cast; ring, hBF, hs,
            hlt, ?_, ?_⟩
          · intro j Sp hj hSp hF
            cases j with
            | zero =>
              simp only [List.getElem?_cons_zero, Option.some.injEq] at hSp
              subst hSp; exact hHead
            | succ j =>
              simp only [List.getElem?_cons_succ] at hSp
              exact hbefore j Sp (by omega) hSp hF
          · intro Sp hSp hF
            rcases List.mem_cons.mp hSp with rfl | hSp
            · exact double.dle_of_lt hHead
            · exact hall Sp hSp hF
    · simp only [hFit, Bool.false_eq_true, if_false] at h
      rcases ihR (i + 1) b o r s ho h with ⟨hr, hs, hall⟩ | hex
      · refine Or.inl ⟨hr, hs, ?_⟩
        intro Sp hSp hF
        rcases List.mem_cons.mp hSp with rfl | hSp
        · exact absurd hF hFit
        · exact hall Sp hSp hF
      · obtain ⟨k, Best, hk, hr, hBF, hs, hlt, hbefore, hall⟩ := hex
        refine Or.inr ⟨k + 1, Best, by simpa using hk, by rw [hr]; push_cast; ring, hBF, hs,
          hlt, ?_, ?_⟩
        · intro j Sp hj hSp hF
          cases j with
          | zero =>
            simp only [List.getElem?_cons_zero, Option.some.injEq] at hSp
            subst hSp; exact absurd hF hFit
          | succ j =>
            simp only [List.getElem?_cons_succ] at hSp
            exact hbefore j Sp (by omega) hSp hF
        · intro Sp hSp hF
          rcases List.mem_cons.mp hSp with rfl | hSp
          · exact absurd hF hFit
          · exact hall Sp hSp hF

/-- The index the loop of `GetBestSpaceScore` returns is the `BestIndex` it was given or
the index of a space. -/
theorem GetBestSpaceScoreLoop_index (MaxVolume BoxVolume : double) (ItemSize : FVector)
    (Spaces : List FSpace) :
    ∀ (i BestIndex : Int) (OutScore : double),
      (GetBestSpaceScoreLoop MaxVolume BoxVolume ItemSize Spaces i BestIndex OutScore).1
        = BestIndex ∨
      ∃ k : Nat, k < Spaces.length ∧
        (GetBestSpaceScoreLoop MaxVolume BoxVolume ItemSize Spaces i BestIndex OutScore).1
          = i + k := by
  induction Spaces with
  | nil => intro i b o; exact Or.inl rfl
  | cons Space Rest ih =>
    intro i b o
    unfold GetBestSpaceScoreLoop
    simp only
    split
    · split
      · rcases ih (i + 1) i _ with h | ⟨k, hk, h⟩
        · exact Or.inr ⟨0, by simp, by rw [h]; simp⟩
        · exact Or.inr ⟨k + 1, by simpa using hk, by rw [h]; push_cast; ring⟩
      · rcases ih (i + 1) b o with h | ⟨k, hk, h⟩
        · exact Or.inl h
        · exact Or.inr ⟨k + 1, by simpa using hk, by rw [h]; push_cast; ring⟩
    · rcases ih (i + 1) b o with h | ⟨k, hk, h⟩
      · exact Or.inl h
      · exact Or.inr ⟨k + 1, by simpa using hk, by rw [h]; push_cast; ring⟩

/-- Source function `FBin::Insert` returns: the index `AddItem` is handed is the index of a
space. -/
theorem Insert_isSome (Geo : FGeometry) (B : FBin) (InItem : FItem) :
    ∃ R, B.Insert Geo InItem = some R := by
  unfold Insert
  simp only
  split
  · exact ⟨_, rfl⟩
  · rename_i hr
    rcases GetBestSpaceScoreLoop_index B.MaxVolume InItem.Box.GetVolume InItem.Box.GetSize
      B.Spaces 0 (-1) MAX_dbl with h | ⟨k, hk, h⟩
    · exact absurd h hr
    · have hG : (B.GetBestSpaceScore InItem MAX_dbl).1 = (k : Int) := by
        unfold GetBestSpaceScore; rw [h]; simp
      rw [hG]
      unfold AddItem
      have hneg : ¬ (k : Int) < 0 := by omega
      simp only [hneg, if_false, Int.toNat_ofNat, List.getElem?_eq_getElem hk]
      exact ⟨_, rfl⟩

/-- C16 (amended): for every bin and item such that the score of every space that can fit
the item is below `MAX_dbl`, `GetBestSpaceScore` called with `OutScore = MAX_dbl` returns
-1 if and only if no space of the bin can fit the item's size, and otherwise the index of
a fitting space whose score is at most the score of every fitting space and strictly
below the score of every fitting space before it, with `OutScore` set to that score;
`Insert` returns, and returns false exactly when `GetBestSpaceScore` returns -1. Scores
are the `double` values the code computes, and are compared as the code compares them. -/
theorem GetBestSpaceScore_lowest_score_first_found (Geo : FGeometry) (B : FBin)
    (InItem : FItem)
    (hS : ∀ Space ∈ B.Spaces, Space.CanFit InItem.Box.GetSize = true →
      B.Score InItem Space < MAX_dbl) :
    (∀ (r : Int) (s : double), B.GetBestSpaceScore InItem MAX_dbl = (r, s) →
      (r = -1 ↔ ∀ Space ∈ B.Spaces, Space.CanFit InItem.Box.GetSize = false) ∧
      (r ≠ -1 → ∃ (k : Nat) (Best : FSpace), r = (k : Int) ∧ B.Spaces[k]? = some Best ∧
        Best.CanFit InItem.Box.GetSize = true ∧ s = B.Score InItem Best ∧
        (∀ Space ∈ B.Spaces, Space.CanFit InItem.Box.GetSize = true →
          s ≤ B.Score InItem Space) ∧
        (∀ (j : Nat) (Space : FSpace), j < k → B.Spaces[j]? = some Space →
          Space.CanFit InItem.Box.GetSize = true → s < B.Score InItem Space))) ∧
    (∃ R, B.Insert Geo InItem = some R) ∧
    (∀ (b : Bool) (B1 : FBin) (Item1 : FItem), B.Insert Geo InItem = some (b, B1, Item1) →
      (b = false ↔ (B.GetBestSpaceScore InItem MAX_dbl).1 = -1)) := by
  have hN : ∀ Space ∈ B.Spaces, Space.CanFit InItem.Box.GetSize = true →
      B.Score InItem Space ≠ double.NaN :=
    fun Space hSp hF => (double.ne_NaN_of_lt (hS Space hSp hF)).1
  have hMax : MAX_dbl ≠ double.NaN := by unfold MAX_dbl; simp
  refine ⟨?_, Insert_isSome Geo B InItem, ?_⟩
  · intro r s h
    rcases GetBestSpaceScoreLoop_spec B InItem B.Spaces hN 0 (-1) MAX_dbl r s hMax h with
      ⟨hr, _, hall⟩ | ⟨k, Best, hk, hrk, hBF, hs, _, hbefore, hmin⟩
    · refine ⟨⟨fun _ => ?_, fun _ => hr⟩, fun hne => absurd hr hne⟩
      intro Space hSp
      by_contra hF
      have hF1 : Space.CanFit InItem.Box.GetSize = true := by simpa using hF
      exact double.not_dlt_of_dle (hall Space hSp hF1) (hS Space hSp hF1)
    · have hk0 : r = (k : Int) := by rw [hrk]; simp
      refine ⟨⟨fun hr => ?_, fun hno => ?_⟩, fun _ => ⟨k, Best, hk0, hk, hBF, hs, hmin, hbefore⟩⟩
      · rw [hk0] at hr; omega
      · have := hno Best (List.getElem?_mem hk)
        rw [hBF] at this
        exact absurd this (by simp)
  · intro b B1 Item1 h
    unfold Insert at h
    simp only at h
    split at h
    · rename_i hr
      simp only [Option.some.injEq, Prod.mk.injEq] at h
      exact ⟨fun _ => hr, fun _ => h.1.symm⟩
    · rename_i hr
      cases hA : B.AddItem Geo (B.GetBestSpaceScore InItem MAX_dbl).1 InItem with
      | none => rw [hA] at h; simp at h
      | some R1 =>
        rw [hA] at h
        simp only [Option.map_some', Option.some.injEq, Prod.mk.injEq] at h
        exact ⟨fun hb => by rw [← h.1] at hb; exact absurd hb (by simp),
          fun hr1 => absurd hr1 hr⟩

/-- The flat bin, for any constructor of `FSpace` that gives the space the volume of its
box: `MaxVolume` is 0, and for an item of volume 0 the score of the space is
`1 - (0 - 0) / 0 + DistanceScore`, not a number whatever the distance score is, so
`GetBestSpaceScore` returns -1 whether the space can fit the item or not. -/
theorem GetBestSpaceScore_flat_bin (MakeSpace : FBox → FVector → FSpace) (InItem : FItem)
    (hV : ∀ (InBox : FBox) (Seed : FVector), (MakeSpace InBox Seed).Volume = InBox.GetVolume)
    (hI : InItem.Box.GetVolume = 0) :
    (Construct MakeSpace ⟨⟨0, 0, 0⟩, ⟨1, 1, 0⟩⟩ ⟨0, 0, 0⟩).GetBestSpaceScore InItem MAX_dbl
      = (-1, MAX_dbl) := by
  have hB : (⟨⟨0, 0, 0⟩, ⟨1, 1, 0⟩⟩ : FBox).GetVolume = 0 := by decide!
  have hD : double.sub 1 (double.div (double.sub 0 0) 0) = double.NaN := by decide!
  have hL : ¬ double.NaN < MAX_dbl := by decide!
  unfold GetBestSpaceScore Construct AddSpace
  simp only [List.nil_append, GetBestSpaceScoreLoop, hV, hI, hB, hD, double.add_NaN_left, hL,
    if_false, ite_self]

/-- C16 (counterexample): the flat bin the constructor makes for the bounds from
`(0, 0, 0)` to `(1, 1, 0)`. Its `MaxVolume` is 0; its one space can fit the flat item of
size `(1, 1, 0)` and scores `1 - (0 - 0) / 0 + 0`, which is not a number, so the score is
not below `MAX_dbl`: `GetBestSpaceScore` called with `OutScore = MAX_dbl` returns -1 and
`Insert` returns false although the space can fit the item. -/
theorem GetBestSpaceScore_minus_one_with_fitting_space :
    exampleFlatBin.MaxVolume = 0 ∧
    exampleFlatBin.Spaces.map (fun Space => Space.CanFit exampleFlatItem.Box.GetSize)
      = [true] ∧
    exampleFlatBin.Spaces.map (fun Space => exampleFlatBin.Score exampleFlatItem Space)
      = [double.NaN] ∧
    exampleFlatBin.GetBestSpaceScore exampleFlatItem MAX_dbl = (-1, MAX_dbl) ∧
    (exampleFlatBin.Insert exampleGeometry exampleFlatItem).map (fun R => R.1) = some false := by
  decide!

/-- C16 (witness): the bin the constructor makes for a cube of side 2 and the example item
of side 1, which its space fits: the score is `1 - (8 - 1) / 8 + 0`. -/
theorem GetBestSpaceScore_lowest_score_witness :
    exampleCubeBin.GetBestSpaceScore exampleItem MAX_dbl = (0, double.ofRat (1 / 8)) ∧
    ((0 : Int) = -1 ↔
      ∀ Space ∈ exampleCubeBin.Spaces, Space.CanFit exampleItem.Box.GetSize = false) ∧
    (exampleCubeBin.Insert exampleGeometry exampleItem).map (fun R => R.1) = some true :=
  have h0 : exampleCubeBin.GetBestSpaceScore exampleItem MAX_dbl
      = (0, double.ofRat (1 / 8)) := by
    decide!
  have hSp : exampleCubeBin.Spaces.all (fun Space =>
      !Space.CanFit exampleItem.Box.GetSize ||
        decide (exampleCubeBin.Score exampleItem Space < MAX_dbl)) = true := by
    decide!
  ⟨h0, ((GetBestSpaceScore_lowest_score_first_found exampleGeometry exampleCubeBin exampleItem
    (by
      intro Space hS hF
      have := List.all_eq_true.mp hSp Space hS
      simpa [hF] using this)).1 0 (double.ofRat (1 / 8)) h0).1, by decide!⟩

end FBin

end PCGExBinPacking

/-! ## `FPCGExCutEdgesElement::ExecuteInternal`: building the cutting paths -/

namespace FPCGExCutEdgesElement

/-- C17: with two path facades, when the two callbacks run one after the other `Paths`
holds the two paths, and when their `Paths.Add` calls interleave step by step, both
callbacks finish and `Paths` holds one entry only, the path of facade 1: the path of
facade 0 is lost. -/
theorem BuildPathsTask_unlocked_Add_loses_path :
    PathsAfter 2 [0, 0, 0, 1, 1, 1] = ([some 0, some 1], true) ∧
    PathsAfter 2 [0, 1, 0, 1, 0, 1] = ([some 1], true) := by
  decide

end FPCGExCutEdgesElement

/-! ## `PCGEx::FPointLoop::Advance` -/

namespace PCGEx

namespace FPointLoop

theorem range_map_split {β : Type} (f : Int → β) (c : Int) (a b : Nat) :
    (List.range (a + b)).map (fun (i : Nat) => f (c + (i : Int)))
      = (List.range a).map (fun (i : Nat) => f (c + (i : Int)))
        ++ (List.range b).map (fun (i : Nat) => f (c + (a : Int) + (i : Int))) := by
  rw [List.range_add, List.map_append, List.map_map]
  congr 1
  apply List.map_congr_left
  intro i _
  simp only [Function.comp, Nat.cast_add, add_assoc]

/-- One call of `Advance` in the middle of a pass, at an index `c` with `0 <= c < N`. -/
theorem Advance_mid (N C c G : Int) (h0 : 0 ≤ c) (hlt : c < N) (hC : 1 ≤ C) :
    Advance ⟨N, C, c⟩ G
      = (if c + min (N - c) C ≥ N then
          (true, ⟨N, C, -1⟩,
            (List.range (min (N - c) C).toNat).map (fun (i : Nat) => FPointLoopCall.LoopBody (c + i)))
        else
          (false, ⟨N, C, c + min (N - c) C⟩,
            (List.range (min (N - c) C).toNat).map
              (fun (i : Nat) => FPointLoopCall.LoopBody (c + i)))) := by
  have hne : c ≠ -1 := by omega
  have hpos : 0 < min (N - c) C := by omega
  unfold Advance
  simp only [hne, if_false, hpos, if_true, forRange, List.map_map]
  split_ifs <;> rfl

/-- A pass continued from the index `c`, for a function that agrees with `Advance` in the
middle of a pass. -/
theorem AdvanceUntilDone_mid (Fn : FPointLoop → Int → Bool × FPointLoop × List FPointLoopCall)
    (N C G : Int) (hC : 1 ≤ C)
    (hFn : ∀ c : Int, 0 ≤ c → c < N → Fn ⟨N, C, c⟩ G = Advance ⟨N, C, c⟩ G) :
    ∀ (n : Nat) (c : Int), 0 ≤ c → c < N → N - c ≤ n → ∀ fuel : Nat, n ≤ fuel →
      ∃ Calls, AdvanceUntilDone Fn G fuel ⟨N, C, c⟩ = some (Calls, ⟨N, C, -1⟩) ∧
        Calls.flatMap (fun Call => Call.2)
          = (List.range (N - c).toNat).map (fun (i : Nat) => FPointLoopCall.LoopBody (c + i)) ∧
        (∀ Call ∈ Calls, 1 ≤ Call.2.length ∧ (Call.2.length : Int) ≤ C) ∧
        Calls.map (fun Call => Call.1) = List.replicate (Calls.length - 1) false ++ [true] ∧
        Calls ≠ [] := by
  intro n
  induction n with
  | zero => intro c _ hlt hn; omega
  | succ n ih =>
    intro c h0 hlt hn fuel hfuel
    obtain ⟨fuel, rfl⟩ : ∃ k, fuel = k + 1 := ⟨fuel - 1, by omega⟩
    have hpos : 0 < min (N - c) C := by omega
    have hlen : ((List.range (min (N - c) C).toNat).map
        (fun (i : Nat) => FPointLoopCall.LoopBody (c + i))).length = (min (N - c) C).toNat := by
      simp
    unfold AdvanceUntilDone
    simp only [hFn c h0 hlt, Advance_mid N C c G h0 hlt hC]
    by_cases hdone : c + min (N - c) C ≥ N
    · simp only [hdone, if_true]
      have hmin : min (N - c) C = N - c := by omega
      refine ⟨_, rfl, ?_, ?_, ?_, ?_⟩
      · simp [hmin]
      · intro Call hCall
        simp only [List.mem_singleton] at hCall
        subst hCall
        simp only [hlen]
        omega
      · simp
      · simp
    · simp only [hdone, if_false, Bool.false_eq_true]
      have hmin : min (N - c) C = C := by omega
      obtain ⟨Calls, hCalls, hflat, hlens, hbools, hne⟩ :=
        ih (c + min (N - c) C) (by omega) (by omega) (by omega) fuel (by omega)
      rw [hCalls]
      refine ⟨_, rfl, ?_, ?_, ?_, ?_⟩
      · simp only [Option.map_some', List.flatMap_cons, hflat]
        have hsplit : (N - c).toNat = C.toNat + (N - (c + C)).toNat := by omega
        have hcast : ((C.toNat : Nat) : Int) = C := by omega
        rw [hsplit, range_map_split, hmin, hcast]
      · intro Call hCall
        simp only [List.mem_cons] at hCall
        rcases hCall with rfl | hCall
        · simp only [hlen]; omega
        · exact hlens Call hCall
      · simp only [List.map_cons, hbools, List.length_cons, Nat.add_sub_cancel]
        have hl : Calls.length = (Calls.length - 1) + 1 := by
          have := List.length_pos.mpr hne
          omega
        rw [hl, List.replicate_succ]
        simp
      · simp

/-- The first call of a pass reads the point count and goes on as from the index 0. -/
theorem Advance_start (M N C : Int) : Advance ⟨M, C, -1⟩ N = Advance ⟨N, C, 0⟩ N := by
  unfold Advance
  simp

/-- The first call of a pass of the overload with `Initialize` calls `Initialize` and goes
on as `Advance` from the index 0. -/
theorem AdvanceInitialize_start (M N C : Int) :
    AdvanceInitialize ⟨M, C, -1⟩ N
      = ((Advance ⟨N, C, 0⟩ N).1, (Advance ⟨N, C, 0⟩ N).2.1,
          FPointLoopCall.Initialize :: (Advance ⟨N, C, 0⟩ N).2.2) := by
  unfold AdvanceInitialize
  simp

/-- In the middle of a pass the overload with `Initialize` is `Advance`. -/
theorem AdvanceInitialize_mid (N C G c : Int) (h0 : 0 ≤ c) :
    AdvanceInitialize ⟨N, C, c⟩ G = Advance ⟨N, C, c⟩ G := by
  have hne : c ≠ -1 := by omega
  unfold AdvanceInitialize
  simp [hne]

/-- C18: for every point count `N >= 0` and chunk size `C >= 1`, repeated calls of
`FPointLoop::Advance(LoopBody)` from `CurrentIndex = -1` reach a call that returns true,
every call before it returning false; together the calls invoke `LoopBody` on
`0, 1, ..., N - 1` in ascending order, each index once, at most `C` per call, and at
least one per call when `N > 0`, so the call that returns true is the one that reaches
`N`; with `N = 0` the first call returns true and invokes nothing; after the call that
returns true `CurrentIndex` is -1 again. The overload taking `Initialize` does the same
and calls `Initialize` once, before the first `LoopBody` call. The chunk size
`InitializeContext` gives the context is at least 1 for every setting. -/
theorem FPointLoop_Advance_visits_each_index_once (N C M : Int) (fuel : Nat)
    (hN : 0 ≤ N) (hC : 1 ≤ C) (hfuel : N.toNat < fuel) :
    (∀ SettingsChunkSize PreferredChunkSize : Int,
      1 ≤ InitializeContextChunkSize SettingsChunkSize PreferredChunkSize) ∧
    (∃ Calls, AdvanceUntilDone Advance N fuel ⟨M, C, -1⟩ = some (Calls, ⟨N, C, -1⟩) ∧
      Calls.flatMap (fun Call => Call.2) = (forRange N).map FPointLoopCall.LoopBody ∧
      (∀ Call ∈ Calls, (Call.2.length : Int) ≤ C ∧ (0 < N → 1 ≤ Call.2.length)) ∧
      Calls.map (fun Call => Call.1) = List.replicate (Calls.length - 1) false ++ [true] ∧
      (N = 0 → Calls = [(true, [])])) ∧
    (∃ Calls, AdvanceUntilDone AdvanceInitialize N fuel ⟨M, C, -1⟩
        = some (Calls, ⟨N, C, -1⟩) ∧
      Calls.flatMap (fun Call => Call.2)
        = FPointLoopCall.Initialize :: (forRange N).map FPointLoopCall.LoopBody ∧
      Calls.map (fun Call => Call.1) = List.replicate (Calls.length - 1) false ++ [true] ∧
      (N = 0 → Calls = [(true, [FPointLoopCall.Initialize])])) := by
  refine ⟨fun a b => by unfold InitializeContextChunkSize; omega, ?_⟩
  obtain ⟨fuel, rfl⟩ : ∃ k, fuel = k + 1 := ⟨fuel - 1, by omega⟩
  have hexp : (forRange N).map FPointLoopCall.LoopBody
      = (List.range (N - 0).toNat).map (fun (i : Nat) => FPointLoopCall.LoopBody (0 + (i : Int))) := by
    unfold forRange
    rw [List.map_map]
    simp [Function.comp]
  by_cases hN0 : N = 0
  · subst hN0
    refine ⟨⟨[(true, [])], ?_, by decide, ?_, by decide, fun _ => rfl⟩,
      ⟨[(true, [FPointLoopCall.Initialize])], ?_, by decide, by decide, fun _ => rfl⟩⟩
    · have hmin : min (0 : Int) C = 0 := by omega
      simp [AdvanceUntilDone, Advance, hmin]
    · intro Call hCall
      simp only [List.mem_singleton] at hCall
      subst hCall
      simp only [List.length_nil, Nat.cast_zero]
      omega
    · have hmin : min (0 : Int) C = 0 := by omega
      simp [AdvanceUntilDone, AdvanceInitialize, Advance, hmin]
  · have hpos : 0 < N := by omega
    constructor
    · obtain ⟨Calls, hCalls, hflat, hlens, hbools, _⟩ :=
        AdvanceUntilDone_mid Advance N C N hC (fun _ _ _ => rfl) N.toNat 0 (le_refl 0) hpos
          (by omega) (fuel + 1) (by omega)
      refine ⟨Calls, ?_, ?_, ?_, hbools, fun h => absurd h hN0⟩
      · rw [← hCalls]
        unfold AdvanceUntilDone
        rw [Advance_start]
      · rw [hflat, hexp]
      · intro Call hCall
        exact ⟨(hlens Call hCall).2, fun _ => (hlens Call hCall).1⟩
    · obtain ⟨Calls, hCalls, hflat, _, hbools, hne⟩ :=
        AdvanceUntilDone_mid AdvanceInitialize N C N hC
          (fun c h0 _ => AdvanceInitialize_mid N C N c h0) N.toNat 0 (le_refl 0) hpos
          (by omega) (fuel + 1) (by omega)
      unfold AdvanceUntilDone at hCalls ⊢
      rw [AdvanceInitialize_start]
      rw [AdvanceInitialize_mid N C N 0 (le_refl 0)] at hCalls
      simp only at hCalls ⊢
      cases hb : (Advance ⟨N, C, 0⟩ N).1 with
      | true =>
        rw [hb] at hCalls
        simp only [if_true, Option.some.injEq, Prod.mk.injEq] at hCalls ⊢
        obtain ⟨hC1, hL⟩ := hCalls
        subst hC1
        refine ⟨_, ⟨rfl, hL⟩, ?_, by simp, fun h => absurd h hN0⟩
        simp only [List.flatMap_cons, List.flatMap_nil, List.append_nil] at hflat ⊢
        rw [hflat, hexp]
      | false =>
        rw [hb] at hCalls
        simp only [Bool.false_eq_true, if_false] at hCalls ⊢
        cases hRest : AdvanceUntilDone AdvanceInitialize N fuel (Advance ⟨N, C, 0⟩ N).2.1 with
        | none => rw [hRest] at hCalls; simp at hCalls
        | some T =>
          rw [hRest] at hCalls
          simp only [Option.map_some', Option.some.injEq, Prod.mk.injEq] at hCalls ⊢
          obtain ⟨hC1, hL⟩ := hCalls
          subst hC1
          refine ⟨_, ⟨rfl, hL⟩, ?_, ?_, fun h => absurd h hN0⟩
          · simp only [List.flatMap_cons] at hflat ⊢
            rw [List.cons_append, hflat, hexp]
          · simpa using hbools

/-- C18 (witness): five points in chunks of two. -/
theorem FPointLoop_Advance_witness :
    AdvanceUntilDone Advance 5 6 ⟨0, 2, -1⟩
      = some ([(false, [FPointLoopCall.LoopBody 0, FPointLoopCall.LoopBody 1]),
          (false, [FPointLoopCall.LoopBody 2, FPointLoopCall.LoopBody 3]),
          (true, [FPointLoopCall.LoopBody 4])], ⟨5, 2, -1⟩) ∧
    ∃ Calls, AdvanceUntilDone AdvanceInitialize 5 6 ⟨0, 2, -1⟩ = some (Calls, ⟨5, 2, -1⟩) ∧
      Calls.flatMap (fun Call => Call.2)
        = FPointLoopCall.Initialize :: (forRange 5).map FPointLoopCall.LoopBody :=
  let H := FPointLoop_Advance_visits_each_index_once 5 2 0 6 (by decide) (by decide)
    (by decide)
  ⟨by decide, let ⟨Calls, h1, h2, _⟩ := H.2.2; ⟨Calls, h1, h2⟩⟩

end FPointLoop

end PCGEx

/-! ## `PCGExGeo::FGeoStaticMesh::ExtractMeshSynchronous` -/

namespace PCGExGeo

open PCGEx

namespace FGeoStaticMesh

/-- C19: on the square made of the triangles `(0, 1, 2)` and `(2, 1, 3)`, whose four
positions are distinct, `ExtractMeshSynchronous` returns with six entries in `Edges`: the
diagonal is stored twice, as `(1, 2)` and as `(2, 1)`. -/
theorem ExtractMeshSynchronous_stores_shared_edge_twice :
    exampleSquare.ExtractMeshSynchronous.map
        (fun M => M.Edges.map (fun Hash => (H64A Hash, H64B Hash)))
      = some [(0, 1), (1, 2), (2, 0), (2, 1), (1, 3), (3, 2)] ∧
    exampleSquare.ExtractMeshSynchronous.map (fun M => M.Vertices)
      = some [⟨0, 0, 0⟩, ⟨1, 0, 0⟩, ⟨0, 1, 0⟩, ⟨1, 1, 0⟩] := by
  decide!

end FGeoStaticMesh

end PCGExGeo

/-! ## `TArray::Sort` -/

theorem TArraySortInsert_perm {α : Type} (Predicate : α → α → Bool) (a : α) (l : List α) :
    (TArraySortInsert Predicate a l).Perm (a :: l) := by
  induction l with
  | nil => exact List.Perm.refl _
  | cons b Rest ih =>
    unfold TArraySortInsert
    split_ifs
    · exact (List.Perm.cons b ih).trans (List.Perm.swap a b Rest)
    · exact List.Perm.refl _

theorem TArraySort_perm {α : Type} (Predicate : α → α → Bool) (l : List α) :
    (TArraySort Predicate l).Perm l := by
  induction l with
  | nil => exact List.Perm.refl _
  | cons a Rest ih =>
    have h : TArraySort Predicate (a :: Rest)
        = TArraySortInsert Predicate a (TArraySort Predicate Rest) := rfl
    rw [h]
    exact (TArraySortInsert_perm Predicate a _).trans (List.Perm.cons a ih)

theorem TArraySortInsert_sorted (Key : Int → Int) (a : Int) (l : List Int)
    (h : l.Pairwise (fun A B => Key A ≤ Key B)) :
    (TArraySortInsert (fun A B => decide (Key A < Key B)) a l).Pairwise
      (fun A B => Key A ≤ Key B) := by
  induction l with
  | nil => simp [TArraySortInsert]
  | cons b Rest ih =>
    obtain ⟨hb, hRest⟩ := List.pairwise_cons.mp h
    unfold TArraySortInsert
    by_cases hlt : Key b < Key a
    · simp only [hlt, decide_True, if_true]
      refine List.pairwise_cons.mpr ⟨?_, ih hRest⟩
      intro x hx
      have hx1 := (TArraySortInsert_perm _ a Rest).mem_iff.mp hx
      rcases List.mem_cons.mp hx1 with rfl | hx2
      · exact le_of_lt hlt
      · exact hb x hx2
    · simp only [hlt, decide_False, Bool.false_eq_true, if_false]
      refine List.pairwise_cons.mpr ⟨?_, h⟩
      intro x hx
      rcases List.mem_cons.mp hx with rfl | hx2
      · exact not_lt.mp hlt
      · exact le_trans (not_lt.mp hlt) (hb x hx2)

/-- The insertion sort keeps the promise of `TArray::Sort`. -/
theorem TArraySort_contract : TArraySortContract TArraySort := by
  intro Key Array
  refine ⟨TArraySort_perm _ Array, ?_⟩
  induction Array with
  | nil => exact List.Pairwise.nil
  | cons a Rest ih =>
    have h : TArraySort (fun A B => decide (Key A < Key B)) (a :: Rest)
        = TArraySortInsert (fun A B => decide (Key A < Key B)) a
            (TArraySort (fun A B => decide (Key A < Key B)) Rest) := rfl
    rw [h]
    exact TArraySortInsert_sorted Key a _ ih

/-! ## `PCGExMeshCollection::FMacroCache::ProcessMaterialOverrides` -/

namespace PCGExMeshCollection

open PCGEx

namespace FMacroCache

theorem wrapInt32_of_InInt32 {x : Int} (h : InInt32 x) : wrapInt32 x = x := by
  unfold InInt32 at h
  unfold wrapInt32
  omega

/-- Without overflow the accumulation loop writes the running sums. -/
theorem AccumulateLoop_eq (Weights : List Int) :
    ∀ WeightSum : Int, (∀ k : Nat, InInt32 (WeightSum + (Weights.take k).sum)) →
      AccumulateLoop Weights WeightSum
        = ((List.range Weights.length).map
            (fun i => WeightSum + (Weights.take (i + 1)).sum),
          WeightSum + Weights.sum) := by
  induction Weights with
  | nil => intro s _; simp [AccumulateLoop]
  | cons W Rest ih =>
    intro s h
    have h1 : wrapInt32 (s + W) = s + W := by
      have := h 1
      simp only [List.take_succ_cons, List.take_zero, List.sum_cons, List.sum_nil,
        add_zero] at this
      exact wrapInt32_of_InInt32 this
    have h2 : ∀ k : Nat, InInt32 (s + W + (Rest.take k).sum) := by
      intro k
      have := h (k + 1)
      simp only [List.take_succ_cons, List.sum_cons] at this
      rw [add_assoc]; exact this
    unfold AccumulateLoop
    simp only [h1, ih (s + W) h2]
    refine Prod.ext ?_ ?_
    · simp only [List.length_cons, List.range_succ_eq_map, List.map_cons, List.take_succ_cons,
        List.sum_cons, List.take_zero, List.sum_nil, add_zero, List.map_map]
      congr 1
      apply List.map_congr_left
      intro i _
      simp only [Function.comp, List.take_succ_cons, List.sum_cons]
      ring
    · simp only [List.sum_cons]; ring

theorem map_getD_range (l : List Int) :
    (ArrayOfIndices l.length).map (fun A => l.getD A.toNat 0) = l := by
  unfold ArrayOfIndices
  rw [List.map_map]
  apply List.ext_getElem
  · simp
  · intro i h1 h2
    simp only [List.length_map, List.length_range] at h1
    simp [List.getD_eq_getElem?_getD, List.getElem?_eq_getElem h1]

/-- The common end of the two overloads, when no running sum overflows, in terms of the
values `Weights` holds on entry. -/
theorem SortAndAccumulate_spec (SortFn : (Int → Int → Bool) → List Int → List Int)
    (hSort : TArraySortContract SortFn) (C : FMacroCache)
    (hSum : ∀ k : Nat, InInt32 (((SortFn (fun A B => decide (A < B)) C.Weights).take k).sum)) :
    (SortAndAccumulate SortFn C).Order.Perm (ArrayOfIndices C.Weights.length) ∧
    (SortAndAccumulate SortFn C).Order.Pairwise
      (fun A B => C.Weights.getD A.toNat 0 ≤ C.Weights.getD B.toNat 0) ∧
    (SortAndAccumulate SortFn C).Weights
      = (List.range C.Weights.length).map (fun i =>
          (((SortAndAccumulate SortFn C).Order.take (i + 1)).map
            (fun A => C.Weights.getD A.toNat 0)).sum) ∧
    (SortAndAccumulate SortFn C).WeightSum = C.Weights.sum ∧
    (SortAndAccumulate SortFn C).HighestIndex = C.HighestIndex := by
  obtain ⟨hOP, hOS⟩ := hSort (fun A => C.Weights.getD A.toNat 0) (ArrayOfIndices C.Weights.length)
  have hW := hSort (fun A => A) C.Weights
  simp only at hW
  obtain ⟨hWP, hWS⟩ := hW
  have hEq : SortFn (fun A B => decide (A < B)) C.Weights
      = (SortFn (fun A B => decide (C.Weights.getD A.toNat 0 < C.Weights.getD B.toNat 0))
          (ArrayOfIndices C.Weights.length)).map (fun A => C.Weights.getD A.toNat 0) := by
    apply List.eq_of_perm_of_sorted (r := fun (A B : Int) => A ≤ B)
    · refine hWP.trans ?_
      have h1 := (hOP.map (fun A => C.Weights.getD A.toNat 0))
      rw [map_getD_range] at h1
      exact h1.symm
    · exact hWS
    · exact List.pairwise_map.mpr hOS
  have hAcc := AccumulateLoop_eq (SortFn (fun A B => decide (A < B)) C.Weights) 0
    (by intro k; simpa using hSum k)
  refine ⟨hOP, hOS, ?_, ?_, rfl⟩
  · show (AccumulateLoop (SortFn (fun A B => decide (A < B)) C.Weights) 0).1 = _
    rw [hAcc]
    simp only [zero_add, hWP.length_eq]
    apply List.map_congr_left
    intro i _
    rw [hEq, List.map_take]
    rfl
  · show (AccumulateLoop (SortFn (fun A B => decide (A < B)) C.Weights) 0).2 = _
    rw [hAcc]
    simp only [zero_add]
    exact hWP.sum_eq

/-- The result of `SortAndAccumulate` on the values `Weight + 1`, in terms of the weights,
under exact arithmetic. -/
theorem SortAndAccumulate_weights (SortFn : (Int → Int → Bool) → List Int → List Int)
    (hSort : TArraySortContract SortFn) (C : FMacroCache) (Weights : List Int)
    (hExact : ExactArithmetic SortFn Weights)
    (hC : C.Weights = Weights.map (fun Weight => wrapInt32 (Weight + 1))) :
    OrderedCumulative (SortAndAccumulate SortFn C) Weights ∧
    (SortAndAccumulate SortFn C).HighestIndex = C.HighestIndex := by
  unfold OrderedCumulative
  have hW0 : C.Weights = Weights.map (fun Weight => Weight + 1) := by
    rw [hC]
    apply List.map_congr_left
    intro W hW
    exact wrapInt32_of_InInt32 (hExact.1 W hW)
  have hlen : C.Weights.length = Weights.length := by rw [hW0]; simp
  obtain ⟨hOP, hOS, hWs, hSumEq, hHI⟩ := SortAndAccumulate_spec SortFn hSort C
    (by rw [hW0]; exact hExact.2)
  rw [hlen] at hOP hWs
  have hKey : ∀ A ∈ (SortAndAccumulate SortFn C).Order,
      C.Weights.getD A.toNat 0 = Weights.getD A.toNat 0 + 1 := by
    intro A hA
    have hA1 := hOP.mem_iff.mp hA
    unfold ArrayOfIndices at hA1
    obtain ⟨i, hi, rfl⟩ := List.mem_map.mp hA1
    have hi := List.mem_range.mp hi
    rw [hW0]
    simp [List.getD_eq_getElem?_getD, List.getElem?_eq_getElem hi]
  have hWs2 : (SortAndAccumulate SortFn C).Weights
      = (List.range Weights.length).map (fun i =>
          (((SortAndAccumulate SortFn C).Order.take (i + 1)).map
            (fun A => Weights.getD A.toNat 0 + 1)).sum) := by
    rw [hWs]
    apply List.map_congr_left
    intro i _
    congr 1
    apply List.map_congr_left
    intro A hA
    exact hKey A (List.mem_of_mem_take hA)
  have hTotal : (((SortAndAccumulate SortFn C).Order).map
      (fun A => Weights.getD A.toNat 0 + 1)).sum
      = (Weights.map (fun Weight => Weight + 1)).sum := by
    have h1 : ((SortAndAccumulate SortFn C).Order).map (fun A => Weights.getD A.toNat 0 + 1)
        = ((SortAndAccumulate SortFn C).Order).map (fun A => C.Weights.getD A.toNat 0) :=
      List.map_congr_left (fun A hA => (hKey A hA).symm)
    rw [h1, ((hOP.map (fun A => C.Weights.getD A.toNat 0))).sum_eq, ← hlen, map_getD_range, hW0]
  refine ⟨⟨hOP, ?_, hWs2, ?_, ?_, ?_⟩, hHI⟩
  · rw [List.pairwise_map]
    refine hOS.imp_of_mem ?_
    intro A B hA hB hAB
    rw [hKey A hA, hKey B hB] at hAB
    omega
  · rw [hSumEq, hW0]
  · intro hn
    rw [hWs2, hSumEq, hW0]
    have hOlen : (SortAndAccumulate SortFn C).Order.length = Weights.length := by
      rw [hOP.length_eq]; simp [ArrayOfIndices]
    have hlt : Weights.length - 1 < Weights.length := by omega
    rw [List.getElem?_map, List.getElem?_range hlt]
    simp only [Option.map_some', Option.some.injEq]
    have htake : (SortAndAccumulate SortFn C).Order.take (Weights.length - 1 + 1)
        = (SortAndAccumulate SortFn C).Order := by
      apply List.take_of_length_le
      omega
    rw [htake, hTotal]
  · intro hn
    rw [hSumEq, hW0, List.length_eq_zero.mp hn]
    rfl

end FMacroCache

/-- C20: for every list of material-override entries with weights `w_0 .. w_(n-1)`, single
entries or collections, when no `int32` operation overflows (exact integer arithmetic)
and `TArray::Sort` keeps its promise, after `ProcessMaterialOverrides` the array `Order`
is a rearrangement of `0 .. n-1` along which `w` never decreases, `Weights[i]` is the sum
of `w_Order[j] + 1` over `j <= i`, and `WeightSum` is the sum of all `w_j + 1`, which is
`Weights[n-1]` when `n >= 1` and 0 when `n = 0`. -/
theorem ProcessMaterialOverrides_sorted_order_cumulative_weights
    (SortFn : (Int → Int → Bool) → List Int → List Int) (hSort : TArraySortContract SortFn)
    (C : FMacroCache) :
    (∀ (Overrides : List FPCGExMaterialOverrideSingleEntry) (InSlotIndex : Int),
      FMacroCache.ExactArithmetic SortFn (Overrides.map (fun Entry => Entry.Weight)) →
      FMacroCache.OrderedCumulative
        (FMacroCache.ProcessMaterialOverrides SortFn C Overrides InSlotIndex)
        (Overrides.map (fun Entry => Entry.Weight))) ∧
    (∀ Overrides : List FPCGExMaterialOverrideCollection,
      FMacroCache.ExactArithmetic SortFn (Overrides.map (fun Entry => Entry.Weight)) →
      FMacroCache.OrderedCumulative
        (FMacroCache.ProcessMaterialOverrideCollections SortFn C Overrides)
        (Overrides.map (fun Entry => Entry.Weight))) := by
  refine ⟨?_, ?_⟩
  · intro Overrides InSlotIndex hExact
    exact (FMacroCache.SortAndAccumulate_weights SortFn hSort _ _ hExact
      (by simp [List.map_map, Function.comp])).1
  · intro Overrides hExact
    exact (FMacroCache.SortAndAccumulate_weights SortFn hSort _ _ hExact
      (by simp [List.map_map, Function.comp])).1

/-- C20 (witness): three single entries of weights 5, 0 and 2, sorted by insertion. -/
theorem ProcessMaterialOverrides_witness :
    FMacroCache.ProcessMaterialOverrides TArraySort ⟨0, [], [], -1⟩ [⟨5⟩, ⟨0⟩, ⟨2⟩] 7
      = ⟨10, [1, 4, 10], [1, 2, 0], 7⟩ ∧
    FMacroCache.OrderedCumulative
      (FMacroCache.ProcessMaterialOverrides TArraySort ⟨0, [], [], -1⟩ [⟨5⟩, ⟨0⟩, ⟨2⟩] 7)
      [5, 0, 2] :=
  ⟨by decide,
    (ProcessMaterialOverrides_sorted_order_cumulative_weights TArraySort TArraySort_contract
      ⟨0, [], [], -1⟩).1 [⟨5⟩, ⟨0⟩, ⟨2⟩] 7
      ⟨by decide, by
        intro k
        have hl : TArraySort (fun (A B : Int) => decide (A < B))
            (([5, 0, 2] : List Int).map (fun Weight => Weight + 1)) = [1, 3, 6] := by decide
        show InInt32 ((List.take k (TArraySort (fun (A B : Int) => decide (A < B))
            (([5, 0, 2] : List Int).map (fun Weight => Weight + 1)))).sum)
        rw [hl]
        rcases k with _ | _ | _ | k <;> simp [InInt32]⟩⟩

end PCGExMeshCollection

/-! ## `FMacroCache::GetPickRandomWeighted` -/

namespace PCGExMeshCollection

open PCGEx

namespace FMacroCache

theorem AccumulateLoop_length (Weights : List Int) :
    ∀ WeightSum : Int, (AccumulateLoop Weights WeightSum).1.length = Weights.length := by
  induction Weights with
  | nil => intro s; rfl
  | cons W Rest ih => intro s; simp [AccumulateLoop, ih]

/-- The last entry the accumulation loop writes is the final `WeightSum`, overflow or
not. -/
theorem AccumulateLoop_last (Weights : List Int) :
    ∀ WeightSum : Int, Weights ≠ [] →
      (AccumulateLoop Weights WeightSum).2 ∈ (AccumulateLoop Weights WeightSum).1 := by
  induction Weights with
  | nil => intro s h; exact absurd rfl h
  | cons W Rest ih =>
    intro s _
    by_cases hR : Rest = []
    · subst hR; simp [AccumulateLoop]
    · have := ih (wrapInt32 (s + W)) hR
      simp only [AccumulateLoop]
      exact List.mem_cons_of_mem _ this

/-- When some weight from position `Pick` on reaches the threshold, the pick loop stops at
the first such position. -/
theorem PickLoop_first (Threshold : Int) (Weights : List Int) :
    ∀ Pick : Nat, (∃ Weight ∈ Weights, Threshold ≤ Weight) →
      ∃ p : Nat, p < Weights.length ∧ PickLoop Threshold Weights Pick = Pick + p ∧
        (∃ Weight, Weights[p]? = some Weight ∧ Threshold ≤ Weight) ∧
        ∀ q : Nat, q < p → ∃ Weight, Weights[q]? = some Weight ∧ Weight < Threshold := by
  induction Weights with
  | nil => intro Pick h; obtain ⟨w, hw, _⟩ := h; cases hw
  | cons W Rest ih =>
    intro Pick h
    by_cases hW : W < Threshold
    · have hRest : ∃ Weight ∈ Rest, Threshold ≤ Weight := by
        obtain ⟨w, hw, hle⟩ := h
        rcases List.mem_cons.mp hw with rfl | hw
        · omega
        · exact ⟨w, hw, hle⟩
      obtain ⟨p, hp, hEq, hAt, hBefore⟩ := ih (Pick + 1) hRest
      refine ⟨p + 1, by simp; omega, ?_, ?_, ?_⟩
      · simp only [PickLoop, if_pos hW, hEq]; omega
      · simpa using hAt
      · intro q hq
        rcases q with _ | q
        · exact ⟨W, by simp, hW⟩
        · simpa using hBefore q (by omega)
    · refine ⟨0, by simp, ?_, ⟨W, by simp, by omega⟩, ?_⟩
      · simp only [PickLoop, if_neg hW]; rfl
      · intro q hq; omega

/-- The pick of `GetPickRandomWeighted` on a sorted and accumulated cache. -/
theorem SortAndAccumulate_pick (SortFn : (Int → Int → Bool) → List Int → List Int)
    (hSort : TArraySortContract SortFn) (RandRange : Int → Int → Int → Int)
    (C : FMacroCache) (Seed : Int) (hn : 1 ≤ C.Weights.length)
    (hT : ThresholdInRange RandRange (SortAndAccumulate SortFn C) Seed) :
    PicksFirstReaching RandRange (SortAndAccumulate SortFn C) Seed C.Weights.length := by
  have hPermW := (hSort (fun A => A) C.Weights).1
  have hPermO := (hSort (fun A => C.Weights.getD A.toNat 0) (ArrayOfIndices C.Weights.length)).1
  have hLenS : (SortFn (fun A B => decide (A < B)) C.Weights).length = C.Weights.length :=
    hPermW.length_eq
  have hLenW : (SortAndAccumulate SortFn C).Weights.length = C.Weights.length := by
    simp only [SortAndAccumulate, AccumulateLoop_length]; exact hLenS
  have hLenO : (SortAndAccumulate SortFn C).Order.length = C.Weights.length := by
    simp only [SortAndAccumulate]
    rw [hPermO.length_eq]; simp [ArrayOfIndices]
  have hNe : SortFn (fun A B => decide (A < B)) C.Weights ≠ [] := by
    intro h; rw [h] at hLenS; simp at hLenS; omega
  have hLast : (SortAndAccumulate SortFn C).WeightSum ∈ (SortAndAccumulate SortFn C).Weights := by
    simp only [SortAndAccumulate]
    exact AccumulateLoop_last _ 0 hNe
  obtain ⟨p, hp, hEq, hAt, hBefore⟩ := PickLoop_first
    (RandRange Seed 0 (wrapInt32 ((SortAndAccumulate SortFn C).WeightSum - 1)))
    (SortAndAccumulate SortFn C).Weights 0
    ⟨_, hLast, by have := hT.2; omega⟩
  rw [hLenW] at hp
  have hpO : p < (SortAndAccumulate SortFn C).Order.length := by omega
  refine ⟨hLenW, hLenO, p, hp, hAt, hBefore, (SortAndAccumulate SortFn C).Order[p], ?_, ?_⟩
  · exact List.getElem?_eq_getElem hpO
  · have hE : (SortAndAccumulate SortFn C).Order.isEmpty = false := by
      cases hO : (SortAndAccumulate SortFn C).Order with
      | nil => rw [hO] at hpO; simp at hpO
      | cons a l => rfl
    unfold GetPickRandomWeighted
    rw [hE]
    simp only [Bool.false_eq_true, if_false, hEq, Nat.zero_add]
    exact List.getElem?_eq_getElem hpO

end FMacroCache

/-- C21: for a macro cache built by `ProcessMaterialOverrides` from `n >= 1` entries with
weights `>= 0`, single entries or collections, when `TArray::Sort` keeps its promise and
the threshold `t` drawn from the seed lies in `[0, WeightSum - 1]`,
`GetPickRandomWeighted` returns `Order[p]` where `p` is the first position with
`Weights[p] >= t`; such a `p < n` exists and `Weights` and `Order` hold `n` entries, so
neither is read out of bounds; on a cache whose `Order` is empty it returns -1. -/
theorem GetPickRandomWeighted_first_position_reaching_threshold
    (SortFn : (Int → Int → Bool) → List Int → List Int) (hSort : TArraySortContract SortFn)
    (RandRange : Int → Int → Int → Int) (C : FMacroCache) (Seed : Int) :
    (∀ (Overrides : List FPCGExMaterialOverrideSingleEntry) (InSlotIndex : Int),
      1 ≤ Overrides.length → (∀ Entry ∈ Overrides, 0 ≤ Entry.Weight) →
      FMacroCache.ThresholdInRange RandRange
        (FMacroCache.ProcessMaterialOverrides SortFn C Overrides InSlotIndex) Seed →
      FMacroCache.PicksFirstReaching RandRange
        (FMacroCache.ProcessMaterialOverrides SortFn C Overrides InSlotIndex) Seed
        Overrides.length) ∧
    (∀ Overrides : List FPCGExMaterialOverrideCollection,
      1 ≤ Overrides.length → (∀ Entry ∈ Overrides, 0 ≤ Entry.Weight) →
      FMacroCache.ThresholdInRange RandRange
        (FMacroCache.ProcessMaterialOverrideCollections SortFn C Overrides) Seed →
      FMacroCache.PicksFirstReaching RandRange
        (FMacroCache.ProcessMaterialOverrideCollections SortFn C Overrides) Seed
        Overrides.length) ∧
    (C.Order = [] → FMacroCache.GetPickRandomWeighted RandRange C Seed = some (-1)) := by
  refine ⟨?_, ?_, ?_⟩
  · intro Overrides InSlotIndex hn _ hT
    have := FMacroCache.SortAndAccumulate_pick SortFn hSort RandRange
      { C with HighestIndex := InSlotIndex,
               Weights := Overrides.map (fun Entry => wrapInt32 (Entry.Weight + 1)) }
      Seed (by simpa using hn) hT
    simpa using this
  · intro Overrides hn _ hT
    have := FMacroCache.SortAndAccumulate_pick SortFn hSort RandRange
      { C with
        HighestIndex :=
          Overrides.foldl (fun HighestIndex Entry => max HighestIndex Entry.GetHighestIndex) (-1),
        Weights := Overrides.map (fun Entry => wrapInt32 (Entry.Weight + 1)) }
      Seed (by simpa using hn) hT
    simpa using this
  · intro hO
    simp [FMacroCache.GetPickRandomWeighted, hO]

/-- C21 (witness): three single entries of weights 5, 0 and 2, sorted by insertion, give
cumulative weights 1, 4, 10; the threshold 9 picks position 2, entry 0. -/
theorem GetPickRandomWeighted_witness :
    FMacroCache.GetPickRandomWeighted FMacroCache.exampleRandRangeMax
      (FMacroCache.ProcessMaterialOverrides TArraySort ⟨0, [], [], -1⟩ [⟨5⟩, ⟨0⟩, ⟨2⟩] 7) 3
      = some 0 ∧
    FMacroCache.PicksFirstReaching FMacroCache.exampleRandRangeMax
      (FMacroCache.ProcessMaterialOverrides TArraySort ⟨0, [], [], -1⟩ [⟨5⟩, ⟨0⟩, ⟨2⟩] 7) 3 3 :=
  ⟨by decide,
    (GetPickRandomWeighted_first_position_reaching_threshold TArraySort TArraySort_contract
      FMacroCache.exampleRandRangeMax ⟨0, [], [], -1⟩ 3).1 [⟨5⟩, ⟨0⟩, ⟨2⟩] 7 (by decide)
      (by decide) (by unfold FMacroCache.ThresholdInRange; decide)⟩

end PCGExMeshCollection

/-! ## `FPathProcessor::Process` without filter factories -/

namespace PCGExPointsMT

open PCGEx PCGExMT

/-- In a batch without filter factories the loop of `TBatch::Process` never calls
`SetPointFilterData`: every processor it adds has no factories and keeps the
`DefaultPointFilterValue` it was constructed with, which is false. -/
theorem ProcessLoop_without_factories_keeps_processor_default (S : UPCGExGlobalSettings)
    (PrepareSingle : FPathProcessor → Bool) (Inputs : List FPointIO) :
    ∀ (B : TBatch) (Started : List FTask), B.FilterFactories = none →
      (∀ P ∈ B.Processors, P.FilterFactories = none ∧ P.DefaultPointFilterValue = false) →
      (TBatch.ProcessLoop S PrepareSingle Inputs B Started).1.DefaultPointFilterValue
        = B.DefaultPointFilterValue ∧
      ∀ P ∈ (TBatch.ProcessLoop S PrepareSingle Inputs B Started).1.Processors,
        P.FilterFactories = none ∧ P.DefaultPointFilterValue = false := by
  induction Inputs with
  | nil => intro B Started _ hP; exact ⟨rfl, hP⟩
  | cons Entry Rest ih =>
    intro B Started hF hP
    unfold TBatch.ProcessLoop
    by_cases hPrep : PrepareSingle { PointsIO := Entry } = true
    · simp only [hPrep, Bool.not_true, Bool.false_eq_true, if_false, hF, Option.isSome_none]
      split
      · refine ih _ _ rfl ?_
        intro P hMem
        rcases List.mem_append.mp hMem with h | h
        · exact hP P h
        · rw [List.mem_singleton] at h; subst h; exact ⟨rfl, rfl⟩
      · refine ih _ _ rfl ?_
        intro P hMem
        rcases List.mem_append.mp hMem with h | h
        · exact hP P h
        · rw [List.mem_singleton] at h; subst h; exact ⟨rfl, rfl⟩
    · simp only [hPrep, Bool.not_false, if_true]
      exact ih B Started hF hP

/-- Whatever `DefaultPointFilterValue` a freshly constructed batch without filter factories
is given, after `TBatch::Process` and `FPathProcessor::Process` every processor holds one
cache entry per point, and every entry is false. -/
theorem Process_without_factories_cache_all_false (S : UPCGExGlobalSettings)
    (PrepareSingle : FPathProcessor → Bool) (fuel : Nat)
    (FilterManagerResults : List Nat → FPointIO → List Bool)
    (InPointsCollection : List FPointIO) (DefaultFilterValue : Bool)
    (B : TBatch) (Tasks : List FTask)
    (h : TBatch.Process S PrepareSingle fuel
      ((TBatch.Construct InPointsCollection).SetVtxFilterData none DefaultFilterValue)
        = some (B, Tasks)) :
    B.DefaultPointFilterValue = DefaultFilterValue ∧
    ∀ P ∈ B.ProcessorsAfterProcess FilterManagerResults,
      P.PointFilterCache = List.replicate P.PointsIO.Num false := by
  unfold TBatch.Process at h
  split at h
  · simp only [Option.some.injEq, Prod.mk.injEq] at h
    obtain ⟨hB, _⟩ := h
    subst hB
    refine ⟨rfl, ?_⟩
    intro P hMem
    simp [TBatch.ProcessorsAfterProcess, TBatch.SetVtxFilterData, TBatch.Construct] at hMem
  · simp only [Option.map_eq_some', Prod.mk.injEq] at h
    obtain ⟨Closed, _, hB, _⟩ := h
    have hL := ProcessLoop_without_factories_keeps_processor_default S PrepareSingle
      InPointsCollection
      { (TBatch.Construct InPointsCollection).SetVtxFilterData none DefaultFilterValue with
        CurrentState := AsyncState.State_Processing } [] rfl
      (by intro P hMem; simp [TBatch.SetVtxFilterData, TBatch.Construct] at hMem)
    simp only [TBatch.SetVtxFilterData, TBatch.Construct] at hL hB
    rw [hB] at hL
    refine ⟨hL.1, ?_⟩
    intro P hMem
    simp only [TBatch.ProcessorsAfterProcess, List.mem_map] at hMem
    obtain ⟨Q, hQ, rfl⟩ := hMem
    have := hL.2 Q hQ
    simp [FPathProcessor.Process, this.1, this.2]

/-- C22: a batch constructed over one collection of two points, without filter factories,
has `DefaultPointFilterValue` true; after `TBatch::Process` and `FPathProcessor::Process`
its one processor holds one cache entry per point, and both entries are false. -/
theorem Process_without_factories_ignores_batch_default :
    (TBatch.Process {} (fun _ => true) 4 (TBatch.Construct [⟨0, 2⟩])).map
        (fun R => (R.1.FilterFactories, R.1.DefaultPointFilterValue,
          (R.1.ProcessorsAfterProcess exampleNoResults).map (fun P => P.PointFilterCache)))
      = some (none, true, [[false, false]]) := by
  decide

end PCGExPointsMT

/-! ## Termination of the dispatch loops -/

namespace PCGExPointsMT

open PCGEx PCGExMT

/-- With a per-loop size of zero the counter of the dispatch loop never moves. -/
theorem dispatchLoop_zero_size_never_returns (fuel : Nat) : dispatchLoop 1 0 fuel 0 = none := by
  induction fuel with
  | zero => rfl
  | succ n ih =>
    have w0 : wrapInt32 (0 + 0) = 0 := by decide
    unfold dispatchLoop
    rw [if_pos (by decide), w0, ih]; rfl

/-- The effective per-loop size is at least one when the argument is not zero and the
configured default is at least one. -/
theorem GetPointsBatchIteration_pos (S : UPCGExGlobalSettings) (PerLoopIterations : Int)
    (hD : 1 ≤ S.PointsDefaultBatchIterations) (hP : PerLoopIterations ≠ 0) :
    1 ≤ S.GetPointsBatchIteration PerLoopIterations := by
  unfold UPCGExGlobalSettings.GetPointsBatchIteration
  split
  · exact hD
  · omega

/-- C23 (amended): for every `NumIterations >= 0` and every `PerLoopIterations` other than
0, with the configured `PointsDefaultBatchIterations >= 1` and the loop counter staying
within `int32` (`ceil(N / PLI) * PLI < 2^31` for the effective per-loop size `PLI`), the
dispatch loop of the non-trivial branch of `StartParallelLoopForRange` and of
`StartParallelLoopForPoints` terminates: with more fuel than `NumIterations` it returns,
having started `ceil(N / PLI)` tasks. -/
theorem StartParallelLoop_terminates_for_nonzero_size (S : UPCGExGlobalSettings)
    (NumIterations PerLoopIterations : Int) (hN : 0 ≤ NumIterations)
    (hD : 1 ≤ S.PointsDefaultBatchIterations) (hP : PerLoopIterations ≠ 0)
    (hB : (NumIterations + S.GetPointsBatchIteration PerLoopIterations - 1)
      / S.GetPointsBatchIteration PerLoopIterations
      * S.GetPointsBatchIteration PerLoopIterations < 2147483648) :
    ∃ Tasks : List FRangeTask,
      (Tasks.length : Int)
        = (NumIterations + S.GetPointsBatchIteration PerLoopIterations - 1)
          / S.GetPointsBatchIteration PerLoopIterations ∧
      ∀ fuel : Nat, NumIterations < fuel →
        StartParallelLoopForRange S false NumIterations PerLoopIterations fuel
          = some ⟨[], Tasks⟩ ∧
        StartParallelLoopForPoints S false NumIterations PerLoopIterations fuel
          = some ⟨[], Tasks⟩ := by
  have hPLI := GetPointsBatchIteration_pos S PerLoopIterations hD hP
  refine ⟨chunksFrom NumIterations (S.GetPointsBatchIteration PerLoopIterations) 0,
    chunksFrom_length _ _ hN hPLI, ?_⟩
  intro fuel hf
  have hloop := dispatchLoop_of_fuel NumIterations _ hN hPLI hB fuel hf
  constructor
  · simp [StartParallelLoopForRange, hloop]
  · simp [StartParallelLoopForPoints, hloop]

/-- C23 (witness): 600 iterations with the default per-loop size of 256 start three
tasks. -/
theorem StartParallelLoop_terminates_witness :
    ∃ Tasks : List FRangeTask, (Tasks.length : Int) = 3 ∧
      ∀ fuel : Nat, (600 : Int) < fuel →
        StartParallelLoopForRange {} false 600 (-1) fuel = some ⟨[], Tasks⟩ ∧
        StartParallelLoopForPoints {} false 600 (-1) fuel = some ⟨[], Tasks⟩ := by
  obtain ⟨Tasks, hLen, hRun⟩ := StartParallelLoop_terminates_for_nonzero_size {} 600 (-1)
    (by decide) (by decide) (by decide) (by decide)
  exact ⟨Tasks, by rw [hLen]; decide, hRun⟩

/-- C23 (counterexample): with one iteration and `PerLoopIterations = 0`, and with
`2^31 - 1` iterations and `PerLoopIterations = 2^30`, the dispatch loop of the non-trivial
branch of `StartParallelLoopForRange` and of `StartParallelLoopForPoints` does not
terminate: no amount of fuel makes it return. -/
theorem StartParallelLoop_never_returns_at_zero_size_or_overflow :
    (¬ ∃ fuel : Nat, (StartParallelLoopForRange {} false 1 0 fuel).isSome = true) ∧
    (¬ ∃ fuel : Nat, (StartParallelLoopForPoints {} false 1 0 fuel).isSome = true) ∧
    (¬ ∃ fuel : Nat,
      (StartParallelLoopForRange {} false 2147483647 1073741824 fuel).isSome = true) ∧
    (¬ ∃ fuel : Nat,
      (StartParallelLoopForPoints {} false 2147483647 1073741824 fuel).isSome = true) := by
  have hg0 : UPCGExGlobalSettings.GetPointsBatchIteration {} 0 = 0 := by decide
  have hg : UPCGExGlobalSettings.GetPointsBatchIteration {} 1073741824 = 1073741824 := by decide
  refine ⟨?_, ?_, ?_, ?_⟩
  · rintro ⟨fuel, h⟩
    simp [StartParallelLoopForRange, hg0, dispatchLoop_zero_size_never_returns fuel] at h
  · rintro ⟨fuel, h⟩
    simp [StartParallelLoopForPoints, hg0, dispatchLoop_zero_size_never_returns fuel] at h
  · rintro ⟨fuel, h⟩
    simp [StartParallelLoopForRange, hg, (dispatchLoop_overflow_cycle fuel).1] at h
  · rintro ⟨fuel, h⟩
    simp [StartParallelLoopForPoints, hg, (dispatchLoop_overflow_cycle fuel).1] at h

end PCGExPointsMT

/-! ## Completion callbacks of `PCGExCutEdges::FProcessor` -/

namespace PCGExCutEdges

namespace FCompletion

/-- With `bInvert` and `bKeepEdgeThatConnectValidNodes` set, `TryConsolidate` starts the
consolidation pass whenever `EdgesProcessed` is set, whatever `NodesProcessed` holds. -/
theorem TryConsolidate_ignores_NodesProcessed (P : FCompletion)
    (hI : P.Settings.bInvert = true) (hK : P.Settings.bKeepEdgeThatConnectValidNodes = true)
    (hE : P.EdgesProcessed ≠ 0) :
    P.TryConsolidate
      = { P with
          Trace := P.Trace ++ [FCompletionEvent.StartParallelLoopForRange P.NumEdges] } := by
  simp [TryConsolidate, hI, hK, hE]

/-- C24: with `bInvert` and `bKeepEdgeThatConnectValidNodes` set, when the edge loop
completes before the node loop the consolidation pass is started twice, the first time
before the node loop has completed; when the node loop completes first it is started
once, after both. -/
theorem TryConsolidate_starts_twice_when_edges_complete_first :
    (exampleInvertKeep.Fire [true, false]).Trace
      = [FCompletionEvent.EdgesComplete, FCompletionEvent.StartParallelLoopForRange 3,
         FCompletionEvent.NodesComplete, FCompletionEvent.StartParallelLoopForRange 3] ∧
    (exampleInvertKeep.Fire [false, true]).Trace
      = [FCompletionEvent.NodesComplete, FCompletionEvent.EdgesComplete,
         FCompletionEvent.StartParallelLoopForRange 3] := by
  decide

end FCompletion

end PCGExCutEdges

/-! ## `ExtractMeshSynchronous` on shared positions -/

namespace PCGExGeo

open PCGEx

namespace FGeoStaticMesh

/-- C25: on a square whose raw vertices 1 and 3 share a position, the loop of
`ExtractMeshSynchronous` leaves four unique positions in `IndexedUniquePositions`, the
last stored under the raw index 4, and packs the endpoint 4 into two edges; `Vertices` is
sized to four slots, so the write `Vertices[4] = position` is out of bounds. -/
theorem ExtractMeshSynchronous_shared_position_writes_out_of_bounds :
    ExtractLoop exampleSeam.VertexBuffer exampleSeam.Indices [] []
      = some ([(⟨0, 0, 0⟩, 0), (⟨1, 0, 0⟩, 1), (⟨0, 1, 0⟩, 2), (⟨1, 1, 0⟩, 4)],
          [H64 0 1, H64 1 2, H64 2 0, H64 2 1, H64 1 4, H64 4 2]) ∧
    WriteVertices [(⟨0, 0, 0⟩, 0), (⟨1, 0, 0⟩, 1), (⟨0, 1, 0⟩, 2), (⟨1, 1, 0⟩, 4)]
        (List.replicate 4 ⟨0, 0, 0⟩) = none ∧
    exampleSeam.ExtractMeshSynchronous = none := by
  decide!

end FGeoStaticMesh

end PCGExGeo

/-! ## `PCGExTopology::FCell::BuildFromCluster` -/

namespace PCGExTopology

namespace FCell

open PCGEx PCGExGraph PCGExCluster

/-- C26: on the cluster of two nodes joined by one edge, seeded at node 0 and edge 0, with
contours with dead ends kept, dead-end points duplicated and `MaxPointCount = 2`,
`BuildFromCluster` returns `Success` with `bCompiledSuccessfully` true and three entries
in `Nodes`: the dead end 1 is added twice and counted once. -/
theorem BuildFromCluster_success_with_more_nodes_than_MaxPointCount :
    BuildFromCluster exampleTwoPointConstraints exampleSegmentProbe exampleSegment
        exampleSegmentExpanded 3 exampleCell 0 0
      = some (FBuildOutcome.Returned ECellResult.Success
          { Nodes := [0, 1, 1], BoundsNodes := [0, 1], bIsConvex := true, Sign := 0,
            bIsClosedLoop := true, bCompiledSuccessfully := true }
          exampleTwoPointConstraints) ∧
    exampleTwoPointConstraints.MaxPointCount = 2 := by
  decide!

end FCell

end PCGExTopology

/-! ## Termination of the contour walk -/

namespace PCGExTopology

namespace FCell

open PCGEx PCGExGraph PCGExCluster

theorem length_flatMap_map {α β γ : Type} (f : α → β → γ) (m : List β) (l : List α) :
    (l.flatMap (fun A => m.map (f A))).length = l.length * m.length := by
  induction l with
  | nil => simp
  | cons a l ih => simp [List.flatMap_cons, ih, Nat.succ_mul, Nat.add_comm]

theorem PairHashes_length (Bound : Nat) : (PairHashes Bound).length = Bound * Bound := by
  unfold PairHashes
  rw [length_flatMap_map]
  simp

theorem SignedEdgeHash_mem_PairHashes (Bound : Nat) (A B : Int) (hA0 : 0 ≤ A)
    (hA : A < Bound) (hB0 : 0 ≤ B) (hB : B < Bound) :
    SignedEdgeHash A B ∈ PairHashes Bound := by
  unfold PairHashes
  rw [List.mem_flatMap]
  refine ⟨A.toNat, List.mem_range.mpr (by omega), ?_⟩
  rw [List.mem_map]
  refine ⟨B.toNat, List.mem_range.mpr (by omega), ?_⟩
  rw [Int.toNat_of_nonneg hA0, Int.toNat_of_nonneg hB0]

/-- Distinct hashes of pairs below `Bound` are at most `Bound * Bound` many. -/
theorem WalkInvariant_length_le (Bound : Nat) (W : FWalk) (h : WalkInvariant Bound W) :
    W.SignedEdges.length ≤ Bound * Bound := by
  rw [← PairHashes_length Bound]
  exact (List.subperm_of_subset h.1 h.2.1).length_le

theorem GetNode_bounds (C : FCluster) (Index : Int) (N : FNode)
    (h : C.GetNode Index = some N) : 0 ≤ Index ∧ Index < C.Nodes.length := by
  unfold FCluster.GetNode at h
  split at h
  · rename_i h0
    have := (List.getElem?_eq_some_iff.mp h).1
    omega
  · exact absurd h (by simp)

/-- An iteration that reaches the end of the loop body through `WalkNext` keeps the
signed edges and `PrevIndex` it was given. -/
theorem WalkNext_continue (K : FCellConstraints) (G : FContourProbe) (InCluster : FCluster)
    (W W1 : FWalk) (NextBest : Int)
    (h : WalkNext K G InCluster W NextBest = FIteration.Continue W1) :
    W1.SignedEdges = W.SignedEdges ∧ W1.PrevIndex = W.PrevIndex := by
  unfold WalkNext at h
  split at h
  · split at h
    · exact absurd h (by simp)
    · split at h
      · exact absurd h (by simp)
      · split at h
        · exact absurd h (by simp)
        · split at h
          · split at h
            · simp only at h
              split at h
              · exact absurd h (by simp)
              · simp only [FIteration.Continue.injEq] at h
                subst h; exact ⟨rfl, rfl⟩
            · exact absurd h (by simp)
          · simp only [FIteration.Continue.injEq] at h
            subst h; exact ⟨rfl, rfl⟩
  · simp only [FIteration.Continue.injEq] at h
    subst h; exact ⟨rfl, rfl⟩

/-- An iteration of the walk loop that reaches the end of the body has recorded the
signed edge `(PrevIndex, NextIndex)`, which was not recorded before, has read the
expanded node at `NextIndex` within bounds, and has moved `PrevIndex` to `NextIndex`. -/
theorem WalkBody_continue (K : FCellConstraints) (G : FContourProbe) (InCluster : FCluster)
    (ExpandedNodes : List FExpandedNode) (W W1 : FWalk)
    (h : WalkBody K G InCluster ExpandedNodes W = FIteration.Continue W1) :
    SignedEdgeHash W.PrevIndex W.NextIndex ∉ W.SignedEdges ∧
    W1.SignedEdges = W.SignedEdges ++ [SignedEdgeHash W.PrevIndex W.NextIndex] ∧
    0 ≤ W.NextIndex ∧ W.NextIndex < ExpandedNodes.length ∧
    W1.PrevIndex = W.NextIndex := by
  unfold WalkBody at h
  simp only at h
  split at h
  · exact absurd h (by simp)
  · split at h
    · exact absurd h (by simp)
    · rename_i hNew
      split at h
      · exact absurd h (by simp)
      · rename_i Current hCurrent
        have hB : 0 ≤ W.NextIndex ∧ W.NextIndex < ExpandedNodes.length := by
          split at hCurrent
          · rename_i h0
            have := (List.getElem?_eq_some_iff.mp hCurrent).1
            omega
          · exact absurd hCurrent (by simp)
        split at h
        · exact absurd h (by simp)
        · split at h
          · exact absurd h (by simp)
          · split at h
            · exact absurd h (by simp)
            · have := WalkNext_continue K G InCluster _ W1 _ h
              exact ⟨hNew, this.1, hB.1, hB.2, this.2⟩

/-- With more fuel than pairs of indices not yet recorded, the walk loop is left. -/
theorem WalkLoop_returns (K : FCellConstraints) (G : FContourProbe) (InCluster : FCluster)
    (ExpandedNodes : List FExpandedNode) (Bound : Nat) (hE : ExpandedNodes.length ≤ Bound) :
    ∀ (fuel : Nat) (W : FWalk), WalkInvariant Bound W →
      Bound * Bound < fuel + W.SignedEdges.length →
      (WalkLoop K G InCluster ExpandedNodes fuel W).isSome = true := by
  intro fuel
  induction fuel with
  | zero =>
    intro W hInv hF
    have := WalkInvariant_length_le Bound W hInv
    omega
  | succ n ih =>
    intro W hInv hF
    unfold WalkLoop
    split
    · rfl
    · cases hBody : WalkBody K G InCluster ExpandedNodes W with
      | Continue W1 =>
        simp only
        obtain ⟨hNew, hSE, hN0, hN1, hPrev⟩ :=
          WalkBody_continue K G InCluster ExpandedNodes W W1 hBody
        have hMem : SignedEdgeHash W.PrevIndex W.NextIndex ∈ PairHashes Bound :=
          SignedEdgeHash_mem_PairHashes Bound _ _ hInv.2.2.1 hInv.2.2.2 hN0
            (by have : (ExpandedNodes.length : Int) ≤ Bound := by exact_mod_cast hE
                omega)
        apply ih W1
        · refine ⟨?_, ?_, ?_, ?_⟩
          · rw [hSE]
            exact List.Nodup.append hInv.1 (List.nodup_singleton _)
              (by
                intro a ha hb
                rw [List.mem_singleton] at hb
                subst hb; exact hNew ha)
          · intro Hash hH
            rw [hSE] at hH
            rcases List.mem_append.mp hH with h1 | h1
            · exact hInv.2.1 Hash h1
            · rw [List.mem_singleton] at h1; subst h1; exact hMem
          · rw [hPrev]; exact hN0
          · rw [hPrev]
            have : (ExpandedNodes.length : Int) ≤ Bound := by exact_mod_cast hE
            omega
        · rw [hSE]; simp only [List.length_append, List.length_singleton]; omega
      | Break W1 => rfl
      | Return Result Cell => rfl
      | OutOfBounds => rfl

/-- The locals with which the walk loop is entered satisfy the invariant of the walk. -/
theorem WalkStart_invariant (K K1 : FCellConstraints) (G : FContourProbe) (InCluster : FCluster)
    (Cell : FCell) (SeedNodeIndex SeedEdgeIndex : Int) (W : FWalk)
    (h : WalkStart K G InCluster Cell SeedNodeIndex SeedEdgeIndex = Sum.inr (K1, W)) :
    WalkInvariant InCluster.Nodes.length W ∧ W.SignedEdges = [] := by
  unfold WalkStart at h
  simp only at h
  split at h
  · exact absurd h (by simp)
  · rename_i OtherNode _
    split at h
    · rename_i StartNode Other hStart hOther
      have hS := GetNode_bounds InCluster _ _ hStart
      have hO := GetNode_bounds InCluster _ _ hOther
      split_ifs at h
      all_goals cases h
      all_goals first
        | exact ⟨⟨List.nodup_nil, fun Hash hH => absurd hH (List.not_mem_nil Hash),
            hS.1, hS.2⟩, rfl⟩
        | exact ⟨⟨List.nodup_nil, fun Hash hH => absurd hH (List.not_mem_nil Hash),
            hO.1, hO.2⟩, rfl⟩
    · exact absurd h (by simp)

theorem WalkInvariant_mono (Bound Bound1 : Nat) (hB : Bound ≤ Bound1) (W : FWalk)
    (h : WalkInvariant Bound W) (hE : W.SignedEdges = []) : WalkInvariant Bound1 W := by
  refine ⟨h.1, ?_, h.2.2.1, ?_⟩
  · intro Hash hH; rw [hE] at hH; cases hH
  · have : (Bound : Int) ≤ Bound1 := by exact_mod_cast hB
    have := h.2.2.2
    omega

theorem GetNode_isSome (C : FCluster) (Index : Int) (h0 : 0 ≤ Index)
    (h1 : Index < C.Nodes.length) : ∃ N, C.GetNode Index = some N := by
  unfold FCluster.GetNode
  rw [if_pos h0]
  have hLt : Index.toNat < C.Nodes.length := by omega
  exact ⟨C.Nodes[Index.toNat], List.getElem?_eq_getElem hLt⟩

/-- The neighbor loop leaves in `NextBest` -1 or a node of the cluster, when it was given
one of them and every neighbor is a node of the cluster. -/
theorem NeighborLoop_NextBest (G : FContourProbe) (StartNodeIndex : Int) (Exclusions : List Int)
    (PrevIndex Current : Int) (Bound : Int) (Neighbors : List FExpandedNeighbor)
    (hNb : ∀ N ∈ Neighbors, 0 ≤ N.Node ∧ N.Node < Bound) :
    ∀ St : Bool × ℚ × Int, (St.2.2 = -1 ∨ (0 ≤ St.2.2 ∧ St.2.2 < Bound)) →
      (NeighborLoop G StartNodeIndex Exclusions PrevIndex Current Neighbors St).2.2 = -1 ∨
      (0 ≤ (NeighborLoop G StartNodeIndex Exclusions PrevIndex Current Neighbors St).2.2 ∧
        (NeighborLoop G StartNodeIndex Exclusions PrevIndex Current Neighbors St).2.2
          < Bound) := by
  induction Neighbors with
  | nil => intro St hSt; exact hSt
  | cons N Rest ih =>
    intro St hSt
    obtain ⟨b, a, n⟩ := St
    have ihR := ih (fun M hM => hNb M (List.mem_cons_of_mem _ hM))
    unfold NeighborLoop
    simp only
    split
    · exact ihR _ hSt
    · split
      · exact ihR _ (Or.inr (hNb N (List.mem_cons_self _ _)))
      · exact ihR _ hSt

theorem NextBest_in_bounds (x StartNodeIndex Bound : Int)
    (h : x = -1 ∨ (0 ≤ x ∧ x < Bound)) :
    (if x = StartNodeIndex then (-1 : Int) else x) = -1 ∨
    (0 ≤ (if x = StartNodeIndex then (-1 : Int) else x) ∧
      (if x = StartNodeIndex then (-1 : Int) else x) < Bound) := by
  split
  · left; rfl
  · exact h

theorem Last_isSome (Nodes : List Int) (k : Nat) (h : k < Nodes.length) :
    ∃ A, Last Nodes k = some A := by
  unfold Last
  rw [if_pos h]
  have hLt : Nodes.length - 1 - k < Nodes.length := by omega
  exact ⟨Nodes[Nodes.length - 1 - k], List.getElem?_eq_getElem hLt⟩

/-- The end of the loop body reads within bounds when `NextBest` is -1 or a node of the
cluster and `NumNodes` does not exceed the number of entries of `Nodes`; when it reaches
the end of the body, `NextIndex` is `NextBest`. -/
theorem WalkNext_in_bounds (K : FCellConstraints) (G : FContourProbe) (InCluster : FCluster)
    (W : FWalk) (NextBest : Int)
    (hNext : NextBest = -1 ∨ (0 ≤ NextBest ∧ NextBest < InCluster.Nodes.length))
    (hNum : W.NumNodes ≤ W.Cell.Nodes.length)
    (hPrev : 0 ≤ W.PrevIndex ∧ W.PrevIndex < InCluster.Nodes.length) :
    WalkNext K G InCluster W NextBest ≠ FIteration.OutOfBounds ∧
    ∀ W1, WalkNext K G InCluster W NextBest = FIteration.Continue W1 →
      WalkInBounds InCluster W1 := by
  unfold WalkNext
  by_cases hN : NextBest ≠ -1
  · rw [if_pos hN]
    have hV : 0 ≤ NextBest ∧ NextBest < InCluster.Nodes.length := by
      rcases hNext with h | h
      · exact absurd h hN
      · exact h
    obtain ⟨Node, hNode⟩ := GetNode_isSome InCluster NextBest hV.1 hV.2
    rw [hNode]
    simp only
    split
    · exact ⟨by simp, by intro W1 h; exact absurd h (by simp)⟩
    · split
      · exact ⟨by simp, by intro W1 h; exact absurd h (by simp)⟩
      · split
        · rename_i hGt
          have hLen : 2 < W.Cell.Nodes.length := by
            have : (2 : Int) < W.Cell.Nodes.length := by omega
            exact_mod_cast this
          obtain ⟨A, hA⟩ := Last_isSome W.Cell.Nodes 2 hLen
          obtain ⟨B, hB⟩ := Last_isSome W.Cell.Nodes 1 (by omega)
          obtain ⟨C, hC⟩ := Last_isSome W.Cell.Nodes 0 (by omega)
          rw [hA, hB, hC]
          simp only
          split
          · exact ⟨by simp, by intro W1 h; exact absurd h (by simp)⟩
          · refine ⟨by simp, ?_⟩
            intro W1 h
            simp only [FIteration.Continue.injEq] at h
            subst h; exact ⟨hPrev, Or.inr hV⟩
        · refine ⟨by simp, ?_⟩
          intro W1 h
          simp only [FIteration.Continue.injEq] at h
          subst h; exact ⟨hPrev, Or.inr hV⟩
  · rw [if_neg hN]
    refine ⟨by simp, ?_⟩
    intro W1 h
    simp only [FIteration.Continue.injEq] at h
    subst h
    exact ⟨hPrev, Or.inl rfl⟩

/-- On well-formed inputs an iteration of the walk loop reads within bounds and hands
indices within bounds to the next one. -/
theorem WalkBody_in_bounds (K : FCellConstraints) (G : FContourProbe) (InCluster : FCluster)
    (ExpandedNodes : List FExpandedNode)
    (hLen : ExpandedNodes.length = InCluster.Nodes.length)
    (hNb : ∀ Current ∈ ExpandedNodes, ∀ N ∈ Current.Neighbors,
      0 ≤ N.Node ∧ N.Node < InCluster.Nodes.length)
    (W : FWalk) (hW : WalkInBounds InCluster W) (hN : W.NextIndex ≠ -1) :
    WalkBody K G InCluster ExpandedNodes W ≠ FIteration.OutOfBounds ∧
    ∀ W1, WalkBody K G InCluster ExpandedNodes W = FIteration.Continue W1 →
      WalkInBounds InCluster W1 := by
  have hV : 0 ≤ W.NextIndex ∧ W.NextIndex < InCluster.Nodes.length := by
    rcases hW.2 with h | h
    · exact absurd h hN
    · exact h
  have hIdx : W.NextIndex.toNat < ExpandedNodes.length := by omega
  obtain ⟨PrevNode, hPrev⟩ := GetNode_isSome InCluster W.PrevIndex hW.1.1 hW.1.2
  unfold WalkBody
  simp only
  split
  · exact ⟨by simp, by intro W1 h; exact absurd h (by simp)⟩
  · split
    · exact ⟨by simp, by intro W1 h; exact absurd h (by simp)⟩
    · rw [if_pos hV.1, List.getElem?_eq_getElem hIdx]
      simp only
      split
      · exact ⟨by simp, by intro W1 h; exact absurd h (by simp)⟩
      · split
        · exact ⟨by simp, by intro W1 h; exact absurd h (by simp)⟩
        · rw [hPrev]
          simp only
          have hCur : ExpandedNodes[W.NextIndex.toNat] ∈ ExpandedNodes :=
            List.getElem_mem hIdx
          refine WalkNext_in_bounds K G InCluster _ _ ?_ ?_ ?_
          · exact NextBest_in_bounds _ _ _
              (NeighborLoop_NextBest G _ _ _ _ _ _ (hNb _ hCur) _ (Or.inl rfl))
          · simp only
            split <;> simp
          · exact hV

theorem Finish_returned (K : FCellConstraints) (G : FContourProbe) (W : FWalk) :
    ∃ Result Cell K1, Finish K G W = FBuildOutcome.Returned Result Cell K1 := by
  unfold Finish
  simp only
  split_ifs <;> exact ⟨_, _, _, rfl⟩

/-- On well-formed inputs, with more fuel than pairs of indices not yet recorded, the walk
loop is left and the function returns a result. -/
theorem WalkLoop_returned (K : FCellConstraints) (G : FContourProbe) (InCluster : FCluster)
    (ExpandedNodes : List FExpandedNode)
    (hLen : ExpandedNodes.length = InCluster.Nodes.length)
    (hNb : ∀ Current ∈ ExpandedNodes, ∀ N ∈ Current.Neighbors,
      0 ≤ N.Node ∧ N.Node < InCluster.Nodes.length) :
    ∀ (fuel : Nat) (W : FWalk), WalkInvariant InCluster.Nodes.length W →
      WalkInBounds InCluster W →
      InCluster.Nodes.length * InCluster.Nodes.length < fuel + W.SignedEdges.length →
      ∃ Result Cell K1, WalkLoop K G InCluster ExpandedNodes fuel W
        = some (FBuildOutcome.Returned Result Cell K1) := by
  intro fuel
  induction fuel with
  | zero =>
    intro W hInv _ hF
    have := WalkInvariant_length_le _ W hInv
    omega
  | succ n ih =>
    intro W hInv hIn hF
    unfold WalkLoop
    split
    · obtain ⟨R, C, K1, h⟩ := Finish_returned K G W
      exact ⟨R, C, K1, by rw [h]⟩
    · rename_i hN
      have hB := WalkBody_in_bounds K G InCluster ExpandedNodes hLen hNb W hIn hN
      cases hBody : WalkBody K G InCluster ExpandedNodes W with
      | Continue W1 =>
        simp only
        obtain ⟨hNew, hSE, hN0, hN1, hPrev⟩ :=
          WalkBody_continue K G InCluster ExpandedNodes W W1 hBody
        have hIn1 := hB.2 W1 hBody
        have hMem : SignedEdgeHash W.PrevIndex W.NextIndex ∈ PairHashes InCluster.Nodes.length :=
          SignedEdgeHash_mem_PairHashes _ _ _ hInv.2.2.1 hInv.2.2.2 hN0 (by omega)
        apply ih W1 _ hIn1
        · rw [hSE]; simp only [List.length_append, List.length_singleton]; omega
        · refine ⟨?_, ?_, hIn1.1.1, hIn1.1.2⟩
          · rw [hSE]
            exact List.Nodup.append hInv.1 (List.nodup_singleton _)
              (by
                intro a ha hb
                rw [List.mem_singleton] at hb
                subst hb; exact hNew ha)
          · intro Hash hH
            rw [hSE] at hH
            rcases List.mem_append.mp hH with h1 | h1
            · exact hInv.2.1 Hash h1
            · rw [List.mem_singleton] at h1; subst h1; exact hMem
      | Break W1 =>
        obtain ⟨R, C, K1, h⟩ := Finish_returned K G W1
        exact ⟨R, C, K1, by simp only [h]⟩
      | Return Result Cell => exact ⟨_, _, _, rfl⟩
      | OutOfBounds => exact absurd hBody hB.1

/-- On well-formed inputs the code before the walk loop reads within bounds, and enters
the loop with indices within bounds. -/
theorem WalkStart_in_bounds (K : FCellConstraints) (G : FContourProbe) (InCluster : FCluster)
    (ExpandedNodes : List FExpandedNode) (Cell : FCell) (SeedNodeIndex SeedEdgeIndex : Int)
    (hWF : WellFormed G InCluster ExpandedNodes SeedNodeIndex SeedEdgeIndex) :
    (∃ Result Cell1 K1, WalkStart K G InCluster Cell SeedNodeIndex SeedEdgeIndex
      = Sum.inl (FBuildOutcome.Returned Result Cell1 K1)) ∨
    ∃ K1 W, WalkStart K G InCluster Cell SeedNodeIndex SeedEdgeIndex = Sum.inr (K1, W) ∧
      WalkInBounds InCluster W := by
  obtain ⟨_, _, hSeed, OtherNode, hOther, hO0, hO1⟩ := hWF
  obtain ⟨StartNode, hS⟩ := GetNode_isSome InCluster SeedNodeIndex hSeed.1 hSeed.2
  obtain ⟨Other, hO⟩ := GetNode_isSome InCluster OtherNode hO0 hO1
  unfold WalkStart
  simp only [hOther, hS, hO]
  split_ifs
  all_goals first
    | exact Or.inl ⟨_, _, _, rfl⟩
    | exact Or.inr ⟨_, _, rfl, ⟨hO0, hO1⟩, Or.inr hSeed⟩
    | exact Or.inr ⟨_, _, rfl, hSeed, Or.inr ⟨hO0, hO1⟩⟩

/-- C27: for every cluster, expanded node array, seed node, seed edge, probe of the guide
geometry and constraints, the contour walk of `BuildFromCluster` terminates: with more
fuel than there are pairs of node indices the function returns or reads out of bounds,
never runs out of fuel, and on well-formed inputs it returns a result; every iteration
that reaches the end of the loop body has recorded the signed edge
`(PrevIndex, NextIndex)`, which was not in `SignedEdges` before; and the loop is left at
once, by `break` or by returning `Duplicate`, when that signed edge is already recorded,
and at its head when `NextIndex` is -1. -/
theorem BuildFromCluster_walk_terminates (K : FCellConstraints) (G : FContourProbe)
    (InCluster : FCluster) (ExpandedNodes : List FExpandedNode) (Cell : FCell)
    (SeedNodeIndex SeedEdgeIndex : Int) :
    (∀ fuel : Nat,
      max InCluster.Nodes.length ExpandedNodes.length
        * max InCluster.Nodes.length ExpandedNodes.length < fuel →
      (BuildFromCluster K G InCluster ExpandedNodes fuel Cell SeedNodeIndex
        SeedEdgeIndex).isSome = true) ∧
    (WellFormed G InCluster ExpandedNodes SeedNodeIndex SeedEdgeIndex →
      ∀ fuel : Nat, InCluster.Nodes.length * InCluster.Nodes.length < fuel →
      ∃ Result Cell1 K1,
        BuildFromCluster K G InCluster ExpandedNodes fuel Cell SeedNodeIndex SeedEdgeIndex
          = some (FBuildOutcome.Returned Result Cell1 K1)) ∧
    (∀ W W1 : FWalk, WalkBody K G InCluster ExpandedNodes W = FIteration.Continue W1 →
      SignedEdgeHash W.PrevIndex W.NextIndex ∉ W.SignedEdges ∧
      W1.SignedEdges = W.SignedEdges ++ [SignedEdgeHash W.PrevIndex W.NextIndex]) ∧
    (∀ (W : FWalk) (fuel : Nat),
      SignedEdgeHash W.PrevIndex W.NextIndex ∈ W.SignedEdges ∨ W.NextIndex = -1 →
      WalkLoop K G InCluster ExpandedNodes (fuel + 1) W = some (Finish K G W) ∨
      WalkLoop K G InCluster ExpandedNodes (fuel + 1) W
        = some (FBuildOutcome.Returned ECellResult.Duplicate W.Cell K)) := by
  refine ⟨?_, ?_, ?_, ?_⟩
  · intro fuel hF
    unfold BuildFromCluster
    cases hStart : WalkStart K G InCluster Cell SeedNodeIndex SeedEdgeIndex with
    | inl Outcome => rfl
    | inr R =>
      obtain ⟨K1, W⟩ := R
      simp only
      obtain ⟨hInv, hSE⟩ := WalkStart_invariant K K1 G InCluster Cell SeedNodeIndex
        SeedEdgeIndex W hStart
      exact WalkLoop_returns K1 G InCluster ExpandedNodes
        (max InCluster.Nodes.length ExpandedNodes.length) (le_max_right _ _) fuel W
        (WalkInvariant_mono _ _ (le_max_left _ _) W hInv hSE)
        (by rw [hSE]; simpa using hF)
  · intro hWF fuel hF
    unfold BuildFromCluster
    rcases WalkStart_in_bounds K G InCluster ExpandedNodes Cell SeedNodeIndex SeedEdgeIndex hWF
      with ⟨R, C, K1, h⟩ | ⟨K1, W, h, hIn⟩
    · rw [h]; exact ⟨R, C, K1, rfl⟩
    · rw [h]
      simp only
      obtain ⟨hInv, hSE⟩ := WalkStart_invariant K K1 G InCluster Cell SeedNodeIndex
        SeedEdgeIndex W h
      exact WalkLoop_returned K1 G InCluster ExpandedNodes hWF.1 hWF.2.1 fuel W hInv hIn
        (by rw [hSE]; simpa using hF)
  · intro W W1 h
    have := WalkBody_continue K G InCluster ExpandedNodes W W1 h
    exact ⟨this.1, this.2.1⟩
  · intro W fuel hExit
    unfold WalkLoop
    by_cases hN : W.NextIndex = -1
    · left; rw [if_pos hN]
    · rw [if_neg hN]
      rcases hExit with hMem | hN1
      · have hBody : WalkBody K G InCluster ExpandedNodes W
            = FIteration.Return ECellResult.Duplicate W.Cell ∨
            WalkBody K G InCluster ExpandedNodes W = FIteration.Break W := by
          unfold WalkBody
          simp only
          split
          · left; rfl
          · right; simp [hMem]
        rcases hBody with hB | hB
        · right; rw [hB]
        · left; rw [hB]
      · exact absurd hN1 hN

/-- C27 (witness): the cluster of two nodes is well formed, and the walk over it returns a
result with five units of fuel. -/
theorem BuildFromCluster_walk_terminates_witness :
    WellFormed exampleSegmentProbe exampleSegment exampleSegmentExpanded 0 0 ∧
    exampleSegment.Nodes.length * exampleSegment.Nodes.length < 5 ∧
    ∃ Result Cell1 K1,
      BuildFromCluster exampleTwoPointConstraints exampleSegmentProbe exampleSegment
        exampleSegmentExpanded 5 exampleCell 0 0
        = some (FBuildOutcome.Returned Result Cell1 K1) :=
  ⟨⟨by decide, by decide, by decide, 1, by decide, by decide, by decide⟩, by decide,
    (BuildFromCluster_walk_terminates exampleTwoPointConstraints exampleSegmentProbe
      exampleSegment exampleSegmentExpanded exampleCell 0 0).2.1
      ⟨by decide, by decide, by decide, 1, by decide, by decide, by decide⟩ 5 (by decide)⟩

end FCell

end PCGExTopology

/-! ## The point limits of a cell built with `Success` -/

namespace PCGExTopology

namespace FCell

open PCGEx PCGExGraph PCGExCluster

theorem WalkNext_count (K : FCellConstraints) (G : FContourProbe) (InCluster : FCluster)
    (W W1 : FWalk) (NextBest : Int)
    (h : WalkNext K G InCluster W NextBest = FIteration.Continue W1) :
    W1.NumNodes = W.NumNodes ∧ W1.Cell.Nodes = W.Cell.Nodes := by
  unfold WalkNext at h
  split at h
  · split at h
    · exact absurd h (by simp)
    · split at h
      · exact absurd h (by simp)
      · split at h
        · exact absurd h (by simp)
        · split at h
          · split at h
            · simp only at h
              split at h
              · exact absurd h (by simp)
              · simp only [FIteration.Continue.injEq] at h
                subst h; exact ⟨rfl, rfl⟩
            · exact absurd h (by simp)
          · simp only [FIteration.Continue.injEq] at h
            subst h; exact ⟨rfl, rfl⟩
  · simp only [FIteration.Continue.injEq] at h
    subst h; exact ⟨rfl, rfl⟩

theorem WalkNext_not_success (K : FCellConstraints) (G : FContourProbe) (InCluster : FCluster)
    (W : FWalk) (NextBest : Int) (Cell : FCell) :
    WalkNext K G InCluster W NextBest ≠ FIteration.Return ECellResult.Success Cell ∧
    ∀ W1, WalkNext K G InCluster W NextBest ≠ FIteration.Break W1 := by
  unfold WalkNext
  split
  · split
    · exact ⟨by simp, by simp⟩
    · split
      · exact ⟨by simp, by simp⟩
      · split
        · exact ⟨by simp, by simp⟩
        · split
          · split
            · simp only
              split
              · exact ⟨by simp, by simp⟩
              · exact ⟨by simp, by simp⟩
            · exact ⟨by simp, by simp⟩
          · exact ⟨by simp, by simp⟩
  · exact ⟨by simp, by simp⟩

/-- An iteration of the walk loop never returns `Success`, and leaves by `break` only with
the locals it was given and a signed edge that was recorded before. -/
theorem WalkBody_exits (K : FCellConstraints) (G : FContourProbe) (InCluster : FCluster)
    (ExpandedNodes : List FExpandedNode) (W : FWalk) :
    (∀ Cell, WalkBody K G InCluster ExpandedNodes W
      ≠ FIteration.Return ECellResult.Success Cell) ∧
    ∀ W1, WalkBody K G InCluster ExpandedNodes W = FIteration.Break W1 →
      W1 = W ∧ W.SignedEdges ≠ [] := by
  unfold WalkBody
  simp only
  split
  · exact ⟨by simp, by simp⟩
  · split
    · rename_i hMem
      refine ⟨by simp, ?_⟩
      intro W1 h
      simp only [FIteration.Break.injEq] at h
      refine ⟨h.symm, ?_⟩
      intro hE; rw [hE] at hMem; cases hMem
    · split
      · exact ⟨by simp, by simp⟩
      · split
        · exact ⟨by simp, by simp⟩
        · split
          · exact ⟨by simp, by simp⟩
          · split
            · exact ⟨by simp, by simp⟩
            · exact ⟨fun Cell => (WalkNext_not_success K G InCluster _ _ Cell).1,
                fun W1 h => absurd h ((WalkNext_not_success K G InCluster _ _ W.Cell).2 W1)⟩

/-- An iteration that reaches the end of the loop body has tested the counter against
`MaxPointCount`, and leaves the counter at the number of entries of `Nodes` or one
below. -/
theorem WalkBody_count (K : FCellConstraints) (G : FContourProbe) (InCluster : FCluster)
    (ExpandedNodes : List FExpandedNode) (W W1 : FWalk)
    (h : WalkBody K G InCluster ExpandedNodes W = FIteration.Continue W1) :
    W1.NumNodes ≤ W1.Cell.Nodes.length ∧ (W1.Cell.Nodes.length : Int) ≤ W1.NumNodes + 1 ∧
    W1.NumNodes ≤ K.MaxPointCount := by
  unfold WalkBody at h
  simp only at h
  split at h
  · exact absurd h (by simp)
  · split at h
    · exact absurd h (by simp)
    · split at h
      · exact absurd h (by simp)
      · split at h
        · exact absurd h (by simp)
        · rename_i hMax
          split at h
          · exact absurd h (by simp)
          · split at h
            · exact absurd h (by simp)
            · obtain ⟨h1, h2⟩ := WalkNext_count K G InCluster _ W1 _ h
              simp only at h1 h2
              rw [h1, h2]
              refine ⟨?_, ?_, by omega⟩
              · split <;> simp only [List.length_append, List.length_singleton] <;> omega
              · split <;> simp only [List.length_append, List.length_singleton] <;> omega

theorem Finish_success (K : FCellConstraints) (G : FContourProbe) (W : FWalk) (Cell : FCell)
    (K1 : FCellConstraints)
    (h : Finish K G W = FBuildOutcome.Returned ECellResult.Success Cell K1) :
    Cell.bCompiledSuccessfully = true ∧ Cell.Nodes = W.Cell.Nodes ∧
    K.MinPointCount ≤ W.NumNodes := by
  unfold Finish at h
  simp only at h
  split_ifs at h
  all_goals simp only [FBuildOutcome.Returned.injEq, reduceCtorEq, false_and, true_and] at h
  obtain ⟨hC, _⟩ := h
  subst hC
  exact ⟨rfl, rfl, by omega⟩

/-- Whenever the walk loop, entered with the counter in step, ends in `Success`, the cell
is marked compiled and holds at least `MinPointCount` and at most `MaxPointCount + 1`
nodes. -/
theorem WalkLoop_success (K : FCellConstraints) (G : FContourProbe) (InCluster : FCluster)
    (ExpandedNodes : List FExpandedNode) (Cell : FCell) (K1 : FCellConstraints) :
    ∀ (fuel : Nat) (W : FWalk), CountInvariant K W →
      WalkLoop K G InCluster ExpandedNodes fuel W
        = some (FBuildOutcome.Returned ECellResult.Success Cell K1) →
      Cell.bCompiledSuccessfully = true ∧ K.MinPointCount ≤ Cell.Nodes.length ∧
      (Cell.Nodes.length : Int) ≤ K.MaxPointCount + 1 := by
  intro fuel
  induction fuel with
  | zero => intro W _ h; exact absurd h (by simp [WalkLoop])
  | succ n ih =>
    intro W hInv h
    unfold WalkLoop at h
    split at h
    · rename_i hN
      simp only [Option.some.injEq] at h
      obtain ⟨h1, h2, h3⟩ := Finish_success K G W Cell K1 h
      have hMax : W.NumNodes ≤ K.MaxPointCount := by
        rcases hInv.2.2 with hM | ⟨_, hNe⟩
        · exact hM
        · exact absurd hN hNe
      rw [h2]
      exact ⟨h1, by have := hInv.1; omega, by have := hInv.2.1; omega⟩
    · have hEx := WalkBody_exits K G InCluster ExpandedNodes W
      cases hBody : WalkBody K G InCluster ExpandedNodes W with
      | Continue W1 =>
        rw [hBody] at h
        simp only at h
        have hC := WalkBody_count K G InCluster ExpandedNodes W W1 hBody
        exact ih W1 ⟨hC.1, hC.2.1, Or.inl hC.2.2⟩ h
      | Break W1 =>
        rw [hBody] at h
        simp only [Option.some.injEq] at h
        obtain ⟨hW, hSE⟩ := hEx.2 W1 hBody
        subst hW
        obtain ⟨h1, h2, h3⟩ := Finish_success K G W1 Cell K1 h
        have hMax : W1.NumNodes ≤ K.MaxPointCount := by
          rcases hInv.2.2 with hM | ⟨hE, _⟩
          · exact hM
          · exact absurd hE hSE
        rw [h2]
        exact ⟨h1, by have := hInv.1; omega, by have := hInv.2.1; omega⟩
      | Return Result Cell0 =>
        rw [hBody] at h
        simp only [Option.some.injEq, FBuildOutcome.Returned.injEq] at h
        obtain ⟨hR, hC, _⟩ := h
        subst hR
        exact absurd hBody (hEx.1 Cell0)
      | OutOfBounds =>
        rw [hBody] at h
        simp at h

theorem IsUniqueStartHash_limits (K : FCellConstraints) (Hash : Nat) :
    (K.IsUniqueStartHash Hash).2.MinPointCount = K.MinPointCount ∧
    (K.IsUniqueStartHash Hash).2.MaxPointCount = K.MaxPointCount := by
  unfold FCellConstraints.IsUniqueStartHash
  split_ifs <;> exact ⟨rfl, rfl⟩

/-- Whenever `BuildFromCluster` returns `Success`, the cell is marked compiled and holds at least `MinPointCount` and at most `MaxPointCount + 1` nodes:
the dead-end duplicate of the last iteration is the one entry that escapes the limit. -/
theorem BuildFromCluster_success_bounds (K : FCellConstraints) (G : FContourProbe)
    (InCluster : FCluster) (ExpandedNodes : List FExpandedNode) (fuel : Nat)
    (Cell Cell1 : FCell) (K1 : FCellConstraints) (SeedNodeIndex SeedEdgeIndex : Int)
    (h : BuildFromCluster K G InCluster ExpandedNodes fuel Cell SeedNodeIndex SeedEdgeIndex
      = some (FBuildOutcome.Returned ECellResult.Success Cell1 K1)) :
    Cell1.bCompiledSuccessfully = true ∧ K.MinPointCount ≤ Cell1.Nodes.length ∧
    (Cell1.Nodes.length : Int) ≤ K.MaxPointCount + 1 := by
  unfold BuildFromCluster at h
  cases hStart : WalkStart K G InCluster Cell SeedNodeIndex SeedEdgeIndex with
  | inl Outcome =>
    rw [hStart] at h
    simp only [Option.some.injEq] at h
    subst h
    unfold WalkStart at hStart
    simp only at hStart
    split at hStart
    · exact absurd hStart (by simp)
    · split at hStart
      · split_ifs at hStart <;> simp at hStart
      · exact absurd hStart (by simp)
  | inr R =>
    obtain ⟨K2, W⟩ := R
    rw [hStart] at h
    simp only at h
    have hW : CountInvariant K2 W ∧ K2.MinPointCount = K.MinPointCount ∧
        K2.MaxPointCount = K.MaxPointCount := by
      unfold WalkStart at hStart
      simp only at hStart
      split at hStart
      · exact absurd hStart (by simp)
      · rename_i OtherNode _
        split at hStart
        · rename_i StartNode Other hS hO
          have hSb := GetNode_bounds InCluster _ _ hS
          have hOb := GetNode_bounds InCluster _ _ hO
          split_ifs at hStart
          all_goals cases hStart
          all_goals
            refine ⟨⟨le_refl _, by simp only; omega, Or.inr ⟨rfl, by simp only; omega⟩⟩, ?_⟩
            exact IsUniqueStartHash_limits K _
        · exact absurd hStart (by simp)
    obtain ⟨hInv, hMin, hMax⟩ := hW
    have := WalkLoop_success K2 G InCluster ExpandedNodes Cell1 K1 fuel W hInv h
    rw [hMin, hMax] at this
    exact this

end FCell

end PCGExTopology

